import Mathlib

/-!
Shallow embedding of the wildcard pattern-matching event-emitter core:
the PatternMatcher of src/src/pattern.ts together with the HandlerNode
it uses (match / split / remove / shrink / isEmpty / getFailure).

Strings are lists of character codes (Nat); the wildcard character is
code 42.  Handler functions are opaque: they are represented by Nat
identifiers, and dispatch records the identifiers of the handlers it
invokes, in invocation order.  JS objects are modelled by a heap: every
HandlerNode is a Nat id mapping to its NodeData in a store; JS Map and
Set are insertion-ordered association lists respectively lists, and the
nullable fields of HandlerNode are Options.  While-loops whose
termination is not structural take fuel and return none when it runs
out.
-/

namespace EE

/-- The wildcard character code (the asterisk). -/
def WILDCARD : Nat := 42

/-- Strings as lists of character codes. -/
abbrev Str := List Nat

/-- JS Map lookup on an insertion-ordered association list. -/
def alGet {α : Type} : List (Nat × α) → Nat → Option α
  | [], _ => none
  | (k, v) :: rest, key => if k = key then some v else alGet rest key

/-- JS Map set: replace in place if the key exists, else append. -/
def alSet {α : Type} : List (Nat × α) → Nat → α → List (Nat × α)
  | [], key, v => [(key, v)]
  | (k, w) :: rest, key, v =>
    if k = key then (k, v) :: rest else (k, w) :: alSet rest key v

/-- JS Map delete: remove the entry with the given key, if present. -/
def alDelete {α : Type} : List (Nat × α) → Nat → List (Nat × α)
  | [], _ => []
  | (k, w) :: rest, key => if k = key then rest else (k, w) :: alDelete rest key

/-- JS Set add: append if absent (sets iterate in insertion order). -/
def setAdd (s : List Nat) (h : Nat) : List Nat :=
  if h ∈ s then s else s ++ [h]

/-- One node of the trie: the fields of HandlerNode.  The children map
keys are first characters of the child labels; map and set values are
node ids into the heap. -/
structure NodeData where
  pattern : Str
  children : Option (List (Nat × Nat))
  permanent : Option (List Nat)
  temporary : Option (List Nat)
  wildcard : Option Nat
  failure : Option (List Nat)
deriving DecidableEq

/-- A freshly constructed HandlerNode with the given label. -/
def NodeData.mk0 (pat : Str) : NodeData :=
  ⟨pat, none, none, none, none, none⟩

/-- The PatternMatcher state: the heap of nodes and the next fresh id.
The root is node 0. -/
structure PM where
  store : List (Nat × NodeData)
  next : Nat
deriving DecidableEq

/-- The empty PatternMatcher: a lone root node with empty label. -/
def pmEmpty : PM := ⟨[(0, NodeData.mk0 [])], 1⟩

/-- Read a node from the heap (ids are always allocated when read). -/
def getN (st : PM) (id : Nat) : NodeData :=
  (alGet st.store id).getD (NodeData.mk0 [])

/-- Write a node to the heap. -/
def setN (st : PM) (id : Nat) (d : NodeData) : PM :=
  ⟨alSet st.store id d, st.next⟩

/-- Allocate a fresh node. -/
def alloc (st : PM) (d : NodeData) : Nat × PM :=
  (st.next, ⟨alSet st.store st.next d, st.next + 1⟩)

/-- The worker of normalize: copy characters, emitting an asterisk only
when the previous character was not one. -/
def normGo : Bool → Str → Str
  | _, [] => []
  | prev, c :: rest =>
    if c = WILDCARD then
      if prev then normGo true rest else WILDCARD :: normGo true rest
    else c :: normGo false rest

/-- The normalize function: the regular substitution collapsing every
run of one or more asterisks to a single asterisk. -/
def normalize (p : Str) : Str := normGo false p

/-- JS String.split on the wildcard character. -/
def splitStar : Str → List Str
  | [] => [[]]
  | c :: rest =>
    if c = WILDCARD then [] :: splitStar rest
    else
      match splitStar rest with
      | s :: ss => (c :: s) :: ss
      | [] => [[c]]

/-- HandlerNode.match: the longest common prefix of the node label and
the remaining query (the source walks label and query from a cursor and
returns the matched slice of the query). -/
def lcp : Str → Str → Str
  | a :: as, b :: bs => if a = b then a :: lcp as bs else []
  | _, _ => []

/-- HandlerNode.split: truncate the node label past the matched part,
drop its failure cache, and allocate a new parent holding the match as
label whose single literal child is the node, keyed by the first
character of the truncated label.  Returns the new parent's id. -/
def splitNode (st : PM) (id : Nat) (m : Str) : Nat × PM :=
  let d := getN st id
  let pat' := d.pattern.drop m.length
  let st1 := setN st id { d with pattern := pat', failure := none }
  alloc st1 ⟨m, some [(pat'.headD 0, id)], none, none, none, none⟩

/-- HandlerNode.remove: delete a handler from the permanent set, else
from the temporary set, nulling a set that becomes empty; with no
handler given, null both sets if either is non-null.  Returns whether
anything was removed. -/
def nodeRemove (st : PM) (id : Nat) (h : Option Nat) : PM × Bool :=
  let d := getN st id
  match h with
  | none =>
    if d.permanent = none ∧ d.temporary = none then (st, false)
    else (setN st id { d with permanent := none, temporary := none }, true)
  | some h =>
    match d.permanent with
    | some l =>
      if h ∈ l then
        let l' := l.erase h
        (setN st id { d with permanent := if l' = [] then none else some l' }, true)
      else
        match d.temporary with
        | some t =>
          if h ∈ t then
            let t' := t.erase h
            (setN st id { d with temporary := if t' = [] then none else some t' }, true)
          else (st, false)
        | none => (st, false)
    | none =>
      match d.temporary with
      | some t =>
        if h ∈ t then
          let t' := t.erase h
          (setN st id { d with temporary := if t' = [] then none else some t' }, true)
        else (st, false)
      | none => (st, false)

/-- HandlerNode.shrink: a node with handlers, a wildcard child, or two
or more literal children stays; a node with no children reports it can
be dropped; the root and wildcard nodes (empty label) never merge; a
single-child interior node merges with its child, adopting its fields
and extending its label. -/
def shrink (st : PM) (id : Nat) : PM × Bool :=
  let d := getN st id
  if (d.permanent.getD []).length ≠ 0 then (st, false)
  else if (d.temporary.getD []).length ≠ 0 then (st, false)
  else if d.wildcard.isSome then (st, false)
  else
    match d.children with
    | none => (st, true)
    | some m =>
      if m.length > 1 then (st, false)
      else if d.pattern = [] then (st, true)
      else
        match m with
        | [] => (st, true)
        | (_, cid) :: _ =>
          let c := getN st cid
          (setN st id
            ⟨d.pattern ++ c.pattern, c.children, c.permanent, c.temporary,
              c.wildcard, none⟩, true)

/-- HandlerNode.isEmpty: all four structural fields are null. -/
def isEmptyN (d : NodeData) : Bool :=
  d.permanent = none ∧ d.temporary = none ∧ d.children = none ∧ d.wildcard = none

/-- The failure table computation of HandlerNode.getFailure.  The table
is a Uint8Array: every stored entry is truncated modulo 256, while the
running variable j keeps its exact value within an iteration. -/
def failResolve (lbl : Str) (arr : List Nat) (c : Nat) : Nat → Nat → Nat
  | 0, j => j
  | fuel + 1, j =>
    if j > 0 ∧ lbl.getD c 0 ≠ lbl.getD j 0 then
      failResolve lbl arr c fuel (arr.getD (j - 1) 0)
    else j

/-- One pass of the failure-table loop from index i. -/
def failLoop (lbl : Str) : Nat → Nat → Nat → List Nat → List Nat
  | 0, _, _, arr => arr
  | fuel + 1, i, j, arr =>
    if i < lbl.length then
      let j1 := failResolve lbl arr i (j + 1) j
      let j2 := if lbl.getD i 0 = lbl.getD j1 0 then j1 + 1 else j1
      failLoop lbl fuel (i + 1) j2 (arr.set i (j2 % 256))
    else arr

/-- The failure table of a label, as getFailure computes it on a cache
miss (a Uint8Array of the label's length, filled from index 1). -/
def failCompute (lbl : Str) : List Nat :=
  failLoop lbl (lbl.length + 1) 1 0 (List.replicate lbl.length 0)

/-- HandlerNode.getFailure: return the cached failure table, computing
and memoizing it on first use. -/
def getFailure (st : PM) (id : Nat) : PM × List Nat :=
  let d := getN st id
  match d.failure with
  | some f => (st, f)
  | none =>
    let f := failCompute d.pattern
    (setN st id { d with failure := some f }, f)

/-- The inner while-loop of PatternMatcher.insert, consuming one
literal segment from a node downward: create a leaf holding the whole
remaining segment when the first character has no child, descend when
the child's label is fully matched, split the child otherwise.  Returns
the node at which the segment ends. -/
def insertSeg : PM → Nat → Nat → Str → Option (PM × Nat)
  | _, _, 0, _ => none
  | st, cur, _ + 1, [] => some (st, cur)
  | st, cur, fuel + 1, p :: rest =>
    let d := getN st cur
    match alGet (d.children.getD []) p with
    | none =>
      let (nid, st1) := alloc st (NodeData.mk0 (p :: rest))
      some (setN st1 cur { d with children := some (alSet (d.children.getD []) p nid) }, nid)
    | some cid =>
      let c := getN st cid
      let m := lcp c.pattern (p :: rest)
      let remain := (p :: rest).drop m.length
      if m = c.pattern then insertSeg st cid fuel remain
      else
        let (pid, st1) := splitNode st cid m
        let d1 := getN st1 cur
        insertSeg (setN st1 cur { d1 with children := some (alSet (d1.children.getD []) p pid) })
          pid fuel remain

/-- The outer loop of PatternMatcher.insert over the literal segments:
between two segments, descend into the wildcard child, creating it if
absent. -/
def insertGo : PM → Nat → Nat → List Str → Option (PM × Nat)
  | st, cur, _, [] => some (st, cur)
  | st, cur, fuel, [seg] => insertSeg st cur fuel seg
  | st, cur, fuel, seg :: rest =>
    match insertSeg st cur fuel seg with
    | none => none
    | some (st1, n) =>
      match (getN st1 n).wildcard with
      | some w => insertGo st1 w fuel rest
      | none =>
        let (w, st2) := alloc st1 (NodeData.mk0 [])
        insertGo (setN st2 n { getN st2 n with wildcard := some w }) w fuel rest

/-- PatternMatcher.insert: normalize, split on the wildcard, walk the
segments from the root, and add the handler to the temporary or the
permanent set of the final node (creating the set on first use). -/
def insert (st : PM) (fuel : Nat) (p : Str) (h : Nat) (isTemporary : Bool) : Option PM :=
  match insertGo st 0 fuel (splitStar (normalize p)) with
  | none => none
  | some (st1, n) =>
    let d := getN st1 n
    if isTemporary then
      some (setN st1 n { d with temporary := some (setAdd (d.temporary.getD []) h) })
    else
      some (setN st1 n { d with permanent := some (setAdd (d.permanent.getD []) h) })

/-- The per-segment descent loop shared by remove, handlers and
handlersCount: strict walk, one child hop per label, recording for
remove the transition key and parent of every hop.  The outer some is
defined-ness (fuel), the inner some is a hit. -/
def descendSeg (st : PM) : Nat → Nat → Str → List (Option Nat × Nat) →
    Option (Option (List (Option Nat × Nat) × Nat))
  | 0, _, _, _ => none
  | _ + 1, cur, [], stk => some (some (stk, cur))
  | fuel + 1, cur, p :: rest, stk =>
    let d := getN st cur
    match alGet (d.children.getD []) p with
    | none => some none
    | some cid =>
      let c := getN st cid
      if c.pattern.isPrefixOf (p :: rest) then
        descendSeg st fuel cid ((p :: rest).drop c.pattern.length) ((some p, cur) :: stk)
      else some none

/-- The full descent over all literal segments, taking the wildcard
transition between segments (a miss when it is absent). -/
def descend (st : PM) (fuel : Nat) : Nat → List Str → List (Option Nat × Nat) →
    Option (Option (List (Option Nat × Nat) × Nat))
  | cur, [], stk => some (some (stk, cur))
  | cur, [seg], stk => descendSeg st fuel cur seg stk
  | cur, seg :: seg2 :: rest, stk =>
    match descendSeg st fuel cur seg stk with
    | none => none
    | some none => some none
    | some (some (stk1, n)) =>
      match (getN st n).wildcard with
      | none => some none
      | some w => descend st fuel w (seg2 :: rest) ((none, n) :: stk1)

/-- The unwind loop of PatternMatcher.remove: pop recorded transitions
leaf-to-root, detach a wildcard or delete a literal child that has
become empty (nulling an emptied children map), shrink, and stop at the
first node that does not shrink. -/
def removeUnwind : PM → List (Option Nat × Nat) → PM
  | st, [] => st
  | st, (pfxKey, cur) :: rest =>
    let d := getN st cur
    let st1 :=
      match pfxKey with
      | none =>
        match d.wildcard with
        | some w =>
          if isEmptyN (getN st w) then setN st cur { d with wildcard := none } else st
        | none => st
      | some p =>
        match d.children with
        | some m =>
          match alGet m p with
          | some cid =>
            if isEmptyN (getN st cid) then
              let m' := alDelete m p
              setN st cur { d with children := if m'.length = 0 then none else some m' }
            else st
          | none => st
        | none => st
    let sh := shrink st1 cur
    if sh.2 then removeUnwind sh.1 rest else sh.1

/-- PatternMatcher.remove: descend strictly (any miss is a silent
no-op), erase the handler at the terminal (a silent no-op when nothing
was attached), and if the terminal shrinks, unwind the recorded stack. -/
def remove (st : PM) (fuel : Nat) (p : Str) (h : Option Nat) : Option PM :=
  match descend st fuel 0 (splitStar (normalize p)) [] with
  | none => none
  | some none => some st
  | some (some (stk, t)) =>
    let (st1, removed) := nodeRemove st t h
    if removed then
      let sh := shrink st1 t
      if sh.2 then some (removeUnwind sh.1 stk) else some sh.1
    else some st1

/-- PatternMatcher.patterns: iterative depth-first walk with an
explicit stack of (accumulated prefix, node), yielding the accumulated
pattern of every node whose temporary or permanent set is non-null, and
appending the wildcard character at each wildcard transition. -/
def patternsGo (st : PM) : Nat → List (Str × Nat) → List Str → Option (List Str)
  | 0, _, _ => none
  | _ + 1, [], out => some out
  | fuel + 1, (pfx, cur) :: rest, out =>
    let d := getN st cur
    let pat := pfx ++ d.pattern
    let out1 := if d.temporary.isSome ∨ d.permanent.isSome then out ++ [pat] else out
    let stk1 :=
      match d.wildcard with
      | some w => (pat ++ [WILDCARD], w) :: rest
      | none => rest
    patternsGo st fuel (((d.children.getD []).map (fun kv => (pat, kv.2))).reverse ++ stk1) out1

/-- PatternMatcher.patterns from the root. -/
def patterns (st : PM) (fuel : Nat) : Option (List Str) :=
  patternsGo st fuel [([], 0)] []

/-- PatternMatcher.handlers: strict descent, then the permanent set
followed by the temporary set of the terminal (empty on a miss). -/
def handlers (st : PM) (fuel : Nat) (p : Str) : Option (List Nat) :=
  match descend st fuel 0 (splitStar (normalize p)) [] with
  | none => none
  | some none => some []
  | some (some (_, t)) =>
    let d := getN st t
    some (d.permanent.getD [] ++ d.temporary.getD [])

/-- PatternMatcher.handlersCount: strict descent, then the sum of the
sizes of the terminal's sets (zero on a miss). -/
def handlersCount (st : PM) (fuel : Nat) (p : Str) : Option Nat :=
  match descend st fuel 0 (splitStar (normalize p)) [] with
  | none => none
  | some none => some 0
  | some (some (_, t)) =>
    let d := getN st t
    some ((d.permanent.getD []).length + (d.temporary.getD []).length)

/-- PatternMatcher.clear: null the four structural fields of the root. -/
def clear (st : PM) : PM :=
  let d := getN st 0
  setN st 0 { d with permanent := none, temporary := none, wildcard := none, children := none }

/-- One step of the j-resolution while-loop of the KMP scan in
PatternMatcher.call. -/
def kmpResolve (failure : List Nat) (lbl : Str) (c : Nat) : Nat → Nat → Nat
  | 0, j => j
  | fuel + 1, j =>
    if j > 0 ∧ c ≠ lbl.getD j 0 then kmpResolve failure lbl c fuel (failure.getD (j - 1) 0)
    else j

/-- The KMP scan of PatternMatcher.call over the remaining name: the
name suffix after each occurrence of the label, in scan order. -/
def kmpScan (failure : List Nat) (lbl : Str) : Nat → Str → List Str
  | _, [] => []
  | j, c :: rest =>
    let j1 := kmpResolve failure lbl c (j + 1) j
    let j2 := if c = lbl.getD j1 0 then j1 + 1 else j1
    if j2 = lbl.length then rest :: kmpScan failure lbl (failure.getD (j2 - 1) 0) rest
    else kmpScan failure lbl j2 rest

/-- A transition record of the dispatch phases: the transition key
(none encodes the empty-string sentinel, some c a literal first
character) and the node it was taken from. -/
abbrev Entry := Option Nat × Nat

/-- A work item of the discovery phase: remaining name suffix, node,
and trail accumulated so far. -/
abbrev SearchItem := Str × Nat × List Entry

/-- The KMP pass of PatternMatcher.call for one literal child of a
wildcard node: memoize its failure table and emit one work item per
occurrence of its label in the remaining name, each carrying the shared
wildcard sentinel trail. -/
def kmpChildOne (st : PM) (w : Nat) (rem : Str) (cid : Nat) : PM × List SearchItem :=
  let (st1, failure) := getFailure st cid
  let lbl := (getN st1 cid).pattern
  (st1, (kmpScan failure lbl 0 rem).map
    (fun r => (r, cid, [((some (lbl.headD 0) : Option Nat), w)])))

/-- The KMP pass over all literal children of a wildcard node, in map
order. -/
def kmpChildren (st : PM) (w : Nat) (rem : Str) : List (Nat × Nat) → PM × List SearchItem
  | [] => (st, [])
  | kv :: rest =>
    let (st1, items) := kmpChildOne st w rem kv.2
    let (st2, items2) := kmpChildren st1 w rem rest
    (st2, items ++ items2)

/-- The discovery phase of PatternMatcher.call: a work stack of
(remaining suffix, node, trail) items; an exhausted suffix records the
trail extended by the empty sentinel as a branch; at a wildcard-less
node the literal child is followed on the same trail; at a node with a
wildcard the extended trail is recorded as a branch, the literal child
(if it matches) restarts with an empty trail, and every literal child
of the wildcard is scanned by KMP. -/
def discoverGo (st : PM) : Nat → List SearchItem → List (List Entry) →
    Option (PM × List (List Entry))
  | 0, _, _ => none
  | _ + 1, [], branches => some (st, branches)
  | fuel + 1, (rem, cur, stk) :: search, branches =>
    match rem with
    | [] => discoverGo st fuel search (((none, cur) :: stk) :: branches)
    | p :: _ =>
      let d := getN st cur
      let child := alGet (d.children.getD []) p
      let hasChild :=
        match child with
        | some cid => (getN st cid).pattern.isPrefixOf rem
        | none => false
      match d.wildcard with
      | none =>
        if hasChild then
          match child with
          | some cid =>
            discoverGo st fuel
              ((rem.drop (getN st cid).pattern.length, cid, (some p, cur) :: stk) :: search)
              branches
          | none => discoverGo st fuel search branches
        else discoverGo st fuel search branches
      | some w =>
        let branches1 := ((some p, cur) :: stk) :: branches
        let search1 :=
          if hasChild then
            match child with
            | some cid =>
              ((rem.drop (getN st cid).pattern.length, cid, ([] : List Entry)) :: search)
            | none => search
          else search
        let (st2, items) := kmpChildren st w rem ((getN st w).children.getD [])
        discoverGo st2 fuel (items.reverse ++ search1) branches1

/-- The result of processing one trail entry in the invocation phase. -/
structure StepRes where
  st : PM
  fired : List Nat
  called : Bool
  ok : Bool

/-- Process one popped (key, node) entry of a trail: fire and detach
the node's wildcard child as appropriate, fire the node's own sets on
the empty sentinel or drop an emptied literal child on a literal key,
then shrink the node; ok reports whether unwinding continues. -/
def invokeEntry (st : PM) (e : Entry) (fired : List Nat) (called : Bool) : StepRes :=
  let cur := e.2
  let d := getN st cur
  let r1 :=
    match d.wildcard with
    | some w =>
      let wd := getN st w
      let fired1 := fired ++ wd.permanent.getD [] ++ wd.temporary.getD []
      let called1 := called || !(wd.permanent.getD []).isEmpty || !(wd.temporary.getD []).isEmpty
      let stA := if wd.temporary.isSome then setN st w { wd with temporary := none } else st
      let stB :=
        if isEmptyN (getN stA w) then setN stA cur { getN stA cur with wildcard := none }
        else stA
      (stB, fired1, called1)
    | none => (st, fired, called)
  let d2 := getN r1.1 cur
  let r2 :=
    match e.1 with
    | none =>
      let fired2 := r1.2.1 ++ d2.permanent.getD [] ++ d2.temporary.getD []
      let called2 := r1.2.2 || !(d2.permanent.getD []).isEmpty || !(d2.temporary.getD []).isEmpty
      let stC :=
        if d2.temporary.isSome then setN r1.1 cur { d2 with temporary := none } else r1.1
      (stC, fired2, called2)
    | some p =>
      match d2.children with
      | some m =>
        match alGet m p with
        | some cid =>
          if isEmptyN (getN r1.1 cid) then
            let m' := alDelete m p
            (setN r1.1 cur { d2 with children := if m'.length = 0 then none else some m' },
              r1.2.1, r1.2.2)
          else (r1.1, r1.2.1, r1.2.2)
        | none => (r1.1, r1.2.1, r1.2.2)
      | none => (r1.1, r1.2.1, r1.2.2)
  let sh := shrink r2.1 cur
  ⟨sh.1, r2.2.1, r2.2.2, sh.2⟩

/-- Unwind one trail leaf-to-root, stopping when a node does not
shrink. -/
def invokeStack : PM → List Entry → List Nat → Bool → PM × List Nat × Bool
  | st, [], fired, called => (st, fired, called)
  | st, e :: rest, fired, called =>
    let r := invokeEntry st e fired called
    if r.ok then invokeStack r.st rest r.fired r.called else (r.st, r.fired, r.called)

/-- The invocation phase: process recorded branches in LIFO order. -/
def invokeBranches : PM → List (List Entry) → List Nat → Bool → PM × List Nat × Bool
  | st, [], fired, called => (st, fired, called)
  | st, stk :: rest, fired, called =>
    let r := invokeStack st stk fired called
    invokeBranches r.1 rest r.2.1 r.2.2

/-- PatternMatcher.call: discovery then invocation.  Returns the final
state, the identifiers of the handlers invoked in order, and the flag
telling whether any handler fired. -/
def call (st : PM) (fuel : Nat) (name : Str) : Option (PM × List Nat × Bool) :=
  match discoverGo st fuel [(name, 0, [])] [] with
  | none => none
  | some (st1, branches) => some (invokeBranches st1 branches [] false)

/-- Character codes used in the concrete scenarios. -/
def ca : Nat := 97

/-- Character code of b. -/
def cb : Nat := 98

/-- Character code of d. -/
def cd : Nat := 100

/-- Scenario for C1: subscribe handler 7 permanently to the two-wildcard
pattern star-a-star, dispatch the name aa, and report the identifiers
of the handlers invoked, in order. -/
def runC1 : Option (List Nat) :=
  (insert pmEmpty 100 [WILDCARD, ca, WILDCARD] 7 false).bind
    (fun st => (call st 100 [ca, ca]).map (fun r => r.2.1))

/-- Scenario for C2: subscribe one-shot handler 1 to star-aabd and
one-shot handler 2 to star-abd, dispatch the name aabd twice, and
report the handlers invoked by each dispatch and the second dispatch's
return flag. -/
def runC2 : Option (List Nat × List Nat × Bool) :=
  (insert pmEmpty 100 [WILDCARD, ca, ca, cb, cd] 1 true).bind (fun st1 =>
    (insert st1 100 [WILDCARD, ca, cb, cd] 2 true).bind (fun st2 =>
      (call st2 200 [ca, ca, cb, cd]).bind (fun r1 =>
        (call r1.1 200 [ca, ca, cb, cd]).map (fun r2 => (r1.2.1, r2.2.1, r2.2.2)))))

/-- The state of the C4 counterexample: the empty trie after a single
insert of the pattern a-star-b. -/
def c4St : PM := (insert pmEmpty 100 [ca, WILDCARD, cb] 5 false).getD pmEmpty

/-- Scenario for C5: insert the same handler under a-star-star-b and
then under a-star-b, and look up the handler count at a-star-b. -/
def runC5 : Option Nat :=
  (insert pmEmpty 100 [ca, WILDCARD, WILDCARD, cb] 5 false).bind (fun st1 =>
    (insert st1 100 [ca, WILDCARD, cb] 5 false).bind (fun st2 =>
      handlersCount st2 100 [ca, WILDCARD, cb]))

/-- Scenario for C6: subscribe handler 1 to a-star-a and handler 2 to
a, dispatch a and then aa, and report each dispatch's invoked handlers
and return flag. -/
def runC6 : Option (List Nat × Bool × List Nat × Bool) :=
  (insert pmEmpty 100 [ca, WILDCARD, ca] 1 false).bind (fun st1 =>
    (insert st1 100 [ca] 2 false).bind (fun st2 =>
      (call st2 100 [ca]).bind (fun r1 =>
        (call r1.1 100 [ca, ca]).map (fun r2 => (r1.2.1, r1.2.2, r2.2.1, r2.2.2)))))

/-- A one-node state for C7 whose root label is 257 copies of the
character a. -/
def c7St : PM := ⟨[(0, NodeData.mk0 (List.replicate 257 ca))], 1⟩

/-! ### A reference-faithful heap

The PM model above stores each node's children map and handler sets
inline, so the shrink-merge copies them by value.  The source's merge
instead assigns the very objects of the absorbed child
(this.children = replace.children, and likewise both sets), after
which the surviving node and the detached child share one map and the
dispatch cleanup can mutate the live node's map through a stale trail
entry.  The definitions below re-embed insert and call over a heap in
which maps and sets live behind identifiers, so this sharing is
represented exactly; they are used to evaluate the runs on which the
two semantics diverge. -/

/-- A node of the reference-faithful heap: children points into the map
heap, permanent and temporary into the set heap. -/
structure ANode where
  pattern : Str
  children : Option Nat
  permanent : Option Nat
  temporary : Option Nat
  wildcard : Option Nat
  failure : Option (List Nat)
deriving DecidableEq

/-- The reference-faithful state: the node heap, the map heap (JS Map
objects: insertion-ordered key-to-node-id lists), the set heap (JS Set
objects: insertion-ordered handler lists), and the three allocation
counters. -/
structure APM where
  nodes : List (Nat × ANode)
  maps : List (Nat × List (Nat × Nat))
  sets : List (Nat × List Nat)
  nextN : Nat
  nextM : Nat
  nextS : Nat
deriving DecidableEq

/-- The empty matcher over the reference-faithful heap. -/
def apmEmpty : APM := ⟨[(0, ⟨[], none, none, none, none, none⟩)], [], [], 1, 0, 0⟩

/-- Read a node. -/
def agetN (st : APM) (id : Nat) : ANode :=
  (alGet st.nodes id).getD ⟨[], none, none, none, none, none⟩

/-- Write a node. -/
def asetN (st : APM) (id : Nat) (d : ANode) : APM :=
  { st with nodes := alSet st.nodes id d }

/-- Allocate a node. -/
def aallocN (st : APM) (d : ANode) : Nat × APM :=
  (st.nextN, { st with nodes := alSet st.nodes st.nextN d, nextN := st.nextN + 1 })

/-- The entries of a map object. -/
def mgetAll (st : APM) (mid : Nat) : List (Nat × Nat) :=
  (alGet st.maps mid).getD []

/-- Map.set on a map object: every holder of the identifier sees the
update. -/
def msetK (st : APM) (mid k v : Nat) : APM :=
  { st with maps := alSet st.maps mid (alSet (mgetAll st mid) k v) }

/-- Map.delete on a map object. -/
def mdelK (st : APM) (mid k : Nat) : APM :=
  { st with maps := alSet st.maps mid (alDelete (mgetAll st mid) k) }

/-- Allocate a map object. -/
def aallocM (st : APM) (m : List (Nat × Nat)) : Nat × APM :=
  (st.nextM, { st with maps := alSet st.maps st.nextM m, nextM := st.nextM + 1 })

/-- The members of a set object. -/
def sgetAll (st : APM) (sid : Nat) : List Nat :=
  (alGet st.sets sid).getD []

/-- Allocate a set object. -/
def aallocS (st : APM) (s : List Nat) : Nat × APM :=
  (st.nextS, { st with sets := alSet st.sets st.nextS s, nextS := st.nextS + 1 })

/-- Set.add on a set object. -/
def ssetAdd (st : APM) (sid h : Nat) : APM :=
  { st with sets := alSet st.sets sid (setAdd (sgetAll st sid) h) }

/-- The size of an optional set, zero when null (the truthiness of the
source's permanent-question-mark-size). -/
def asizeOf (st : APM) : Option Nat → Nat
  | some sid => (sgetAll st sid).length
  | none => 0

/-- HandlerNode.isEmpty of the imported revision: all four fields null
(an allocated empty map or set does not count as empty). -/
def isEmptyA (d : ANode) : Bool :=
  d.permanent = none ∧ d.temporary = none ∧ d.children = none ∧ d.wildcard = none

/-- current.children with a new Map allocated when null. -/
def aensureChildren (st : APM) (cur : Nat) : Nat × APM :=
  match (agetN st cur).children with
  | some mid => (mid, st)
  | none =>
    let (mid, st1) := aallocM st []
    (mid, asetN st1 cur { agetN st1 cur with children := some mid })

/-- HandlerNode.split over the reference heap: truncate the label past
the match, drop the failure cache, and allocate a fresh one-entry map
for the new parent. -/
def asplitNode (st : APM) (id : Nat) (m : Str) : Nat × APM :=
  let d := agetN st id
  let pat2 := d.pattern.drop m.length
  let st1 := asetN st id { d with pattern := pat2, failure := none }
  let (mid, st2) := aallocM st1 [(pat2.headD 0, id)]
  aallocN st2 ⟨m, some mid, none, none, none, none⟩

/-- The inner segment loop of PatternMatcher.insert over the reference
heap (same control flow as insertSeg). -/
def ainsertSeg : APM → Nat → Nat → Str → Option (APM × Nat)
  | _, _, 0, _ => none
  | st, cur, _ + 1, [] => some (st, cur)
  | st, cur, fuel + 1, p :: rest =>
    let d := agetN st cur
    match d.children.bind (fun mid => alGet (mgetAll st mid) p) with
    | none =>
      let (mid, st1) := aensureChildren st cur
      let (nid, st2) := aallocN st1 ⟨p :: rest, none, none, none, none, none⟩
      some (msetK st2 mid p nid, nid)
    | some cid =>
      let c := agetN st cid
      let m := lcp c.pattern (p :: rest)
      let remain := (p :: rest).drop m.length
      if m = c.pattern then ainsertSeg st cid fuel remain
      else
        let (mid, st1) := aensureChildren st cur
        let (pid, st2) := asplitNode st1 cid m
        ainsertSeg (msetK st2 mid p pid) pid fuel remain

/-- The outer segment loop of PatternMatcher.insert over the reference
heap. -/
def ainsertGo : APM → Nat → Nat → List Str → Option (APM × Nat)
  | st, cur, _, [] => some (st, cur)
  | st, cur, fuel, [seg] => ainsertSeg st cur fuel seg
  | st, cur, fuel, seg :: rest =>
    match ainsertSeg st cur fuel seg with
    | none => none
    | some (st1, n) =>
      match (agetN st1 n).wildcard with
      | some w => ainsertGo st1 w fuel rest
      | none =>
        let (w, st2) := aallocN st1 ⟨[], none, none, none, none, none⟩
        ainsertGo (asetN st2 n { agetN st2 n with wildcard := some w }) w fuel rest

/-- PatternMatcher.insert over the reference heap: the terminal's set
is allocated on first use (temporary-or-permanent question-question-
equals new Set) and the handler added to the shared set object. -/
def ainsert (st : APM) (fuel : Nat) (p : Str) (h : Nat) (isTemporary : Bool) : Option APM :=
  match ainsertGo st 0 fuel (splitStar (normalize p)) with
  | none => none
  | some (st1, n) =>
    let d := agetN st1 n
    if isTemporary then
      match d.temporary with
      | some sid => some (ssetAdd st1 sid h)
      | none =>
        let (sid, st2) := aallocS st1 []
        some (ssetAdd (asetN st2 n { agetN st2 n with temporary := some sid }) sid h)
    else
      match d.permanent with
      | some sid => some (ssetAdd st1 sid h)
      | none =>
        let (sid, st2) := aallocS st1 []
        some (ssetAdd (asetN st2 n { agetN st2 n with permanent := some sid }) sid h)

/-- HandlerNode.getFailure over the reference heap. -/
def agetFailure (st : APM) (id : Nat) : APM × List Nat :=
  let d := agetN st id
  match d.failure with
  | some f => (st, f)
  | none =>
    let f := failCompute d.pattern
    (asetN st id { d with failure := some f }, f)

/-- HandlerNode.shrink of the imported revision over the reference
heap.  The merge assigns the absorbed child's map and set identifiers
to the surviving node, creating the sharing of the source; none is the
TypeError the source throws when the single-entry branch reads the
first value of an allocated empty map. -/
def ashrink (st : APM) (id : Nat) : Option (APM × Bool) :=
  let d := agetN st id
  if asizeOf st d.permanent ≠ 0 then some (st, false)
  else if asizeOf st d.temporary ≠ 0 then some (st, false)
  else if d.wildcard.isSome then some (st, false)
  else
    match d.children with
    | none => some (st, true)
    | some mid =>
      let m := mgetAll st mid
      if m.length > 1 then some (st, false)
      else if d.pattern = [] then some (st, true)
      else
        match m with
        | [] => none
        | (_, rid) :: _ =>
          let r := agetN st rid
          some (asetN st id ⟨d.pattern ++ r.pattern, r.children, r.permanent,
            r.temporary, r.wildcard, none⟩, true)

/-- The KMP pass of one literal child of a wildcard node, over the
reference heap. -/
def akmpChildOne (st : APM) (w : Nat) (rem : Str) (cid : Nat) : APM × List SearchItem :=
  let (st1, failure) := agetFailure st cid
  let lbl := (agetN st1 cid).pattern
  (st1, (kmpScan failure lbl 0 rem).map
    (fun r => (r, cid, [((some (lbl.headD 0) : Option Nat), w)])))

/-- The KMP pass over all literal children of a wildcard node, in map
order, over the reference heap. -/
def akmpChildren (st : APM) (w : Nat) (rem : Str) : List (Nat × Nat) → APM × List SearchItem
  | [] => (st, [])
  | kv :: rest =>
    let (st1, items) := akmpChildOne st w rem kv.2
    let (st2, items2) := akmpChildren st1 w rem rest
    (st2, items ++ items2)

/-- The discovery phase of PatternMatcher.call over the reference heap
(same control flow as discoverGo). -/
def adiscoverGo (st : APM) : Nat → List SearchItem → List (List Entry) →
    Option (APM × List (List Entry))
  | 0, _, _ => none
  | _ + 1, [], branches => some (st, branches)
  | fuel + 1, (rem, cur, stk) :: search, branches =>
    match rem with
    | [] => adiscoverGo st fuel search (((none, cur) :: stk) :: branches)
    | p :: _ =>
      let d := agetN st cur
      let child := d.children.bind (fun mid => alGet (mgetAll st mid) p)
      let hasChild :=
        match child with
        | some cid => (agetN st cid).pattern.isPrefixOf rem
        | none => false
      match d.wildcard with
      | none =>
        if hasChild then
          match child with
          | some cid =>
            adiscoverGo st fuel
              ((rem.drop (agetN st cid).pattern.length, cid, (some p, cur) :: stk) :: search)
              branches
          | none => adiscoverGo st fuel search branches
        else adiscoverGo st fuel search branches
      | some w =>
        let branches1 := ((some p, cur) :: stk) :: branches
        let search1 :=
          if hasChild then
            match child with
            | some cid =>
              ((rem.drop (agetN st cid).pattern.length, cid, ([] : List Entry)) :: search)
            | none => search
          else search
        let (st2, items) :=
          akmpChildren st w rem (((agetN st w).children.map (mgetAll st)).getD [])
        adiscoverGo st2 fuel (items.reverse ++ search1) branches1

/-- The result of one trail entry of the invocation phase over the
reference heap; crashed records the TypeError of a shrink on an
allocated empty map, which aborts the whole call. -/
structure AStepRes where
  st : APM
  fired : List Nat
  called : Bool
  ok : Bool
  crashed : Bool

/-- One popped trail entry of PatternMatcher.call's invocation phase
over the reference heap (same control flow as invokeEntry; the child
deletion mutates the shared map object). -/
def ainvokeEntry (st : APM) (e : Entry) (fired : List Nat) (called : Bool) : AStepRes :=
  let cur := e.2
  let d := agetN st cur
  let r1 :=
    match d.wildcard with
    | some w =>
      let wd := agetN st w
      let wperm := (wd.permanent.map (sgetAll st)).getD []
      let wtemp := (wd.temporary.map (sgetAll st)).getD []
      let fired1 := fired ++ wperm ++ wtemp
      let called1 := called || !wperm.isEmpty || !wtemp.isEmpty
      let stA := if wd.temporary.isSome then asetN st w { wd with temporary := none } else st
      let stB :=
        if isEmptyA (agetN stA w) then asetN stA cur { agetN stA cur with wildcard := none }
        else stA
      (stB, fired1, called1)
    | none => (st, fired, called)
  let d2 := agetN r1.1 cur
  let r2 :=
    match e.1 with
    | none =>
      let perm := (d2.permanent.map (sgetAll r1.1)).getD []
      let temp := (d2.temporary.map (sgetAll r1.1)).getD []
      let fired2 := r1.2.1 ++ perm ++ temp
      let called2 := r1.2.2 || !perm.isEmpty || !temp.isEmpty
      let stC :=
        if d2.temporary.isSome then asetN r1.1 cur { d2 with temporary := none } else r1.1
      (stC, fired2, called2)
    | some p =>
      match d2.children with
      | some mid =>
        match alGet (mgetAll r1.1 mid) p with
        | some cid =>
          if isEmptyA (agetN r1.1 cid) then
            let st3 := mdelK r1.1 mid p
            let st4 :=
              if (mgetAll st3 mid).length = 0 then
                asetN st3 cur { agetN st3 cur with children := none }
              else st3
            (st4, r1.2.1, r1.2.2)
          else (r1.1, r1.2.1, r1.2.2)
        | none => (r1.1, r1.2.1, r1.2.2)
      | none => (r1.1, r1.2.1, r1.2.2)
  match ashrink r2.1 cur with
  | none => ⟨r2.1, r2.2.1, r2.2.2, false, true⟩
  | some sh => ⟨sh.1, r2.2.1, r2.2.2, sh.2, false⟩

/-- Unwind one trail over the reference heap, stopping at the first
node that does not shrink; a crash aborts with the state as the
exception leaves it. -/
def ainvokeStack : APM → List Entry → List Nat → Bool → (APM × List Nat × Bool) × Bool
  | st, [], fired, called => ((st, fired, called), false)
  | st, e :: rest, fired, called =>
    let r := ainvokeEntry st e fired called
    if r.crashed then ((r.st, r.fired, r.called), true)
    else if r.ok then ainvokeStack r.st rest r.fired r.called
    else ((r.st, r.fired, r.called), false)

/-- The invocation phase over the reference heap, branches in LIFO
order; a crash aborts the remaining branches. -/
def ainvokeBranches : APM → List (List Entry) → List Nat → Bool → (APM × List Nat × Bool) × Bool
  | st, [], fired, called => ((st, fired, called), false)
  | st, stk :: rest, fired, called =>
    match ainvokeStack st stk fired called with
    | (r, true) => (r, true)
    | (r, false) => ainvokeBranches r.1 rest r.2.1 r.2.2

/-- PatternMatcher.call over the reference heap: discovery then
invocation; the outer flag reports the TypeError abort. -/
def acall (st : APM) (fuel : Nat) (name : Str) : Option ((APM × List Nat × Bool) × Bool) :=
  match adiscoverGo st fuel [(name, 0, [])] [] with
  | none => none
  | some (st1, branches) => some (ainvokeBranches st1 branches [] false)

/-- Character code of e. -/
def ce : Nat := 101

/-- Character code of f. -/
def cf : Nat := 102

/-- Character code of q. -/
def cq : Nat := 113

/-- Character code of x. -/
def cx : Nat := 120

/-- Character code of y. -/
def cy : Nat := 121

/-- Character code of z. -/
def cz : Nat := 122

/-- The C10 scenario over the reference heap: subscribe one-shots 1, 2
and 3 to star-b-f-star, star-b-e-x and star-b-e-x-y, then dispatch the
name b-f-z-b-e-x-y. -/
def runC10A : Option ((APM × List Nat × Bool) × Bool) :=
  (ainsert apmEmpty 100 [WILDCARD, cb, cf, WILDCARD] 1 true).bind (fun s1 =>
    (ainsert s1 100 [WILDCARD, cb, ce, cx] 2 true).bind (fun s2 =>
      (ainsert s2 100 [WILDCARD, cb, ce, cx, cy] 3 true).bind (fun s3 =>
        acall s3 100 [cb, cf, cz, cb, ce, cx, cy])))

/-- The state the C10 dispatch leaves. -/
def c10ASt : APM := (runC10A.map (fun r => r.1.1)).getD apmEmpty

/-- The C4 dispatch scenario: the C10 dispatch, the dispatch of
b-e-x (which throws), then one more insert of star-b-e-x-q. -/
def runC4D : Option APM :=
  (acall c10ASt 100 [cb, ce, cx]).bind (fun r2 =>
    ainsert r2.1.1 100 [WILDCARD, cb, ce, cx, cq] 5 true)

/-- The state the C4 dispatch scenario leaves. -/
def c4DSt : APM := runC4D.getD apmEmpty

/-- A node whose fields are all null: the shape of the root of an empty
trie, of a fresh leaf or wildcard node, but with an arbitrary label. -/
def IsTip (st : PM) (cur : Nat) (pat : Str) : Prop :=
  getN st cur = ⟨pat, none, none, none, none, none⟩

mutual

/-- A spec-side abstract view of a trie: a finite tree whose nodes
carry the store id they stand for, the edge label, whether the node
holds at least one handler, the keyed literal children in map order
(RTreeL), and an optional wildcard child (RTreeO).  Children lists and
the optional wildcard are their own inductive families so that every
recursion below is structural (and kernel-evaluable on concrete
trees). -/
inductive RTree where
  | node (nid : Nat) (lbl : Str) (has : Bool) (cs : RTreeL) (w : RTreeO)

inductive RTreeL where
  | nil
  | cons (k : Nat) (r : RTree) (rs : RTreeL)

inductive RTreeO where
  | none
  | some (r : RTree)

end

mutual

/-- Agreement between a store node and an abstract tree: the node id,
label, handler flag (temporary or permanent non-null), the keyed
children in order and the wildcard all line up, and each of the
permanent set, temporary set and children map is null or non-empty (the
representation discipline the code maintains, claim C10). -/
def agrees (st : PM) (n : Nat) : RTree → Bool
  | .node nid lbl has cs w =>
    let d := getN st n
    (n == nid) &&
    (d.pattern == lbl) &&
    ((d.temporary.isSome || d.permanent.isSome) == has) &&
    (match d.permanent with | Option.none => true | Option.some l => !l.isEmpty) &&
    (match d.temporary with | Option.none => true | Option.some l => !l.isEmpty) &&
    (match d.children with | Option.none => true | Option.some m => !m.isEmpty) &&
    agreesL st (d.children.getD []) cs &&
    agreesO st d.wildcard w

def agreesL (st : PM) : List (Nat × Nat) → RTreeL → Bool
  | [], .nil => true
  | (k, cid) :: m, .cons k2 r rs => (k == k2) && agrees st cid r && agreesL st m rs
  | _ :: _, .nil => false
  | [], .cons _ _ _ => false

def agreesO (st : PM) : Option Nat → RTreeO → Bool
  | Option.none, .none => true
  | Option.some wn, .some r => agrees st wn r
  | Option.none, .some _ => false
  | Option.some _, .none => false

end

mutual

/-- The number of nodes of an abstract tree. -/
def RTree.size : RTree → Nat
  | .node _ _ _ cs w => 1 + RTreeL.size cs + RTreeO.size w

def RTreeL.size : RTreeL → Nat
  | .nil => 0
  | .cons _ r rs => RTree.size r + RTreeL.size rs

def RTreeO.size : RTreeO → Nat
  | .none => 0
  | .some r => RTree.size r

end

mutual

/-- The specification of PatternMatcher.patterns, written on the
abstract tree: a depth-first walk from the root that, for every node
holding at least one handler, emits the concatenation of the edge
labels along the path, with the wildcard character inserted at every
wildcard transition.  Sibling subtrees appear in reverse map order,
mirroring the order in which the code's explicit stack pops them. -/
def RTree.dfs : Str → RTree → List Str
  | pfx, .node _ lbl has cs w =>
    (if has then [pfx ++ lbl] else []) ++
      RTreeL.dfs (pfx ++ lbl) cs ++ RTreeO.dfs (pfx ++ lbl) w

def RTreeL.dfs : Str → RTreeL → List Str
  | _, .nil => []
  | pfx, .cons _ r rs => RTreeL.dfs pfx rs ++ RTree.dfs pfx r

def RTreeO.dfs : Str → RTreeO → List Str
  | _, .none => []
  | pfx, .some r => RTree.dfs (pfx ++ [WILDCARD]) r

end

/-- The pending stack entries contributed by a children list. -/
def csToStack (pfx : Str) : RTreeL → List (Str × RTree)
  | .nil => []
  | .cons _ r rs => (pfx, r) :: csToStack pfx rs

/-- The pending stack entry contributed by a wildcard child. -/
def owToStack (pfx : Str) : RTreeO → List (Str × RTree)
  | .none => []
  | .some r => [(pfx ++ [WILDCARD], r)]

/-- Pointwise agreement between the walker's concrete stack and a list
of pending abstract subtrees with their accumulated prefixes. -/
def stackAgrees (st : PM) : List (Str × Nat) → List (Str × RTree) → Bool
  | [], [] => true
  | (pfx, n) :: L, (pfx2, r) :: A => (pfx == pfx2) && agrees st n r && stackAgrees st L A
  | _ :: _, [] => false
  | [], _ :: _ => false

/-- The strings still to be produced by a list of pending subtrees. -/
def stackDfs : List (Str × RTree) → List Str
  | [] => []
  | (pfx, r) :: A => RTree.dfs pfx r ++ stackDfs A

/-- The total node count of a list of pending subtrees. -/
def stackSize : List (Str × RTree) → Nat
  | [] => 0
  | (_, r) :: A => RTree.size r + stackSize A

/-- The abstract tree of the trie holding the single pattern "a*b" with
the permanent handler 5 (the trie c4St). -/
def c9Rep : RTree :=
  .node 0 [] false
    (.cons ca (.node 1 [ca] false .nil
      (.some (.node 2 [] false
        (.cons cb (.node 3 [cb] true .nil .none) .nil) .none))) .nil) .none

/-- The null-or-non-empty discipline of one node's collection fields
(claim C10): each of the permanent set, the temporary set and the
children map is either null or non-empty. -/
def P10 (d : NodeData) : Bool :=
  (match d.permanent with | Option.none => true | Option.some l => !l.isEmpty) &&
  (match d.temporary with | Option.none => true | Option.some l => !l.isEmpty) &&
  (match d.children with | Option.none => true | Option.some m => !m.isEmpty)

/-- The store-wide field discipline: every node ever written satisfies
P10 (in particular every node of the trie). -/
def invP10 (st : PM) : Bool :=
  st.store.all (fun kv => P10 kv.2)

/-- The trie states reachable from the empty trie by the public
mutating operations: insert, remove and dispatch (call). -/
inductive Evolves : PM → Prop where
  | empty : Evolves pmEmpty
  | ins {st st2 : PM} {f : Nat} {p : Str} {h : Nat} {t : Bool} :
      Evolves st → insert st f p h t = some st2 → Evolves st2
  | rem {st st2 : PM} {f : Nat} {p : Str} {h : Option Nat} :
      Evolves st → remove st f p h = some st2 → Evolves st2
  | disp {st st2 : PM} {f : Nat} {n : Str} {out : List Nat × Bool} :
      Evolves st → call st f n = some (st2, out) → Evolves st2

/-- The store id an abstract tree node stands for. -/
def RTree.nid : RTree → Nat
  | .node nid _ _ _ _ => nid

/-- Whether an abstract node holds a handler, a literal child or a
wildcard child (HandlerNode.isEmpty is its negation). -/
def RTree.nonEmpty : RTree → Bool
  | .node _ _ has cs w =>
    has || !(match cs with | .nil => true | .cons _ _ _ => false) ||
      !(match w with | .none => true | .some _ => false)

/-- Whether the node label is non-empty and starts with the key k (the
children map keys the trie maintains). -/
def RTree.headIs (k : Nat) : RTree → Bool
  | .node _ lbl _ _ _ => match lbl with | [] => false | c :: _ => c == k

/-- Whether the node label is empty (the shape of the root and of
wildcard target nodes). -/
def RTree.emptyLbl : RTree → Bool
  | .node _ lbl _ _ _ => lbl.isEmpty

/-- Whether a children list has exactly one entry. -/
def RTreeL.len1 : RTreeL → Bool
  | .cons _ _ .nil => true
  | _ => false

/-- Whether an optional wildcard is absent. -/
def RTreeO.isNone : RTreeO → Bool
  | .none => true
  | .some _ => false

mutual

/-- The structural discipline of the trie, stated on the abstract tree,
with an optional exempted node id x (the in-progress cursor of an
insertion): every node other than x with a non-empty label is not a
single-literal-child pass-through without wildcard and handlers (the
amended claim C4); every literal child other than x is non-empty and
its label starts with its map key; every wildcard target has an empty
label and, unless it is x, is non-empty. -/
def RTree.okX (x : Option Nat) : RTree → Bool
  | .node nid lbl has cs w =>
    (x == some nid || decide (lbl = []) ||
      !(RTreeL.len1 cs && RTreeO.isNone w && !has)) &&
    RTreeL.okX x cs && RTreeO.okX x w

def RTreeL.okX (x : Option Nat) : RTreeL → Bool
  | .nil => true
  | .cons k r rs =>
    RTree.headIs k r && (x == some (RTree.nid r) || RTree.nonEmpty r) &&
    RTree.okX x r && RTreeL.okX x rs

def RTreeO.okX (x : Option Nat) : RTreeO → Bool
  | .none => true
  | .some r =>
    RTree.emptyLbl r && (x == some (RTree.nid r) || RTree.nonEmpty r) && RTree.okX x r

end

mutual

/-- The store ids of every node of an abstract tree, in preorder. -/
def RTree.nids : RTree → List Nat
  | .node nid _ _ cs w => nid :: (RTreeL.nids cs ++ RTreeO.nids w)

def RTreeL.nids : RTreeL → List Nat
  | .nil => []
  | .cons _ r rs => RTree.nids r ++ RTreeL.nids rs

def RTreeO.nids : RTreeO → List Nat
  | .none => []
  | .some r => RTree.nids r

end

mutual

/-- Mark the node with store id x as holding a handler (the abstract
effect of attaching a handler at the terminal of an insertion). -/
def RTree.setHas (x : Nat) : RTree → RTree
  | .node nid lbl has cs w =>
    .node nid lbl (if nid = x then true else has) (RTreeL.setHas x cs) (RTreeO.setHas x w)

def RTreeL.setHas (x : Nat) : RTreeL → RTreeL
  | .nil => .nil
  | .cons k r rs => .cons k (RTree.setHas x r) (RTreeL.setHas x rs)

def RTreeO.setHas (x : Nat) : RTreeO → RTreeO
  | .none => .none
  | .some r => .some (RTree.setHas x r)

end

mutual

/-- Give the node with store id x a fresh, empty wildcard child with
store id w (the abstract effect of the wildcard hop of an insertion
when the wildcard child is absent). -/
def RTree.setWild (x w : Nat) : RTree → RTree
  | .node nid lbl has cs wo =>
    .node nid lbl has (RTreeL.setWild x w cs)
      (if nid = x then .some (.node w [] false .nil .none) else RTreeO.setWild x w wo)

def RTreeL.setWild (x w : Nat) : RTreeL → RTreeL
  | .nil => .nil
  | .cons k r rs => .cons k (RTree.setWild x w r) (RTreeL.setWild x w rs)

def RTreeO.setWild (x w : Nat) : RTreeO → RTreeO
  | .none => .none
  | .some r => .some (RTree.setWild x w r)

end

/-- Occurrence of an abstract subtree in a children list. -/
inductive MemL : RTree → RTreeL → Prop where
  | head (k : Nat) (r : RTree) (rs : RTreeL) : MemL r (.cons k r rs)
  | tail (k : Nat) (r0 : RTree) (rs : RTreeL) (r : RTree) :
      MemL r rs → MemL r (.cons k r0 rs)

/-- Occurrence of an abstract subtree in an abstract tree: reflexive
closure of the literal-child and wildcard-child steps. -/
inductive Occurs : RTree → RTree → Prop where
  | refl (r : RTree) : Occurs r r
  | child {sub r : RTree} {nid : Nat} {lbl : Str} {has : Bool} {cs : RTreeL} {w : RTreeO} :
      MemL r cs → Occurs sub r → Occurs sub (.node nid lbl has cs w)
  | wild {sub r : RTree} {nid : Nat} {lbl : Str} {has : Bool} {cs : RTreeL} :
      Occurs sub r → Occurs sub (.node nid lbl has cs (.some r))

/-- The trie states reachable from the empty trie by the structural
operations insert and remove alone. -/
inductive EvolvesIR : PM → Prop where
  | empty : EvolvesIR pmEmpty
  | ins {st st2 : PM} {f : Nat} {p : Str} {h : Nat} {t : Bool} :
      EvolvesIR st → insert st f p h t = some st2 → EvolvesIR st2
  | rem {st st2 : PM} {f : Nat} {p : Str} {h : Option Nat} :
      EvolvesIR st → remove st f p h = some st2 → EvolvesIR st2

/-- Root label of an abstract tree node. -/
def RTree.lbl : RTree → Str
  | .node _ lbl _ _ _ => lbl

/-- Root handler flag of an abstract tree node. -/
def RTree.has : RTree → Bool
  | .node _ _ has _ _ => has

/-- Root children list of an abstract tree node. -/
def RTree.children : RTree → RTreeL
  | .node _ _ _ cs _ => cs

/-- Root wildcard slot of an abstract tree node. -/
def RTree.wild : RTree → RTreeO
  | .node _ _ _ _ w => w

/-- The pass-through clause of okX at a single node, without any
exemption: the node has an empty label or is not a
single-literal-child, wildcard-free, handler-free pass-through. -/
def RTree.rootOK : RTree → Bool
  | .node _ lbl has cs w =>
    decide (lbl = []) || !(RTreeL.len1 cs && RTreeO.isNone w && !has)

/-- Replace the root label (the abstract effect of HandlerNode.split
truncating the label of the split node). -/
def RTree.withLbl (l : Str) : RTree → RTree
  | .node nid _ has cs w => .node nid l has cs w

mutual

/-- Replace the subtree whose root carries store id x by t (the
generic splice used to transport the structural invariant through an
operation that rewrites one subtree in place). -/
def RTree.repl (x : Nat) (t : RTree) : RTree → RTree
  | .node nid lbl has cs w =>
    if nid = x then t
    else .node nid lbl has (RTreeL.repl x t cs) (RTreeO.repl x t w)

def RTreeL.repl (x : Nat) (t : RTree) : RTreeL → RTreeL
  | .nil => .nil
  | .cons k r rs => .cons k (RTree.repl x t r) (RTreeL.repl x t rs)

def RTreeO.repl (x : Nat) (t : RTree) : RTreeO → RTreeO
  | .none => .none
  | .some r => .some (RTree.repl x t r)

end

mutual

/-- The subtree whose root carries store id x, if any (children before
the wildcard, leftmost match first; unique when the id lists are
duplicate-free). -/
def RTree.subAt (x : Nat) : RTree → Option RTree
  | .node nid lbl has cs w =>
    if nid = x then some (.node nid lbl has cs w)
    else
      match RTreeL.subAt x cs with
      | some s => some s
      | none => RTreeO.subAt x w

def RTreeL.subAt (x : Nat) : RTreeL → Option RTree
  | .nil => none
  | .cons _ r rs =>
    match RTree.subAt x r with
    | some s => some s
    | none => RTreeL.subAt x rs

def RTreeO.subAt (x : Nat) : RTreeO → Option RTree
  | .none => none
  | .some r => RTree.subAt x r

end

/-- The first child under key k (the abstract counterpart of alGet on
the children map). -/
def RTreeL.findK (k : Nat) : RTreeL → Option RTree
  | .nil => none
  | .cons k2 r rs => if k2 = k then some r else RTreeL.findK k rs

/-- Delete the first child under key k (the abstract counterpart of
alDelete on the children map). -/
def RTreeL.delK (k : Nat) : RTreeL → RTreeL
  | .nil => .nil
  | .cons k2 r rs => if k2 = k then rs else .cons k2 r (RTreeL.delK k rs)

/-- Append a child at the end of the list (the abstract counterpart of
alSet on a key that is absent). -/
def RTreeL.append1 (k : Nat) (t : RTree) : RTreeL → RTreeL
  | .nil => .cons k t .nil
  | .cons k2 r rs => .cons k2 r (RTreeL.append1 k t rs)

/-- A root-first walk along recorded (key, parent id) hops from a tree
down to a subtree: each entry names the node it starts from and the
literal (some key) or wildcard (none) slot it descends through.  The
stacks recorded by remove's descent are such walks, deepest hop
first. -/
def spineS : RTree → List (Option Nat × Nat) → RTree → Prop
  | r, [], s => r = s
  | r, (Option.some p, cur) :: rest, s =>
    RTree.nid r = cur ∧
    ∃ rc, RTreeL.findK p (RTree.children r) = some rc ∧ spineS rc rest s
  | r, (Option.none, cur) :: rest, s =>
    RTree.nid r = cur ∧
    ∃ rc, RTree.wild r = RTreeO.some rc ∧ spineS rc rest s

/-! ### Theorems -/

theorem alGet_alSet_self {α : Type} (l : List (Nat × α)) (k : Nat) (v : α) :
    alGet (alSet l k v) k = some v := by
  induction l with
  | nil => simp [alSet, alGet]
  | cons kv rest ih =>
    obtain ⟨k', w⟩ := kv
    by_cases hk : k' = k
    · simp [alSet, hk, alGet]
    · simp [alSet, hk, alGet, ih]

theorem alGet_alSet_ne {α : Type} (l : List (Nat × α)) (k j : Nat) (v : α) (h : k ≠ j) :
    alGet (alSet l k v) j = alGet l j := by
  induction l with
  | nil => simp [alSet, alGet, h]
  | cons kv rest ih =>
    obtain ⟨k', w⟩ := kv
    by_cases hk : k' = k
    · subst hk
      simp [alSet, alGet, h]
    · simp [alSet, hk, alGet, ih]

theorem alSet_alSet_self {α : Type} (l : List (Nat × α)) (k : Nat) (v1 v2 : α) :
    alSet (alSet l k v1) k v2 = alSet l k v2 := by
  induction l with
  | nil => simp [alSet]
  | cons kv rest ih =>
    obtain ⟨k', w⟩ := kv
    by_cases hk : k' = k
    · simp [alSet, hk]
    · simp [alSet, hk, ih]

theorem getN_setN_self (st : PM) (i : Nat) (d : NodeData) : getN (setN st i d) i = d := by
  simp [getN, setN, alGet_alSet_self]

theorem getN_setN_ne (st : PM) (i j : Nat) (d : NodeData) (h : i ≠ j) :
    getN (setN st i d) j = getN st j := by
  simp [getN, setN, alGet_alSet_ne _ _ _ _ h]

theorem setN_setN (st : PM) (i : Nat) (d1 d2 : NodeData) :
    setN (setN st i d1) i d2 = setN st i d2 := by
  simp [setN, alSet_alSet_self]

theorem splitStar_ne_nil (s : Str) : splitStar s ≠ [] := by
  induction s with
  | nil => simp [splitStar]
  | cons c rest ih =>
    by_cases hc : c = WILDCARD
    · simp [splitStar, hc]
    · cases hs : splitStar rest with
      | nil => exact absurd hs ih
      | cons a as => simp [splitStar, hc, hs]

theorem patterns_empty_root (st : PM) (hroot : getN st 0 = NodeData.mk0 []) :
    patterns st 2 = some [] := by
  simp [patterns, patternsGo, hroot, NodeData.mk0]

theorem descend_empty_root (st : PM) (hroot : getN st 0 = NodeData.mk0 []) (q : Str) (g : Nat) :
    descend st (g + 2) 0 (splitStar (normalize q)) [] = some none ∨
    descend st (g + 2) 0 (splitStar (normalize q)) [] = some (some ([], 0)) := by
  cases hs : splitStar (normalize q) with
  | nil => exact absurd hs (splitStar_ne_nil _)
  | cons s0 rest =>
    cases rest with
    | nil =>
      cases s0 with
      | nil => right; rfl
      | cons c r =>
        left
        simp [descend, descendSeg, hroot, NodeData.mk0, alGet]
    | cons s1 rest' =>
      left
      cases s0 with
      | nil => simp [descend, descendSeg, hroot, NodeData.mk0]
      | cons c r => simp [descend, descendSeg, hroot, NodeData.mk0, alGet]

theorem handlersCount_empty_root (st : PM) (hroot : getN st 0 = NodeData.mk0 [])
    (q : Str) (g : Nat) : handlersCount st (g + 2) q = some 0 := by
  unfold handlersCount
  rcases descend_empty_root st hroot q g with hd | hd
  · rw [hd]
  · rw [hd]
    simp [hroot, NodeData.mk0]

theorem handlers_empty_root (st : PM) (hroot : getN st 0 = NodeData.mk0 [])
    (q : Str) (g : Nat) : handlers st (g + 2) q = some [] := by
  unfold handlers
  rcases descend_empty_root st hroot q g with hd | hd
  · rw [hd]
  · rw [hd]
    simp [hroot, NodeData.mk0]

theorem shrink_tip (st : PM) (cur : Nat) (pat : Str) (htip : IsTip st cur pat) :
    shrink st cur = (st, true) := by
  unfold IsTip at htip
  simp [shrink, htip]

theorem call_empty_root (st : PM) (hroot : getN st 0 = NodeData.mk0 [])
    (n : Str) (g : Nat) : call st (g + 2) n = some (st, [], false) := by
  unfold call
  cases n with
  | nil =>
    have hdisc : discoverGo st (g + 2) [([], 0, [])] [] = some (st, [[(none, 0)]]) := by
      simp [discoverGo]
    rw [hdisc]
    have hstep : invokeEntry st (none, 0) [] false = ⟨st, [], false, true⟩ := by
      have hsh : shrink st 0 = (st, true) := shrink_tip st 0 [] hroot
      simp [invokeEntry, hroot, NodeData.mk0, hsh, isEmptyN, setN]
    simp [invokeBranches, invokeStack, hstep]
  | cons c r =>
    have hdisc : discoverGo st (g + 2) [(c :: r, 0, [])] [] = some (st, []) := by
      simp [discoverGo, hroot, NodeData.mk0, alGet]
    rw [hdisc]
    rfl

theorem isPrefixOf_self (l : List Nat) : l.isPrefixOf l = true := by
  induction l <;> simp [List.isPrefixOf, *]

theorem insertSeg_nil (st : PM) (cur f : Nat) : insertSeg st cur (f + 1) [] = some (st, cur) :=
  rfl

theorem insertSeg_leaf (st : PM) (cur f p : Nat) (r : Str)
    (hch : (getN st cur).children = none) :
    insertSeg st cur (f + 1) (p :: r) =
      some (setN ⟨alSet st.store st.next (NodeData.mk0 (p :: r)), st.next + 1⟩ cur
        { getN st cur with children := some [(p, st.next)] }, st.next) := by
  simp [insertSeg, hch, alGet, alloc, alSet]

theorem descendSeg_nil (st : PM) (cur f : Nat) (stk : List (Option Nat × Nat)) :
    descendSeg st (f + 1) cur [] stk = some (some (stk, cur)) := rfl

theorem descendSeg_hop (st : PM) (cur f p cid : Nat) (r : Str) (stk : List (Option Nat × Nat))
    (hget : alGet ((getN st cur).children.getD []) p = some cid)
    (hpat : (getN st cid).pattern = p :: r) :
    descendSeg st (f + 2) cur (p :: r) stk = some (some ((some p, cur) :: stk, cid)) := by
  show descendSeg st (f + 1 + 1) cur (p :: r) stk = _
  simp [descendSeg, hget, hpat, isPrefixOf_self, List.drop_length]

theorem removeUnwind_delete_step (st : PM) (cur p cid : Nat) (pat : Str)
    (tail : List (Option Nat × Nat))
    (hcur : getN st cur = ⟨pat, some [(p, cid)], none, none, none, none⟩)
    (hcid : isEmptyN (getN st cid) = true) :
    removeUnwind st ((some p, cur) :: tail) =
      removeUnwind (setN st cur ⟨pat, none, none, none, none, none⟩) tail := by
  have hshF : shrink (setN st cur ⟨pat, none, none, none, none, none⟩) cur =
      (setN st cur ⟨pat, none, none, none, none, none⟩, true) :=
    shrink_tip _ cur pat (getN_setN_self ..)
  simp only [removeUnwind, hcur]
  simp [alGet, hcid, alDelete, hshF]

theorem removeUnwind_wildcard_step (st : PM) (cur w : Nat) (pat : Str)
    (tail : List (Option Nat × Nat))
    (hcur : getN st cur = ⟨pat, none, none, none, some w, none⟩)
    (hw : isEmptyN (getN st w) = true) :
    removeUnwind st ((none, cur) :: tail) =
      removeUnwind (setN st cur ⟨pat, none, none, none, none, none⟩) tail := by
  have hshF : shrink (setN st cur ⟨pat, none, none, none, none, none⟩) cur =
      (setN st cur ⟨pat, none, none, none, none, none⟩, true) :=
    shrink_tip _ cur pat (getN_setN_self ..)
  simp only [removeUnwind, hcur]
  simp [hw, hshF]

/-- The combined induction for the round-trip claim: from a tip node
(all fields null), inserting the literal segments builds a fresh chain
ending in a tip terminal; after a permanent handler is attached there,
the strict descent finds exactly that chain, and erasing the handler
and unwinding restores the tip and leaves every older node unchanged. -/
theorem chain_roundtrip : ∀ (segs : List Str) (st : PM) (cur : Nat) (pat : Str) (h f : Nat),
    IsTip st cur pat → cur < st.next →
    ∃ stI term patT STK stF,
      insertGo st cur (f + 2) segs = some (stI, term) ∧
      IsTip stI term patT ∧
      (term = cur ∨ st.next ≤ term) ∧
      term < stI.next ∧
      st.next ≤ stI.next ∧
      (∀ id, id < st.next → id ≠ cur → getN stI id = getN st id) ∧
      (∀ stk0, descend (setN stI term ⟨patT, none, some [h], none, none, none⟩) (f + 2)
          cur segs stk0 = some (some (STK ++ stk0, term))) ∧
      (∀ tail, removeUnwind (setN stI term (NodeData.mk0 patT)) (STK ++ tail)
          = removeUnwind stF tail) ∧
      IsTip stF cur pat ∧
      (∀ id, id < st.next → id ≠ cur → getN stF id = getN st id) := by
  intro segs
  induction segs with
  | nil =>
    intro st cur pat h f htip hcur
    refine ⟨st, cur, pat, [], setN st cur (NodeData.mk0 pat), rfl, htip, Or.inl rfl, hcur,
      Nat.le_refl _, fun id _ _ => rfl, fun stk0 => rfl, fun tail => rfl, ?_, ?_⟩
    · exact getN_setN_self st cur (NodeData.mk0 pat)
    · intro id _ hne
      exact getN_setN_ne st cur id (NodeData.mk0 pat) (fun e => hne e.symm)
  | cons s0 segs ih =>
    intro st cur pat h f htip hcur
    cases segs with
    | nil =>
      cases s0 with
      | nil =>
        refine ⟨st, cur, pat, [], setN st cur (NodeData.mk0 pat), insertSeg_nil st cur (f + 1),
          htip, Or.inl rfl, hcur, Nat.le_refl _, fun id _ _ => rfl,
          fun stk0 => descendSeg_nil _ cur (f + 1) stk0, fun tail => rfl, ?_, ?_⟩
        · exact getN_setN_self st cur (NodeData.mk0 pat)
        · intro id _ hne
          exact getN_setN_ne st cur id (NodeData.mk0 pat) (fun e => hne e.symm)
      | cons p r =>
        have hch : (getN st cur).children = none := by rw [htip]
        have hne_ct : cur ≠ st.next := Nat.ne_of_lt hcur
        have hIacc : getN (setN ⟨alSet st.store st.next (NodeData.mk0 (p :: r)), st.next + 1⟩ cur
            { getN st cur with children := some [(p, st.next)] }) (st.next) =
            NodeData.mk0 (p :: r) := by
          rw [getN_setN_ne _ cur (st.next) _ hne_ct]
          show (alGet (alSet st.store st.next (NodeData.mk0 (p :: r))) (st.next)).getD _ = _
          rw [alGet_alSet_self]
          rfl
        have hIcur : getN (setN ⟨alSet st.store st.next (NodeData.mk0 (p :: r)), st.next + 1⟩ cur
            { getN st cur with children := some [(p, st.next)] }) cur =
            ⟨pat, some [(p, st.next)], none, none, none, none⟩ := by
          rw [getN_setN_self, htip]
        have hframeI : ∀ id, id < st.next → id ≠ cur →
            getN (setN ⟨alSet st.store st.next (NodeData.mk0 (p :: r)), st.next + 1⟩ cur
              { getN st cur with children := some [(p, st.next)] }) id = getN st id := by
          intro id hid hne
          rw [getN_setN_ne _ cur id _ (fun e => hne e.symm)]
          show (alGet (alSet st.store st.next _) id).getD _ = _
          rw [alGet_alSet_ne _ _ _ _ (Nat.ne_of_gt hid)]
          rfl
        have hHcur : getN (setN (setN ⟨alSet st.store st.next (NodeData.mk0 (p :: r)),
            st.next + 1⟩ cur { getN st cur with children := some [(p, st.next)] }) (st.next)
            ⟨p :: r, none, some [h], none, none, none⟩) cur =
            ⟨pat, some [(p, st.next)], none, none, none, none⟩ := by
          rw [getN_setN_ne _ _ _ _ hne_ct.symm]
          exact hIcur
        have hHterm : getN (setN (setN ⟨alSet st.store st.next (NodeData.mk0 (p :: r)),
            st.next + 1⟩ cur { getN st cur with children := some [(p, st.next)] }) (st.next)
            ⟨p :: r, none, some [h], none, none, none⟩) (st.next) =
            ⟨p :: r, none, some [h], none, none, none⟩ := getN_setN_self ..
        have h3cur : getN (setN (setN ⟨alSet st.store st.next (NodeData.mk0 (p :: r)),
            st.next + 1⟩ cur { getN st cur with children := some [(p, st.next)] }) (st.next)
            (NodeData.mk0 (p :: r))) cur =
            ⟨pat, some [(p, st.next)], none, none, none, none⟩ := by
          rw [getN_setN_ne _ _ _ _ hne_ct.symm]
          exact hIcur
        have h3term : getN (setN (setN ⟨alSet st.store st.next (NodeData.mk0 (p :: r)),
            st.next + 1⟩ cur { getN st cur with children := some [(p, st.next)] }) (st.next)
            (NodeData.mk0 (p :: r))) (st.next) = NodeData.mk0 (p :: r) := getN_setN_self ..
        refine ⟨setN ⟨alSet st.store st.next (NodeData.mk0 (p :: r)), st.next + 1⟩ cur
          { getN st cur with children := some [(p, st.next)] }, st.next, p :: r,
          [(some p, cur)],
          setN (setN (setN ⟨alSet st.store st.next (NodeData.mk0 (p :: r)), st.next + 1⟩ cur
            { getN st cur with children := some [(p, st.next)] }) (st.next)
            (NodeData.mk0 (p :: r))) cur ⟨pat, none, none, none, none, none⟩,
          insertSeg_leaf st cur (f + 1) p r hch, hIacc, Or.inr (Nat.le_refl _),
          Nat.lt_succ_self _, Nat.le_succ _, hframeI, ?_, ?_, ?_, ?_⟩
        · intro stk0
          refine descendSeg_hop _ cur f p (st.next) r stk0 ?_ ?_
          · rw [hHcur]
            simp [alGet]
          · rw [hHterm]
        · intro tail
          rw [List.singleton_append]
          rw [removeUnwind_delete_step _ cur p (st.next) pat tail h3cur
            (by rw [h3term]; rfl)]
        · exact getN_setN_self ..
        · intro id hid hne
          rw [getN_setN_ne _ _ _ _ (fun e => hne e.symm)]
          rw [getN_setN_ne _ _ _ _ (Nat.ne_of_gt hid)]
          exact hframeI id hid hne
    | cons s1 rest =>
      unfold IsTip at htip
      cases s0 with
      | nil =>
        have h2cur : getN ⟨alSet st.store st.next (NodeData.mk0 []), st.next + 1⟩ cur =
            ⟨pat, none, none, none, none, none⟩ := by
          show (alGet (alSet st.store st.next _) cur).getD _ = _
          rw [alGet_alSet_ne _ _ _ _ (Nat.ne_of_gt hcur)]
          exact htip
        have hgoal : insertGo st cur (f + 2) ([] :: s1 :: rest) =
            insertGo (setN ⟨alSet st.store st.next (NodeData.mk0 []), st.next + 1⟩ cur
              ⟨pat, none, none, none, some st.next, none⟩) (st.next) (f + 2) (s1 :: rest) := by
          simp only [insertGo, insertSeg_nil, htip, alloc, h2cur]
        have hBw : IsTip (setN ⟨alSet st.store st.next (NodeData.mk0 []), st.next + 1⟩ cur
            ⟨pat, none, none, none, some st.next, none⟩) (st.next) [] := by
          show getN _ (st.next) = _
          rw [getN_setN_ne _ _ _ _ (Nat.ne_of_lt hcur)]
          show (alGet (alSet st.store st.next _) (st.next)).getD _ = _
          rw [alGet_alSet_self]
          rfl
        obtain ⟨stI, term, patT, STK', stF', ha, hb, hc, hd, he, hfr, hdesc, hunw, htipF, hfrF⟩ :=
          ih (setN ⟨alSet st.store st.next (NodeData.mk0 []), st.next + 1⟩ cur
            ⟨pat, none, none, none, some st.next, none⟩) (st.next) [] h f hBw
            (Nat.lt_succ_self _)
        have hterm_hi : st.next ≤ term := by
          rcases hc with hc | hc
          · rw [hc]
          · exact Nat.le_trans (Nat.le_succ _) hc
        have hne_tc : term ≠ cur := Ne.symm (Nat.ne_of_lt (Nat.lt_of_lt_of_le hcur hterm_hi))
        have hIcur : getN stI cur = ⟨pat, none, none, none, some st.next, none⟩ := by
          rw [hfr cur (Nat.lt_succ_of_lt hcur) (Nat.ne_of_lt hcur)]
          exact getN_setN_self ..
        have hHcur : getN (setN stI term ⟨patT, none, some [h], none, none, none⟩) cur =
            ⟨pat, none, none, none, some st.next, none⟩ := by
          rw [getN_setN_ne _ _ _ _ hne_tc]
          exact hIcur
        have hdesc2 : ∀ stk0, descend (setN stI term ⟨patT, none, some [h], none, none, none⟩)
            (f + 2) cur ([] :: s1 :: rest) stk0 =
            some (some ((STK' ++ [((none : Option Nat), cur)]) ++ stk0, term)) := by
          intro stk0
          simp only [descend, descendSeg_nil, hHcur, hdesc ((none, cur) :: stk0),
            List.append_assoc, List.cons_append, List.nil_append]
        have hF'cur : getN stF' cur = ⟨pat, none, none, none, some st.next, none⟩ := by
          rw [hfrF cur (Nat.lt_succ_of_lt hcur) (Nat.ne_of_lt hcur)]
          exact getN_setN_self ..
        have hF'w : isEmptyN (getN stF' (st.next)) = true := by
          rw [htipF]
          rfl
        have hunw2 : ∀ tail, removeUnwind (setN stI term (NodeData.mk0 patT))
            ((STK' ++ [((none : Option Nat), cur)]) ++ tail) =
            removeUnwind (setN stF' cur ⟨pat, none, none, none, none, none⟩) tail := by
          intro tail
          rw [List.append_assoc]
          rw [hunw ([((none : Option Nat), cur)] ++ tail)]
          show removeUnwind stF' (((none : Option Nat), cur) :: tail) = _
          rw [removeUnwind_wildcard_step stF' cur (st.next) pat tail hF'cur hF'w]
        refine ⟨stI, term, patT, STK' ++ [((none : Option Nat), cur)],
          setN stF' cur ⟨pat, none, none, none, none, none⟩,
          hgoal.trans ha, hb, Or.inr hterm_hi, hd, Nat.le_trans (Nat.le_succ _) he, ?_,
          hdesc2, hunw2, getN_setN_self .., ?_⟩
        · intro id hid hne
          rw [hfr id (Nat.lt_succ_of_lt hid) (fun e => Nat.ne_of_lt hid (by rw [e]))]
          rw [getN_setN_ne _ _ _ _ (fun e => hne e.symm)]
          show (alGet (alSet st.store st.next _) id).getD _ = _
          rw [alGet_alSet_ne _ _ _ _ (Nat.ne_of_gt hid)]
          rfl
        · intro id hid hne
          rw [getN_setN_ne _ _ _ _ (fun e => hne e.symm)]
          rw [hfrF id (Nat.lt_succ_of_lt hid) (fun e => Nat.ne_of_lt hid (by rw [e]))]
          rw [getN_setN_ne _ _ _ _ (fun e => hne e.symm)]
          show (alGet (alSet st.store st.next _) id).getD _ = _
          rw [alGet_alSet_ne _ _ _ _ (Nat.ne_of_gt hid)]
          rfl
      | cons p r =>
        have hne_ct : cur ≠ st.next := Nat.ne_of_lt hcur
        have hseg : insertSeg st cur (f + 2) (p :: r) =
            some (⟨alSet (alSet st.store st.next (NodeData.mk0 (p :: r))) cur
              ⟨pat, some [(p, st.next)], none, none, none, none⟩, st.next + 1⟩, st.next) := by
          rw [show (f + 2) = (f + 1) + 1 from rfl]
          rw [insertSeg_leaf st cur (f + 1) p r (by rw [htip])]
          rw [htip]
          rfl
        have hAn : getN ⟨alSet (alSet st.store st.next (NodeData.mk0 (p :: r))) cur
            ⟨pat, some [(p, st.next)], none, none, none, none⟩, st.next + 1⟩ (st.next) =
            NodeData.mk0 (p :: r) := by
          show (alGet (alSet (alSet st.store st.next _) cur _) (st.next)).getD _ = _
          rw [alGet_alSet_ne _ _ _ _ hne_ct, alGet_alSet_self]
          rfl
        have h2n : getN ⟨alSet (alSet (alSet st.store st.next (NodeData.mk0 (p :: r))) cur
            ⟨pat, some [(p, st.next)], none, none, none, none⟩) (st.next + 1)
            (NodeData.mk0 []), st.next + 1 + 1⟩ (st.next) = NodeData.mk0 (p :: r) := by
          show (alGet (alSet _ (st.next + 1) _) (st.next)).getD _ = _
          rw [alGet_alSet_ne _ _ _ _ (by omega)]
          exact hAn
        have hgoal : insertGo st cur (f + 2) ((p :: r) :: s1 :: rest) =
            insertGo ⟨alSet (alSet (alSet (alSet st.store st.next (NodeData.mk0 (p :: r))) cur
              ⟨pat, some [(p, st.next)], none, none, none, none⟩) (st.next + 1)
              (NodeData.mk0 [])) (st.next) ⟨p :: r, none, none, none, some (st.next + 1), none⟩,
              st.next + 1 + 1⟩ (st.next + 1) (f + 2) (s1 :: rest) := by
          simp only [insertGo, hseg]
          rw [hAn]
          rw [show (NodeData.mk0 (p :: r)).wildcard = (none : Option Nat) from rfl]
          show insertGo (setN ⟨alSet (alSet (alSet st.store st.next (NodeData.mk0 (p :: r))) cur
              ⟨pat, some [(p, st.next)], none, none, none, none⟩) (st.next + 1)
              (NodeData.mk0 []), st.next + 1 + 1⟩ (st.next)
              { getN ⟨alSet (alSet (alSet st.store st.next (NodeData.mk0 (p :: r))) cur
                ⟨pat, some [(p, st.next)], none, none, none, none⟩) (st.next + 1)
                (NodeData.mk0 []), st.next + 1 + 1⟩ (st.next) with
                wildcard := some (st.next + 1) }) (st.next + 1) (f + 2) (s1 :: rest) = _
          rw [h2n]
          rfl
        have hBn : getN ⟨alSet (alSet (alSet (alSet st.store st.next (NodeData.mk0 (p :: r))) cur
            ⟨pat, some [(p, st.next)], none, none, none, none⟩) (st.next + 1)
            (NodeData.mk0 [])) (st.next) ⟨p :: r, none, none, none, some (st.next + 1), none⟩,
            st.next + 1 + 1⟩ (st.next) =
            ⟨p :: r, none, none, none, some (st.next + 1), none⟩ := by
          show (alGet (alSet _ (st.next) _) (st.next)).getD _ = _
          rw [alGet_alSet_self]
          rfl
        have hBw : IsTip ⟨alSet (alSet (alSet (alSet st.store st.next (NodeData.mk0 (p :: r)))
            cur ⟨pat, some [(p, st.next)], none, none, none, none⟩) (st.next + 1)
            (NodeData.mk0 [])) (st.next) ⟨p :: r, none, none, none, some (st.next + 1), none⟩,
            st.next + 1 + 1⟩ (st.next + 1) [] := by
          show (alGet (alSet _ (st.next) _) (st.next + 1)).getD _ = _
          rw [alGet_alSet_ne _ _ _ _ (by omega), alGet_alSet_self]
          rfl
        have hBcur : getN ⟨alSet (alSet (alSet (alSet st.store st.next
            (NodeData.mk0 (p :: r))) cur ⟨pat, some [(p, st.next)], none, none, none, none⟩)
            (st.next + 1) (NodeData.mk0 [])) (st.next)
            ⟨p :: r, none, none, none, some (st.next + 1), none⟩, st.next + 1 + 1⟩ cur =
            ⟨pat, some [(p, st.next)], none, none, none, none⟩ := by
          show (alGet (alSet _ (st.next) _) cur).getD _ = _
          rw [alGet_alSet_ne _ _ _ _ hne_ct.symm, alGet_alSet_ne _ _ _ _ (by omega),
            alGet_alSet_self]
          rfl
        have hBframe : ∀ id, id < st.next → id ≠ cur →
            getN ⟨alSet (alSet (alSet (alSet st.store st.next (NodeData.mk0 (p :: r))) cur
              ⟨pat, some [(p, st.next)], none, none, none, none⟩) (st.next + 1)
              (NodeData.mk0 [])) (st.next) ⟨p :: r, none, none, none, some (st.next + 1), none⟩,
              st.next + 1 + 1⟩ id = getN st id := by
          intro id hid hne
          show (alGet (alSet _ (st.next) _) id).getD _ = _
          rw [alGet_alSet_ne _ _ _ _ (by omega), alGet_alSet_ne _ _ _ _ (by omega),
            alGet_alSet_ne _ _ _ _ (fun e => hne e.symm), alGet_alSet_ne _ _ _ _ (by omega)]
          rfl
        obtain ⟨stI, term, patT, STK', stF', ha, hb, hc, hd, he, hfr, hdesc, hunw, htipF, hfrF⟩ :=
          ih ⟨alSet (alSet (alSet (alSet st.store st.next (NodeData.mk0 (p :: r))) cur
            ⟨pat, some [(p, st.next)], none, none, none, none⟩) (st.next + 1)
            (NodeData.mk0 [])) (st.next) ⟨p :: r, none, none, none, some (st.next + 1), none⟩,
            st.next + 1 + 1⟩ (st.next + 1) [] h f hBw (Nat.lt_succ_self _)
        dsimp only at hc hd he hfr hfrF
        have hterm_hi : st.next + 1 ≤ term := by
          rcases hc with hc | hc
          · rw [hc]
          · exact Nat.le_trans (by omega) hc
        have hne_tc : term ≠ cur := by omega
        have hne_tn : term ≠ st.next := by omega
        have hIcur : getN stI cur = ⟨pat, some [(p, st.next)], none, none, none, none⟩ := by
          rw [hfr cur (by omega) (by omega)]
          exact hBcur
        have hIn : getN stI (st.next) =
            ⟨p :: r, none, none, none, some (st.next + 1), none⟩ := by
          rw [hfr (st.next) (by omega) (by omega)]
          exact hBn
        have hHcur : getN (setN stI term ⟨patT, none, some [h], none, none, none⟩) cur =
            ⟨pat, some [(p, st.next)], none, none, none, none⟩ := by
          rw [getN_setN_ne _ _ _ _ hne_tc]
          exact hIcur
        have hHn : getN (setN stI term ⟨patT, none, some [h], none, none, none⟩) (st.next) =
            ⟨p :: r, none, none, none, some (st.next + 1), none⟩ := by
          rw [getN_setN_ne _ _ _ _ hne_tn]
          exact hIn
        have hdesc2 : ∀ stk0, descend (setN stI term ⟨patT, none, some [h], none, none, none⟩)
            (f + 2) cur ((p :: r) :: s1 :: rest) stk0 =
            some (some ((STK' ++ [((none : Option Nat), st.next), (some p, cur)]) ++ stk0,
              term)) := by
          intro stk0
          have hhop := descendSeg_hop (setN stI term ⟨patT, none, some [h], none, none, none⟩)
            cur f p (st.next) r stk0 (by rw [hHcur]; simp [alGet]) (by rw [hHn])
          simp only [descend, hhop, hHn, hdesc ((none, st.next) :: (some p, cur) :: stk0),
            List.append_assoc, List.cons_append, List.nil_append]
        have hF'n : getN stF' (st.next) =
            ⟨p :: r, none, none, none, some (st.next + 1), none⟩ := by
          rw [hfrF (st.next) (by omega) (by omega)]
          exact hBn
        have hF'w : isEmptyN (getN stF' (st.next + 1)) = true := by
          rw [htipF]
          rfl
        have hWcur : getN (setN stF' (st.next) ⟨p :: r, none, none, none, none, none⟩) cur =
            ⟨pat, some [(p, st.next)], none, none, none, none⟩ := by
          rw [getN_setN_ne _ _ _ _ hne_ct.symm]
          rw [hfrF cur (by omega) (by omega)]
          exact hBcur
        have hWn : isEmptyN (getN (setN stF' (st.next)
            ⟨p :: r, none, none, none, none, none⟩) (st.next)) = true := by
          rw [getN_setN_self]
          rfl
        have hunw2 : ∀ tail, removeUnwind (setN stI term (NodeData.mk0 patT))
            ((STK' ++ [((none : Option Nat), st.next), (some p, cur)]) ++ tail) =
            removeUnwind (setN (setN stF' (st.next) ⟨p :: r, none, none, none, none, none⟩)
              cur ⟨pat, none, none, none, none, none⟩) tail := by
          intro tail
          rw [List.append_assoc]
          rw [hunw ([((none : Option Nat), st.next), (some p, cur)] ++ tail)]
          show removeUnwind stF' (((none : Option Nat), st.next) :: (some p, cur) :: tail) = _
          rw [removeUnwind_wildcard_step stF' (st.next) (st.next + 1) (p :: r)
            ((some p, cur) :: tail) hF'n hF'w]
          rw [removeUnwind_delete_step _ cur p (st.next) pat tail hWcur hWn]
        refine ⟨stI, term, patT, STK' ++ [((none : Option Nat), st.next), (some p, cur)],
          setN (setN stF' (st.next) ⟨p :: r, none, none, none, none, none⟩) cur
            ⟨pat, none, none, none, none, none⟩,
          hgoal.trans ha, hb, Or.inr (by omega), hd, Nat.le_trans (by omega) he, ?_,
          hdesc2, hunw2, getN_setN_self .., ?_⟩
        · intro id hid hne
          rw [hfr id (by omega) (by omega)]
          exact hBframe id hid hne
        · intro id hid hne
          rw [getN_setN_ne _ _ _ _ (fun e => hne e.symm)]
          rw [getN_setN_ne _ _ _ _ (fun e => Nat.ne_of_lt hid (by rw [e]))]
          rw [hfrF id (by omega) (by omega)]
          exact hBframe id hid hne

/-- C1: dispatch does not invoke each matching handler exactly once:
with handler 7 attached to the stored two-wildcard pattern star-a-star,
dispatching the name aa (which the pattern matches along two distinct
wildcard paths) invokes handler 7 twice in a single dispatch. -/
theorem c1_double_fire : runC1 = some [7, 7] := by decide

/-- C2: the one-shot set is not always consumed by the dispatch that
fires it: with one-shot handler 1 on star-aabd and one-shot handler 2
on star-abd, the first dispatch of aabd fires both, yet the second
dispatch of aabd fires handler 2 again (and returns true). -/
theorem c2_oneshot_refires : runC2 = some ([1, 2], [2], true) := by decide

/-- C4 counterexample, in two parts.  First, insert alone already
violates the claim as stated: after the single insert of a-star-b into
the empty trie, the wildcard-target node (id 2), a non-root node, has
exactly one literal child, no wildcard child and no handlers -- so the
claim must at least exempt the empty-label nodes.  Second, dispatch
violates even the exempted claim, so the amended invariant cannot
quantify over dispatch: over the reference-faithful heap, after
inserting one-shots 1, 2 and 3 under star-b-f-star, star-b-e-x and
star-b-e-x-y, one dispatch of b-f-z-b-e-x-y (which shares the merged
node's map, c10ASt), one dispatch of b-e-x (which fires handler 2 and
then throws the shrink TypeError), and one insert of star-b-e-x-q, the
live node 4 (reached root, wildcard 1, literal child b) has the
non-empty label b-e-x, exactly one literal child, no wildcard child
and no handlers. -/
theorem c4_counterexample :
    (insert pmEmpty 100 [ca, WILDCARD, cb] 5 false = some c4St ∧
     alGet ((getN c4St 0).children.getD []) ca = some 1 ∧
     (getN c4St 1).wildcard = some 2 ∧
     ((getN c4St 2).children.getD []).length = 1 ∧
     (getN c4St 2).wildcard = none ∧
     (getN c4St 2).permanent = none ∧
     (getN c4St 2).temporary = none) ∧
    ((acall c10ASt 100 [cb, ce, cx]).map (fun r => (r.1.2.1, r.2)) =
       some ([2], true) ∧
     runC4D = some c4DSt ∧
     (agetN c4DSt 0).wildcard = some 1 ∧
     (agetN c4DSt 1).children = some 0 ∧
     alGet (mgetAll c4DSt 0) cb = some 4 ∧
     (agetN c4DSt 4).pattern = [cb, ce, cx] ∧
     (agetN c4DSt 4).children = some 2 ∧
     (mgetAll c4DSt 2).length = 1 ∧
     (agetN c4DSt 4).wildcard = none ∧
     (agetN c4DSt 4).permanent = none ∧
     (agetN c4DSt 4).temporary = none) := by decide

/-- C6: with handler 1 on a-star-a and handler 2 on a, dispatching a
returns true firing only handler 2, and dispatching aa returns true
firing handler 1 exactly once and handler 2 not at all. -/
theorem c6_boundary : runC6 = some ([2], true, [1], true) := by decide

/-- C7: getFailure is not the standard KMP failure table for labels of
every length: on a label of 257 equal characters the table entry at
index 256 is 0 (the Uint8Array store truncates 256 modulo 256), while
the longest proper prefix of the whole label that is also its suffix
has length 256. -/
theorem getD_set_self (l : List Nat) (i v : Nat) (h : i < l.length) :
    (l.set i v).getD i 0 = v := by
  induction l generalizing i with
  | nil => simp at h
  | cons a as ih =>
    cases i with
    | zero => rfl
    | succ i => exact ih i (Nat.lt_of_succ_lt_succ h)

theorem getD_set_other (l : List Nat) (i m v : Nat) (h : i ≠ m) :
    (l.set i v).getD m 0 = l.getD m 0 := by
  induction l generalizing i m with
  | nil => simp [List.set]
  | cons a as ih =>
    cases i with
    | zero => cases m with
      | zero => exact absurd rfl h
      | succ m => rfl
    | succ i => cases m with
      | zero => rfl
      | succ m => exact ih i m (fun e => h (by rw [e]))

theorem getD_replicate (n a k : Nat) (h : k < n) :
    (List.replicate n a).getD k 0 = a := by
  induction n generalizing k with
  | zero => simp at h
  | succ n ih =>
    cases k with
    | zero => rfl
    | succ k => exact ih k (Nat.lt_of_succ_lt_succ h)

theorem failLoop_lower (lbl : Str) : ∀ (fuel i j : Nat) (arr : List Nat) (m : Nat), m < i →
    (failLoop lbl fuel i j arr).getD m 0 = arr.getD m 0 := by
  intro fuel
  induction fuel with
  | zero => intro i j arr m _; rfl
  | succ fuel ih =>
    intro i j arr m hm
    show (if i < lbl.length then _ else arr).getD m 0 = arr.getD m 0
    split
    · rw [ih (i + 1) _ _ m (Nat.lt_succ_of_lt hm), getD_set_other _ _ _ _ (Nat.ne_of_gt hm)]
    · rfl

theorem failLoop_replicate (n a : Nat) : ∀ (fuel i : Nat) (arr : List Nat), 1 ≤ i →
    arr.length = n → n ≤ i + fuel → ∀ m, i ≤ m → m < n →
    (failLoop (List.replicate n a) fuel i (i - 1) arr).getD m 0 = m % 256 := by
  intro fuel
  induction fuel with
  | zero =>
    intro i arr _ _ hfn m him hmn
    exact absurd (Nat.lt_of_lt_of_le hmn (by omega)) (Nat.not_lt.mpr him)
  | succ fuel ih =>
    intro i arr hi hlen hfn m him hmn
    have hin : i < n := Nat.lt_of_le_of_lt him hmn
    have hin' : i < (List.replicate n a).length := by rw [List.length_replicate]; exact hin
    have hi1 : i - 1 < n := by omega
    have hres : failResolve (List.replicate n a) arr i (i - 1 + 1) (i - 1) = i - 1 := by
      show (if i - 1 > 0 ∧ (List.replicate n a).getD i 0 ≠ (List.replicate n a).getD (i - 1) 0
        then _ else i - 1) = i - 1
      rw [getD_replicate n a i hin, getD_replicate n a (i - 1) hi1]
      simp
    show (if i < (List.replicate n a).length then _ else arr).getD m 0 = m % 256
    rw [if_pos hin']
    simp only [hres, getD_replicate n a i hin, getD_replicate n a (i - 1) hi1, ite_true]
    have hstep : i - 1 + 1 = i := by omega
    rw [hstep]
    rcases Nat.lt_or_ge i m with hlt | hge
    · exact ih (i + 1) (arr.set i (i % 256)) (by omega)
        (by rw [List.length_set]; exact hlen) (by omega) m hlt hmn
    · have hmi : m = i := Nat.le_antisymm hge him
      subst hmi
      rw [failLoop_lower _ _ _ _ _ m (Nat.lt_succ_self m)]
      rw [getD_set_self _ _ _ (by rw [hlen]; exact hmn)]

theorem normGo_normGo : ∀ p : Str,
    normGo false (normGo false p) = normGo false p ∧
    normGo true (normGo true p) = normGo true p := by
  intro p
  induction p with
  | nil => exact ⟨rfl, rfl⟩
  | cons c rest ih =>
    by_cases hc : c = WILDCARD
    · subst hc
      have h1 : ∀ l, normGo false (WILDCARD :: l) = WILDCARD :: normGo true l :=
        fun l => by simp [normGo]
      have h2 : ∀ l, normGo true (WILDCARD :: l) = normGo true l := fun l => by simp [normGo]
      refine ⟨?_, ?_⟩
      · rw [h1, h1, ih.2]
      · rw [h2]
        exact ih.2
    · have h1 : ∀ l, normGo false (c :: l) = c :: normGo false l := fun l => by simp [normGo, hc]
      have h2 : ∀ l, normGo true (c :: l) = c :: normGo false l := fun l => by simp [normGo, hc]
      refine ⟨?_, ?_⟩
      · rw [h1, h1, ih.1]
      · rw [h2, h2, ih.1]

/-- C5: normalization (collapsing runs of asterisks) is idempotent, and
it is applied inside the structural operations: inserting the same
handler under a-star-star-b and then under a-star-b resolves to the
same terminal node, whose handler count at a-star-b is 1. -/
theorem c5_normalize_idem :
    (∀ p : Str, normalize (normalize p) = normalize p) ∧ runC5 = some 1 :=
  ⟨fun p => (normGo_normGo p).1, by decide⟩

theorem nodeRemove_miss (st : PM) (t h : Nat)
    (hp : h ∉ (getN st t).permanent.getD [])
    (ht : h ∉ (getN st t).temporary.getD []) :
    nodeRemove st t (some h) = (st, false) := by
  cases hperm : (getN st t).permanent with
  | none =>
    cases htemp : (getN st t).temporary with
    | none => simp [nodeRemove, hperm, htemp]
    | some tl =>
      rw [htemp] at ht
      simp only [Option.getD_some] at ht
      simp [nodeRemove, hperm, htemp, ht]
  | some l =>
    rw [hperm] at hp
    simp only [Option.getD_some] at hp
    cases htemp : (getN st t).temporary with
    | none => simp [nodeRemove, hperm, htemp, hp]
    | some tl =>
      rw [htemp] at ht
      simp only [Option.getD_some] at ht
      simp [nodeRemove, hperm, htemp, hp, ht]

/-- C8: remove is a silent atomic no-op on a miss: whenever the handler
h is not among the handlers enumerated at the (normalized) pattern p,
whether because the pattern is not stored or because h is attached to
neither set of its terminal node, remove returns the state literally
unchanged. -/
theorem c8_remove_noop (st : PM) (fuel : Nat) (p : Str) (h : Nat) (hs : List Nat)
    (hh : handlers st fuel p = some hs) (hm : h ∉ hs) :
    remove st fuel p (some h) = some st := by
  unfold handlers at hh
  unfold remove
  cases hd : descend st fuel 0 (splitStar (normalize p)) [] with
  | none => rw [hd] at hh; cases hh
  | some o =>
    rw [hd] at hh
    cases o with
    | none => rfl
    | some pr =>
      obtain ⟨stk, t⟩ := pr
      have hs_eq : (getN st t).permanent.getD [] ++ (getN st t).temporary.getD [] = hs :=
        Option.some.inj hh
      have hp : h ∉ (getN st t).permanent.getD [] :=
        fun hin => hm (hs_eq ▸ List.mem_append_left _ hin)
      have ht' : h ∉ (getN st t).temporary.getD [] :=
        fun hin => hm (hs_eq ▸ List.mem_append_right _ hin)
      simp [nodeRemove_miss st t h hp ht']

theorem c8_witness :
    handlers c4St 20 [ca, WILDCARD, cb] = some [5] ∧ (9 : Nat) ∉ [5] ∧
    remove c4St 20 [ca, WILDCARD, cb] (some 9) = some c4St :=
  ⟨by decide, by decide, c8_remove_noop c4St 20 [ca, WILDCARD, cb] 9 [5] (by decide) (by decide)⟩

set_option maxRecDepth 4000 in
/-- C7: getFailure is not the standard KMP failure table for labels of
every length: on a label of 257 equal characters the table entry at
index 256 is 0 (the Uint8Array store truncates 256 modulo 256), while
the longest proper prefix of the whole label that is also its suffix
has length 256. -/
theorem c7_uint8_overflow :
    (getFailure c7St 0).2.getD 256 0 = 0 ∧
    List.replicate 256 ca <+: List.replicate 257 ca ∧
    List.replicate 256 ca <:+ List.replicate 257 ca ∧
    (List.replicate 256 ca).length = 256 ∧
    (List.replicate 257 ca).length = 257 := by
  refine ⟨?_, ⟨[ca], (List.replicate_succ' 256 ca).symm⟩,
    ⟨[ca], (List.replicate_succ ca 256).symm⟩, List.length_replicate .., List.length_replicate ..⟩
  show (failCompute (List.replicate 257 ca)).getD 256 0 = 0
  have hlen : (List.replicate 257 ca).length = 257 := List.length_replicate ..
  show (failLoop (List.replicate 257 ca) ((List.replicate 257 ca).length + 1) 1 0
    (List.replicate (List.replicate 257 ca).length 0)).getD 256 0 = 0
  rw [hlen]
  have H := failLoop_replicate 257 ca (257 + 1) 1 (List.replicate 257 0) (Nat.le_refl 1)
    (List.length_replicate ..) (by omega) 256 (by omega) (by omega)
  have H0 : (failLoop (List.replicate 257 ca) (257 + 1) 1 0
      (List.replicate 257 0)).getD 256 0 = 256 % 256 := H
  exact H0.trans (Nat.mod_self 256)

theorem rtree_mutual_ind (M1 : RTree → Prop) (M2 : RTreeL → Prop) (M3 : RTreeO → Prop)
    (hnode : ∀ nid lbl has cs w, M2 cs → M3 w → M1 (.node nid lbl has cs w))
    (hnil : M2 .nil)
    (hcons : ∀ k r rs, M1 r → M2 rs → M2 (.cons k r rs))
    (hnone : M3 .none)
    (hsome : ∀ r, M1 r → M3 (.some r)) :
    (∀ r, M1 r) ∧ (∀ cs, M2 cs) ∧ (∀ w, M3 w) :=
  ⟨fun r => @RTree.rec M1 M2 M3 hnode hnil hcons hnone hsome r,
   fun cs => @RTreeL.rec M1 M2 M3 hnode hnil hcons hnone hsome cs,
   fun w => @RTreeO.rec M1 M2 M3 hnode hnil hcons hnone hsome w⟩

theorem stackAgrees_append (st : PM) : ∀ (L1 : List (Str × Nat)) (A1 : List (Str × RTree))
    (L2 : List (Str × Nat)) (A2 : List (Str × RTree)),
    stackAgrees st L1 A1 = true → stackAgrees st L2 A2 = true →
    stackAgrees st (L1 ++ L2) (A1 ++ A2) = true := by
  intro L1
  induction L1 with
  | nil =>
    intro A1 L2 A2 h1 h2
    cases A1 with
    | nil => simpa using h2
    | cons a A => simp [stackAgrees] at h1
  | cons x L ih =>
    intro A1 L2 A2 h1 h2
    obtain ⟨pfx, n⟩ := x
    cases A1 with
    | nil => simp [stackAgrees] at h1
    | cons a A =>
      obtain ⟨pfx2, r⟩ := a
      simp only [stackAgrees, Bool.and_eq_true] at h1
      simp only [List.cons_append, stackAgrees, Bool.and_eq_true]
      exact ⟨h1.1, ih A L2 A2 h1.2 h2⟩

theorem stackAgrees_reverse (st : PM) : ∀ (L : List (Str × Nat)) (A : List (Str × RTree)),
    stackAgrees st L A = true → stackAgrees st L.reverse A.reverse = true := by
  intro L
  induction L with
  | nil =>
    intro A h
    cases A with
    | nil => exact h
    | cons a A => simp [stackAgrees] at h
  | cons x L ih =>
    intro A h
    obtain ⟨pfx, n⟩ := x
    cases A with
    | nil => simp [stackAgrees] at h
    | cons a A =>
      obtain ⟨pfx2, r⟩ := a
      simp only [stackAgrees, Bool.and_eq_true] at h
      simp only [List.reverse_cons]
      exact stackAgrees_append st L.reverse A.reverse [(pfx, n)] [(pfx2, r)] (ih A h.2)
        (by simp [stackAgrees, h.1.1, h.1.2])

theorem stackAgrees_children (st : PM) (pfx : Str) : ∀ (m : List (Nat × Nat)) (cs : RTreeL),
    agreesL st m cs = true →
    stackAgrees st (m.map (fun kv => (pfx, kv.2))) (csToStack pfx cs) = true := by
  intro m
  induction m with
  | nil =>
    intro cs h
    cases cs with
    | nil => rfl
    | cons k r rs => simp [agreesL] at h
  | cons kv m ih =>
    intro cs h
    obtain ⟨k, cid⟩ := kv
    cases cs with
    | nil => simp [agreesL] at h
    | cons k2 r rs =>
      simp only [agreesL, Bool.and_eq_true] at h
      simp only [List.map_cons, csToStack, stackAgrees, Bool.and_eq_true]
      exact ⟨⟨beq_self_eq_true pfx, h.1.2⟩, ih rs h.2⟩

theorem stackDfs_append : ∀ (A1 A2 : List (Str × RTree)),
    stackDfs (A1 ++ A2) = stackDfs A1 ++ stackDfs A2 := by
  intro A1
  induction A1 with
  | nil => intro A2; rfl
  | cons a A ih =>
    intro A2
    obtain ⟨pfx, r⟩ := a
    simp [stackDfs, ih, List.append_assoc]

theorem stackDfs_csToStack (pfx : Str) : ∀ (cs : RTreeL),
    stackDfs (csToStack pfx cs).reverse = RTreeL.dfs pfx cs :=
  (rtree_mutual_ind (fun _ => True)
    (fun cs => stackDfs (csToStack pfx cs).reverse = RTreeL.dfs pfx cs)
    (fun _ => True)
    (fun _ _ _ _ _ _ _ => trivial)
    rfl
    (fun k r rs _ ih => by
      simp only [csToStack, List.reverse_cons, stackDfs_append, ih, RTreeL.dfs, stackDfs,
        List.append_nil])
    trivial
    (fun _ _ => trivial)).2.1

theorem stackSize_append : ∀ (A1 A2 : List (Str × RTree)),
    stackSize (A1 ++ A2) = stackSize A1 + stackSize A2 := by
  intro A1
  induction A1 with
  | nil => intro A2; simp [stackSize]
  | cons a A ih =>
    intro A2
    obtain ⟨pfx, r⟩ := a
    show RTree.size r + stackSize (A ++ A2) = RTree.size r + stackSize A + stackSize A2
    rw [ih]
    omega

theorem stackSize_reverse : ∀ (A : List (Str × RTree)),
    stackSize A.reverse = stackSize A := by
  intro A
  induction A with
  | nil => rfl
  | cons a A ih =>
    obtain ⟨pfx, r⟩ := a
    simp [List.reverse_cons, stackSize_append, ih, stackSize]
    omega

theorem stackSize_csToStack (pfx : Str) : ∀ (cs : RTreeL),
    stackSize (csToStack pfx cs) = RTreeL.size cs :=
  (rtree_mutual_ind (fun _ => True)
    (fun cs => stackSize (csToStack pfx cs) = RTreeL.size cs)
    (fun _ => True)
    (fun _ _ _ _ _ _ _ => trivial)
    rfl
    (fun k r rs _ ih => by simp [csToStack, stackSize, RTreeL.size, ih])
    trivial
    (fun _ _ => trivial)).2.1

theorem patternsGo_dfs (st : PM) : ∀ (k : Nat) (L : List (Str × Nat))
    (A : List (Str × RTree)) (out : List Str),
    stackAgrees st L A = true → stackSize A < k →
    patternsGo st k L out = some (out ++ stackDfs A) := by
  intro k
  induction k with
  | zero => intro L A out _ hs; omega
  | succ k ih =>
    intro L A out hag hs
    cases L with
    | nil =>
      cases A with
      | nil => simp [patternsGo, stackDfs]
      | cons a A => simp [stackAgrees] at hag
    | cons x L2 =>
      obtain ⟨pfx, n⟩ := x
      cases A with
      | nil => simp [stackAgrees] at hag
      | cons a A2 =>
        obtain ⟨pfx2, r⟩ := a
        obtain ⟨nid, lbl, has, cs, w⟩ := r
        simp only [stackAgrees, Bool.and_eq_true, beq_iff_eq] at hag
        obtain ⟨⟨hpfx, hagr⟩, hrest⟩ := hag
        subst hpfx
        simp only [agrees, Bool.and_eq_true, beq_iff_eq] at hagr
        obtain ⟨⟨⟨⟨⟨⟨⟨hnid, hlbl⟩, hhas⟩, hperm⟩, htemp⟩, hch⟩, hagL⟩, hagO⟩ := hagr
        have hcond : ((getN st n).temporary.isSome ∨ (getN st n).permanent.isSome) ↔
            has = true := by
          rw [← hhas]
          cases (getN st n).temporary.isSome <;> cases (getN st n).permanent.isSome <;> simp
        have hagPush := stackAgrees_reverse st _ _
          (stackAgrees_children st (pfx ++ lbl) ((getN st n).children.getD []) cs hagL)
        have hsz : stackSize ((csToStack (pfx ++ lbl) cs).reverse) = RTreeL.size cs := by
          rw [stackSize_reverse, stackSize_csToStack]
        have hdfsPush := stackDfs_csToStack (pfx ++ lbl) cs
        simp only [RTree.size, stackSize] at hs
        cases hw : (getN st n).wildcard with
        | none =>
          cases w with
          | some rw2 => rw [hw] at hagO; simp [agreesO] at hagO
          | none =>
            have hagNew : stackAgrees st
                ((((getN st n).children.getD []).map
                  (fun kv => (pfx ++ lbl, kv.2))).reverse ++ L2)
                ((csToStack (pfx ++ lbl) cs).reverse ++ A2) = true := by
              have := stackAgrees_append st _ _ L2 A2 hagPush hrest
              simpa using this
            have hszNew : stackSize ((csToStack (pfx ++ lbl) cs).reverse ++ A2) < k := by
              rw [stackSize_append, hsz]
              simp only [RTreeO.size] at hs
              omega
            simp only [patternsGo, hlbl, hw]
            rw [ih _ _ _ hagNew hszNew]
            rw [stackDfs_append, hdfsPush]
            simp only [stackDfs, RTree.dfs, RTreeO.dfs, List.append_nil]
            cases has with
            | false =>
              have hcnot : ¬((getN st n).temporary.isSome = true ∨
                  (getN st n).permanent.isSome = true) := by
                rw [hcond]
                simp
              rw [if_neg hcnot]
              simp [List.append_assoc]
            | true =>
              rw [if_pos (hcond.mpr rfl)]
              simp [List.append_assoc]
        | some wn =>
          cases w with
          | none => rw [hw] at hagO; simp [agreesO] at hagO
          | some rw2 =>
            rw [hw] at hagO
            simp only [agreesO] at hagO
            have hagNew : stackAgrees st
                ((((getN st n).children.getD []).map
                  (fun kv => (pfx ++ lbl, kv.2))).reverse ++
                  ((pfx ++ lbl ++ [WILDCARD], wn) :: L2))
                ((csToStack (pfx ++ lbl) cs).reverse ++
                  ((pfx ++ lbl ++ [WILDCARD], rw2) :: A2)) = true := by
              have hcons : stackAgrees st ((pfx ++ lbl ++ [WILDCARD], wn) :: L2)
                  ((pfx ++ lbl ++ [WILDCARD], rw2) :: A2) = true := by
                simp only [stackAgrees, Bool.and_eq_true]
                exact ⟨⟨beq_self_eq_true _, hagO⟩, hrest⟩
              have := stackAgrees_append st _ _ _ _ hagPush hcons
              simpa using this
            have hszNew : stackSize ((csToStack (pfx ++ lbl) cs).reverse ++
                ((pfx ++ lbl ++ [WILDCARD], rw2) :: A2)) < k := by
              rw [stackSize_append, hsz]
              simp only [stackSize, RTreeO.size] at hs ⊢
              omega
            simp only [patternsGo, hlbl, hw]
            rw [ih _ _ _ hagNew hszNew]
            rw [stackDfs_append, hdfsPush]
            simp only [stackDfs, RTree.dfs, RTreeO.dfs]
            cases has with
            | false =>
              have hcnot : ¬((getN st n).temporary.isSome = true ∨
                  (getN st n).permanent.isSome = true) := by
                rw [hcond]
                simp
              rw [if_neg hcnot]
              simp [List.append_assoc]
            | true =>
              rw [if_pos (hcond.mpr rfl)]
              simp [List.append_assoc]

/-- C9: pattern enumeration.  Whenever the trie agrees with an abstract
tree (agrees carries the null-or-non-empty field discipline), patterns
returns exactly the depth-first enumeration of that tree: one string
per node whose handler sets are non-null, the string being the
concatenation of the edge labels along the path from the root, with the
wildcard character inserted at every wildcard transition. -/
theorem c9_patterns_dfs (st : PM) (r : RTree) (hag : agrees st 0 r = true) :
    patterns st (RTree.size r + 1) = some (RTree.dfs [] r) := by
  have h := patternsGo_dfs st (RTree.size r + 1) [([], 0)] [([], r)] []
    (by simp [stackAgrees, hag]) (by simp only [stackSize]; omega)
  simpa [patterns, stackDfs] using h

theorem c9_witness :
    agrees c4St 0 c9Rep = true ∧
    patterns c4St (RTree.size c9Rep + 1) = some (RTree.dfs [] c9Rep) :=
  ⟨by decide, c9_patterns_dfs c4St c9Rep (by decide)⟩

/-- C3: round-trip.  For every pattern p and handler h, starting from
the empty trie, insert(p, h, permanent) followed by remove(p, h)
succeeds and yields a trie whose root is again an empty tip, so
patterns() is empty, every handlers()/handlersCount() lookup is
empty/zero, and every dispatch returns false firing nothing. -/
theorem c3_roundtrip (p : Str) (h f : Nat) :
    ∃ stH stF, insert pmEmpty (f + 2) p h false = some stH ∧
      remove stH (f + 2) p (some h) = some stF ∧
      getN stF 0 = NodeData.mk0 [] ∧
      patterns stF 2 = some [] ∧
      (∀ q g, handlersCount stF (g + 2) q = some 0) ∧
      (∀ q g, handlers stF (g + 2) q = some []) ∧
      (∀ n g, call stF (g + 2) n = some (stF, [], false)) := by
  obtain ⟨stI, term, patT, STK, stF, hIns, htipI, _, _, _, _, hdesc, hunw, htipF, _⟩ :=
    chain_roundtrip (splitStar (normalize p)) pmEmpty 0 [] h f rfl (Nat.lt_succ_self 0)
  have hroot : getN stF 0 = NodeData.mk0 [] := htipF
  refine ⟨setN stI term ⟨patT, none, some [h], none, none, none⟩, stF, ?_, ?_, hroot,
    patterns_empty_root stF hroot, fun q g => handlersCount_empty_root stF hroot q g,
    fun q g => handlers_empty_root stF hroot q g,
    fun n g => call_empty_root stF hroot n g⟩
  · unfold insert
    rw [hIns]
    unfold IsTip at htipI
    simp [htipI, NodeData.mk0, setAdd]
  · have hterm : getN (setN stI term ⟨patT, none, some [h], none, none, none⟩) term
        = ⟨patT, none, some [h], none, none, none⟩ := getN_setN_self ..
    have hnr : nodeRemove (setN stI term ⟨patT, none, some [h], none, none, none⟩) term (some h)
        = (setN stI term (NodeData.mk0 patT), true) := by
      simp [nodeRemove, hterm, NodeData.mk0, setN_setN]
    have hsh : shrink (setN stI term (NodeData.mk0 patT)) term
        = (setN stI term (NodeData.mk0 patT), true) :=
      shrink_tip _ term patT (getN_setN_self ..)
    have hd := hdesc []
    rw [List.append_nil] at hd
    have hu := hunw []
    rw [List.append_nil] at hu
    unfold remove
    rw [hd]
    simp only [hnr, hsh]
    rw [hu]
    rfl

theorem alGet_mem {α : Type} : ∀ (l : List (Nat × α)) (k : Nat) (v : α),
    alGet l k = some v → (k, v) ∈ l := by
  intro l
  induction l with
  | nil => intro k v h; cases h
  | cons kv rest ih =>
    intro k v h
    obtain ⟨k2, v2⟩ := kv
    simp only [alGet] at h
    by_cases hk : k2 = k
    · subst hk
      rw [if_pos rfl] at h
      injection h with h2
      subst h2
      exact List.mem_cons_self _ _
    · rw [if_neg hk] at h
      exact List.mem_cons_of_mem _ (ih k v h)

theorem all_alSet {α : Type} (p : α → Bool) : ∀ (l : List (Nat × α)) (k : Nat) (v : α),
    l.all (fun kv => p kv.2) = true → p v = true →
    (alSet l k v).all (fun kv => p kv.2) = true := by
  intro l
  induction l with
  | nil => intro k v _ hv; simp [alSet, hv]
  | cons kv rest ih =>
    intro k v hl hv
    obtain ⟨k2, v2⟩ := kv
    simp only [List.all_cons, Bool.and_eq_true] at hl
    simp only [alSet]
    by_cases hk : k2 = k
    · rw [if_pos hk]
      simp [List.all_cons, hv, hl.2]
    · rw [if_neg hk]
      simp [List.all_cons, hl.1, ih k v hl.2 hv]

theorem alSet_isEmpty {α : Type} (l : List (Nat × α)) (k : Nat) (v : α) :
    (alSet l k v).isEmpty = false := by
  cases l with
  | nil => rfl
  | cons kv rest =>
    obtain ⟨k2, v2⟩ := kv
    simp only [alSet]
    by_cases hk : k2 = k
    · rw [if_pos hk]; rfl
    · rw [if_neg hk]; rfl

theorem setAdd_isEmpty (s : List Nat) (h : Nat) : (setAdd s h).isEmpty = false := by
  unfold setAdd
  by_cases hm : h ∈ s
  · rw [if_pos hm]
    cases s with
    | nil => cases hm
    | cons a t => rfl
  · rw [if_neg hm]
    cases s with
    | nil => rfl
    | cons a t => rfl

theorem P10_getN (st : PM) (hinv : invP10 st = true) (id : Nat) :
    P10 (getN st id) = true := by
  unfold getN
  cases hg : alGet st.store id with
  | none => rfl
  | some d =>
    have hmem := alGet_mem st.store id d hg
    have h2 := List.all_eq_true.mp hinv (id, d) hmem
    simpa using h2

theorem invP10_setN (st : PM) (i : Nat) (d : NodeData)
    (hinv : invP10 st = true) (hd : P10 d = true) : invP10 (setN st i d) = true :=
  all_alSet _ st.store i d hinv hd

theorem invP10_allocN (st : PM) (d : NodeData)
    (hinv : invP10 st = true) (hd : P10 d = true) : invP10 (alloc st d).2 = true :=
  all_alSet _ st.store st.next d hinv hd

theorem P10_fields (d e : NodeData) (hp : e.permanent = d.permanent)
    (ht : e.temporary = d.temporary) (hc : e.children = d.children)
    (hd : P10 d = true) : P10 e = true := by
  unfold P10 at hd ⊢
  rw [hp, ht, hc]
  exact hd

theorem P10_temp_none (d : NodeData) (hd : P10 d = true) :
    P10 { d with temporary := none } = true := by
  unfold P10 at hd ⊢
  simp only [Bool.and_eq_true] at hd ⊢
  exact ⟨⟨hd.1.1, trivial⟩, hd.2⟩

theorem P10_both_none (d : NodeData) (hd : P10 d = true) :
    P10 { d with permanent := none, temporary := none } = true := by
  unfold P10 at hd ⊢
  simp only [Bool.and_eq_true] at hd ⊢
  exact ⟨⟨trivial, trivial⟩, hd.2⟩

theorem P10_children_some (d : NodeData) (m : List (Nat × Nat)) (hm : m.isEmpty = false)
    (hd : P10 d = true) : P10 { d with children := some m } = true := by
  unfold P10 at hd ⊢
  simp only [Bool.and_eq_true] at hd ⊢
  exact ⟨hd.1, by simp [hm]⟩

theorem P10_children_opt (d : NodeData) (m : List (Nat × Nat)) (hd : P10 d = true) :
    P10 { d with children := if m.length = 0 then none else some m } = true := by
  unfold P10 at hd ⊢
  simp only [Bool.and_eq_true] at hd ⊢
  refine ⟨hd.1, ?_⟩
  cases m with
  | nil => simp
  | cons a t => simp

theorem P10_perm_opt (d : NodeData) (l : List Nat) (hd : P10 d = true) :
    P10 { d with permanent := if l = [] then none else some l } = true := by
  unfold P10 at hd ⊢
  simp only [Bool.and_eq_true] at hd ⊢
  refine ⟨⟨?_, hd.1.2⟩, hd.2⟩
  cases l with
  | nil => simp
  | cons a t => simp

theorem P10_temp_opt (d : NodeData) (l : List Nat) (hd : P10 d = true) :
    P10 { d with temporary := if l = [] then none else some l } = true := by
  unfold P10 at hd ⊢
  simp only [Bool.and_eq_true] at hd ⊢
  refine ⟨⟨hd.1.1, ?_⟩, hd.2⟩
  cases l with
  | nil => simp
  | cons a t => simp

theorem P10_perm_some (d : NodeData) (l : List Nat) (hl : l.isEmpty = false)
    (hd : P10 d = true) : P10 { d with permanent := some l } = true := by
  unfold P10 at hd ⊢
  simp only [Bool.and_eq_true] at hd ⊢
  exact ⟨⟨by simp [hl], hd.1.2⟩, hd.2⟩

theorem P10_temp_some (d : NodeData) (l : List Nat) (hl : l.isEmpty = false)
    (hd : P10 d = true) : P10 { d with temporary := some l } = true := by
  unfold P10 at hd ⊢
  simp only [Bool.and_eq_true] at hd ⊢
  exact ⟨⟨hd.1.1, by simp [hl]⟩, hd.2⟩

theorem P10_parts (d : NodeData) (hd : P10 d = true) :
    (match d.permanent with | Option.none => true | Option.some l => !l.isEmpty) = true ∧
    (match d.temporary with | Option.none => true | Option.some l => !l.isEmpty) = true ∧
    (match d.children with | Option.none => true | Option.some m => !m.isEmpty) = true := by
  simp only [P10, Bool.and_eq_true] at hd
  exact ⟨hd.1.1, hd.1.2, hd.2⟩

theorem P10_build (d : NodeData)
    (hp : (match d.permanent with | Option.none => true | Option.some l => !l.isEmpty) = true)
    (ht : (match d.temporary with | Option.none => true | Option.some l => !l.isEmpty) = true)
    (hc : (match d.children with | Option.none => true | Option.some m => !m.isEmpty) = true) :
    P10 d = true := by
  simp only [P10, Bool.and_eq_true]
  exact ⟨⟨hp, ht⟩, hc⟩

theorem P10_part_ite (l : List Nat) :
    (match (if l = [] then none else some l : Option (List Nat)) with
      | Option.none => true | Option.some l2 => !l2.isEmpty) = true := by
  by_cases hl : l = []
  · rw [if_pos hl]
  · rw [if_neg hl]
    cases l with
    | nil => exact absurd rfl hl
    | cons a t => rfl

theorem invP10_splitNode (st : PM) (id : Nat) (m : Str) (hinv : invP10 st = true) :
    invP10 (splitNode st id m).2 = true := by
  unfold splitNode
  refine invP10_allocN _ _ (invP10_setN _ _ _ hinv ?_) ?_
  · exact P10_fields _ _ rfl rfl rfl (P10_getN st hinv id)
  · rfl

theorem invP10_insertSeg : ∀ (fuel : Nat) (st : PM) (cur : Nat) (seg : Str)
    (st2 : PM) (n : Nat), invP10 st = true →
    insertSeg st cur fuel seg = some (st2, n) → invP10 st2 = true := by
  intro fuel
  induction fuel with
  | zero => intro st cur seg st2 n _ h; cases h
  | succ f ih =>
    intro st cur seg st2 n hinv h
    cases seg with
    | nil =>
      simp only [insertSeg, Option.some.injEq, Prod.mk.injEq] at h
      rw [← h.1]
      exact hinv
    | cons p rest =>
      simp only [insertSeg] at h
      cases hch : alGet ((getN st cur).children.getD []) p with
      | none =>
        simp only [hch, alloc, Option.some.injEq, Prod.mk.injEq] at h
        rw [← h.1]
        refine invP10_setN _ _ _ (invP10_allocN st (NodeData.mk0 (p :: rest)) hinv rfl) ?_
        exact P10_children_some _ _ (alSet_isEmpty _ _ _) (P10_getN st hinv cur)
      | some cid =>
        simp only [hch] at h
        by_cases hm : lcp (getN st cid).pattern (p :: rest) = (getN st cid).pattern
        · rw [if_pos hm] at h
          exact ih _ _ _ _ _ hinv h
        · rw [if_neg hm] at h
          cases hsp : splitNode st cid (lcp (getN st cid).pattern (p :: rest)) with
          | mk pid st1 =>
            simp only [hsp] at h
            have hi1 := invP10_splitNode st cid (lcp (getN st cid).pattern (p :: rest)) hinv
            simp only [hsp] at hi1
            refine ih _ _ _ _ _ ?_ h
            exact invP10_setN _ _ _ hi1
              (P10_children_some _ _ (alSet_isEmpty _ _ _) (P10_getN _ hi1 cur))

theorem invP10_insertGo : ∀ (segs : List Str) (st : PM) (cur fuel : Nat)
    (st2 : PM) (n : Nat), invP10 st = true →
    insertGo st cur fuel segs = some (st2, n) → invP10 st2 = true := by
  intro segs
  induction segs with
  | nil =>
    intro st cur fuel st2 n hinv h
    simp only [insertGo, Option.some.injEq, Prod.mk.injEq] at h
    rw [← h.1]
    exact hinv
  | cons s segs2 ih =>
    intro st cur fuel st2 n hinv h
    cases segs2 with
    | nil => exact invP10_insertSeg fuel st cur s st2 n hinv h
    | cons s2 rest =>
      simp only [insertGo] at h
      cases hseg : insertSeg st cur fuel s with
      | none => simp only [hseg] at h; cases h
      | some pr =>
        obtain ⟨st1, n1⟩ := pr
        simp only [hseg] at h
        have hinv1 := invP10_insertSeg fuel st cur s st1 n1 hinv hseg
        cases hw : (getN st1 n1).wildcard with
        | some w =>
          simp only [hw] at h
          exact ih st1 w fuel st2 n hinv1 h
        | none =>
          simp only [hw, alloc] at h
          refine ih _ _ _ _ _ ?_ h
          refine invP10_setN _ _ _ (invP10_allocN st1 (NodeData.mk0 []) hinv1 rfl) ?_
          exact P10_fields _ _ rfl rfl rfl
            (P10_getN _ (invP10_allocN st1 (NodeData.mk0 []) hinv1 rfl) n1)

theorem invP10_insert (st : PM) (fuel : Nat) (p : Str) (h : Nat) (t : Bool) (st2 : PM)
    (hinv : invP10 st = true) (heq : insert st fuel p h t = some st2) :
    invP10 st2 = true := by
  unfold insert at heq
  cases hgo : insertGo st 0 fuel (splitStar (normalize p)) with
  | none => simp only [hgo] at heq; cases heq
  | some pr =>
    obtain ⟨st1, n⟩ := pr
    simp only [hgo] at heq
    have hinv1 := invP10_insertGo _ _ _ _ _ _ hinv hgo
    cases t with
    | true =>
      rw [if_pos rfl] at heq
      injection heq with h2
      rw [← h2]
      exact invP10_setN _ _ _ hinv1
        (P10_temp_some _ _ (setAdd_isEmpty _ _) (P10_getN _ hinv1 n))
    | false =>
      rw [if_neg Bool.false_ne_true] at heq
      injection heq with h2
      rw [← h2]
      exact invP10_setN _ _ _ hinv1
        (P10_perm_some _ _ (setAdd_isEmpty _ _) (P10_getN _ hinv1 n))

theorem invP10_nodeRemove (st : PM) (id : Nat) (h : Option Nat)
    (hinv : invP10 st = true) : invP10 (nodeRemove st id h).1 = true := by
  have hd := P10_getN st hinv id
  cases h with
  | none =>
    simp only [nodeRemove]
    by_cases hc : (getN st id).permanent = none ∧ (getN st id).temporary = none
    · rw [if_pos hc]
      exact hinv
    · rw [if_neg hc]
      exact invP10_setN _ _ _ hinv (P10_both_none _ hd)
  | some h =>
    simp only [nodeRemove]
    cases hp : (getN st id).permanent with
    | some l =>
      simp only []
      by_cases hm : h ∈ l
      · rw [if_pos hm]
        refine invP10_setN _ _ _ hinv (P10_build _ (P10_part_ite _) ?_ ?_)
        · exact (P10_parts _ hd).2.1
        · exact (P10_parts _ hd).2.2
      · rw [if_neg hm]
        cases ht : (getN st id).temporary with
        | some tl =>
          simp only []
          by_cases hmt : h ∈ tl
          · rw [if_pos hmt]
            refine invP10_setN _ _ _ hinv (P10_build _ ?_ (P10_part_ite _) ?_)
            · have hx := (P10_parts _ hd).1
              rw [hp] at hx
              exact hx
            · exact (P10_parts _ hd).2.2
          · rw [if_neg hmt]
            exact hinv
        | none => exact hinv
    | none =>
      simp only []
      cases ht : (getN st id).temporary with
      | some tl =>
        simp only []
        by_cases hmt : h ∈ tl
        · rw [if_pos hmt]
          refine invP10_setN _ _ _ hinv (P10_build _ ?_ (P10_part_ite _) ?_)
          · rfl
          · exact (P10_parts _ hd).2.2
        · rw [if_neg hmt]
          exact hinv
      | none => exact hinv

theorem invP10_shrink (st : PM) (id : Nat) (hinv : invP10 st = true) :
    invP10 (shrink st id).1 = true := by
  simp only [shrink]
  by_cases h1 : ((getN st id).permanent.getD []).length ≠ 0
  · rw [if_pos h1]
    exact hinv
  · rw [if_neg h1]
    by_cases h2 : ((getN st id).temporary.getD []).length ≠ 0
    · rw [if_pos h2]
      exact hinv
    · rw [if_neg h2]
      by_cases h3 : (getN st id).wildcard.isSome = true
      · rw [if_pos h3]
        exact hinv
      · rw [if_neg h3]
        cases hc : (getN st id).children with
        | none => exact hinv
        | some m =>
          simp only []
          by_cases h4 : m.length > 1
          · rw [if_pos h4]
            exact hinv
          · rw [if_neg h4]
            by_cases h5 : (getN st id).pattern = []
            · rw [if_pos h5]
              exact hinv
            · rw [if_neg h5]
              cases m with
              | nil => exact hinv
              | cons kv m2 =>
                obtain ⟨kk, cid⟩ := kv
                exact invP10_setN _ _ _ hinv
                  (P10_fields _ _ rfl rfl rfl (P10_getN st hinv cid))

theorem invP10_removeUnwind : ∀ (stk : List (Option Nat × Nat)) (st : PM),
    invP10 st = true → invP10 (removeUnwind st stk) = true := by
  intro stk
  induction stk with
  | nil => intro st hinv; exact hinv
  | cons e rest ih =>
    intro st hinv
    obtain ⟨pfxKey, cur⟩ := e
    simp only [removeUnwind]
    have hmain : ∀ (st1 : PM), invP10 st1 = true →
        invP10 (if (shrink st1 cur).2 = true then removeUnwind (shrink st1 cur).1 rest
          else (shrink st1 cur).1) = true := by
      intro st1 h1
      by_cases hsh : (shrink st1 cur).2 = true
      · rw [if_pos hsh]
        exact ih _ (invP10_shrink st1 cur h1)
      · rw [if_neg hsh]
        exact invP10_shrink st1 cur h1
    cases pfxKey with
    | none =>
      simp only []
      cases hw : (getN st cur).wildcard with
      | some w =>
        simp only []
        by_cases he : isEmptyN (getN st w) = true
        · rw [if_pos he]
          exact hmain _ (invP10_setN _ _ _ hinv
            (P10_fields _ _ rfl rfl rfl (P10_getN st hinv cur)))
        · rw [if_neg he]
          exact hmain _ hinv
      | none => exact hmain _ hinv
    | some p =>
      simp only []
      cases hc : (getN st cur).children with
      | some m =>
        simp only []
        cases hg : alGet m p with
        | some cid =>
          simp only []
          by_cases he : isEmptyN (getN st cid) = true
          · rw [if_pos he]
            exact hmain _ (invP10_setN _ _ _ hinv
              (P10_children_opt _ _ (P10_getN st hinv cur)))
          · rw [if_neg he]
            exact hmain _ hinv
        | none => exact hmain _ hinv
      | none => exact hmain _ hinv

theorem invP10_remove (st : PM) (fuel : Nat) (p : Str) (h : Option Nat) (st2 : PM)
    (hinv : invP10 st = true) (heq : remove st fuel p h = some st2) :
    invP10 st2 = true := by
  unfold remove at heq
  cases hdsc : descend st fuel 0 (splitStar (normalize p)) [] with
  | none => simp only [hdsc] at heq; cases heq
  | some o =>
    simp only [hdsc] at heq
    cases o with
    | none =>
      injection heq with h2
      rw [← h2]
      exact hinv
    | some pr =>
      obtain ⟨stk, t⟩ := pr
      have h1 := invP10_nodeRemove st t h hinv
      cases hnr : nodeRemove st t h with
      | mk st1 removed =>
        simp only [hnr] at heq h1
        cases removed with
        | false =>
          rw [if_neg Bool.false_ne_true] at heq
          injection heq with h2
          rw [← h2]
          exact h1
        | true =>
          have h2 := invP10_shrink st1 t h1
          cases hsh : shrink st1 t with
          | mk stS b =>
            simp only [hsh] at heq h2
            cases b with
            | true =>
              rw [if_pos rfl] at heq
              injection heq with h3
              rw [← h3]
              exact invP10_removeUnwind stk stS h2
            | false =>
              rw [if_neg Bool.false_ne_true] at heq
              injection heq with h3
              rw [← h3]
              exact h2

theorem invP10_getFailure (st : PM) (id : Nat) (hinv : invP10 st = true) :
    invP10 (getFailure st id).1 = true := by
  simp only [getFailure]
  cases hf : (getN st id).failure with
  | some f => exact hinv
  | none =>
    exact invP10_setN _ _ _ hinv (P10_fields _ _ rfl rfl rfl (P10_getN st hinv id))

theorem invP10_kmpChildOne (st : PM) (w : Nat) (rem : Str) (cid : Nat)
    (hinv : invP10 st = true) : invP10 (kmpChildOne st w rem cid).1 = true := by
  simp only [kmpChildOne]
  cases hgf : getFailure st cid with
  | mk st1 fl =>
    have h1 := invP10_getFailure st cid hinv
    simp only [hgf] at h1
    simp only [hgf]
    exact h1

theorem invP10_kmpChildren (w : Nat) (rem : Str) : ∀ (l : List (Nat × Nat)) (st : PM),
    invP10 st = true → invP10 (kmpChildren st w rem l).1 = true := by
  intro l
  induction l with
  | nil => intro st hinv; exact hinv
  | cons kv rest ih =>
    intro st hinv
    simp only [kmpChildren]
    cases h1 : kmpChildOne st w rem kv.2 with
    | mk st1 items =>
      have hi1 := invP10_kmpChildOne st w rem kv.2 hinv
      simp only [h1] at hi1
      simp only [h1]
      cases h2 : kmpChildren st1 w rem rest with
      | mk stB items2 =>
        have hi2 := ih st1 hi1
        simp only [h2] at hi2
        simp only [h2]
        exact hi2

theorem invP10_discoverGo : ∀ (fuel : Nat) (st : PM) (search : List SearchItem)
    (branches : List (List Entry)) (st2 : PM) (out : List (List Entry)),
    invP10 st = true → discoverGo st fuel search branches = some (st2, out) →
    invP10 st2 = true := by
  intro fuel
  induction fuel with
  | zero => intro st search branches st2 out _ h; cases h
  | succ f ih =>
    intro st search branches st2 out hinv h
    cases search with
    | nil =>
      simp only [discoverGo, Option.some.injEq, Prod.mk.injEq] at h
      rw [← h.1]
      exact hinv
    | cons item search2 =>
      obtain ⟨rem, cur, stk⟩ := item
      simp only [discoverGo] at h
      cases rem with
      | nil => exact ih _ _ _ _ _ hinv h
      | cons p rem2 =>
        cases hw : (getN st cur).wildcard with
        | none =>
          simp only [hw] at h
          cases hc : alGet ((getN st cur).children.getD []) p with
          | some cid =>
            simp only [hc] at h
            by_cases hp2 : (getN st cid).pattern.isPrefixOf (p :: rem2) = true
            · rw [if_pos hp2] at h
              exact ih _ _ _ _ _ hinv h
            · rw [if_neg hp2] at h
              exact ih _ _ _ _ _ hinv h
          | none =>
            simp only [hc] at h
            exact ih _ _ _ _ _ hinv h
        | some w =>
          simp only [hw] at h
          cases hkc : kmpChildren st w (p :: rem2) ((getN st w).children.getD []) with
          | mk stK items =>
            simp only [hkc] at h
            have hiK := invP10_kmpChildren w (p :: rem2) ((getN st w).children.getD []) st hinv
            simp only [hkc] at hiK
            exact ih _ _ _ _ _ hiK h

theorem invP10_invokeEntry (st : PM) (e : Entry) (fired : List Nat) (called : Bool)
    (hinv : invP10 st = true) : invP10 (invokeEntry st e fired called).st = true := by
  obtain ⟨ekey, cur⟩ := e
  simp only [invokeEntry]
  refine invP10_shrink _ _ ?_
  cases hw : (getN st cur).wildcard with
  | none =>
    simp only []
    cases ekey with
    | none =>
      simp only []
      by_cases ht : (getN st cur).temporary.isSome = true
      · rw [if_pos ht]
        exact invP10_setN _ _ _ hinv (P10_temp_none _ (P10_getN st hinv cur))
      · rw [if_neg ht]
        exact hinv
    | some p =>
      simp only []
      cases hc : (getN st cur).children with
      | none => exact hinv
      | some m =>
        simp only []
        cases hg : alGet m p with
        | none => exact hinv
        | some cid =>
          simp only []
          by_cases he : isEmptyN (getN st cid) = true
          · rw [if_pos he]
            exact invP10_setN _ _ _ hinv (P10_children_opt _ _ (P10_getN st hinv cur))
          · rw [if_neg he]
            exact hinv
  | some w =>
    simp only []
    set stA := (if (getN st w).temporary.isSome = true then
        setN st w ⟨(getN st w).pattern, (getN st w).children, (getN st w).permanent, none,
          (getN st w).wildcard, (getN st w).failure⟩ else st) with hstA
    have hA : invP10 stA = true := by
      rw [hstA]
      by_cases ht : (getN st w).temporary.isSome = true
      · rw [if_pos ht]
        exact invP10_setN _ _ _ hinv (P10_temp_none _ (P10_getN st hinv w))
      · rw [if_neg ht]
        exact hinv
    set stB := (if isEmptyN (getN stA w) = true then
        setN stA cur ⟨(getN stA cur).pattern, (getN stA cur).children, (getN stA cur).permanent,
          (getN stA cur).temporary, none, (getN stA cur).failure⟩ else stA) with hstB
    have hB : invP10 stB = true := by
      rw [hstB]
      by_cases he : isEmptyN (getN stA w) = true
      · rw [if_pos he]
        exact invP10_setN _ _ _ hA (P10_fields _ _ rfl rfl rfl (P10_getN _ hA cur))
      · rw [if_neg he]
        exact hA
    cases ekey with
    | none =>
      simp only []
      by_cases ht2 : (getN stB cur).temporary.isSome = true
      · rw [if_pos ht2]
        exact invP10_setN _ _ _ hB (P10_temp_none _ (P10_getN stB hB cur))
      · rw [if_neg ht2]
        exact hB
    | some p =>
      simp only []
      cases hc : (getN stB cur).children with
      | none => exact hB
      | some m =>
        simp only []
        cases hg : alGet m p with
        | none => exact hB
        | some cid =>
          simp only []
          by_cases he2 : isEmptyN (getN stB cid) = true
          · rw [if_pos he2]
            exact invP10_setN _ _ _ hB (P10_children_opt _ _ (P10_getN stB hB cur))
          · rw [if_neg he2]
            exact hB

theorem invP10_invokeStack : ∀ (stk : List Entry) (st : PM) (fired : List Nat)
    (called : Bool), invP10 st = true →
    invP10 (invokeStack st stk fired called).1 = true := by
  intro stk
  induction stk with
  | nil => intro st fired called hinv; exact hinv
  | cons e rest ih =>
    intro st fired called hinv
    simp only [invokeStack]
    have h1 := invP10_invokeEntry st e fired called hinv
    by_cases hok : (invokeEntry st e fired called).ok = true
    · rw [if_pos hok]
      exact ih _ _ _ h1
    · rw [if_neg hok]
      exact h1

theorem invP10_invokeBranches : ∀ (bs : List (List Entry)) (st : PM) (fired : List Nat)
    (called : Bool), invP10 st = true →
    invP10 (invokeBranches st bs fired called).1 = true := by
  intro bs
  induction bs with
  | nil => intro st fired called hinv; exact hinv
  | cons stk rest ih =>
    intro st fired called hinv
    simp only [invokeBranches]
    exact ih _ _ _ (invP10_invokeStack stk st fired called hinv)

theorem invP10_call (st : PM) (fuel : Nat) (n : Str) (st2 : PM) (out : List Nat × Bool)
    (hinv : invP10 st = true) (heq : call st fuel n = some (st2, out)) :
    invP10 st2 = true := by
  unfold call at heq
  cases hdg : discoverGo st fuel [(n, 0, [])] [] with
  | none => simp only [hdg] at heq; cases heq
  | some pr =>
    obtain ⟨st1, branches⟩ := pr
    simp only [hdg] at heq
    have h1 := invP10_discoverGo fuel st _ _ _ _ hinv hdg
    injection heq with h2
    have h3 := invP10_invokeBranches branches st1 [] false h1
    rw [h2] at h3
    exact h3

/-- The representation discipline over the value-copy heap: in every
PM state reachable from the empty trie by insert, remove and dispatch,
every node ever written has its permanent set, temporary set and
children map each null or non-empty (invP10).  This holds only because
the PM heap copies the absorbed child's collections at a shrink-merge;
the source assigns the same Map and Set objects, and the
reference-faithful run c10_alias_empty_map shows the discipline
failing in the program. -/
theorem c10_invariant (st : PM) (hev : Evolves st) : invP10 st = true := by
  induction hev with
  | empty => decide
  | ins hev heq ih => exact invP10_insert _ _ _ _ _ _ ih heq
  | rem hev heq ih => exact invP10_remove _ _ _ _ _ ih heq
  | disp hev heq ih => exact invP10_call _ _ _ _ _ ih heq

theorem c10_witness : invP10 c4St = true :=
  c10_invariant c4St
    (@Evolves.ins pmEmpty c4St 100 [ca, WILDCARD, cb] 5 false Evolves.empty (by decide))

/-- C10: the representation invariant fails in the source.  Over the
reference-faithful heap, inserting one-shots 1, 2 and 3 under
star-b-f-star, star-b-e-x and star-b-e-x-y and dispatching
b-f-z-b-e-x-y fires handlers 1 and 3 and returns true without
throwing, but leaves the live merged node 4 (reached root, wildcard
node 1, literal child b; label b-e-x) with children pointing at map 2,
which the stale trail entry has emptied: an allocated empty map on a
live node, which the claim says never occurs.  A following dispatch of
b-e-x then fires handler 2 and throws the TypeError of shrink reading
the first value of the empty map. -/
theorem c10_alias_empty_map :
    runC10A.map (fun r => (r.1.2.1, r.1.2.2, r.2)) = some ([1, 3], true, false) ∧
    (agetN c10ASt 0).wildcard = some 1 ∧
    (agetN c10ASt 1).children = some 0 ∧
    alGet (mgetAll c10ASt 0) cb = some 4 ∧
    (agetN c10ASt 4).pattern = [cb, ce, cx] ∧
    (agetN c10ASt 4).children = some 2 ∧
    mgetAll c10ASt 2 = [] ∧
    (acall c10ASt 100 [cb, ce, cx]).map (fun r => (r.1.2.1, r.2)) =
      some ([2], true) := by decide

theorem okX_mono (x : Option Nat) :
    (∀ r : RTree, RTree.okX none r = true → RTree.okX x r = true) ∧
    (∀ cs : RTreeL, RTreeL.okX none cs = true → RTreeL.okX x cs = true) ∧
    (∀ w : RTreeO, RTreeO.okX none w = true → RTreeO.okX x w = true) := by
  refine rtree_mutual_ind _ _ _ ?_ ?_ ?_ ?_ ?_
  · intro nid lbl has cs w ihc ihw h
    simp only [RTree.okX, Bool.and_eq_true, Bool.or_eq_true] at h ⊢
    obtain ⟨⟨h1, h2⟩, h3⟩ := h
    refine ⟨⟨?_, ihc h2⟩, ihw h3⟩
    rcases h1 with h1 | h1
    · rcases h1 with h1 | h1
      · exact absurd h1 (by simp)
      · exact Or.inl (Or.inr h1)
    · exact Or.inr h1
  · intro h
    exact h
  · intro k r rs ihr ihrs h
    simp only [RTreeL.okX, Bool.and_eq_true, Bool.or_eq_true] at h ⊢
    obtain ⟨⟨⟨h1, h2⟩, h3⟩, h4⟩ := h
    refine ⟨⟨⟨h1, ?_⟩, ihr h3⟩, ihrs h4⟩
    rcases h2 with h2 | h2
    · exact absurd h2 (by simp)
    · exact Or.inr h2
  · intro h
    exact h
  · intro r ih h
    simp only [RTreeO.okX, Bool.and_eq_true, Bool.or_eq_true] at h ⊢
    obtain ⟨⟨h1, h2⟩, h3⟩ := h
    refine ⟨⟨h1, ?_⟩, ih h3⟩
    rcases h2 with h2 | h2
    · exact absurd h2 (by simp)
    · exact Or.inr h2

theorem agrees_nid (st : PM) (n : Nat) (r : RTree) (h : agrees st n r = true) :
    RTree.nid r = n := by
  cases r with
  | node nid lbl has cs w =>
    simp only [agrees, Bool.and_eq_true, beq_iff_eq] at h
    simp only [RTree.nid]
    exact h.1.1.1.1.1.1.1.symm

theorem nid_mem_nids (r : RTree) : RTree.nid r ∈ RTree.nids r := by
  cases r with
  | node nid lbl has cs w => simp [RTree.nid, RTree.nids]

theorem agrees_frame (st st2 : PM) :
    (∀ r : RTree, ∀ n, agrees st n r = true →
      (∀ i, i ∈ RTree.nids r → getN st2 i = getN st i) → agrees st2 n r = true) ∧
    (∀ cs : RTreeL, ∀ m, agreesL st m cs = true →
      (∀ i, i ∈ RTreeL.nids cs → getN st2 i = getN st i) → agreesL st2 m cs = true) ∧
    (∀ w : RTreeO, ∀ o, agreesO st o w = true →
      (∀ i, i ∈ RTreeO.nids w → getN st2 i = getN st i) → agreesO st2 o w = true) := by
  refine rtree_mutual_ind _ _ _ ?_ ?_ ?_ ?_ ?_
  · intro nid lbl has cs w ihc ihw n h hf
    have hnid := agrees_nid st n (.node nid lbl has cs w) h
    simp only [RTree.nid] at hnid
    have hn : getN st2 n = getN st n := by
      apply hf
      rw [← hnid]
      simp [RTree.nids]
    simp only [agrees, Bool.and_eq_true] at h ⊢
    obtain ⟨⟨⟨⟨⟨⟨⟨h1, h2⟩, h3⟩, h4⟩, h5⟩, h6⟩, h7⟩, h8⟩ := h
    rw [hn]
    refine ⟨⟨⟨⟨⟨⟨⟨h1, h2⟩, h3⟩, h4⟩, h5⟩, h6⟩, ?_⟩, ?_⟩
    · refine ihc _ h7 ?_
      intro i hi
      apply hf
      simp only [RTree.nids, List.mem_cons, List.mem_append]
      exact Or.inr (Or.inl hi)
    · refine ihw _ h8 ?_
      intro i hi
      apply hf
      simp only [RTree.nids, List.mem_cons, List.mem_append]
      exact Or.inr (Or.inr hi)
  · intro m h hf
    cases m with
    | nil => exact h
    | cons kv m2 => simp [agreesL] at h
  · intro k r rs ihr ihrs m h hf
    cases m with
    | nil => simp [agreesL] at h
    | cons kv m2 =>
      obtain ⟨k2, cid⟩ := kv
      simp only [agreesL, Bool.and_eq_true] at h ⊢
      obtain ⟨⟨h1, h2⟩, h3⟩ := h
      refine ⟨⟨h1, ihr _ h2 ?_⟩, ihrs _ h3 ?_⟩
      · intro i hi
        apply hf
        simp only [RTreeL.nids, List.mem_append]
        exact Or.inl hi
      · intro i hi
        apply hf
        simp only [RTreeL.nids, List.mem_append]
        exact Or.inr hi
  · intro o h hf
    cases o with
    | none => exact h
    | some wn => simp [agreesO] at h
  · intro r ih o h hf
    cases o with
    | none => simp [agreesO] at h
    | some wn =>
      simp only [agreesO] at h ⊢
      exact ih _ h hf

theorem nonEmpty_setHas (x : Nat) (r : RTree) :
    RTree.nonEmpty (RTree.setHas x r) = ((RTree.nid r == x) || RTree.nonEmpty r) := by
  cases r with
  | node nid lbl has cs w =>
    by_cases hx : nid = x
    · subst hx
      cases cs with
      | nil =>
        cases w with
        | none =>
          simp [RTree.setHas, RTreeL.setHas, RTreeO.setHas, RTree.nonEmpty, RTree.nid]
        | some r2 =>
          simp [RTree.setHas, RTreeL.setHas, RTreeO.setHas, RTree.nonEmpty, RTree.nid]
      | cons k r2 rs =>
        cases w with
        | none =>
          simp [RTree.setHas, RTreeL.setHas, RTreeO.setHas, RTree.nonEmpty, RTree.nid]
        | some r3 =>
          simp [RTree.setHas, RTreeL.setHas, RTreeO.setHas, RTree.nonEmpty, RTree.nid]
    · cases cs with
      | nil =>
        cases w with
        | none =>
          simp [RTree.setHas, RTreeL.setHas, RTreeO.setHas, RTree.nonEmpty, RTree.nid, hx]
        | some r2 =>
          simp [RTree.setHas, RTreeL.setHas, RTreeO.setHas, RTree.nonEmpty, RTree.nid, hx]
      | cons k r2 rs =>
        cases w with
        | none =>
          simp [RTree.setHas, RTreeL.setHas, RTreeO.setHas, RTree.nonEmpty, RTree.nid, hx]
        | some r3 =>
          simp [RTree.setHas, RTreeL.setHas, RTreeO.setHas, RTree.nonEmpty, RTree.nid, hx]

theorem headIs_setHas (x k : Nat) (r : RTree) :
    RTree.headIs k (RTree.setHas x r) = RTree.headIs k r := by
  cases r with
  | node nid lbl has cs w => simp [RTree.setHas, RTree.headIs]

theorem emptyLbl_setHas (x : Nat) (r : RTree) :
    RTree.emptyLbl (RTree.setHas x r) = RTree.emptyLbl r := by
  cases r with
  | node nid lbl has cs w => simp [RTree.setHas, RTree.emptyLbl]

theorem nid_setHas (x : Nat) (r : RTree) : RTree.nid (RTree.setHas x r) = RTree.nid r := by
  cases r with
  | node nid lbl has cs w => simp [RTree.setHas, RTree.nid]

theorem len1_setHas (x : Nat) (cs : RTreeL) :
    RTreeL.len1 (RTreeL.setHas x cs) = RTreeL.len1 cs := by
  cases cs with
  | nil => rfl
  | cons k r rs =>
    cases rs with
    | nil => rfl
    | cons k2 r2 rs2 => rfl

theorem isNone_setHas (x : Nat) (w : RTreeO) :
    RTreeO.isNone (RTreeO.setHas x w) = RTreeO.isNone w := by
  cases w with
  | none => rfl
  | some r => rfl

theorem nids_setHas (x : Nat) :
    (∀ r : RTree, RTree.nids (RTree.setHas x r) = RTree.nids r) ∧
    (∀ cs : RTreeL, RTreeL.nids (RTreeL.setHas x cs) = RTreeL.nids cs) ∧
    (∀ w : RTreeO, RTreeO.nids (RTreeO.setHas x w) = RTreeO.nids w) := by
  refine rtree_mutual_ind _ _ _ ?_ ?_ ?_ ?_ ?_
  · intro nid lbl has cs w ihc ihw
    simp [RTree.setHas, RTree.nids, ihc, ihw]
  · rfl
  · intro k r rs ihr ihrs
    simp [RTreeL.setHas, RTreeL.nids, ihr, ihrs]
  · rfl
  · intro r ih
    simp [RTreeO.setHas, RTreeO.nids, ih]

theorem agrees_setHas (st st2 : PM) (x : Nat)
    (hframe : ∀ i, i ≠ x → getN st2 i = getN st i)
    (hpat : (getN st2 x).pattern = (getN st x).pattern)
    (hch : (getN st2 x).children = (getN st x).children)
    (hwf : (getN st2 x).wildcard = (getN st x).wildcard)
    (hhas : ((getN st2 x).temporary.isSome || (getN st2 x).permanent.isSome) = true)
    (hp10p : (match (getN st2 x).permanent with
      | Option.none => true | Option.some l => !l.isEmpty) = true)
    (hp10t : (match (getN st2 x).temporary with
      | Option.none => true | Option.some l => !l.isEmpty) = true) :
    (∀ r : RTree, ∀ n, agrees st n r = true → agrees st2 n (RTree.setHas x r) = true) ∧
    (∀ cs : RTreeL, ∀ m, agreesL st m cs = true →
      agreesL st2 m (RTreeL.setHas x cs) = true) ∧
    (∀ w : RTreeO, ∀ o, agreesO st o w = true →
      agreesO st2 o (RTreeO.setHas x w) = true) := by
  refine rtree_mutual_ind _ _ _ ?_ ?_ ?_ ?_ ?_
  · intro nid lbl has cs w ihc ihw n h
    simp only [agrees, Bool.and_eq_true, beq_iff_eq] at h
    obtain ⟨⟨⟨⟨⟨⟨⟨h1, h2⟩, h3⟩, h4⟩, h5⟩, h6⟩, h7⟩, h8⟩ := h
    subst h1
    by_cases hx : n = x
    · subst hx
      simp only [RTree.setHas, if_pos rfl, agrees, Bool.and_eq_true, beq_iff_eq]
      rw [hpat, hch, hwf]
      exact ⟨⟨⟨⟨⟨⟨⟨trivial, h2⟩, hhas⟩, hp10p⟩, hp10t⟩, h6⟩, ihc _ h7⟩, ihw _ h8⟩
    · have hg : getN st2 n = getN st n := hframe n hx
      simp only [RTree.setHas, if_neg hx, agrees, Bool.and_eq_true, beq_iff_eq]
      rw [hg]
      exact ⟨⟨⟨⟨⟨⟨⟨trivial, h2⟩, h3⟩, h4⟩, h5⟩, h6⟩, ihc _ h7⟩, ihw _ h8⟩
  · intro m h
    cases m with
    | nil => exact h
    | cons kv m2 => simp [agreesL] at h
  · intro k r rs ihr ihrs m h
    cases m with
    | nil => simp [agreesL] at h
    | cons kv m2 =>
      obtain ⟨k2, cid⟩ := kv
      simp only [agreesL, RTreeL.setHas, Bool.and_eq_true] at h ⊢
      exact ⟨⟨h.1.1, ihr _ h.1.2⟩, ihrs _ h.2⟩
  · intro o h
    cases o with
    | none => exact h
    | some wn => simp [agreesO] at h
  · intro r ih o h
    cases o with
    | none => simp [agreesO] at h
    | some wn =>
      simp only [agreesO, RTreeO.setHas] at h ⊢
      exact ih _ h

theorem okX_setHas (x : Nat) :
    (∀ r : RTree, RTree.okX (some x) r = true → RTree.okX none (RTree.setHas x r) = true) ∧
    (∀ cs : RTreeL, RTreeL.okX (some x) cs = true →
      RTreeL.okX none (RTreeL.setHas x cs) = true) ∧
    (∀ w : RTreeO, RTreeO.okX (some x) w = true →
      RTreeO.okX none (RTreeO.setHas x w) = true) := by
  refine rtree_mutual_ind _ _ _ ?_ ?_ ?_ ?_ ?_
  · intro nid lbl has cs w ihc ihw h
    simp only [RTree.okX, Bool.and_eq_true, Bool.or_eq_true] at h
    obtain ⟨⟨h1, h2⟩, h3⟩ := h
    by_cases hx : nid = x
    · subst hx
      simp only [RTree.setHas, if_pos rfl, RTree.okX, Bool.and_eq_true, Bool.or_eq_true]
      refine ⟨⟨?_, ihc h2⟩, ihw h3⟩
      simp
    · simp only [RTree.setHas, if_neg hx, RTree.okX, Bool.and_eq_true, Bool.or_eq_true,
        len1_setHas, isNone_setHas]
      refine ⟨⟨?_, ihc h2⟩, ihw h3⟩
      rcases h1 with h1 | h1
      · rcases h1 with h1 | h1
        · simp only [beq_iff_eq, Option.some.injEq] at h1
          exact absurd h1.symm hx
        · exact Or.inl (Or.inr h1)
      · exact Or.inr h1
  · intro h
    exact h
  · intro k r rs ihr ihrs h
    simp only [RTreeL.okX, RTreeL.setHas, Bool.and_eq_true, Bool.or_eq_true] at h ⊢
    obtain ⟨⟨⟨h1, h2⟩, h3⟩, h4⟩ := h
    refine ⟨⟨⟨?_, ?_⟩, ihr h3⟩, ihrs h4⟩
    · rw [headIs_setHas]
      exact h1
    · right
      rw [nonEmpty_setHas]
      rcases h2 with h2 | h2
      · simp only [beq_iff_eq, Option.some.injEq] at h2
        simp [h2]
      · simp [h2]
  · intro h
    exact h
  · intro r ih h
    simp only [RTreeO.okX, RTreeO.setHas, Bool.and_eq_true, Bool.or_eq_true] at h ⊢
    obtain ⟨⟨h1, h2⟩, h3⟩ := h
    refine ⟨⟨?_, ?_⟩, ih h3⟩
    · rw [emptyLbl_setHas]
      exact h1
    · right
      rw [nonEmpty_setHas]
      rcases h2 with h2 | h2
      · simp only [beq_iff_eq, Option.some.injEq] at h2
        simp [h2]
      · simp [h2]

theorem headIs_setWild (x w k : Nat) (r : RTree) :
    RTree.headIs k (RTree.setWild x w r) = RTree.headIs k r := by
  cases r with
  | node nid lbl has cs wo => simp [RTree.setWild, RTree.headIs]

theorem emptyLbl_setWild (x w : Nat) (r : RTree) :
    RTree.emptyLbl (RTree.setWild x w r) = RTree.emptyLbl r := by
  cases r with
  | node nid lbl has cs wo => simp [RTree.setWild, RTree.emptyLbl]

theorem nid_setWild (x w : Nat) (r : RTree) :
    RTree.nid (RTree.setWild x w r) = RTree.nid r := by
  cases r with
  | node nid lbl has cs wo => simp [RTree.setWild, RTree.nid]

theorem len1_setWild (x w : Nat) (cs : RTreeL) :
    RTreeL.len1 (RTreeL.setWild x w cs) = RTreeL.len1 cs := by
  cases cs with
  | nil => rfl
  | cons k r rs =>
    cases rs with
    | nil => rfl
    | cons k2 r2 rs2 => rfl

theorem nonEmpty_setWild (x w : Nat) (r : RTree) :
    RTree.nonEmpty (RTree.setWild x w r) = ((RTree.nid r == x) || RTree.nonEmpty r) := by
  cases r with
  | node nid lbl has cs wo =>
    by_cases hx : nid = x
    · subst hx
      cases cs with
      | nil =>
        simp [RTree.setWild, RTreeL.setWild, RTree.nonEmpty, RTree.nid]
      | cons k r2 rs =>
        simp [RTree.setWild, RTreeL.setWild, RTree.nonEmpty, RTree.nid]
    · cases cs with
      | nil =>
        cases wo with
        | none =>
          simp [RTree.setWild, RTreeL.setWild, RTreeO.setWild, RTree.nonEmpty, RTree.nid, hx]
        | some r2 =>
          simp [RTree.setWild, RTreeL.setWild, RTreeO.setWild, RTree.nonEmpty, RTree.nid, hx]
      | cons k r2 rs =>
        cases wo with
        | none =>
          simp [RTree.setWild, RTreeL.setWild, RTreeO.setWild, RTree.nonEmpty, RTree.nid, hx]
        | some r3 =>
          simp [RTree.setWild, RTreeL.setWild, RTreeO.setWild, RTree.nonEmpty, RTree.nid, hx]

theorem setWild_id (x w : Nat) :
    (∀ r : RTree, x ∉ RTree.nids r → RTree.setWild x w r = r) ∧
    (∀ cs : RTreeL, x ∉ RTreeL.nids cs → RTreeL.setWild x w cs = cs) ∧
    (∀ wo : RTreeO, x ∉ RTreeO.nids wo → RTreeO.setWild x w wo = wo) := by
  refine rtree_mutual_ind _ _ _ ?_ ?_ ?_ ?_ ?_
  · intro nid lbl has cs wo ihc ihw hm
    simp only [RTree.nids, List.mem_cons, List.mem_append] at hm
    push_neg at hm
    have hnx : nid ≠ x := fun e => hm.1 e.symm
    simp only [RTree.setWild, if_neg hnx, ihc hm.2.1, ihw hm.2.2]
  · intro _
    rfl
  · intro k r rs ihr ihrs hm
    simp only [RTreeL.nids, List.mem_append] at hm
    push_neg at hm
    simp only [RTreeL.setWild, ihr hm.1, ihrs hm.2]
  · intro _
    rfl
  · intro r ih hm
    simp only [RTreeO.nids] at hm
    simp only [RTreeO.setWild, ih hm]

theorem nids_setWild_sub (x w : Nat) :
    (∀ r : RTree, ∀ i, i ∈ RTree.nids (RTree.setWild x w r) →
      i ∈ RTree.nids r ∨ i = w) ∧
    (∀ cs : RTreeL, ∀ i, i ∈ RTreeL.nids (RTreeL.setWild x w cs) →
      i ∈ RTreeL.nids cs ∨ i = w) ∧
    (∀ wo : RTreeO, ∀ i, i ∈ RTreeO.nids (RTreeO.setWild x w wo) →
      i ∈ RTreeO.nids wo ∨ i = w) := by
  refine rtree_mutual_ind _ _ _ ?_ ?_ ?_ ?_ ?_
  · intro nid lbl has cs wo ihc ihw i hi
    simp only [RTree.setWild, RTree.nids, List.mem_cons, List.mem_append] at hi
    rcases hi with hi | hi | hi
    · exact Or.inl (by simp [RTree.nids, hi])
    · rcases ihc i hi with h | h
      · exact Or.inl (by simp [RTree.nids, h])
      · exact Or.inr h
    · by_cases hx : nid = x
      · rw [if_pos hx] at hi
        simp only [RTreeO.nids, RTree.nids, RTreeL.nids, List.append_nil,
          List.mem_singleton] at hi
        exact Or.inr hi
      · rw [if_neg hx] at hi
        rcases ihw i hi with h | h
        · exact Or.inl (by simp [RTree.nids, h])
        · exact Or.inr h
  · intro i hi
    exact Or.inl hi
  · intro k r rs ihr ihrs i hi
    simp only [RTreeL.setWild, RTreeL.nids, List.mem_append] at hi
    rcases hi with hi | hi
    · rcases ihr i hi with h | h
      · exact Or.inl (by simp [RTreeL.nids, h])
      · exact Or.inr h
    · rcases ihrs i hi with h | h
      · exact Or.inl (by simp [RTreeL.nids, h])
      · exact Or.inr h
  · intro i hi
    exact Or.inl hi
  · intro r ih i hi
    simp only [RTreeO.setWild, RTreeO.nids] at hi ⊢
    exact ih i hi

theorem w_mem_setWild (x w : Nat) :
    (∀ r : RTree, w ∉ RTree.nids r → w ∈ RTree.nids (RTree.setWild x w r) →
      x ∈ RTree.nids r) ∧
    (∀ cs : RTreeL, w ∉ RTreeL.nids cs → w ∈ RTreeL.nids (RTreeL.setWild x w cs) →
      x ∈ RTreeL.nids cs) ∧
    (∀ wo : RTreeO, w ∉ RTreeO.nids wo → w ∈ RTreeO.nids (RTreeO.setWild x w wo) →
      x ∈ RTreeO.nids wo) := by
  refine ⟨?_, ?_, ?_⟩ <;> intro t ht hw2
  · by_cases hx : x ∈ RTree.nids t
    · exact hx
    · rw [(setWild_id x w).1 t hx] at hw2
      exact absurd hw2 ht
  · by_cases hx : x ∈ RTreeL.nids t
    · exact hx
    · rw [(setWild_id x w).2.1 t hx] at hw2
      exact absurd hw2 ht
  · by_cases hx : x ∈ RTreeO.nids t
    · exact hx
    · rw [(setWild_id x w).2.2 t hx] at hw2
      exact absurd hw2 ht

theorem nodup_setWild (x w : Nat) :
    (∀ r : RTree, (RTree.nids r).Nodup → w ∉ RTree.nids r →
      (RTree.nids (RTree.setWild x w r)).Nodup) ∧
    (∀ cs : RTreeL, (RTreeL.nids cs).Nodup → w ∉ RTreeL.nids cs →
      (RTreeL.nids (RTreeL.setWild x w cs)).Nodup) ∧
    (∀ wo : RTreeO, (RTreeO.nids wo).Nodup → w ∉ RTreeO.nids wo →
      (RTreeO.nids (RTreeO.setWild x w wo)).Nodup) := by
  refine rtree_mutual_ind _ _ _ ?_ ?_ ?_ ?_ ?_
  · intro nid lbl has cs wo ihc ihw hnd hw2
    simp only [RTree.nids, List.nodup_cons, List.nodup_append, List.mem_cons,
      List.mem_append] at hnd
    simp only [RTree.nids, List.mem_cons, List.mem_append] at hw2
    push_neg at hw2
    obtain ⟨hw0, hwL, hwO⟩ := hw2
    obtain ⟨hn0, hnL, hnO, hdisj⟩ := hnd
    push_neg at hn0
    by_cases hx : nid = x
    · subst hx
      have hxL : nid ∉ RTreeL.nids cs := fun hm => hn0.1 hm
      simp only [RTree.setWild]
      rw [if_true, (setWild_id nid w).2.1 cs hxL]
      simp only [RTree.nids, RTreeO.nids, RTree.nids, RTreeL.nids, List.append_nil,
        List.nodup_cons, List.nodup_append, List.mem_append, List.mem_singleton]
      refine ⟨?_, hnL, ?_, ?_⟩
      · intro hm
        rcases hm with hm | hm
        · exact hn0.1 hm
        · exact hw0 hm.symm
      · simp
      · intro a ha hb
        rw [List.mem_singleton] at hb
        rw [hb] at ha
        exact hwL ha
    · simp only [RTree.setWild]
      rw [if_neg hx]
      simp only [RTree.nids, List.nodup_cons, List.nodup_append, List.mem_cons,
        List.mem_append]
      refine ⟨?_, ihc hnL hwL, ihw hnO hwO, ?_⟩
      · intro hm
        rcases hm with hm | hm
        · rcases (nids_setWild_sub x w).2.1 cs nid hm with h | h
          · exact hn0.1 h
          · exact hw0 h.symm
        · rcases (nids_setWild_sub x w).2.2 wo nid hm with h | h
          · exact hn0.2 h
          · exact hw0 h.symm
      · intro a ha hb
        rcases (nids_setWild_sub x w).2.1 cs a ha with h1 | h1
        · rcases (nids_setWild_sub x w).2.2 wo a hb with h2 | h2
          · exact hdisj h1 h2
          · rw [h2] at h1
            exact hwL h1
        · rw [h1] at ha hb
          rcases (nids_setWild_sub x w).2.2 wo w hb with h2 | h2
          · exact hwO h2
          · have hxL2 := (w_mem_setWild x w).2.1 cs hwL ha
            have hxO2 := (w_mem_setWild x w).2.2 wo hwO hb
            exact hdisj hxL2 hxO2
  · intro _ _
    simp [RTreeL.setWild, RTreeL.nids]
  · intro k r rs ihr ihrs hnd hw2
    simp only [RTreeL.nids, List.nodup_append, List.mem_append] at hnd
    simp only [RTreeL.nids, List.mem_append] at hw2
    push_neg at hw2
    obtain ⟨hnr, hnrs, hdisj⟩ := hnd
    obtain ⟨hwr, hwrs⟩ := hw2
    simp only [RTreeL.setWild, RTreeL.nids, List.nodup_append, List.mem_append]
    refine ⟨ihr hnr hwr, ihrs hnrs hwrs, ?_⟩
    intro a ha hb
    rcases (nids_setWild_sub x w).1 r a ha with h1 | h1
    · rcases (nids_setWild_sub x w).2.1 rs a hb with h2 | h2
      · exact hdisj h1 h2
      · rw [h2] at h1
        exact hwr h1
    · rw [h1] at ha hb
      rcases (nids_setWild_sub x w).2.1 rs w hb with h2 | h2
      · exact hwrs h2
      · have hxr := (w_mem_setWild x w).1 r hwr ha
        have hxrs := (w_mem_setWild x w).2.1 rs hwrs hb
        exact hdisj hxr hxrs
  · intro _ _
    simp [RTreeO.setWild, RTreeO.nids]
  · intro r ih hnd hw2
    simp only [RTreeO.setWild, RTreeO.nids] at hnd hw2 ⊢
    exact ih hnd hw2

theorem agrees_setWild (st st2 : PM) (x w : Nat)
    (hwx : (getN st x).wildcard = none)
    (hframe : ∀ i, i ≠ x → i ≠ w → getN st2 i = getN st i)
    (hx2 : getN st2 x = { getN st x with wildcard := some w })
    (hw2 : getN st2 w = NodeData.mk0 []) :
    (∀ r : RTree, ∀ n, agrees st n r = true → w ∉ RTree.nids r →
      agrees st2 n (RTree.setWild x w r) = true) ∧
    (∀ cs : RTreeL, ∀ m, agreesL st m cs = true → w ∉ RTreeL.nids cs →
      agreesL st2 m (RTreeL.setWild x w cs) = true) ∧
    (∀ wo : RTreeO, ∀ o, agreesO st o wo = true → w ∉ RTreeO.nids wo →
      agreesO st2 o (RTreeO.setWild x w wo) = true) := by
  refine rtree_mutual_ind _ _ _ ?_ ?_ ?_ ?_ ?_
  · intro nid lbl has cs wo ihc ihw n h hwm
    simp only [RTree.nids, List.mem_cons, List.mem_append] at hwm
    push_neg at hwm
    obtain ⟨hwn, hwL, hwO⟩ := hwm
    simp only [agrees, Bool.and_eq_true, beq_iff_eq] at h
    obtain ⟨⟨⟨⟨⟨⟨⟨h1, h2⟩, h3⟩, h4⟩, h5⟩, h6⟩, h7⟩, h8⟩ := h
    subst h1
    by_cases hx : n = x
    · subst hx
      cases wo with
      | some r2 =>
        rw [hwx] at h8
        simp [agreesO] at h8
      | none =>
        have hset : RTree.setWild n w (.node n lbl has cs .none) =
            .node n lbl has (RTreeL.setWild n w cs) (.some (.node w [] false .nil .none)) := by
          simp [RTree.setWild, RTreeO.setWild]
        rw [hset]
        simp only [agrees, Bool.and_eq_true, beq_iff_eq, hx2]
        refine ⟨⟨⟨⟨⟨⟨⟨trivial, h2⟩, h3⟩, h4⟩, h5⟩, h6⟩, ihc _ h7 hwL⟩, ?_⟩
        have hagw : agrees st2 w (.node w [] false .nil .none) = true := by
          simp only [agrees, hw2, NodeData.mk0]
          simp [agreesL, agreesO]
        exact hagw
    · have hnw : n ≠ w := fun e => hwn e.symm
      have hg : getN st2 n = getN st n := hframe n hx hnw
      simp only [RTree.setWild, if_neg hx, agrees, Bool.and_eq_true, beq_iff_eq]
      rw [hg]
      exact ⟨⟨⟨⟨⟨⟨⟨trivial, h2⟩, h3⟩, h4⟩, h5⟩, h6⟩, ihc _ h7 hwL⟩, ihw _ h8 hwO⟩
  · intro m h _
    cases m with
    | nil => exact h
    | cons kv m2 => simp [agreesL] at h
  · intro k r rs ihr ihrs m h hwm
    simp only [RTreeL.nids, List.mem_append] at hwm
    push_neg at hwm
    cases m with
    | nil => simp [agreesL] at h
    | cons kv m2 =>
      obtain ⟨k2, cid⟩ := kv
      simp only [agreesL, RTreeL.setWild, Bool.and_eq_true] at h ⊢
      exact ⟨⟨h.1.1, ihr _ h.1.2 hwm.1⟩, ihrs _ h.2 hwm.2⟩
  · intro o h _
    cases o with
    | none => exact h
    | some wn => simp [agreesO] at h
  · intro r ih o h hwm
    cases o with
    | none => simp [agreesO] at h
    | some wn =>
      simp only [agreesO, RTreeO.setWild, RTreeO.nids] at h hwm ⊢
      exact ih _ h hwm

theorem okX_setWild (x w : Nat) :
    (∀ r : RTree, RTree.okX (some x) r = true →
      RTree.okX (some w) (RTree.setWild x w r) = true) ∧
    (∀ cs : RTreeL, RTreeL.okX (some x) cs = true →
      RTreeL.okX (some w) (RTreeL.setWild x w cs) = true) ∧
    (∀ wo : RTreeO, RTreeO.okX (some x) wo = true →
      RTreeO.okX (some w) (RTreeO.setWild x w wo) = true) := by
  refine rtree_mutual_ind _ _ _ ?_ ?_ ?_ ?_ ?_
  · intro nid lbl has cs wo ihc ihw h
    simp only [RTree.okX, Bool.and_eq_true, Bool.or_eq_true] at h
    obtain ⟨⟨h1, h2⟩, h3⟩ := h
    by_cases hx : nid = x
    · subst hx
      simp only [RTree.setWild, if_pos rfl, RTree.okX, Bool.and_eq_true, Bool.or_eq_true]
      refine ⟨⟨?_, ihc h2⟩, ?_⟩
      · simp [RTreeO.isNone]
      · show RTreeO.okX (some w) (.some (.node w [] false .nil .none)) = true
        simp [RTreeO.okX, RTree.okX, RTreeL.okX, RTree.emptyLbl, RTree.nid]
    · simp only [RTree.setWild, if_neg hx, RTree.okX, Bool.and_eq_true, Bool.or_eq_true,
        len1_setWild]
      have hiso : RTreeO.isNone (RTreeO.setWild x w wo) = RTreeO.isNone wo := by
        cases wo with
        | none => rfl
        | some r2 => rfl
      rw [hiso]
      refine ⟨⟨?_, ihc h2⟩, ihw h3⟩
      rcases h1 with h1 | h1
      · rcases h1 with h1 | h1
        · simp only [beq_iff_eq, Option.some.injEq] at h1
          exact absurd h1.symm hx
        · exact Or.inl (Or.inr h1)
      · exact Or.inr h1
  · intro h
    exact h
  · intro k r rs ihr ihrs h
    simp only [RTreeL.okX, RTreeL.setWild, Bool.and_eq_true, Bool.or_eq_true] at h ⊢
    obtain ⟨⟨⟨h1, h2⟩, h3⟩, h4⟩ := h
    refine ⟨⟨⟨?_, ?_⟩, ihr h3⟩, ihrs h4⟩
    · rw [headIs_setWild]
      exact h1
    · right
      rw [nonEmpty_setWild]
      rcases h2 with h2 | h2
      · simp only [beq_iff_eq, Option.some.injEq] at h2
        simp [h2]
      · simp [h2]
  · intro h
    exact h
  · intro r ih h
    simp only [RTreeO.okX, RTreeO.setWild, Bool.and_eq_true, Bool.or_eq_true] at h ⊢
    obtain ⟨⟨h1, h2⟩, h3⟩ := h
    refine ⟨⟨?_, ?_⟩, ih h3⟩
    · rw [emptyLbl_setWild]
      exact h1
    · right
      rw [nonEmpty_setWild]
      rcases h2 with h2 | h2
      · simp only [beq_iff_eq, Option.some.injEq] at h2
        simp [h2]
      · simp [h2]

theorem okX_out (xold xnew : Option Nat) :
    (∀ r : RTree, RTree.okX xold r = true →
      (∀ i, xold = some i → i ∉ RTree.nids r) → RTree.okX xnew r = true) ∧
    (∀ cs : RTreeL, RTreeL.okX xold cs = true →
      (∀ i, xold = some i → i ∉ RTreeL.nids cs) → RTreeL.okX xnew cs = true) ∧
    (∀ w : RTreeO, RTreeO.okX xold w = true →
      (∀ i, xold = some i → i ∉ RTreeO.nids w) → RTreeO.okX xnew w = true) := by
  refine rtree_mutual_ind _ _ _ ?_ ?_ ?_ ?_ ?_
  · intro nid lbl has cs w ihc ihw h hm
    simp only [RTree.okX, Bool.and_eq_true, Bool.or_eq_true] at h ⊢
    obtain ⟨⟨h1, h2⟩, h3⟩ := h
    refine ⟨⟨?_, ihc h2 ?_⟩, ihw h3 ?_⟩
    · rcases h1 with h1 | h1
      · rcases h1 with h1 | h1
        · exfalso
          simp only [beq_iff_eq] at h1
          exact hm nid h1 (by simp [RTree.nids])
        · exact Or.inl (Or.inr h1)
      · exact Or.inr h1
    · intro i hi hmem
      exact hm i hi (by
        simp only [RTree.nids, List.mem_cons, List.mem_append]
        exact Or.inr (Or.inl hmem))
    · intro i hi hmem
      exact hm i hi (by
        simp only [RTree.nids, List.mem_cons, List.mem_append]
        exact Or.inr (Or.inr hmem))
  · intro h _
    exact h
  · intro k r rs ihr ihrs h hm
    simp only [RTreeL.okX, Bool.and_eq_true, Bool.or_eq_true] at h ⊢
    obtain ⟨⟨⟨h1, h2⟩, h3⟩, h4⟩ := h
    refine ⟨⟨⟨h1, ?_⟩, ihr h3 ?_⟩, ihrs h4 ?_⟩
    · rcases h2 with h2 | h2
      · exfalso
        simp only [beq_iff_eq] at h2
        exact hm _ h2 (by
          simp only [RTreeL.nids, List.mem_append]
          exact Or.inl (nid_mem_nids r))
      · exact Or.inr h2
    · intro i hi hmem
      exact hm i hi (by
        simp only [RTreeL.nids, List.mem_append]
        exact Or.inl hmem)
    · intro i hi hmem
      exact hm i hi (by
        simp only [RTreeL.nids, List.mem_append]
        exact Or.inr hmem)
  · intro h _
    exact h
  · intro r ih h hm
    simp only [RTreeO.okX, Bool.and_eq_true, Bool.or_eq_true] at h ⊢
    obtain ⟨⟨h1, h2⟩, h3⟩ := h
    refine ⟨⟨h1, ?_⟩, ih h3 ?_⟩
    · rcases h2 with h2 | h2
      · exfalso
        simp only [beq_iff_eq] at h2
        exact hm _ h2 (by
          simp only [RTreeO.nids]
          exact nid_mem_nids r)
      · exact Or.inr h2
    · intro i hi hmem
      exact hm i hi (by
        simp only [RTreeO.nids]
        exact hmem)

theorem subAt_self (r : RTree) : RTree.subAt (RTree.nid r) r = some r := by
  cases r with
  | node nid lbl has cs w => simp [RTree.subAt, RTree.nid]

theorem subAt_sublist (x : Nat) :
    (∀ r rx, RTree.subAt x r = some rx →
      (RTree.nids rx).Sublist (RTree.nids r) ∧ RTree.nid rx = x) ∧
    (∀ cs rx, RTreeL.subAt x cs = some rx →
      (RTree.nids rx).Sublist (RTreeL.nids cs) ∧ RTree.nid rx = x) ∧
    (∀ w rx, RTreeO.subAt x w = some rx →
      (RTree.nids rx).Sublist (RTreeO.nids w) ∧ RTree.nid rx = x) := by
  refine rtree_mutual_ind _ _ _ ?_ ?_ ?_ ?_ ?_
  · intro nid lbl has cs w ihc ihw rx hs
    by_cases hx : nid = x
    · simp only [RTree.subAt, if_pos hx, Option.some.injEq] at hs
      rw [← hs]
      exact ⟨List.Sublist.refl _, by rw [RTree.nid, hx]⟩
    · simp only [RTree.subAt, if_neg hx] at hs
      cases hcs : RTreeL.subAt x cs with
      | some s =>
        simp only [hcs, Option.some.injEq] at hs
        rw [← hs]
        obtain ⟨hsl, hnid⟩ := ihc s hcs
        refine ⟨?_, hnid⟩
        simp only [RTree.nids]
        exact (hsl.trans (List.sublist_append_left _ _)).cons nid
      | none =>
        simp only [hcs] at hs
        obtain ⟨hsl, hnid⟩ := ihw rx hs
        refine ⟨?_, hnid⟩
        simp only [RTree.nids]
        exact (hsl.trans (List.sublist_append_right _ _)).cons nid
  · intro rx hs
    simp [RTreeL.subAt] at hs
  · intro k r rs ihr ihrs rx hs
    simp only [RTreeL.subAt] at hs
    cases hr : RTree.subAt x r with
    | some s =>
      simp only [hr, Option.some.injEq] at hs
      rw [← hs]
      obtain ⟨hsl, hnid⟩ := ihr s hr
      refine ⟨?_, hnid⟩
      simp only [RTreeL.nids]
      exact hsl.trans (List.sublist_append_left _ _)
    | none =>
      simp only [hr] at hs
      obtain ⟨hsl, hnid⟩ := ihrs rx hs
      refine ⟨?_, hnid⟩
      simp only [RTreeL.nids]
      exact hsl.trans (List.sublist_append_right _ _)
  · intro rx hs
    simp [RTreeO.subAt] at hs
  · intro r ih rx hs
    simp only [RTreeO.subAt] at hs
    simpa only [RTreeO.nids] using ih rx hs

theorem subAt_none (x : Nat) :
    (∀ r, RTree.subAt x r = none → x ∉ RTree.nids r) ∧
    (∀ cs, RTreeL.subAt x cs = none → x ∉ RTreeL.nids cs) ∧
    (∀ w, RTreeO.subAt x w = none → x ∉ RTreeO.nids w) := by
  refine rtree_mutual_ind _ _ _ ?_ ?_ ?_ ?_ ?_
  · intro nid lbl has cs w ihc ihw hs
    by_cases hx : nid = x
    · simp [RTree.subAt, if_pos hx] at hs
    · simp only [RTree.subAt, if_neg hx] at hs
      cases hcs : RTreeL.subAt x cs with
      | some s => simp [hcs] at hs
      | none =>
        simp only [hcs] at hs
        intro hmem
        simp only [RTree.nids, List.mem_cons, List.mem_append] at hmem
        rcases hmem with hmem | hmem | hmem
        · exact hx hmem.symm
        · exact ihc hcs hmem
        · exact ihw hs hmem
  · intro _
    simp [RTreeL.nids]
  · intro k r rs ihr ihrs hs
    simp only [RTreeL.subAt] at hs
    cases hr : RTree.subAt x r with
    | some s => simp [hr] at hs
    | none =>
      simp only [hr] at hs
      intro hmem
      simp only [RTreeL.nids, List.mem_append] at hmem
      rcases hmem with hmem | hmem
      · exact ihr hr hmem
      · exact ihrs hs hmem
  · intro _
    simp [RTreeO.nids]
  · intro r ih hs
    simp only [RTreeO.subAt] at hs
    simp only [RTreeO.nids]
    exact ih hs

theorem subAt_of_mem (x : Nat) (r : RTree) (hmem : x ∈ RTree.nids r) :
    ∃ rx, RTree.subAt x r = some rx := by
  cases hs : RTree.subAt x r with
  | some rx => exact ⟨rx, rfl⟩
  | none => exact absurd hmem ((subAt_none x).1 r hs)

theorem subAt_agrees (st : PM) (x : Nat) :
    (∀ r, ∀ m rx, agrees st m r = true → RTree.subAt x r = some rx →
      agrees st x rx = true) ∧
    (∀ cs, ∀ m rx, agreesL st m cs = true → RTreeL.subAt x cs = some rx →
      agrees st x rx = true) ∧
    (∀ w, ∀ o rx, agreesO st o w = true → RTreeO.subAt x w = some rx →
      agrees st x rx = true) := by
  refine rtree_mutual_ind _ _ _ ?_ ?_ ?_ ?_ ?_
  · intro nid lbl has cs w ihc ihw m rx h hs
    by_cases hx : nid = x
    · simp only [RTree.subAt, if_pos hx, Option.some.injEq] at hs
      have hm := agrees_nid st m (.node nid lbl has cs w) h
      simp only [RTree.nid] at hm
      rw [← hm] at h
      rw [← hs, ← hx]
      exact h
    · simp only [RTree.subAt, if_neg hx] at hs
      simp only [agrees, Bool.and_eq_true] at h
      cases hcs : RTreeL.subAt x cs with
      | some s =>
        simp only [hcs, Option.some.injEq] at hs
        rw [← hs]
        exact ihc _ s h.1.2 hcs
      | none =>
        simp only [hcs] at hs
        exact ihw _ rx h.2 hs
  · intro m rx h hs
    simp [RTreeL.subAt] at hs
  · intro k r rs ihr ihrs m rx h hs
    cases m with
    | nil => simp [agreesL] at h
    | cons kv m2 =>
      obtain ⟨k2, cid⟩ := kv
      simp only [agreesL, Bool.and_eq_true] at h
      simp only [RTreeL.subAt] at hs
      cases hr : RTree.subAt x r with
      | some s =>
        simp only [hr, Option.some.injEq] at hs
        rw [← hs]
        exact ihr _ s h.1.2 hr
      | none =>
        simp only [hr] at hs
        exact ihrs _ rx h.2 hs
  · intro o rx h hs
    simp [RTreeO.subAt] at hs
  · intro r ih o rx h hs
    cases o with
    | none => simp [agreesO] at h
    | some wn =>
      simp only [agreesO] at h
      simp only [RTreeO.subAt] at hs
      exact ih _ rx h hs

theorem okX_subAt (x : Nat) (xe : Option Nat) :
    (∀ r rx, RTree.okX xe r = true → RTree.subAt x r = some rx →
      RTree.okX xe rx = true) ∧
    (∀ cs rx, RTreeL.okX xe cs = true → RTreeL.subAt x cs = some rx →
      RTree.okX xe rx = true) ∧
    (∀ w rx, RTreeO.okX xe w = true → RTreeO.subAt x w = some rx →
      RTree.okX xe rx = true) := by
  refine rtree_mutual_ind _ _ _ ?_ ?_ ?_ ?_ ?_
  · intro nid lbl has cs w ihc ihw rx h hs
    by_cases hx : nid = x
    · simp only [RTree.subAt, if_pos hx, Option.some.injEq] at hs
      rw [← hs]
      exact h
    · simp only [RTree.subAt, if_neg hx] at hs
      simp only [RTree.okX, Bool.and_eq_true] at h
      cases hcs : RTreeL.subAt x cs with
      | some s =>
        simp only [hcs, Option.some.injEq] at hs
        rw [← hs]
        exact ihc s h.1.2 hcs
      | none =>
        simp only [hcs] at hs
        exact ihw rx h.2 hs
  · intro rx h hs
    simp [RTreeL.subAt] at hs
  · intro k r rs ihr ihrs rx h hs
    simp only [RTreeL.okX, Bool.and_eq_true] at h
    simp only [RTreeL.subAt] at hs
    cases hr : RTree.subAt x r with
    | some s =>
      simp only [hr, Option.some.injEq] at hs
      rw [← hs]
      exact ihr s h.1.2 hr
    | none =>
      simp only [hr] at hs
      exact ihrs rx h.2 hs
  · intro rx h hs
    simp [RTreeO.subAt] at hs
  · intro r ih rx h hs
    simp only [RTreeO.okX, Bool.and_eq_true] at h
    simp only [RTreeO.subAt] at hs
    exact ih rx h.2 hs

theorem repl_id (x : Nat) (t : RTree) :
    (∀ r, x ∉ RTree.nids r → RTree.repl x t r = r) ∧
    (∀ cs, x ∉ RTreeL.nids cs → RTreeL.repl x t cs = cs) ∧
    (∀ w, x ∉ RTreeO.nids w → RTreeO.repl x t w = w) := by
  refine rtree_mutual_ind _ _ _ ?_ ?_ ?_ ?_ ?_
  · intro nid lbl has cs wo ihc ihw hm
    simp only [RTree.nids, List.mem_cons, List.mem_append] at hm
    push_neg at hm
    have hnx : nid ≠ x := fun e => hm.1 e.symm
    simp only [RTree.repl, if_neg hnx, ihc hm.2.1, ihw hm.2.2]
  · intro _
    rfl
  · intro k r rs ihr ihrs hm
    simp only [RTreeL.nids, List.mem_append] at hm
    push_neg at hm
    simp only [RTreeL.repl, ihr hm.1, ihrs hm.2]
  · intro _
    rfl
  · intro r ih hm
    simp only [RTreeO.nids] at hm
    simp only [RTreeO.repl, ih hm]

theorem nids_repl_sub (x : Nat) (t : RTree) :
    (∀ r, ∀ i, i ∈ RTree.nids (RTree.repl x t r) →
      i ∈ RTree.nids r ∨ i ∈ RTree.nids t) ∧
    (∀ cs, ∀ i, i ∈ RTreeL.nids (RTreeL.repl x t cs) →
      i ∈ RTreeL.nids cs ∨ i ∈ RTree.nids t) ∧
    (∀ w, ∀ i, i ∈ RTreeO.nids (RTreeO.repl x t w) →
      i ∈ RTreeO.nids w ∨ i ∈ RTree.nids t) := by
  refine rtree_mutual_ind _ _ _ ?_ ?_ ?_ ?_ ?_
  · intro nid lbl has cs wo ihc ihw i hi
    by_cases hx : nid = x
    · simp only [RTree.repl, if_pos hx] at hi
      exact Or.inr hi
    · simp only [RTree.repl, if_neg hx, RTree.nids, List.mem_cons, List.mem_append] at hi
      rcases hi with hi | hi | hi
      · exact Or.inl (by simp [RTree.nids, hi])
      · rcases ihc i hi with h | h
        · exact Or.inl (by simp [RTree.nids, h])
        · exact Or.inr h
      · rcases ihw i hi with h | h
        · exact Or.inl (by simp [RTree.nids, h])
        · exact Or.inr h
  · intro i hi
    exact Or.inl hi
  · intro k r rs ihr ihrs i hi
    simp only [RTreeL.repl, RTreeL.nids, List.mem_append] at hi
    rcases hi with hi | hi
    · rcases ihr i hi with h | h
      · exact Or.inl (by simp [RTreeL.nids, h])
      · exact Or.inr h
    · rcases ihrs i hi with h | h
      · exact Or.inl (by simp [RTreeL.nids, h])
      · exact Or.inr h
  · intro i hi
    exact Or.inl hi
  · intro r ih i hi
    simp only [RTreeO.repl, RTreeO.nids] at hi ⊢
    exact ih i hi

theorem mem_nids_repl (x : Nat) (t : RTree) :
    (∀ r, x ∈ RTree.nids r → ∀ i, i ∈ RTree.nids t →
      i ∈ RTree.nids (RTree.repl x t r)) ∧
    (∀ cs, x ∈ RTreeL.nids cs → ∀ i, i ∈ RTree.nids t →
      i ∈ RTreeL.nids (RTreeL.repl x t cs)) ∧
    (∀ w, x ∈ RTreeO.nids w → ∀ i, i ∈ RTree.nids t →
      i ∈ RTreeO.nids (RTreeO.repl x t w)) := by
  refine rtree_mutual_ind _ _ _ ?_ ?_ ?_ ?_ ?_
  · intro nid lbl has cs wo ihc ihw hx i hi
    by_cases hnx : nid = x
    · simp only [RTree.repl, if_pos hnx]
      exact hi
    · simp only [RTree.nids, List.mem_cons, List.mem_append] at hx
      rcases hx with hx | hx | hx
      · exact absurd hx.symm hnx
      · simp only [RTree.repl, if_neg hnx, RTree.nids, List.mem_cons, List.mem_append]
        exact Or.inr (Or.inl (ihc hx i hi))
      · simp only [RTree.repl, if_neg hnx, RTree.nids, List.mem_cons, List.mem_append]
        exact Or.inr (Or.inr (ihw hx i hi))
  · intro hx
    simp [RTreeL.nids] at hx
  · intro k r rs ihr ihrs hx i hi
    simp only [RTreeL.nids, List.mem_append] at hx
    simp only [RTreeL.repl, RTreeL.nids, List.mem_append]
    rcases hx with hx | hx
    · exact Or.inl (ihr hx i hi)
    · exact Or.inr (ihrs hx i hi)
  · intro hx
    simp [RTreeO.nids] at hx
  · intro r ih hx i hi
    simp only [RTreeO.nids] at hx
    simp only [RTreeO.repl, RTreeO.nids]
    exact ih hx i hi

theorem lbl_repl_ne (x : Nat) (t : RTree) (r : RTree) (h : RTree.nid r ≠ x) :
    RTree.lbl (RTree.repl x t r) = RTree.lbl r := by
  cases r with
  | node nid lbl has cs w =>
    simp only [RTree.nid] at h
    simp [RTree.repl, if_neg h, RTree.lbl]

theorem nid_repl_ne (x : Nat) (t : RTree) (r : RTree) (h : RTree.nid r ≠ x) :
    RTree.nid (RTree.repl x t r) = RTree.nid r := by
  cases r with
  | node nid lbl has cs w =>
    simp only [RTree.nid] at h
    simp [RTree.repl, if_neg h, RTree.nid]

theorem headIs_repl_ne (x k : Nat) (t : RTree) (r : RTree) (h : RTree.nid r ≠ x) :
    RTree.headIs k (RTree.repl x t r) = RTree.headIs k r := by
  cases r with
  | node nid lbl has cs w =>
    simp only [RTree.nid] at h
    simp [RTree.repl, if_neg h, RTree.headIs]

theorem emptyLbl_repl_ne (x : Nat) (t : RTree) (r : RTree) (h : RTree.nid r ≠ x) :
    RTree.emptyLbl (RTree.repl x t r) = RTree.emptyLbl r := by
  cases r with
  | node nid lbl has cs w =>
    simp only [RTree.nid] at h
    simp [RTree.repl, if_neg h, RTree.emptyLbl]

theorem len1_replL (x : Nat) (t : RTree) (cs : RTreeL) :
    RTreeL.len1 (RTreeL.repl x t cs) = RTreeL.len1 cs := by
  cases cs with
  | nil => rfl
  | cons k r rs =>
    cases rs with
    | nil => rfl
    | cons k2 r2 rs2 => rfl

theorem isNone_replO (x : Nat) (t : RTree) (w : RTreeO) :
    RTreeO.isNone (RTreeO.repl x t w) = RTreeO.isNone w := by
  cases w with
  | none => rfl
  | some r => rfl

theorem nonEmpty_repl_ne (x : Nat) (t : RTree) (r : RTree) (h : RTree.nid r ≠ x) :
    RTree.nonEmpty (RTree.repl x t r) = RTree.nonEmpty r := by
  cases r with
  | node nid lbl has cs w =>
    simp only [RTree.nid] at h
    simp only [RTree.repl, if_neg h, RTree.nonEmpty]
    cases cs with
    | nil =>
      cases w with
      | none => rfl
      | some r2 => rfl
    | cons k r2 rs =>
      cases w with
      | none => rfl
      | some r3 => rfl

theorem root_not_in_subAt (x : Nat) (r rx : RTree) (hs : RTree.subAt x r = some rx)
    (hne : RTree.nid r ≠ x) (hnd : (RTree.nids r).Nodup) :
    RTree.nid r ∉ RTree.nids rx := by
  cases r with
  | node nid lbl has cs wo =>
    simp only [RTree.nid] at hne ⊢
    simp only [RTree.subAt, if_neg hne] at hs
    simp only [RTree.nids, List.nodup_cons, List.mem_cons, List.mem_append] at hnd
    have hn0 := hnd.1
    push_neg at hn0
    cases hcs : RTreeL.subAt x cs with
    | some s =>
      simp only [hcs, Option.some.injEq] at hs
      rw [hs] at hcs
      have hsl := ((subAt_sublist x).2.1 cs rx hcs).1
      intro hm
      exact hn0.1 (hsl.subset hm)
    | none =>
      simp only [hcs] at hs
      have hsl := ((subAt_sublist x).2.2 wo rx hs).1
      intro hm
      exact hn0.2 (hsl.subset hm)

theorem nodup_repl (x B : Nat) (t rx : RTree) (hnt : (RTree.nids t).Nodup)
    (hsub : ∀ i, i ∈ RTree.nids t → i ∈ RTree.nids rx ∨ B ≤ i) :
    (∀ r, RTree.subAt x r = some rx → (RTree.nids r).Nodup →
      (∀ i, i ∈ RTree.nids r → i < B) → (RTree.nids (RTree.repl x t r)).Nodup) ∧
    (∀ cs, RTreeL.subAt x cs = some rx → (RTreeL.nids cs).Nodup →
      (∀ i, i ∈ RTreeL.nids cs → i < B) → (RTreeL.nids (RTreeL.repl x t cs)).Nodup) ∧
    (∀ w, RTreeO.subAt x w = some rx → (RTreeO.nids w).Nodup →
      (∀ i, i ∈ RTreeO.nids w → i < B) → (RTreeO.nids (RTreeO.repl x t w)).Nodup) := by
  refine rtree_mutual_ind _ _ _ ?_ ?_ ?_ ?_ ?_
  · intro nid lbl has cs wo ihc ihw hs hnd hb
    by_cases hx : nid = x
    · simp only [RTree.repl, if_pos hx]
      exact hnt
    · simp only [RTree.subAt, if_neg hx] at hs
      simp only [RTree.nids, List.nodup_cons, List.nodup_append, List.mem_cons,
        List.mem_append] at hnd
      obtain ⟨hn0, hnL, hnO, hdisj⟩ := hnd
      push_neg at hn0
      have hbn : nid < B := hb nid (by simp [RTree.nids])
      have hbL : ∀ i, i ∈ RTreeL.nids cs → i < B := fun i hi =>
        hb i (by
          simp only [RTree.nids, List.mem_cons, List.mem_append]
          exact Or.inr (Or.inl hi))
      have hbO : ∀ i, i ∈ RTreeO.nids wo → i < B := fun i hi =>
        hb i (by
          simp only [RTree.nids, List.mem_cons, List.mem_append]
          exact Or.inr (Or.inr hi))
      cases hcs : RTreeL.subAt x cs with
      | some s =>
        simp only [hcs, Option.some.injEq] at hs
        rw [hs] at hcs
        have hsl := ((subAt_sublist x).2.1 cs rx hcs).1
        have hxw : x ∉ RTreeO.nids wo := by
          intro hm
          have hxc : x ∈ RTreeL.nids cs :=
            hsl.subset (((subAt_sublist x).2.1 cs rx hcs).2 ▸ nid_mem_nids rx)
          exact hdisj hxc hm
        simp only [RTree.repl, if_neg hx, RTree.nids, (repl_id x t).2.2 wo hxw,
          List.nodup_cons, List.nodup_append, List.mem_cons, List.mem_append]
        refine ⟨?_, ihc hcs hnL hbL, hnO, ?_⟩
        · intro hm
          rcases hm with hm | hm
          · rcases (nids_repl_sub x t).2.1 cs nid hm with h | h
            · exact hn0.1 h
            · rcases hsub nid h with h2 | h2
              · exact hn0.1 (hsl.subset h2)
              · omega
          · exact hn0.2 hm
        · intro a ha hb2
          rcases (nids_repl_sub x t).2.1 cs a ha with h | h
          · exact hdisj h hb2
          · rcases hsub a h with h2 | h2
            · exact hdisj (hsl.subset h2) hb2
            · have := hbO a hb2
              omega
      | none =>
        simp only [hcs] at hs
        have hsl := ((subAt_sublist x).2.2 wo rx hs).1
        have hxc : x ∉ RTreeL.nids cs := (subAt_none x).2.1 cs hcs
        simp only [RTree.repl, if_neg hx, RTree.nids, (repl_id x t).2.1 cs hxc,
          List.nodup_cons, List.nodup_append, List.mem_cons, List.mem_append]
        refine ⟨?_, hnL, ihw hs hnO hbO, ?_⟩
        · intro hm
          rcases hm with hm | hm
          · exact hn0.1 hm
          · rcases (nids_repl_sub x t).2.2 wo nid hm with h | h
            · exact hn0.2 h
            · rcases hsub nid h with h2 | h2
              · exact hn0.2 (hsl.subset h2)
              · omega
        · intro a ha hb2
          rcases (nids_repl_sub x t).2.2 wo a hb2 with h | h
          · exact hdisj ha h
          · rcases hsub a h with h2 | h2
            · exact hdisj ha (hsl.subset h2)
            · have := hbL a ha
              omega
  · intro hs _ _
    simp [RTreeL.subAt] at hs
  · intro k r rs ihr ihrs hs hnd hb
    simp only [RTreeL.subAt] at hs
    simp only [RTreeL.nids, List.nodup_append, List.mem_append] at hnd
    obtain ⟨hnr, hnrs, hdisj⟩ := hnd
    have hbr : ∀ i, i ∈ RTree.nids r → i < B := fun i hi =>
      hb i (by
        simp only [RTreeL.nids, List.mem_append]
        exact Or.inl hi)
    have hbrs : ∀ i, i ∈ RTreeL.nids rs → i < B := fun i hi =>
      hb i (by
        simp only [RTreeL.nids, List.mem_append]
        exact Or.inr hi)
    cases hr : RTree.subAt x r with
    | some s =>
      simp only [hr, Option.some.injEq] at hs
      rw [hs] at hr
      have hsl := ((subAt_sublist x).1 r rx hr).1
      have hxrs : x ∉ RTreeL.nids rs := by
        intro hm
        have hxr : x ∈ RTree.nids r :=
          hsl.subset (((subAt_sublist x).1 r rx hr).2 ▸ nid_mem_nids rx)
        exact hdisj hxr hm
      simp only [RTreeL.repl, RTreeL.nids, (repl_id x t).2.1 rs hxrs,
        List.nodup_append, List.mem_append]
      refine ⟨ihr hr hnr hbr, hnrs, ?_⟩
      intro a ha hb2
      rcases (nids_repl_sub x t).1 r a ha with h | h
      · exact hdisj h hb2
      · rcases hsub a h with h2 | h2
        · exact hdisj (hsl.subset h2) hb2
        · have := hbrs a hb2
          omega
    | none =>
      simp only [hr] at hs
      have hsl := ((subAt_sublist x).2.1 rs rx hs).1
      have hxr : x ∉ RTree.nids r := (subAt_none x).1 r hr
      simp only [RTreeL.repl, RTreeL.nids, (repl_id x t).1 r hxr,
        List.nodup_append, List.mem_append]
      refine ⟨hnr, ihrs hs hnrs hbrs, ?_⟩
      intro a ha hb2
      rcases (nids_repl_sub x t).2.1 rs a hb2 with h | h
      · exact hdisj ha h
      · rcases hsub a h with h2 | h2
        · exact hdisj ha (hsl.subset h2)
        · have := hbr a ha
          omega
  · intro hs _ _
    simp [RTreeO.subAt] at hs
  · intro r ih hs hnd hb
    simp only [RTreeO.subAt] at hs
    simp only [RTreeO.nids] at hnd hb ⊢
    simp only [RTreeO.repl, RTreeO.nids]
    exact ih hs hnd hb

theorem agrees_repl (st st2 : PM) (x B : Nat) (t rx : RTree)
    (hagt : agrees st2 x t = true)
    (hframe : ∀ i, i ∉ RTree.nids rx → i < B → getN st2 i = getN st i) :
    (∀ r, ∀ m, agrees st m r = true → RTree.subAt x r = some rx →
      (RTree.nids r).Nodup → (∀ i, i ∈ RTree.nids r → i < B) →
      agrees st2 m (RTree.repl x t r) = true) ∧
    (∀ cs, ∀ m, agreesL st m cs = true → RTreeL.subAt x cs = some rx →
      (RTreeL.nids cs).Nodup → (∀ i, i ∈ RTreeL.nids cs → i < B) →
      agreesL st2 m (RTreeL.repl x t cs) = true) ∧
    (∀ w, ∀ o, agreesO st o w = true → RTreeO.subAt x w = some rx →
      (RTreeO.nids w).Nodup → (∀ i, i ∈ RTreeO.nids w → i < B) →
      agreesO st2 o (RTreeO.repl x t w) = true) := by
  refine rtree_mutual_ind _ _ _ ?_ ?_ ?_ ?_ ?_
  · intro nid lbl has cs wo ihc ihw m h hs hnd hb
    by_cases hx : nid = x
    · simp only [RTree.repl, if_pos hx]
      have hm := agrees_nid st m (.node nid lbl has cs wo) h
      simp only [RTree.nid] at hm
      rw [← hm, hx]
      exact hagt
    · have hnid := agrees_nid st m (.node nid lbl has cs wo) h
      simp only [RTree.nid] at hnid
      simp only [RTree.subAt, if_neg hx] at hs
      simp only [RTree.nids, List.nodup_cons, List.nodup_append, List.mem_cons,
        List.mem_append] at hnd
      obtain ⟨hn0, hnL, hnO, hdisj⟩ := hnd
      push_neg at hn0
      have hbn : nid < B := hb nid (by simp [RTree.nids])
      have hbL : ∀ i, i ∈ RTreeL.nids cs → i < B := fun i hi =>
        hb i (by
          simp only [RTree.nids, List.mem_cons, List.mem_append]
          exact Or.inr (Or.inl hi))
      have hbO : ∀ i, i ∈ RTreeO.nids wo → i < B := fun i hi =>
        hb i (by
          simp only [RTree.nids, List.mem_cons, List.mem_append]
          exact Or.inr (Or.inr hi))
      simp only [agrees, Bool.and_eq_true] at h
      obtain ⟨⟨⟨⟨⟨⟨⟨h1, h2⟩, h3⟩, h4⟩, h5⟩, h6⟩, h7⟩, h8⟩ := h
      cases hcs : RTreeL.subAt x cs with
      | some s =>
        simp only [hcs, Option.some.injEq] at hs
        rw [hs] at hcs
        have hsl := ((subAt_sublist x).2.1 cs rx hcs).1
        have hxw : x ∉ RTreeO.nids wo := by
          intro hm2
          have hxc : x ∈ RTreeL.nids cs :=
            hsl.subset (((subAt_sublist x).2.1 cs rx hcs).2 ▸ nid_mem_nids rx)
          exact hdisj hxc hm2
        have hnfr : getN st2 m = getN st m := by
          refine hframe m ?_ (hnid ▸ hbn)
          intro hm2
          exact hn0.1 (hnid ▸ hsl.subset hm2)
        simp only [RTree.repl, if_neg hx, agrees, Bool.and_eq_true]
        rw [hnfr, (repl_id x t).2.2 wo hxw]
        refine ⟨⟨⟨⟨⟨⟨⟨h1, h2⟩, h3⟩, h4⟩, h5⟩, h6⟩, ihc _ h7 hcs hnL hbL⟩, ?_⟩
        refine (agrees_frame st st2).2.2 wo _ h8 ?_
        intro i hi
        refine hframe i ?_ (hbO i hi)
        intro hm2
        exact hdisj (hsl.subset hm2) hi
      | none =>
        simp only [hcs] at hs
        have hsl := ((subAt_sublist x).2.2 wo rx hs).1
        have hxc : x ∉ RTreeL.nids cs := (subAt_none x).2.1 cs hcs
        have hnfr : getN st2 m = getN st m := by
          refine hframe m ?_ (hnid ▸ hbn)
          intro hm2
          exact hn0.2 (hnid ▸ hsl.subset hm2)
        simp only [RTree.repl, if_neg hx, agrees, Bool.and_eq_true]
        rw [hnfr, (repl_id x t).2.1 cs hxc]
        refine ⟨⟨⟨⟨⟨⟨⟨h1, h2⟩, h3⟩, h4⟩, h5⟩, h6⟩, ?_⟩, ihw _ h8 hs hnO hbO⟩
        refine (agrees_frame st st2).2.1 cs _ h7 ?_
        intro i hi
        refine hframe i ?_ (hbL i hi)
        intro hm2
        exact hdisj hi (hsl.subset hm2)
  · intro m h hs _ _
    simp [RTreeL.subAt] at hs
  · intro k r rs ihr ihrs m h hs hnd hb
    cases m with
    | nil => simp [agreesL] at h
    | cons kv m2 =>
      obtain ⟨k2, cid⟩ := kv
      simp only [agreesL, Bool.and_eq_true] at h
      obtain ⟨⟨h1, h2⟩, h3⟩ := h
      simp only [RTreeL.subAt] at hs
      simp only [RTreeL.nids, List.nodup_append, List.mem_append] at hnd
      obtain ⟨hnr, hnrs, hdisj⟩ := hnd
      have hbr : ∀ i, i ∈ RTree.nids r → i < B := fun i hi =>
        hb i (by
          simp only [RTreeL.nids, List.mem_append]
          exact Or.inl hi)
      have hbrs : ∀ i, i ∈ RTreeL.nids rs → i < B := fun i hi =>
        hb i (by
          simp only [RTreeL.nids, List.mem_append]
          exact Or.inr hi)
      cases hr : RTree.subAt x r with
      | some s =>
        simp only [hr, Option.some.injEq] at hs
        rw [hs] at hr
        have hsl := ((subAt_sublist x).1 r rx hr).1
        have hxrs : x ∉ RTreeL.nids rs := by
          intro hm2
          have hxr : x ∈ RTree.nids r :=
            hsl.subset (((subAt_sublist x).1 r rx hr).2 ▸ nid_mem_nids rx)
          exact hdisj hxr hm2
        simp only [RTreeL.repl, agreesL, Bool.and_eq_true]
        rw [(repl_id x t).2.1 rs hxrs]
        refine ⟨⟨h1, ihr _ h2 hr hnr hbr⟩, ?_⟩
        refine (agrees_frame st st2).2.1 rs _ h3 ?_
        intro i hi
        refine hframe i ?_ (hbrs i hi)
        intro hm2
        exact hdisj (hsl.subset hm2) hi
      | none =>
        simp only [hr] at hs
        have hsl := ((subAt_sublist x).2.1 rs rx hs).1
        have hxr : x ∉ RTree.nids r := (subAt_none x).1 r hr
        simp only [RTreeL.repl, agreesL, Bool.and_eq_true]
        rw [(repl_id x t).1 r hxr]
        refine ⟨⟨h1, ?_⟩, ihrs _ h3 hs hnrs hbrs⟩
        refine (agrees_frame st st2).1 r _ h2 ?_
        intro i hi
        refine hframe i ?_ (hbr i hi)
        intro hm2
        exact hdisj hi (hsl.subset hm2)
  · intro o h hs _ _
    simp [RTreeO.subAt] at hs
  · intro r ih o h hs hnd hb
    cases o with
    | none => simp [agreesO] at h
    | some wn =>
      simp only [agreesO] at h ⊢
      simp only [RTreeO.subAt] at hs
      simp only [RTreeO.nids] at hnd hb
      simp only [RTreeO.repl, agreesO]
      exact ih _ h hs hnd hb

theorem okX_repl (x : Nat) (t rx : RTree) (xnew : Option Nat)
    (hokt : RTree.okX xnew t = true)
    (hhead : ∀ k, RTree.headIs k t = RTree.headIs k rx)
    (hlblp : RTree.emptyLbl t = RTree.emptyLbl rx)
    (hne : RTree.nonEmpty t = true ∨ xnew = some (RTree.nid t)) :
    (∀ r, ∀ xold, RTree.okX xold r = true → RTree.subAt x r = some rx →
      (RTree.nids r).Nodup → (∀ i, xold = some i → i ∈ RTree.nids rx) →
      RTree.okX xnew (RTree.repl x t r) = true) ∧
    (∀ cs, ∀ xold, RTreeL.okX xold cs = true → RTreeL.subAt x cs = some rx →
      (RTreeL.nids cs).Nodup → (∀ i, xold = some i → i ∈ RTree.nids rx) →
      RTreeL.okX xnew (RTreeL.repl x t cs) = true) ∧
    (∀ w, ∀ xold, RTreeO.okX xold w = true → RTreeO.subAt x w = some rx →
      (RTreeO.nids w).Nodup → (∀ i, xold = some i → i ∈ RTree.nids rx) →
      RTreeO.okX xnew (RTreeO.repl x t w) = true) := by
  refine rtree_mutual_ind _ _ _ ?_ ?_ ?_ ?_ ?_
  · intro nid lbl has cs wo ihc ihw xold h hs hnd hxold
    by_cases hx : nid = x
    · simp only [RTree.repl, if_pos hx]
      exact hokt
    · simp only [RTree.subAt, if_neg hx] at hs
      simp only [RTree.okX, Bool.and_eq_true, Bool.or_eq_true] at h
      obtain ⟨⟨h1, h2⟩, h3⟩ := h
      have hroot : RTree.nid (RTree.node nid lbl has cs wo) ∉ RTree.nids rx := by
        refine root_not_in_subAt x _ rx ?_ ?_ hnd
        · simp only [RTree.subAt, if_neg hx]
          exact hs
        · simp only [RTree.nid]
          exact hx
      simp only [RTree.nid] at hroot
      have hclause : (xnew == some nid || decide (lbl = []) ||
          !(RTreeL.len1 (RTreeL.repl x t cs) && RTreeO.isNone (RTreeO.repl x t wo) &&
            !has)) = true := by
        simp only [Bool.or_eq_true, len1_replL, isNone_replO]
        rcases h1 with h1 | h1
        · rcases h1 with h1 | h1
          · exfalso
            simp only [beq_iff_eq] at h1
            exact hroot (hxold nid h1)
          · exact Or.inl (Or.inr h1)
        · exact Or.inr h1
      simp only [RTree.nids, List.nodup_cons, List.nodup_append, List.mem_cons,
        List.mem_append] at hnd
      obtain ⟨hn0, hnL, hnO, hdisj⟩ := hnd
      cases hcs : RTreeL.subAt x cs with
      | some s =>
        simp only [hcs, Option.some.injEq] at hs
        rw [hs] at hcs
        have hsl := ((subAt_sublist x).2.1 cs rx hcs).1
        have hxw : x ∉ RTreeO.nids wo := by
          intro hm2
          have hxc : x ∈ RTreeL.nids cs :=
            hsl.subset (((subAt_sublist x).2.1 cs rx hcs).2 ▸ nid_mem_nids rx)
          exact hdisj hxc hm2
        simp only [RTree.repl, if_neg hx, RTree.okX, Bool.and_eq_true]
        rw [(repl_id x t).2.2 wo hxw]
        rw [(repl_id x t).2.2 wo hxw] at hclause
        refine ⟨⟨hclause, ihc _ h2 hcs hnL hxold⟩, ?_⟩
        refine (okX_out xold xnew).2.2 wo h3 ?_
        intro i hi hm2
        exact hdisj (hsl.subset (hxold i hi)) hm2
      | none =>
        simp only [hcs] at hs
        have hsl := ((subAt_sublist x).2.2 wo rx hs).1
        have hxc : x ∉ RTreeL.nids cs := (subAt_none x).2.1 cs hcs
        simp only [RTree.repl, if_neg hx, RTree.okX, Bool.and_eq_true]
        rw [(repl_id x t).2.1 cs hxc]
        rw [(repl_id x t).2.1 cs hxc] at hclause
        refine ⟨⟨hclause, ?_⟩, ihw _ h3 hs hnO hxold⟩
        refine (okX_out xold xnew).2.1 cs h2 ?_
        intro i hi hm2
        exact hdisj hm2 (hsl.subset (hxold i hi))
  · intro xold h hs _ _
    simp [RTreeL.subAt] at hs
  · intro k r rs ihr ihrs xold h hs hnd hxold
    simp only [RTreeL.okX, Bool.and_eq_true, Bool.or_eq_true] at h
    obtain ⟨⟨⟨h1, h2⟩, h3⟩, h4⟩ := h
    simp only [RTreeL.subAt] at hs
    simp only [RTreeL.nids, List.nodup_append, List.mem_append] at hnd
    obtain ⟨hnr, hnrs, hdisj⟩ := hnd
    cases hr : RTree.subAt x r with
    | some s =>
      simp only [hr, Option.some.injEq] at hs
      rw [hs] at hr
      have hsl := ((subAt_sublist x).1 r rx hr).1
      have hxrs : x ∉ RTreeL.nids rs := by
        intro hm2
        have hxr : x ∈ RTree.nids r :=
          hsl.subset (((subAt_sublist x).1 r rx hr).2 ▸ nid_mem_nids rx)
        exact hdisj hxr hm2
      simp only [RTreeL.repl, RTreeL.okX, Bool.and_eq_true, Bool.or_eq_true]
      rw [(repl_id x t).2.1 rs hxrs]
      by_cases hrx : RTree.nid r = x
      · have hreq : RTree.repl x t r = t := by
          cases r with
          | node n2 l2 hb2 cs2 wo2 =>
            simp only [RTree.nid] at hrx
            simp [RTree.repl, if_pos hrx]
        have hxr2 : rx = r := by
          cases r with
          | node n2 l2 hb2 cs2 wo2 =>
            simp only [RTree.nid] at hrx
            simp only [RTree.subAt, if_pos hrx, Option.some.injEq] at hr
            exact hr.symm
        rw [hreq]
        refine ⟨⟨⟨?_, ?_⟩, hokt⟩, ?_⟩
        · rw [hhead k, hxr2]
          exact h1
        · rcases hne with hne | hne
          · exact Or.inr hne
          · left
            rw [hne]
            exact beq_self_eq_true _
        · refine (okX_out xold xnew).2.1 rs h4 ?_
          intro i hi hm2
          exact hdisj (hsl.subset (hxold i hi)) hm2
      · refine ⟨⟨⟨?_, ?_⟩, ?_⟩, ?_⟩
        · rw [headIs_repl_ne x k t r hrx]
          exact h1
        · right
          rw [nonEmpty_repl_ne x t r hrx]
          rcases h2 with h2 | h2
          · exfalso
            simp only [beq_iff_eq, Option.some.injEq] at h2
            have := root_not_in_subAt x r rx hr hrx hnr
            exact this (hxold (RTree.nid r) h2)
          · exact h2
        · exact ihr xold h3 hr hnr hxold
        · refine (okX_out xold xnew).2.1 rs h4 ?_
          intro i hi hm2
          exact hdisj (hsl.subset (hxold i hi)) hm2
    | none =>
      simp only [hr] at hs
      have hsl := ((subAt_sublist x).2.1 rs rx hs).1
      have hxr : x ∉ RTree.nids r := (subAt_none x).1 r hr
      simp only [RTreeL.repl, RTreeL.okX, Bool.and_eq_true, Bool.or_eq_true]
      rw [(repl_id x t).1 r hxr]
      refine ⟨⟨⟨h1, ?_⟩, ?_⟩, ihrs _ h4 hs hnrs hxold⟩
      · rcases h2 with h2 | h2
        · exfalso
          simp only [beq_iff_eq, Option.some.injEq] at h2
          have hmem : RTree.nid r ∈ RTree.nids r := nid_mem_nids r
          exact hdisj hmem (hsl.subset (hxold (RTree.nid r) h2))
        · exact Or.inr h2
      · refine (okX_out xold xnew).1 r h3 ?_
        intro i hi hm2
        exact hdisj hm2 (hsl.subset (hxold i hi))
  · intro xold h hs _ _
    simp [RTreeO.subAt] at hs
  · intro r ih xold h hs hnd hxold
    simp only [RTreeO.okX, Bool.and_eq_true, Bool.or_eq_true] at h
    obtain ⟨⟨h1, h2⟩, h3⟩ := h
    simp only [RTreeO.subAt] at hs
    simp only [RTreeO.nids] at hnd
    simp only [RTreeO.repl, RTreeO.okX, Bool.and_eq_true, Bool.or_eq_true]
    by_cases hrx : RTree.nid r = x
    · have hreq : RTree.repl x t r = t := by
        cases r with
        | node n2 l2 hb2 cs2 wo2 =>
          simp only [RTree.nid] at hrx
          simp [RTree.repl, if_pos hrx]
      have hxr2 : rx = r := by
        cases r with
        | node n2 l2 hb2 cs2 wo2 =>
          simp only [RTree.nid] at hrx
          simp only [RTree.subAt, if_pos hrx, Option.some.injEq] at hs
          exact hs.symm
      rw [hreq]
      refine ⟨⟨?_, ?_⟩, hokt⟩
      · rw [hlblp, hxr2]
        exact h1
      · rcases hne with hne | hne
        · exact Or.inr hne
        · left
          rw [hne]
          exact beq_self_eq_true _
    · refine ⟨⟨?_, ?_⟩, ih _ h3 hs hnd hxold⟩
      · rw [emptyLbl_repl_ne x t r hrx]
        exact h1
      · right
        rw [nonEmpty_repl_ne x t r hrx]
        rcases h2 with h2 | h2
        · exfalso
          simp only [beq_iff_eq, Option.some.injEq] at h2
          have := root_not_in_subAt x r rx hs hrx hnd
          exact this (hxold (RTree.nid r) h2)
        · exact h2

theorem subAt_eq_none (x : Nat) (r : RTree) (h : x ∉ RTree.nids r) :
    RTree.subAt x r = none := by
  cases hs : RTree.subAt x r with
  | none => rfl
  | some s =>
    obtain ⟨hsl, hnid⟩ := (subAt_sublist x).1 r s hs
    exact absurd (hsl.subset (hnid ▸ nid_mem_nids s)) h

theorem agreesL_findK (st : PM) : ∀ (m : List (Nat × Nat)) (cs : RTreeL) (p cid : Nat),
    agreesL st m cs = true → alGet m p = some cid →
    ∃ rc, RTreeL.findK p cs = some rc ∧ RTree.nid rc = cid ∧ agrees st cid rc = true := by
  intro m
  induction m with
  | nil =>
    intro cs p cid h hg
    simp [alGet] at hg
  | cons kv rest ih =>
    intro cs p cid h hg
    obtain ⟨k, c⟩ := kv
    cases cs with
    | nil => simp [agreesL] at h
    | cons k2 r rs =>
      simp only [agreesL, Bool.and_eq_true, beq_iff_eq] at h
      obtain ⟨⟨hk, hr⟩, hrest⟩ := h
      simp only [alGet] at hg
      by_cases hkp : k = p
      · rw [if_pos hkp] at hg
        simp only [Option.some.injEq] at hg
        refine ⟨r, ?_, ?_, ?_⟩
        · simp only [RTreeL.findK]
          rw [if_pos (hk ▸ hkp)]
        · rw [agrees_nid st c r hr, hg]
        · rw [← hg]
          exact hr
      · rw [if_neg hkp] at hg
        obtain ⟨rc, hfk, hnid, hag⟩ := ih rs p cid hrest hg
        refine ⟨rc, ?_, hnid, hag⟩
        simp only [RTreeL.findK]
        rw [if_neg (hk ▸ hkp), hfk]

theorem findK_sublist (p : Nat) : ∀ (cs : RTreeL) (rc : RTree),
    RTreeL.findK p cs = some rc → (RTree.nids rc).Sublist (RTreeL.nids cs) := by
  refine (rtree_mutual_ind (fun _ => True)
    (fun cs => ∀ rc, RTreeL.findK p cs = some rc →
      (RTree.nids rc).Sublist (RTreeL.nids cs))
    (fun _ => True) (fun _ _ _ _ _ _ _ => trivial) ?_ ?_ trivial
    (fun _ _ => trivial)).2.1
  · intro rc h
    simp [RTreeL.findK] at h
  · intro k r rs _ ih rc h
    simp only [RTreeL.findK] at h
    by_cases hk : k = p
    · rw [if_pos hk] at h
      simp only [Option.some.injEq] at h
      rw [← h]
      simp only [RTreeL.nids]
      exact List.sublist_append_left _ _
    · rw [if_neg hk] at h
      simp only [RTreeL.nids]
      exact (ih rc h).trans (List.sublist_append_right _ _)

theorem findK_subAtL (p : Nat) : ∀ (cs : RTreeL) (rc : RTree),
    RTreeL.findK p cs = some rc → (RTreeL.nids cs).Nodup →
    RTreeL.subAt (RTree.nid rc) cs = some rc := by
  refine (rtree_mutual_ind (fun _ => True)
    (fun cs => ∀ rc, RTreeL.findK p cs = some rc → (RTreeL.nids cs).Nodup →
      RTreeL.subAt (RTree.nid rc) cs = some rc)
    (fun _ => True) (fun _ _ _ _ _ _ _ => trivial) ?_ ?_ trivial
    (fun _ _ => trivial)).2.1
  · intro rc h _
    simp [RTreeL.findK] at h
  · intro k r rs _ ih rc h hnd
    simp only [RTreeL.nids, List.nodup_append, List.mem_append] at hnd
    obtain ⟨hnr, hnrs, hdisj⟩ := hnd
    simp only [RTreeL.findK] at h
    simp only [RTreeL.subAt]
    by_cases hk : k = p
    · rw [if_pos hk] at h
      simp only [Option.some.injEq] at h
      rw [← h, subAt_self]
    · rw [if_neg hk] at h
      have hmem : RTree.nid rc ∈ RTreeL.nids rs :=
        (findK_sublist p rs rc h).subset (nid_mem_nids rc)
      have hnr2 : RTree.nid rc ∉ RTree.nids r := fun hm => hdisj hm hmem
      rw [subAt_eq_none _ _ hnr2]
      exact ih rc h hnrs

theorem agreesL_delK (st : PM) (p : Nat) : ∀ (m : List (Nat × Nat)) (cs : RTreeL),
    agreesL st m cs = true →
    agreesL st (alDelete m p) (RTreeL.delK p cs) = true := by
  intro m
  induction m with
  | nil =>
    intro cs h
    cases cs with
    | nil => simp [alDelete, RTreeL.delK, agreesL]
    | cons k r rs => simp [agreesL] at h
  | cons kv rest ih =>
    intro cs h
    obtain ⟨k, c⟩ := kv
    cases cs with
    | nil => simp [agreesL] at h
    | cons k2 r rs =>
      simp only [agreesL, Bool.and_eq_true, beq_iff_eq] at h
      obtain ⟨⟨hk, hr⟩, hrest⟩ := h
      simp only [alDelete, RTreeL.delK]
      by_cases hkp : k = p
      · rw [if_pos hkp, if_pos (hk ▸ hkp)]
        exact hrest
      · rw [if_neg hkp, if_neg (hk ▸ hkp)]
        simp only [agreesL, Bool.and_eq_true, beq_iff_eq]
        exact ⟨⟨hk, hr⟩, ih rs hrest⟩

theorem nids_delK_sublist (p : Nat) : ∀ (cs : RTreeL),
    (RTreeL.nids (RTreeL.delK p cs)).Sublist (RTreeL.nids cs) := by
  refine (rtree_mutual_ind (fun _ => True)
    (fun cs => (RTreeL.nids (RTreeL.delK p cs)).Sublist (RTreeL.nids cs))
    (fun _ => True) (fun _ _ _ _ _ _ _ => trivial) ?_ ?_ trivial
    (fun _ _ => trivial)).2.1
  · simp [RTreeL.delK]
  · intro k r rs _ ih
    simp only [RTreeL.delK]
    by_cases hk : k = p
    · rw [if_pos hk]
      simp only [RTreeL.nids]
      exact List.sublist_append_right _ _
    · rw [if_neg hk]
      simp only [RTreeL.nids]
      exact ih.append_left _

theorem nids_delK_not (p : Nat) : ∀ (cs : RTreeL) (rc : RTree),
    RTreeL.findK p cs = some rc → (RTreeL.nids cs).Nodup →
    ∀ i, i ∈ RTreeL.nids (RTreeL.delK p cs) → i ∉ RTree.nids rc := by
  refine (rtree_mutual_ind (fun _ => True)
    (fun cs => ∀ rc, RTreeL.findK p cs = some rc → (RTreeL.nids cs).Nodup →
      ∀ i, i ∈ RTreeL.nids (RTreeL.delK p cs) → i ∉ RTree.nids rc)
    (fun _ => True) (fun _ _ _ _ _ _ _ => trivial) ?_ ?_ trivial
    (fun _ _ => trivial)).2.1
  · intro rc h
    simp [RTreeL.findK] at h
  · intro k r rs _ ih rc h hnd i hi
    simp only [RTreeL.nids, List.nodup_append, List.mem_append] at hnd
    obtain ⟨hnr, hnrs, hdisj⟩ := hnd
    simp only [RTreeL.findK] at h
    simp only [RTreeL.delK] at hi
    by_cases hk : k = p
    · rw [if_pos hk] at h
      simp only [Option.some.injEq] at h
      rw [if_pos hk] at hi
      rw [← h]
      intro hm
      exact hdisj hm hi
    · rw [if_neg hk] at h
      rw [if_neg hk] at hi
      simp only [RTreeL.nids, List.mem_append] at hi
      rcases hi with hi | hi
      · intro hm
        exact hdisj hi ((findK_sublist p rs rc h).subset hm)
      · exact ih rc h hnrs i hi

theorem okX_delK (p : Nat) (xo : Option Nat) : ∀ (cs : RTreeL),
    RTreeL.okX xo cs = true → RTreeL.okX xo (RTreeL.delK p cs) = true := by
  refine (rtree_mutual_ind (fun _ => True)
    (fun cs => RTreeL.okX xo cs = true → RTreeL.okX xo (RTreeL.delK p cs) = true)
    (fun _ => True) (fun _ _ _ _ _ _ _ => trivial) ?_ ?_ trivial
    (fun _ _ => trivial)).2.1
  · intro h
    exact h
  · intro k r rs _ ih h
    simp only [RTreeL.okX, Bool.and_eq_true] at h
    simp only [RTreeL.delK]
    by_cases hk : k = p
    · rw [if_pos hk]
      exact h.2
    · rw [if_neg hk]
      simp only [RTreeL.okX, Bool.and_eq_true]
      exact ⟨h.1, ih h.2⟩

theorem agreesL_append1 (st st2 : PM) (p nid2 : Nat) (t : RTree)
    (hagt : agrees st2 nid2 t = true) : ∀ (m : List (Nat × Nat)) (cs : RTreeL),
    agreesL st m cs = true → alGet m p = none →
    (∀ i, i ∈ RTreeL.nids cs → getN st2 i = getN st i) →
    agreesL st2 (alSet m p nid2) (RTreeL.append1 p t cs) = true := by
  intro m
  induction m with
  | nil =>
    intro cs h hg hfr
    cases cs with
    | nil =>
      simp only [alSet, RTreeL.append1, agreesL, Bool.and_eq_true, beq_iff_eq]
      exact ⟨⟨trivial, hagt⟩, trivial⟩
    | cons k r rs => simp [agreesL] at h
  | cons kv rest ih =>
    intro cs h hg hfr
    obtain ⟨k, c⟩ := kv
    cases cs with
    | nil => simp [agreesL] at h
    | cons k2 r rs =>
      simp only [agreesL, Bool.and_eq_true, beq_iff_eq] at h
      obtain ⟨⟨hk, hr⟩, hrest⟩ := h
      simp only [alGet] at hg
      by_cases hkp : k = p
      · rw [if_pos hkp] at hg
        cases hg
      · rw [if_neg hkp] at hg
        simp only [alSet, RTreeL.append1]
        rw [if_neg hkp]
        simp only [agreesL, Bool.and_eq_true, beq_iff_eq]
        refine ⟨⟨hk, ?_⟩, ?_⟩
        · refine (agrees_frame st st2).1 r _ hr ?_
          intro i hi
          refine hfr i ?_
          simp only [RTreeL.nids, List.mem_append]
          exact Or.inl hi
        · refine ih rs hrest hg ?_
          intro i hi
          refine hfr i ?_
          simp only [RTreeL.nids, List.mem_append]
          exact Or.inr hi

theorem nids_append1 (p : Nat) (t : RTree) : ∀ (cs : RTreeL),
    RTreeL.nids (RTreeL.append1 p t cs) = RTreeL.nids cs ++ RTree.nids t := by
  refine (rtree_mutual_ind (fun _ => True)
    (fun cs => RTreeL.nids (RTreeL.append1 p t cs) = RTreeL.nids cs ++ RTree.nids t)
    (fun _ => True) (fun _ _ _ _ _ _ _ => trivial) ?_ ?_ trivial
    (fun _ _ => trivial)).2.1
  · simp [RTreeL.append1, RTreeL.nids]
  · intro k r rs _ ih
    simp only [RTreeL.append1, RTreeL.nids, ih, List.append_assoc]

theorem okX_append1 (p : Nat) (t : RTree) (xn : Option Nat)
    (hh : RTree.headIs p t = true)
    (hne2 : (xn == some (RTree.nid t) || RTree.nonEmpty t) = true)
    (hokt : RTree.okX xn t = true) : ∀ (cs : RTreeL),
    RTreeL.okX xn cs = true → RTreeL.okX xn (RTreeL.append1 p t cs) = true := by
  refine (rtree_mutual_ind (fun _ => True)
    (fun cs => RTreeL.okX xn cs = true → RTreeL.okX xn (RTreeL.append1 p t cs) = true)
    (fun _ => True) (fun _ _ _ _ _ _ _ => trivial) ?_ ?_ trivial
    (fun _ _ => trivial)).2.1
  · intro _
    simp only [RTreeL.append1, RTreeL.okX, Bool.and_eq_true]
    exact ⟨⟨⟨hh, hne2⟩, hokt⟩, trivial⟩
  · intro k r rs _ ih h
    simp only [RTreeL.okX, Bool.and_eq_true] at h
    simp only [RTreeL.append1, RTreeL.okX, Bool.and_eq_true]
    exact ⟨h.1, ih h.2⟩

theorem len1_append1_cons (p k : Nat) (t r : RTree) (rs : RTreeL) :
    RTreeL.len1 (RTreeL.append1 p t (.cons k r rs)) = false := by
  cases rs with
  | nil => rfl
  | cons k2 r2 rs2 => rfl

theorem agreesL_replSet (st st2 : PM) (p cid nid2 : Nat) (t rc : RTree)
    (hagt : agrees st2 nid2 t = true) (hnid : RTree.nid rc = cid) :
    ∀ (m : List (Nat × Nat)) (cs : RTreeL),
    agreesL st m cs = true → alGet m p = some cid → RTreeL.findK p cs = some rc →
    (RTreeL.nids cs).Nodup →
    (∀ i, i ∈ RTreeL.nids cs → i ∉ RTree.nids rc → getN st2 i = getN st i) →
    agreesL st2 (alSet m p nid2) (RTreeL.repl cid t cs) = true := by
  intro m
  induction m with
  | nil =>
    intro cs h hg _ _ _
    simp [alGet] at hg
  | cons kv rest ih =>
    intro cs h hg hfk hnd hfr
    obtain ⟨k, c⟩ := kv
    cases cs with
    | nil => simp [agreesL] at h
    | cons k2 r rs =>
      simp only [agreesL, Bool.and_eq_true, beq_iff_eq] at h
      obtain ⟨⟨hk, hr⟩, hrest⟩ := h
      simp only [alGet] at hg
      simp only [RTreeL.findK] at hfk
      simp only [RTreeL.nids, List.nodup_append, List.mem_append] at hnd
      obtain ⟨hnr, hnrs, hdisj⟩ := hnd
      by_cases hkp : k = p
      · rw [if_pos hkp] at hg
        simp only [Option.some.injEq] at hg
        rw [if_pos (hk ▸ hkp)] at hfk
        simp only [Option.some.injEq] at hfk
        have hcidr : RTree.nid r = cid := by
          rw [agrees_nid st c r hr, hg]
        have hreq : RTree.repl cid t r = t := by
          cases r with
          | node n2 l2 hb2 cs2 wo2 =>
            simp only [RTree.nid] at hcidr
            simp [RTree.repl, if_pos hcidr]
        have hcidm : cid ∈ RTree.nids r := by
          rw [← hcidr]
          exact nid_mem_nids r
        have hcidrs : cid ∉ RTreeL.nids rs := by
          intro hm
          exact hdisj hcidm hm
        simp only [alSet, RTreeL.repl]
        rw [if_pos hkp, hreq, (repl_id cid t).2.1 rs hcidrs]
        simp only [agreesL, Bool.and_eq_true, beq_iff_eq]
        refine ⟨⟨hk, hagt⟩, ?_⟩
        refine (agrees_frame st st2).2.1 rs _ hrest ?_
        intro i hi
        refine hfr i ?_ ?_
        · simp only [RTreeL.nids, List.mem_append]
          exact Or.inr hi
        · rw [← hfk]
          intro hm
          exact hdisj hm hi
      · rw [if_neg hkp] at hg
        rw [if_neg (hk ▸ hkp)] at hfk
        have hcidrs : cid ∈ RTreeL.nids rs := by
          refine (findK_sublist p rs rc hfk).subset ?_
          rw [← hnid]
          exact nid_mem_nids rc
        have hcidr : cid ∉ RTree.nids r := fun hm => hdisj hm hcidrs
        simp only [alSet, RTreeL.repl]
        rw [if_neg hkp, (repl_id cid t).1 r hcidr]
        simp only [agreesL, Bool.and_eq_true, beq_iff_eq]
        refine ⟨⟨hk, ?_⟩, ?_⟩
        · refine (agrees_frame st st2).1 r _ hr ?_
          intro i hi
          refine hfr i ?_ ?_
          · simp only [RTreeL.nids, List.mem_append]
            exact Or.inl hi
          · intro hm
            exact hdisj hi ((findK_sublist p rs rc hfk).subset hm)
        · exact ih rs hrest hg hfk hnrs fun i hi hm =>
            hfr i (by
              simp only [RTreeL.nids, List.mem_append]
              exact Or.inr hi) hm

theorem lcp_cons_eq (c : Nat) (as bs : Str) :
    lcp (c :: as) (c :: bs) = c :: lcp as bs := by
  simp [lcp]

theorem lcp_append_drop : ∀ (a b : Str), lcp a b ++ a.drop (lcp a b).length = a := by
  intro a
  induction a with
  | nil =>
    intro b
    cases b with
    | nil => rfl
    | cons d bs => rfl
  | cons c as ih =>
    intro b
    cases b with
    | nil => rfl
    | cons d bs =>
      by_cases hcd : c = d
      · rw [← hcd, lcp_cons_eq]
        simp only [List.length_cons, List.drop_succ_cons, List.cons_append,
          List.cons.injEq]
        exact ⟨trivial, ih bs⟩
      · simp [lcp, if_neg hcd]


theorem lcp_append_drop_right : ∀ (a b : Str),
    lcp a b ++ b.drop (lcp a b).length = b ∨ b.drop (lcp a b).length = [] := by
  intro a
  induction a with
  | nil =>
    intro b
    cases b with
    | nil => exact Or.inr rfl
    | cons d bs => exact Or.inl rfl
  | cons c as ih =>
    intro b
    cases b with
    | nil => exact Or.inr rfl
    | cons d bs =>
      by_cases hcd : c = d
      · rw [← hcd, lcp_cons_eq]
        simp only [List.length_cons, List.drop_succ_cons, List.cons_append,
          List.cons.injEq]
        rcases ih bs with h | h
        · exact Or.inl ⟨trivial, h⟩
        · exact Or.inr h
      · simp [lcp, if_neg hcd]

theorem lcp_max : ∀ (a b : Str) (x y : Nat) (xs ys : Str),
    a.drop (lcp a b).length = x :: xs → b.drop (lcp a b).length = y :: ys → x ≠ y := by
  intro a
  induction a with
  | nil =>
    intro b x y xs ys hx hy
    cases b with
    | nil => simp [lcp] at hx
    | cons d bs => simp [lcp] at hx
  | cons c as ih =>
    intro b x y xs ys hx hy
    cases b with
    | nil => simp [lcp] at hy
    | cons d bs =>
      by_cases hcd : c = d
      · rw [← hcd, lcp_cons_eq] at hx hy
        simp only [List.length_cons, List.drop_succ_cons] at hx hy
        exact ih bs x y xs ys hx hy
      · simp only [lcp, if_neg hcd, List.length_nil, List.drop_zero] at hx hy
        simp only [List.cons.injEq] at hx hy
        rw [← hx.1, ← hy.1]
        exact hcd

theorem drop_ne_of_lcp_ne (a b : Str) (h : lcp a b ≠ a) :
    a.drop (lcp a b).length ≠ [] := by
  intro he
  apply h
  have h2 := lcp_append_drop a b
  rw [he, List.append_nil] at h2
  exact h2

theorem isEmptyN_agrees (st : PM) (n : Nat) (r : RTree) (h : agrees st n r = true) :
    isEmptyN (getN st n) = !RTree.nonEmpty r := by
  cases r with
  | node nid lbl has cs wo =>
    simp only [agrees, Bool.and_eq_true, beq_iff_eq] at h
    obtain ⟨⟨⟨⟨⟨⟨⟨h1, h2⟩, h3⟩, h4⟩, h5⟩, h6⟩, h7⟩, h8⟩ := h
    cases cs with
    | cons k r2 rs =>
      have hch : (getN st n).children ≠ none := by
        intro hc
        rw [hc] at h7
        simp [agreesL] at h7
      have hone : RTree.nonEmpty (.node nid lbl has (.cons k r2 rs) wo) = true := by
        simp [RTree.nonEmpty]
      rw [hone]
      simp only [Bool.not_true, isEmptyN, decide_eq_false_iff_not]
      intro hc
      exact hch hc.2.2.1
    | nil =>
      cases wo with
      | some r2 =>
        have hw : (getN st n).wildcard ≠ none := by
          intro hwn
          rw [hwn] at h8
          simp [agreesO] at h8
        have hone : RTree.nonEmpty (.node nid lbl has .nil (.some r2)) = true := by
          simp [RTree.nonEmpty]
        rw [hone]
        simp only [Bool.not_true, isEmptyN, decide_eq_false_iff_not]
        intro hc
        exact hw hc.2.2.2
      | none =>
        have hcn : (getN st n).children = none := by
          cases hc : (getN st n).children with
          | none => rfl
          | some m =>
            rw [hc] at h7
            simp only [Option.getD_some] at h7
            cases m with
            | nil =>
              rw [hc] at h6
              simp at h6
            | cons kv rest => simp [agreesL] at h7
        have hwn : (getN st n).wildcard = none := by
          cases hw : (getN st n).wildcard with
          | none => rfl
          | some w2 =>
            rw [hw] at h8
            simp [agreesO] at h8
        have hone : RTree.nonEmpty (.node nid lbl has .nil .none) = has := by
          simp [RTree.nonEmpty]
        rw [hone]
        cases has with
        | true =>
          simp only [Bool.not_true, isEmptyN, decide_eq_false_iff_not]
          intro hc
          rw [hc.1, hc.2.1] at h3
          simp at h3
        | false =>
          simp only [Bool.not_false, isEmptyN, decide_eq_true_eq]
          cases hp : (getN st n).permanent with
          | some l =>
            rw [hp] at h3
            simp at h3
          | none =>
            cases ht : (getN st n).temporary with
            | some l =>
              rw [ht] at h3
              simp at h3
            | none => exact ⟨rfl, rfl, hcn, hwn⟩

theorem subAtL_eq_none (x : Nat) (cs : RTreeL) (h : x ∉ RTreeL.nids cs) :
    RTreeL.subAt x cs = none := by
  cases hs : RTreeL.subAt x cs with
  | none => rfl
  | some s =>
    obtain ⟨hsl, hnid⟩ := (subAt_sublist x).2.1 cs s hs
    exact absurd (hsl.subset (hnid ▸ nid_mem_nids s)) h

theorem memL_sublist : ∀ (r0 : RTree) (cs : RTreeL), MemL r0 cs →
    (RTree.nids r0).Sublist (RTreeL.nids cs) := by
  intro r0 cs h
  induction h with
  | head k r rs =>
    simp only [RTreeL.nids]
    exact List.sublist_append_left _ _
  | tail k r1 rs r hm ih =>
    simp only [RTreeL.nids]
    exact ih.trans (List.sublist_append_right _ _)

theorem occurs_sublist : ∀ (sub r : RTree), Occurs sub r →
    (RTree.nids sub).Sublist (RTree.nids r) := by
  intro sub r h
  induction h with
  | refl => exact List.Sublist.refl _
  | child hm ho ih =>
    simp only [RTree.nids]
    exact (ih.trans ((memL_sublist _ _ hm).trans (List.sublist_append_left _ _))).cons _
  | wild ho ih =>
    simp only [RTree.nids, RTreeO.nids]
    exact (ih.trans (List.sublist_append_right _ _)).cons _

theorem memL_agrees (st : PM) : ∀ (r0 : RTree) (cs : RTreeL), MemL r0 cs →
    ∀ m, agreesL st m cs = true → agrees st (RTree.nid r0) r0 = true := by
  intro r0 cs h
  induction h with
  | head k r rs =>
    intro m hag
    cases m with
    | nil => simp [agreesL] at hag
    | cons kv m2 =>
      obtain ⟨k2, cid⟩ := kv
      simp only [agreesL, Bool.and_eq_true] at hag
      rw [agrees_nid st cid r hag.1.2]
      exact hag.1.2
  | tail k r1 rs r hm ih =>
    intro m hag
    cases m with
    | nil => simp [agreesL] at hag
    | cons kv m2 =>
      obtain ⟨k2, cid⟩ := kv
      simp only [agreesL, Bool.and_eq_true] at hag
      exact ih m2 hag.2

theorem occurs_agrees (st : PM) : ∀ (sub r : RTree), Occurs sub r →
    ∀ m, agrees st m r = true → agrees st (RTree.nid sub) sub = true := by
  intro sub r h
  induction h with
  | refl =>
    intro m hag
    rw [agrees_nid st m sub hag]
    exact hag
  | child hm ho ih =>
    intro m hag
    simp only [agrees, Bool.and_eq_true] at hag
    exact ih _ (memL_agrees st _ _ hm _ hag.1.2)
  | wild ho ih =>
    rename_i r0 nid lbl has cs
    intro m hag
    simp only [agrees, Bool.and_eq_true] at hag
    have h8 := hag.2
    cases hw : (getN st m).wildcard with
    | none =>
      rw [hw] at h8
      simp [agreesO] at h8
    | some wn =>
      rw [hw] at h8
      simp only [agreesO] at h8
      exact ih wn h8

theorem memL_okX (x : Option Nat) : ∀ (r0 : RTree) (cs : RTreeL), MemL r0 cs →
    RTreeL.okX x cs = true → RTree.okX x r0 = true := by
  intro r0 cs h
  induction h with
  | head k r rs =>
    intro hok
    simp only [RTreeL.okX, Bool.and_eq_true] at hok
    exact hok.1.2
  | tail k r1 rs r hm ih =>
    intro hok
    simp only [RTreeL.okX, Bool.and_eq_true] at hok
    exact ih hok.2

theorem occurs_okX (x : Option Nat) : ∀ (sub r : RTree), Occurs sub r →
    RTree.okX x r = true → RTree.okX x sub = true := by
  intro sub r h
  induction h with
  | refl =>
    intro hok
    exact hok
  | child hm ho ih =>
    intro hok
    simp only [RTree.okX, Bool.and_eq_true] at hok
    exact ih (memL_okX x _ _ hm hok.1.2)
  | wild ho ih =>
    intro hok
    simp only [RTree.okX, Bool.and_eq_true] at hok
    have h3 := hok.2
    simp only [RTreeO.okX, Bool.and_eq_true] at h3
    exact ih h3.2

theorem memL_subAt (x : Nat) (sub : RTree) : ∀ (r0 : RTree) (cs : RTreeL), MemL r0 cs →
    (RTreeL.nids cs).Nodup → x ∈ RTree.nids r0 → RTree.subAt x r0 = some sub →
    RTreeL.subAt x cs = some sub := by
  intro r0 cs h
  induction h with
  | head k r rs =>
    intro hnd hx hs
    simp only [RTreeL.subAt, hs]
  | tail k r1 rs r hm ih =>
    intro hnd hx hs
    simp only [RTreeL.nids, List.nodup_append, List.mem_append] at hnd
    obtain ⟨hnr1, hnrs, hdisj⟩ := hnd
    have hx1 : x ∉ RTree.nids r1 := fun hm2 =>
      hdisj hm2 ((memL_sublist r rs hm).subset hx)
    simp only [RTreeL.subAt, subAt_eq_none x r1 hx1]
    exact ih hnrs hx hs

theorem occurs_subAt : ∀ (sub r : RTree), Occurs sub r → (RTree.nids r).Nodup →
    RTree.subAt (RTree.nid sub) r = some sub := by
  intro sub r h
  induction h with
  | refl =>
    intro _
    exact subAt_self sub
  | child hm ho ih =>
    rename_i r0 nid lbl has cs w
    intro hnd
    simp only [RTree.nids, List.nodup_cons, List.nodup_append, List.mem_cons,
      List.mem_append] at hnd
    obtain ⟨hn0, hnL, hnO, hdisj⟩ := hnd
    push_neg at hn0
    have hsubmem : RTree.nid sub ∈ RTree.nids r0 :=
      (occurs_sublist sub r0 ho).subset (nid_mem_nids sub)
    have hmemcs : RTree.nid sub ∈ RTreeL.nids cs :=
      (memL_sublist r0 cs hm).subset hsubmem
    have hne : nid ≠ RTree.nid sub := fun e => hn0.1 (e ▸ hmemcs)
    have hndr0 : (RTree.nids r0).Nodup := (memL_sublist r0 cs hm).nodup hnL
    have hL := memL_subAt (RTree.nid sub) sub r0 cs hm hnL hsubmem (ih hndr0)
    simp only [RTree.subAt, if_neg hne, hL]
  | wild ho ih =>
    rename_i r0 nid lbl has cs
    intro hnd
    simp only [RTree.nids, List.nodup_cons, List.nodup_append, List.mem_cons,
      List.mem_append, RTreeO.nids] at hnd
    obtain ⟨hn0, hnL, hnO, hdisj⟩ := hnd
    push_neg at hn0
    have hsubmem : RTree.nid sub ∈ RTree.nids r0 :=
      (occurs_sublist sub r0 ho).subset (nid_mem_nids sub)
    have hne : nid ≠ RTree.nid sub := fun e => hn0.2 (e ▸ hsubmem)
    have hLnone : RTreeL.subAt (RTree.nid sub) cs = none :=
      subAtL_eq_none _ cs fun hm2 => hdisj hm2 hsubmem
    simp only [RTree.subAt, if_neg hne, hLnone, RTreeO.subAt]
    exact ih hnO

theorem nonEmpty_of_wild (r : RTree) (h : RTreeO.isNone (RTree.wild r) = false) :
    RTree.nonEmpty r = true := by
  cases r with
  | node nid lbl has cs w =>
    cases w with
    | none => simp [RTreeO.isNone, RTree.wild] at h
    | some r2 => simp [RTree.nonEmpty]

theorem okX_refix (c : Nat) (x2 : Option Nat) :
    (∀ r, RTree.okX (some c) r = true →
      (∀ l h2 cs2 w2, Occurs (RTree.node c l h2 cs2 w2) r → RTreeO.isNone w2 = false) →
      RTree.okX x2 r = true) ∧
    (∀ cs, RTreeL.okX (some c) cs = true →
      (∀ l h2 cs2 w2 r0, MemL r0 cs → Occurs (RTree.node c l h2 cs2 w2) r0 →
        RTreeO.isNone w2 = false) →
      RTreeL.okX x2 cs = true) ∧
    (∀ w, RTreeO.okX (some c) w = true →
      (∀ l h2 cs2 w2 r0, w = RTreeO.some r0 → Occurs (RTree.node c l h2 cs2 w2) r0 →
        RTreeO.isNone w2 = false) →
      RTreeO.okX x2 w = true) := by
  refine rtree_mutual_ind _ _ _ ?_ ?_ ?_ ?_ ?_
  · intro nid lbl has cs w ihc ihw h hocc
    simp only [RTree.okX, Bool.and_eq_true, Bool.or_eq_true] at h ⊢
    obtain ⟨⟨h1, h2⟩, h3⟩ := h
    refine ⟨⟨?_, ihc h2 ?_⟩, ihw h3 ?_⟩
    · rcases h1 with h1 | h1
      · rcases h1 with h1 | h1
        · simp only [beq_iff_eq, Option.some.injEq] at h1
          have hoc : Occurs (RTree.node c lbl has cs w) (RTree.node nid lbl has cs w) := by
            rw [h1]
            exact Occurs.refl _
          have hiso := hocc lbl has cs w hoc
          right
          simp [hiso]
        · exact Or.inl (Or.inr h1)
      · exact Or.inr h1
    · intro l h2b cs2 w2 r0 hm ho
      exact hocc l h2b cs2 w2 (Occurs.child hm ho)
    · intro l h2b cs2 w2 r0 hw ho
      cases w with
      | none => cases hw
      | some r1 =>
        simp only [RTreeO.some.injEq] at hw
        exact hocc l h2b cs2 w2 (hw ▸ Occurs.wild ho)
  · intro _ _
    rfl
  · intro k r rs ihr ihrs h hocc
    simp only [RTreeL.okX, Bool.and_eq_true, Bool.or_eq_true] at h ⊢
    obtain ⟨⟨⟨h1, h2⟩, h3⟩, h4⟩ := h
    refine ⟨⟨⟨h1, ?_⟩, ihr h3 ?_⟩, ihrs h4 ?_⟩
    · rcases h2 with h2 | h2
      · simp only [beq_iff_eq, Option.some.injEq] at h2
        right
        cases r with
        | node n2 l2 hb2 cs2 w2 =>
          simp only [RTree.nid] at h2
          have hoc : Occurs (RTree.node c l2 hb2 cs2 w2) (RTree.node n2 l2 hb2 cs2 w2) := by
            rw [h2]
            exact Occurs.refl _
          have hiso := hocc l2 hb2 cs2 w2 (.node n2 l2 hb2 cs2 w2)
            (MemL.head k _ rs) hoc
          exact nonEmpty_of_wild _ (by simp only [RTree.wild]; exact hiso)
      · exact Or.inr h2
    · intro l h2b cs2 w2 ho
      exact hocc l h2b cs2 w2 r (MemL.head k r rs) ho
    · intro l h2b cs2 w2 r0 hm ho
      exact hocc l h2b cs2 w2 r0 (MemL.tail k r rs r0 hm) ho
  · intro _ _
    rfl
  · intro r ih h hocc
    simp only [RTreeO.okX, Bool.and_eq_true, Bool.or_eq_true] at h ⊢
    obtain ⟨⟨h1, h2⟩, h3⟩ := h
    refine ⟨⟨h1, ?_⟩, ih h3 ?_⟩
    · rcases h2 with h2 | h2
      · simp only [beq_iff_eq, Option.some.injEq] at h2
        right
        cases r with
        | node n2 l2 hb2 cs2 w2 =>
          simp only [RTree.nid] at h2
          have hoc : Occurs (RTree.node c l2 hb2 cs2 w2) (RTree.node n2 l2 hb2 cs2 w2) := by
            rw [h2]
            exact Occurs.refl _
          have hiso := hocc l2 hb2 cs2 w2 (.node n2 l2 hb2 cs2 w2) rfl hoc
          exact nonEmpty_of_wild _ (by simp only [RTree.wild]; exact hiso)
      · exact Or.inr h2
    · intro l h2b cs2 w2 ho
      exact hocc l h2b cs2 w2 r rfl ho

theorem findK_memL (p : Nat) : ∀ (cs : RTreeL) (rc : RTree),
    RTreeL.findK p cs = some rc → MemL rc cs := by
  refine (rtree_mutual_ind (fun _ => True)
    (fun cs => ∀ rc, RTreeL.findK p cs = some rc → MemL rc cs)
    (fun _ => True) (fun _ _ _ _ _ _ _ => trivial) ?_ ?_ trivial
    (fun _ _ => trivial)).2.1
  · intro rc h
    simp [RTreeL.findK] at h
  · intro k r rs _ ih rc h
    simp only [RTreeL.findK] at h
    by_cases hk : k = p
    · rw [if_pos hk] at h
      simp only [Option.some.injEq] at h
      rw [← h]
      exact MemL.head k r rs
    · rw [if_neg hk] at h
      exact MemL.tail k r rs rc (ih rc h)

theorem spineS_occurs : ∀ (L : List (Option Nat × Nat)) (r s : RTree),
    spineS r L s → Occurs s r := by
  intro L
  induction L with
  | nil =>
    intro r s h
    simp only [spineS] at h
    rw [h]
    exact Occurs.refl _
  | cons e rest ih =>
    intro r s h
    obtain ⟨ko, cur⟩ := e
    cases r with
    | node nid lbl has cs w =>
      cases ko with
      | some p =>
        simp only [spineS] at h
        obtain ⟨hnid, rc, hfk, hsp⟩ := h
        simp only [RTree.children] at hfk
        exact Occurs.child (findK_memL p cs rc hfk) (ih rc s hsp)
      | none =>
        simp only [spineS] at h
        obtain ⟨hnid, rc, hw, hsp⟩ := h
        simp only [RTree.wild] at hw
        rw [hw]
        exact Occurs.wild (ih rc s hsp)

theorem spineS_append_mp : ∀ (L1 L2 : List (Option Nat × Nat)) (r s : RTree),
    spineS r (L1 ++ L2) s → ∃ m, spineS r L1 m ∧ spineS m L2 s := by
  intro L1
  induction L1 with
  | nil =>
    intro L2 r s h
    exact ⟨r, rfl, h⟩
  | cons e rest ih =>
    intro L2 r s h
    obtain ⟨ko, cur⟩ := e
    cases ko with
    | some p =>
      simp only [List.cons_append, spineS] at h
      obtain ⟨hnid, rc, hfk, hsp⟩ := h
      obtain ⟨m, h1, h2⟩ := ih L2 rc s hsp
      exact ⟨m, ⟨hnid, rc, hfk, h1⟩, h2⟩
    | none =>
      simp only [List.cons_append, spineS] at h
      obtain ⟨hnid, rc, hw, hsp⟩ := h
      obtain ⟨m, h1, h2⟩ := ih L2 rc s hsp
      exact ⟨m, ⟨hnid, rc, hw, h1⟩, h2⟩

theorem spineS_append_intro : ∀ (L1 L2 : List (Option Nat × Nat)) (r m s : RTree),
    spineS r L1 m → spineS m L2 s → spineS r (L1 ++ L2) s := by
  intro L1
  induction L1 with
  | nil =>
    intro L2 r m s h1 h2
    simp only [spineS] at h1
    simp only [List.nil_append]
    rw [h1]
    exact h2
  | cons e rest ih =>
    intro L2 r m s h1 h2
    obtain ⟨ko, cur⟩ := e
    cases ko with
    | some p =>
      simp only [spineS] at h1
      simp only [List.cons_append, spineS]
      obtain ⟨hnid, rc, hfk, hsp⟩ := h1
      exact ⟨hnid, rc, hfk, ih L2 rc m s hsp h2⟩
    | none =>
      simp only [spineS] at h1
      simp only [List.cons_append, spineS]
      obtain ⟨hnid, rc, hw, hsp⟩ := h1
      exact ⟨hnid, rc, hw, ih L2 rc m s hsp h2⟩

theorem findK_replL (p x : Nat) (t : RTree) : ∀ (cs : RTreeL) (rc : RTree),
    RTreeL.findK p cs = some rc →
    RTreeL.findK p (RTreeL.repl x t cs) = some (RTree.repl x t rc) := by
  refine (rtree_mutual_ind (fun _ => True)
    (fun cs => ∀ rc, RTreeL.findK p cs = some rc →
      RTreeL.findK p (RTreeL.repl x t cs) = some (RTree.repl x t rc))
    (fun _ => True) (fun _ _ _ _ _ _ _ => trivial) ?_ ?_ trivial
    (fun _ _ => trivial)).2.1
  · intro rc h
    simp [RTreeL.findK] at h
  · intro k r rs _ ih rc h
    simp only [RTreeL.findK, RTreeL.repl] at h ⊢
    by_cases hk : k = p
    · rw [if_pos hk] at h ⊢
      simp only [Option.some.injEq] at h
      rw [h]
    · rw [if_neg hk] at h ⊢
      exact ih rc h

theorem spineS_repl (t : RTree) : ∀ (L : List (Option Nat × Nat)) (r s : RTree),
    spineS r L s → (RTree.nids r).Nodup →
    spineS (RTree.repl (RTree.nid s) t r) L t := by
  intro L
  induction L with
  | nil =>
    intro r s h _
    simp only [spineS] at h ⊢
    rw [h]
    cases s with
    | node n2 l2 hb2 cs2 w2 => simp [RTree.repl, RTree.nid]
  | cons e rest ih =>
    intro r s h hnd
    obtain ⟨ko, cur⟩ := e
    cases r with
    | node nid lbl has cs w =>
      simp only [RTree.nids, List.nodup_cons, List.nodup_append, List.mem_cons,
        List.mem_append] at hnd
      obtain ⟨hn0, hnL, hnO, hdisj⟩ := hnd
      push_neg at hn0
      cases ko with
      | some p =>
        simp only [spineS, RTree.children, RTree.nid] at h
        obtain ⟨hnid, rc, hfk, hsp⟩ := h
        have hmem : RTree.nid s ∈ RTree.nids rc :=
          (occurs_sublist s rc (spineS_occurs rest rc s hsp)).subset (nid_mem_nids s)
        have hne : nid ≠ RTree.nid s := fun e2 =>
          hn0.1 (e2 ▸ (findK_sublist p cs rc hfk).subset hmem)
        have hrepl : RTree.repl (RTree.nid s) t (.node nid lbl has cs w) =
            .node nid lbl has (RTreeL.repl (RTree.nid s) t cs)
              (RTreeO.repl (RTree.nid s) t w) := by
          simp [RTree.repl, if_neg hne]
        rw [hrepl]
        have hndrc : (RTree.nids rc).Nodup := ((findK_sublist p cs rc hfk).nodup hnL)
        refine ⟨hnid, RTree.repl (RTree.nid s) t rc, ?_, ih rc s hsp hndrc⟩
        simp only [RTree.children]
        exact findK_replL p (RTree.nid s) t cs rc hfk
      | none =>
        simp only [spineS, RTree.wild, RTree.nid] at h
        obtain ⟨hnid, rc, hw, hsp⟩ := h
        have hmem : RTree.nid s ∈ RTree.nids rc :=
          (occurs_sublist s rc (spineS_occurs rest rc s hsp)).subset (nid_mem_nids s)
        have hmemw : RTree.nid s ∈ RTreeO.nids w := by
          rw [hw]
          simp only [RTreeO.nids]
          exact hmem
        have hne : nid ≠ RTree.nid s := fun e2 => hn0.2 (e2 ▸ hmemw)
        have hrepl : RTree.repl (RTree.nid s) t (.node nid lbl has cs w) =
            .node nid lbl has (RTreeL.repl (RTree.nid s) t cs)
              (RTreeO.repl (RTree.nid s) t w) := by
          simp [RTree.repl, if_neg hne]
        rw [hrepl]
        have hndrc : (RTree.nids rc).Nodup := by
          refine List.Nodup.sublist ?_ hnO
          rw [hw]
          simp only [RTreeO.nids]
          exact List.Sublist.refl _
        refine ⟨hnid, RTree.repl (RTree.nid s) t rc, ?_, ih rc s hsp hndrc⟩
        simp only [RTree.wild]
        rw [hw]
        simp only [RTreeO.repl]

theorem getN_alloc_self (st : PM) (d : NodeData) : getN (alloc st d).2 st.next = d := by
  simp [alloc, getN, alGet_alSet_self]

theorem getN_alloc_ne (st : PM) (d : NodeData) (i : Nat) (h : st.next ≠ i) :
    getN (alloc st d).2 i = getN st i := by
  simp [alloc, getN, alGet_alSet_ne st.store st.next i d h]

theorem next_alloc (st : PM) (d : NodeData) : (alloc st d).2.next = st.next + 1 := rfl

theorem next_setN (st : PM) (i : Nat) (d : NodeData) : (setN st i d).next = st.next := rfl

theorem headIs_congr (k : Nat) (t s : RTree) (h : RTree.lbl t = RTree.lbl s) :
    RTree.headIs k t = RTree.headIs k s := by
  cases t with
  | node n1 l1 h1 c1 w1 =>
    cases s with
    | node n2 l2 h2 c2 w2 =>
      simp only [RTree.lbl] at h
      simp [RTree.headIs, h]

theorem emptyLbl_congr (t s : RTree) (h : RTree.lbl t = RTree.lbl s) :
    RTree.emptyLbl t = RTree.emptyLbl s := by
  cases t with
  | node n1 l1 h1 c1 w1 =>
    cases s with
    | node n2 l2 h2 c2 w2 =>
      simp only [RTree.lbl] at h
      simp [RTree.emptyLbl, h]

theorem headIs_cons (k q : Nat) (l1 l2 : Str) (t s : RTree)
    (h1 : RTree.lbl t = q :: l1) (h2 : RTree.lbl s = q :: l2) :
    RTree.headIs k t = RTree.headIs k s := by
  cases t with
  | node n1 la ha ca wa =>
    cases s with
    | node n2 lb hb cb wb =>
      simp only [RTree.lbl] at h1 h2
      simp [RTree.headIs, h1, h2]

theorem emptyLbl_of_cons (t : RTree) (q : Nat) (l : Str) (h : RTree.lbl t = q :: l) :
    RTree.emptyLbl t = false := by
  cases t with
  | node n1 la ha ca wa =>
    simp only [RTree.lbl] at h
    simp [RTree.emptyLbl, h]

theorem nid_withLbl (l : Str) (r : RTree) : RTree.nid (RTree.withLbl l r) = RTree.nid r := by
  cases r with
  | node n1 la ha ca wa => rfl

theorem lbl_withLbl (l : Str) (r : RTree) : RTree.lbl (RTree.withLbl l r) = l := by
  cases r with
  | node n1 la ha ca wa => rfl

theorem nids_withLbl (l : Str) (r : RTree) : RTree.nids (RTree.withLbl l r) = RTree.nids r := by
  cases r with
  | node n1 la ha ca wa => rfl

theorem nonEmpty_withLbl (l : Str) (r : RTree) :
    RTree.nonEmpty (RTree.withLbl l r) = RTree.nonEmpty r := by
  cases r with
  | node n1 la ha ca wa => rfl

theorem okX_withLbl (l : Str) (x : Option Nat) (r : RTree) (hok : RTree.okX x r = true)
    (hcl : (decide (l = []) ||
      !(RTreeL.len1 (RTree.children r) && RTreeO.isNone (RTree.wild r) &&
        !(RTree.has r))) = true) :
    RTree.okX x (RTree.withLbl l r) = true := by
  cases r with
  | node n1 la ha ca wa =>
    simp only [RTree.okX, Bool.and_eq_true, Bool.or_eq_true] at hok
    simp only [RTree.children, RTree.wild, RTree.has, Bool.or_eq_true] at hcl
    simp only [RTree.withLbl, RTree.okX, Bool.and_eq_true, Bool.or_eq_true]
    refine ⟨⟨?_, hok.1.2⟩, hok.2⟩
    rcases hcl with hcl | hcl
    · exact Or.inl (Or.inr hcl)
    · exact Or.inr hcl

theorem rootOK_structural (r : RTree) (hro : RTree.rootOK r = true) (q : Nat) (l : Str)
    (hlbl : RTree.lbl r = q :: l) :
    (!(RTreeL.len1 (RTree.children r) && RTreeO.isNone (RTree.wild r) &&
      !(RTree.has r))) = true := by
  cases r with
  | node n1 la ha ca wa =>
    simp only [RTree.lbl] at hlbl
    simp only [RTree.rootOK, hlbl, Bool.or_eq_true] at hro
    simp only [RTree.children, RTree.wild, RTree.has]
    rcases hro with hro | hro
    · simp at hro
    · exact hro

theorem rootOK_of_okX (x : Nat) (r : RTree) (h : RTree.okX (some x) r = true)
    (hne : x ≠ RTree.nid r) : RTree.rootOK r = true := by
  cases r with
  | node n1 la ha ca wa =>
    simp only [RTree.nid] at hne
    simp only [RTree.okX, Bool.and_eq_true, Bool.or_eq_true] at h
    simp only [RTree.rootOK, Bool.or_eq_true]
    rcases h.1.1 with h1 | h1
    · rcases h1 with h1 | h1
      · simp only [beq_iff_eq, Option.some.injEq] at h1
        exact absurd h1 hne
      · exact Or.inl h1
    · exact Or.inr h1

theorem findK_okX_entry (p : Nat) (xo : Option Nat) : ∀ (cs : RTreeL) (rc : RTree),
    RTreeL.findK p cs = some rc → RTreeL.okX xo cs = true →
    RTree.headIs p rc = true ∧ (xo == some (RTree.nid rc) || RTree.nonEmpty rc) = true ∧
    RTree.okX xo rc = true := by
  refine (rtree_mutual_ind (fun _ => True)
    (fun cs => ∀ rc, RTreeL.findK p cs = some rc → RTreeL.okX xo cs = true →
      RTree.headIs p rc = true ∧ (xo == some (RTree.nid rc) || RTree.nonEmpty rc) = true ∧
      RTree.okX xo rc = true)
    (fun _ => True) (fun _ _ _ _ _ _ _ => trivial) ?_ ?_ trivial
    (fun _ _ => trivial)).2.1
  · intro rc h _
    simp [RTreeL.findK] at h
  · intro k r rs _ ih rc h hok
    simp only [RTreeL.okX, Bool.and_eq_true] at hok
    simp only [RTreeL.findK] at h
    by_cases hk : k = p
    · rw [if_pos hk] at h
      simp only [Option.some.injEq] at h
      rw [← h, ← hk]
      exact ⟨hok.1.1.1, hok.1.1.2, hok.1.2⟩
    · rw [if_neg hk] at h
      exact ih rc h hok.2

theorem lbl_setWild (x w : Nat) (r : RTree) :
    RTree.lbl (RTree.setWild x w r) = RTree.lbl r := by
  cases r with
  | node nid lbl has cs wo => simp [RTree.setWild, RTree.lbl]

theorem mem_nids_setWild (x w : Nat) :
    (∀ r : RTree, x ∈ RTree.nids r → w ∈ RTree.nids (RTree.setWild x w r)) ∧
    (∀ cs : RTreeL, x ∈ RTreeL.nids cs → w ∈ RTreeL.nids (RTreeL.setWild x w cs)) ∧
    (∀ wo : RTreeO, x ∈ RTreeO.nids wo → w ∈ RTreeO.nids (RTreeO.setWild x w wo)) := by
  refine rtree_mutual_ind _ _ _ ?_ ?_ ?_ ?_ ?_
  · intro nid lbl has cs wo ihc ihw hx
    simp only [RTree.nids, List.mem_cons, List.mem_append] at hx
    by_cases hnx : nid = x
    · simp only [RTree.setWild, if_pos hnx, RTree.nids, RTreeO.nids, List.mem_cons,
        List.mem_append]
      refine Or.inr (Or.inr ?_)
      simp [RTree.nids]
    · simp only [RTree.setWild, if_neg hnx, RTree.nids, List.mem_cons, List.mem_append]
      rcases hx with hx | hx | hx
      · exact absurd hx.symm hnx
      · exact Or.inr (Or.inl (ihc hx))
      · exact Or.inr (Or.inr (ihw hx))
  · intro hx
    simp [RTreeL.nids] at hx
  · intro k r rs ihr ihrs hx
    simp only [RTreeL.nids, List.mem_append] at hx ⊢
    rcases hx with hx | hx
    · exact Or.inl (ihr hx)
    · exact Or.inr (ihrs hx)
  · intro hx
    simp [RTreeO.nids] at hx
  · intro r ih hx
    simp only [RTreeO.nids] at hx ⊢
    exact ih hx

theorem subAt_occurs (x : Nat) :
    (∀ r s, RTree.subAt x r = some s → Occurs s r) ∧
    (∀ cs s, RTreeL.subAt x cs = some s → ∃ r0, MemL r0 cs ∧ Occurs s r0) ∧
    (∀ wo s, RTreeO.subAt x wo = some s → ∃ r0, wo = RTreeO.some r0 ∧ Occurs s r0) := by
  refine rtree_mutual_ind _ _ _ ?_ ?_ ?_ ?_ ?_
  · intro nid lbl has cs wo ihc ihw s hs
    by_cases hnx : nid = x
    · simp only [RTree.subAt, if_pos hnx, Option.some.injEq] at hs
      rw [← hs]
      exact Occurs.refl _
    · simp only [RTree.subAt, if_neg hnx] at hs
      cases hcs : RTreeL.subAt x cs with
      | some s2 =>
        rw [hcs] at hs
        simp only [Option.some.injEq] at hs
        obtain ⟨r0, hm, ho⟩ := ihc s2 hcs
        rw [← hs]
        exact Occurs.child hm ho
      | none =>
        rw [hcs] at hs
        obtain ⟨r0, heq, ho⟩ := ihw s hs
        rw [heq]
        exact Occurs.wild ho
  · intro s hs
    simp [RTreeL.subAt] at hs
  · intro k r rs ihr ihrs s hs
    simp only [RTreeL.subAt] at hs
    cases hr : RTree.subAt x r with
    | some s2 =>
      rw [hr] at hs
      simp only [Option.some.injEq] at hs
      exact ⟨r, MemL.head k r rs, hs ▸ ihr s2 hr⟩
    | none =>
      rw [hr] at hs
      obtain ⟨r0, hm, ho⟩ := ihrs s hs
      exact ⟨r0, MemL.tail k r rs r0 hm, ho⟩
  · intro s hs
    simp [RTreeO.subAt] at hs
  · intro r ih s hs
    simp only [RTreeO.subAt] at hs
    exact ⟨r, rfl, ih s hs⟩

theorem occurs_trans {t s : RTree} : ∀ {r : RTree}, Occurs t s → Occurs s r →
    Occurs t r := by
  intro r h1 h2
  induction h2 with
  | refl => exact h1
  | child hm _ ih => exact Occurs.child hm ih
  | wild _ ih => exact Occurs.wild ih

theorem agrees_tip (st : PM) (n : Nat) (hg : getN st n = NodeData.mk0 []) :
    ∀ r, agrees st n r = true → r = RTree.node n [] false RTreeL.nil RTreeO.none := by
  intro r h
  cases r with
  | node nid lbl has cs wo =>
    simp only [agrees, hg, NodeData.mk0, Bool.and_eq_true, beq_iff_eq] at h
    obtain ⟨⟨⟨⟨⟨⟨⟨h1, h2⟩, h3⟩, h4⟩, h5⟩, h6⟩, h7⟩, h8⟩ := h
    cases cs with
    | cons k r2 rs => simp [agreesL] at h7
    | nil =>
      cases wo with
      | some r2 => simp [agreesO] at h8
      | none =>
        have h3f : has = false := by
          rw [← h3]
          rfl
        rw [← h1, ← h2, h3f]

theorem nonEmpty_node_findK (p : Nat) (cs : RTreeL) (rc : RTree)
    (h : RTreeL.findK p cs = some rc) (n : Nat) (lbl : Str) (has : Bool)
    (t : RTree) (x : Nat) (wo : RTreeO) :
    RTree.nonEmpty (RTree.node n lbl has (RTreeL.repl x t cs) wo) = true := by
  cases cs with
  | nil => simp [RTreeL.findK] at h
  | cons k r rs => simp [RTreeL.repl, RTree.nonEmpty]

theorem insertSeg_tr : ∀ (fuel : Nat) (st : PM) (cur : Nat) (seg : Str) (st1 : PM) (n : Nat)
    (rsub : RTree),
    insertSeg st cur fuel seg = some (st1, n) →
    agrees st cur rsub = true →
    RTree.okX (some cur) rsub = true →
    (RTree.nids rsub).Nodup →
    (∀ i, i ∈ RTree.nids rsub → i < st.next) →
    (RTree.lbl rsub = [] ∨
      (RTree.rootOK rsub = true ∧ RTree.nonEmpty rsub = true) ∨
      (RTree.children rsub ≠ RTreeL.nil ∧
        match seg with
        | [] => True
        | p :: _ => alGet ((getN st cur).children.getD []) p = none)) →
    ∃ rsub2,
      agrees st1 cur rsub2 = true ∧
      RTree.okX (some n) rsub2 = true ∧
      (RTree.nids rsub2).Nodup ∧
      (∀ i, i ∈ RTree.nids rsub2 → i < st1.next) ∧
      n ∈ RTree.nids rsub2 ∧
      st.next ≤ st1.next ∧
      (∀ i, i ∉ RTree.nids rsub → i < st.next → getN st1 i = getN st i) ∧
      (∀ i, i ∈ RTree.nids rsub2 → i ∈ RTree.nids rsub ∨ st.next ≤ i) ∧
      RTree.lbl rsub2 = RTree.lbl rsub ∧
      (RTree.nonEmpty rsub2 = true ∨ n = cur) := by
  intro fuel
  induction fuel with
  | zero =>
    intro st cur seg st1 n rsub hins
    simp [insertSeg] at hins
  | succ f ih =>
    intro st cur seg st1 n rsub hins hag hok hnd hb hH
    cases seg with
    | nil =>
      simp only [insertSeg, Option.some.injEq, Prod.mk.injEq] at hins
      obtain ⟨he1, he2⟩ := hins
      subst he1
      subst he2
      refine ⟨rsub, hag, hok, hnd, hb, ?_, Nat.le_refl _, fun i _ _ => rfl,
        fun i hi => Or.inl hi, rfl, Or.inr rfl⟩
      rw [← agrees_nid st cur rsub hag]
      exact nid_mem_nids rsub
    | cons p rest =>
      cases rsub with
      | node nid0 lbl has cs wo =>
        have hagc := hag
        simp only [agrees, Bool.and_eq_true, beq_iff_eq] at hagc
        obtain ⟨⟨⟨⟨⟨⟨⟨hA1, hA2⟩, hA3⟩, hA4⟩, hA5⟩, hA6⟩, hA7⟩, hA8⟩ := hagc
        subst hA1
        have hokc := hok
        simp only [RTree.okX, Bool.and_eq_true] at hokc
        obtain ⟨⟨hClause, hcsok⟩, hwook⟩ := hokc
        have hndc := hnd
        simp only [RTree.nids, List.nodup_cons, List.nodup_append, List.mem_cons,
          List.mem_append] at hndc
        obtain ⟨hn0, hnL, hnO, hdisj⟩ := hndc
        push_neg at hn0
        have hcurlt : cur < st.next := hb cur (by simp [RTree.nids])
        have hbL : ∀ i, i ∈ RTreeL.nids cs → i < st.next := fun i hi =>
          hb i (by
            simp only [RTree.nids, List.mem_cons, List.mem_append]
            exact Or.inr (Or.inl hi))
        have hbO : ∀ i, i ∈ RTreeO.nids wo → i < st.next := fun i hi =>
          hb i (by
            simp only [RTree.nids, List.mem_cons, List.mem_append]
            exact Or.inr (Or.inr hi))
        simp only [insertSeg] at hins
        cases halg : alGet ((getN st cur).children.getD []) p with
        | none =>
          simp only [halg, alloc] at hins
          simp only [Option.some.injEq, Prod.mk.injEq] at hins
          obtain ⟨he1, he2⟩ := hins
          subst he2
          have hcune : cur ≠ st.next := fun e => absurd (e ▸ hcurlt) (lt_irrefl _)
          have hg1 : getN st1 cur = ⟨(getN st cur).pattern,
              some (alSet ((getN st cur).children.getD []) p st.next),
              (getN st cur).permanent, (getN st cur).temporary,
              (getN st cur).wildcard, (getN st cur).failure⟩ := by
            rw [← he1]
            exact getN_setN_self _ _ _
          have hnext1 : st1.next = st.next + 1 := by
            rw [← he1]
            rfl
          have hgleaf : getN st1 st.next = NodeData.mk0 (p :: rest) := by
            rw [← he1, getN_setN_ne _ _ _ _ hcune]
            exact getN_alloc_self st (NodeData.mk0 (p :: rest))
          have hgother : ∀ i, i ≠ cur → i ≠ st.next → getN st1 i = getN st i := by
            intro i h1 h2
            rw [← he1, getN_setN_ne _ _ _ _ (fun e => h1 e.symm)]
            exact getN_alloc_ne st _ i (fun e => h2 e.symm)
          have hfrcs : ∀ i, i ∈ RTreeL.nids cs → getN st1 i = getN st i := by
            intro i hi
            refine hgother i (fun e => hn0.1 (e ▸ hi)) ?_
            intro e
            have := hbL i hi
            omega
          have hfrwo : ∀ i, i ∈ RTreeO.nids wo → getN st1 i = getN st i := by
            intro i hi
            refine hgother i (fun e => hn0.2 (e ▸ hi)) ?_
            intro e
            have := hbO i hi
            omega
          have hagleaf : agrees st1 st.next
              (.node st.next (p :: rest) false .nil .none) = true := by
            simp only [agrees, hgleaf, NodeData.mk0]
            simp [agreesL, agreesO]
          have hagL2 : agreesL st1 (alSet ((getN st cur).children.getD []) p st.next)
              (RTreeL.append1 p (.node st.next (p :: rest) false .nil .none) cs) = true :=
            agreesL_append1 st st1 p st.next _ hagleaf _ cs hA7 halg hfrcs
          have hagO2 : agreesO st1 (getN st cur).wildcard wo = true :=
            (agrees_frame st st1).2.2 wo _ hA8 hfrwo
          refine ⟨RTree.node cur lbl has
            (RTreeL.append1 p (.node st.next (p :: rest) false .nil .none) cs) wo,
            ?_, ?_, ?_, ?_, ?_, ?_, ?_, ?_, ?_, ?_⟩
          · simp only [agrees, Bool.and_eq_true, beq_iff_eq, hg1]
            refine ⟨⟨⟨⟨⟨⟨⟨trivial, hA2⟩, hA3⟩, hA4⟩, hA5⟩, ?_⟩, hagL2⟩, hagO2⟩
            simp [alSet_isEmpty]
          · have hcsok2 : RTreeL.okX (some st.next) cs = true := by
              refine (okX_out (some cur) (some st.next)).2.1 cs hcsok ?_
              intro i hi
              simp only [Option.some.injEq] at hi
              rw [← hi]
              exact hn0.1
            have hwook2 : RTreeO.okX (some st.next) wo = true := by
              refine (okX_out (some cur) (some st.next)).2.2 wo hwook ?_
              intro i hi
              simp only [Option.some.injEq] at hi
              rw [← hi]
              exact hn0.2
            have hleafok : RTree.okX (some st.next)
                (.node st.next (p :: rest) false .nil .none) = true := by
              simp [RTree.okX, RTreeL.okX, RTreeO.okX]
            have hcs2ok : RTreeL.okX (some st.next)
                (RTreeL.append1 p (.node st.next (p :: rest) false .nil .none) cs) = true := by
              refine okX_append1 p _ (some st.next) ?_ ?_ hleafok cs hcsok2
              · simp [RTree.headIs]
              · simp [RTree.nid]
            have hcl : ((some st.next == some cur) || decide (lbl = []) ||
                !(RTreeL.len1 (RTreeL.append1 p
                    (.node st.next (p :: rest) false .nil .none) cs) &&
                  RTreeO.isNone wo && !has)) = true := by
              rcases hH with hH | hH | hH
              · simp only [RTree.lbl] at hH
                simp [hH]
              · obtain ⟨hro, hne⟩ := hH
                cases cs with
                | nil =>
                  cases wo with
                  | none =>
                    simp [RTree.nonEmpty] at hne
                    simp [RTreeL.append1, RTreeL.len1, hne]
                  | some r2 =>
                    simp [RTreeO.isNone]
                | cons k2 r2 rs2 =>
                  simp [len1_append1_cons]
              · obtain ⟨hcsne, _⟩ := hH
                cases cs with
                | nil => simp [RTree.children] at hcsne
                | cons k2 r2 rs2 => simp [len1_append1_cons]
            simp only [RTree.okX, Bool.and_eq_true]
            exact ⟨⟨hcl, hcs2ok⟩, hwook2⟩
          · simp only [RTree.nids, nids_append1, RTreeL.nids, RTreeO.nids, List.append_nil]
            have hfresh1 : st.next ∉ RTreeL.nids cs := fun hm =>
              absurd (hbL _ hm) (by omega)
            have hcs2 : (RTreeL.nids cs ++ [st.next]).Nodup := by
              rw [List.nodup_append]
              refine ⟨hnL, List.nodup_singleton _, ?_⟩
              intro a ha hb2
              rw [List.mem_singleton] at hb2
              exact hfresh1 (hb2 ▸ ha)
            rw [List.nodup_cons]
            refine ⟨?_, ?_⟩
            · intro hm
              rcases List.mem_append.mp hm with hm | hm
              · rcases List.mem_append.mp hm with hm | hm
                · exact hn0.1 hm
                · rw [List.mem_singleton] at hm
                  omega
              · exact hn0.2 hm
            · rw [List.nodup_append]
              refine ⟨hcs2, hnO, ?_⟩
              intro a ha hb2
              rcases List.mem_append.mp ha with ha | ha
              · exact hdisj ha hb2
              · rw [List.mem_singleton] at ha
                rw [ha] at hb2
                exact absurd (hbO _ hb2) (by omega)
          · intro i hi
            rw [hnext1]
            simp only [RTree.nids, nids_append1, RTreeL.nids, RTreeO.nids, List.append_nil,
              List.mem_cons, List.mem_append, List.not_mem_nil, or_false] at hi
            rcases hi with hi | (hi | hi) | hi
            · rw [hi]
              omega
            · have := hbL i hi
              omega
            · rw [hi]
              omega
            · have := hbO i hi
              omega
          · simp [RTree.nids, nids_append1, RTreeL.nids, RTreeO.nids]
          · rw [hnext1]
            omega
          · intro i hi hilt
            simp only [RTree.nids, List.mem_cons, List.mem_append] at hi
            push_neg at hi
            exact hgother i hi.1 (fun e => absurd (e ▸ hilt) (lt_irrefl _))
          · intro i hi
            simp only [RTree.nids, nids_append1, RTreeL.nids, RTreeO.nids, List.append_nil,
              List.mem_cons, List.mem_append, List.not_mem_nil, or_false] at hi
            rcases hi with hi | (hi | hi) | hi
            · refine Or.inl ?_
              rw [hi]
              simp [RTree.nids]
            · refine Or.inl ?_
              simp only [RTree.nids, List.mem_cons, List.mem_append]
              exact Or.inr (Or.inl hi)
            · refine Or.inr ?_
              omega
            · refine Or.inl ?_
              simp only [RTree.nids, List.mem_cons, List.mem_append]
              exact Or.inr (Or.inr hi)
          · rfl
          · left
            cases cs with
            | nil => simp [RTreeL.append1, RTree.nonEmpty]
            | cons k2 r2 rs2 => simp [RTreeL.append1, RTree.nonEmpty]
        | some cid =>
          simp only [halg] at hins
          obtain ⟨rc, hfk, hnidrc, hagrc⟩ := agreesL_findK st _ cs p cid hA7 halg
          have hcidcs : cid ∈ RTreeL.nids cs := by
            rw [← hnidrc]
            exact (findK_sublist p cs rc hfk).subset (nid_mem_nids rc)
          have hcidne : cid ≠ cur := fun e => hn0.1 (e ▸ hcidcs)
          obtain ⟨hhrc, hnerc0, hokrc0⟩ := findK_okX_entry p (some cur) cs rc hfk hcsok
          have hnerc : RTree.nonEmpty rc = true := by
            simp only [Bool.or_eq_true, beq_iff_eq, Option.some.injEq] at hnerc0
            rcases hnerc0 with h | h
            · exact absurd (h.trans hnidrc).symm hcidne
            · exact h
          have hcurnotrc : cur ∉ RTree.nids rc := fun hmm =>
            hn0.1 ((findK_sublist p cs rc hfk).subset hmm)
          have hokrc : RTree.okX (some cid) rc = true := by
            refine (okX_out (some cur) (some cid)).1 rc hokrc0 ?_
            intro i hi
            simp only [Option.some.injEq] at hi
            rw [← hi]
            exact hcurnotrc
          have hndrc : (RTree.nids rc).Nodup := (findK_sublist p cs rc hfk).nodup hnL
          have hbrc : ∀ i, i ∈ RTree.nids rc → i < st.next := fun i hi =>
            hbL i ((findK_sublist p cs rc hfk).subset hi)
          have hrootokrc : RTree.rootOK rc = true := by
            refine rootOK_of_okX cur rc hokrc0 ?_
            intro e
            exact hcidne (by rw [← hnidrc, ← e])
          obtain ⟨prc, hlblrc⟩ : ∃ pr, RTree.lbl rc = p :: pr := by
            cases rc with
            | node n2 l2 h2b c2 w2 =>
              cases l2 with
              | nil => simp [RTree.headIs] at hhrc
              | cons c0 l2t =>
                simp only [RTree.headIs, beq_iff_eq] at hhrc
                exact ⟨l2t, by simp [RTree.lbl, hhrc]⟩
          have hpatrc : (getN st cid).pattern = RTree.lbl rc := by
            cases rc with
            | node n2 l2 h2b c2 w2 =>
              have h := hagrc
              simp only [agrees, Bool.and_eq_true, beq_iff_eq] at h
              simp only [RTree.lbl]
              exact h.1.1.1.1.1.1.2
          have hsubat : RTree.subAt cid (RTree.node cur lbl has cs wo) = some rc := by
            have hsubL : RTreeL.subAt cid cs = some rc := by
              have h := findK_subAtL p cs rc hfk hnL
              rw [hnidrc] at h
              exact h
            have hnecur : ¬(cur = cid) := fun e => hcidne e.symm
            simp only [RTree.subAt, if_neg hnecur, hsubL]
          have hclcur : ∀ (y : Option Nat), ((y == some cur) || decide (lbl = []) ||
              !(RTreeL.len1 cs && RTreeO.isNone wo && !has)) = true := by
            intro y
            rcases hH with hH | hH | hH
            · simp only [RTree.lbl] at hH
              simp [hH]
            · have h := hH.1
              simp only [RTree.rootOK, Bool.or_eq_true] at h
              simp only [Bool.or_eq_true]
              rcases h with h | h
              · exact Or.inl (Or.inr h)
              · exact Or.inr h
            · rw [hH.2] at halg
              simp at halg
          have hcsokX : ∀ (y : Nat), RTreeL.okX (some y) cs = true := by
            intro y
            refine (okX_out (some cur) (some y)).2.1 cs hcsok ?_
            intro i hi
            simp only [Option.some.injEq] at hi
            rw [← hi]
            exact hn0.1
          have hwookX : ∀ (y : Nat), RTreeO.okX (some y) wo = true := by
            intro y
            refine (okX_out (some cur) (some y)).2.2 wo hwook ?_
            intro i hi
            simp only [Option.some.injEq] at hi
            rw [← hi]
            exact hn0.2
          by_cases hm : lcp (getN st cid).pattern (p :: rest) = (getN st cid).pattern
          · rw [if_pos hm] at hins
            obtain ⟨rch2, ihag, ihok, ihnd, ihb, ihmem, ihnext, ihfr, ihsub, ihlbl, ihne⟩ :=
              ih st cid _ st1 n rc hins hagrc hokrc hndrc hbrc
                (Or.inr (Or.inl ⟨hrootokrc, hnerc⟩))
            have hnidrch2 : RTree.nid rch2 = cid := agrees_nid st1 cid rch2 ihag
            have hokcid : RTree.okX (some cid) (RTree.node cur lbl has cs wo) = true := by
              simp only [RTree.okX, Bool.and_eq_true]
              exact ⟨⟨hclcur (some cid), hcsokX cid⟩, hwookX cid⟩
            refine ⟨RTree.repl cid rch2 (RTree.node cur lbl has cs wo),
              ?_, ?_, ?_, ?_, ?_, ?_, ?_, ?_, ?_, ?_⟩
            · exact (agrees_repl st st1 cid st.next rch2 rc ihag ihfr).1 _ cur hag hsubat hnd hb
            · refine (okX_repl cid rch2 rc (some n) ihok ?_ ?_ ?_).1 _ (some cid)
                hokcid hsubat hnd ?_
              · intro k
                exact headIs_congr k rch2 rc (by rw [ihlbl])
              · exact emptyLbl_congr rch2 rc (by rw [ihlbl])
              · rcases ihne with h | h
                · exact Or.inl h
                · right
                  rw [h, hnidrch2]
              · intro i hi
                simp only [Option.some.injEq] at hi
                rw [← hi, ← hnidrc]
                exact nid_mem_nids rc
            · exact (nodup_repl cid st.next rch2 rc ihnd ihsub).1 _ hsubat hnd hb
            · intro i hi
              rcases (nids_repl_sub cid rch2).1 _ i hi with h | h
              · have h2 := hb i h
                omega
              · exact ihb i h
            · refine (mem_nids_repl cid rch2).1 _ ?_ n ihmem
              simp only [RTree.nids, List.mem_cons, List.mem_append]
              exact Or.inr (Or.inl hcidcs)
            · exact ihnext
            · intro i hi hilt
              refine ihfr i ?_ hilt
              intro hmm
              apply hi
              simp only [RTree.nids, List.mem_cons, List.mem_append]
              exact Or.inr (Or.inl ((findK_sublist p cs rc hfk).subset hmm))
            · intro i hi
              rcases (nids_repl_sub cid rch2).1 _ i hi with h | h
              · exact Or.inl h
              · rcases ihsub i h with h2 | h2
                · refine Or.inl ?_
                  simp only [RTree.nids, List.mem_cons, List.mem_append]
                  exact Or.inr (Or.inl ((findK_sublist p cs rc hfk).subset h2))
                · exact Or.inr h2
            · refine lbl_repl_ne cid rch2 _ ?_
              simp only [RTree.nid]
              exact fun e => hcidne e.symm
            · left
              rw [nonEmpty_repl_ne cid rch2 _ (by
                simp only [RTree.nid]
                exact fun e => hcidne e.symm)]
              cases cs with
              | nil => simp [RTreeL.findK] at hfk
              | cons k2 r2 rs2 => simp [RTree.nonEmpty]
          · rw [if_neg hm] at hins
            have hcune : cur ≠ st.next := by omega
            set pat2 : Str := (getN st cid).pattern.drop
              (lcp (getN st cid).pattern (p :: rest)).length with hpat2
            have hpat2ne : pat2 ≠ [] := drop_ne_of_lcp_ne _ _ hm
            obtain ⟨q0, qs0, hq0⟩ : ∃ q0 qs0, pat2 = q0 :: qs0 := by
              cases hp2 : pat2 with
              | nil => exact absurd hp2 hpat2ne
              | cons a b => exact ⟨a, b, rfl⟩
            set RECF : NodeData := ⟨pat2, (getN st cid).children, (getN st cid).permanent,
              (getN st cid).temporary, (getN st cid).wildcard, none⟩ with hRECF
            set RECG : NodeData := ⟨lcp (getN st cid).pattern (p :: rest),
              some [(pat2.headD 0, cid)], none, none, none, none⟩ with hRECG
            set stA2 : PM := (alloc (setN st cid RECF) RECG).2 with hstA2
            have hsp : splitNode st cid (lcp (getN st cid).pattern (p :: rest)) =
                (st.next, stA2) := rfl
            simp only [hsp] at hins
            set rem2 : Str := (p :: rest).drop
              (lcp (getN st cid).pattern (p :: rest)).length with hrem2
            have hcidlt : cid < st.next := hbL cid hcidcs
            have hcidnext : cid ≠ st.next := by omega
            have hgA_cid : getN stA2 cid = RECF := by
              rw [hstA2, getN_alloc_ne (setN st cid RECF) RECG cid
                (fun e => hcidnext e.symm)]
              exact getN_setN_self _ _ _
            have hgA_pid : getN stA2 st.next = RECG := by
              rw [hstA2]
              exact getN_alloc_self _ _
            have hgA_other : ∀ i, i ≠ cid → i ≠ st.next → getN stA2 i = getN st i := by
              intro i h1 h2
              rw [hstA2, getN_alloc_ne (setN st cid RECF) RECG i (fun e => h2 e.symm),
                getN_setN_ne _ _ _ _ (fun e => h1 e.symm)]
            set stC : PM := setN stA2 cur ⟨(getN stA2 cur).pattern,
              some (alSet ((getN stA2 cur).children.getD []) p st.next),
              (getN stA2 cur).permanent, (getN stA2 cur).temporary,
              (getN stA2 cur).wildcard, (getN stA2 cur).failure⟩ with hstC
            have hAcur : getN stA2 cur = getN st cur :=
              hgA_other cur (fun e => hcidne e.symm) hcune
            have hgC_cur : getN stC cur = ⟨(getN st cur).pattern,
                some (alSet ((getN st cur).children.getD []) p st.next),
                (getN st cur).permanent, (getN st cur).temporary,
                (getN st cur).wildcard, (getN st cur).failure⟩ := by
              rw [hstC, getN_setN_self, hAcur]
            have hgC_cid : getN stC cid = RECF := by
              rw [hstC, getN_setN_ne _ _ _ _ (fun e => hcidne e.symm)]
              exact hgA_cid
            have hgC_pid : getN stC st.next = RECG := by
              rw [hstC, getN_setN_ne _ _ _ _ hcune]
              exact hgA_pid
            have hgC_other : ∀ i, i ≠ cid → i ≠ st.next → i ≠ cur →
                getN stC i = getN st i := by
              intro i h1 h2 h3
              rw [hstC, getN_setN_ne _ _ _ _ (fun e => h3 e.symm)]
              exact hgA_other i h1 h2
            have hnextC : stC.next = st.next + 1 := rfl
            cases rc with
            | node cid2 lblc hasc csc woc =>
              have hgrc := hagrc
              simp only [agrees, Bool.and_eq_true, beq_iff_eq] at hgrc
              obtain ⟨⟨⟨⟨⟨⟨⟨g1, g2⟩, g3⟩, g4⟩, g5⟩, g6⟩, g7⟩, g8⟩ := hgrc
              subst g1
              simp only [RTree.lbl] at hlblrc
              have hndrcc := hndrc
              simp only [RTree.nids, List.nodup_cons, List.nodup_append, List.mem_cons,
                List.mem_append] at hndrcc
              obtain ⟨gn0, gnL, gnO, gdisj⟩ := hndrcc
              push_neg at gn0
              have hfrc2 : ∀ i, i ∈ RTreeL.nids csc → getN stC i = getN st i := by
                intro i hi
                have himem : i ∈ RTree.nids (RTree.node cid lblc hasc csc woc) := by
                  simp only [RTree.nids, List.mem_cons, List.mem_append]
                  exact Or.inr (Or.inl hi)
                refine hgC_other i (fun e => gn0.1 (e ▸ hi)) ?_ ?_
                · intro e
                  have hbi := hbrc i himem
                  omega
                · intro e
                  exact hcurnotrc (e ▸ himem)
              have hfrw2 : ∀ i, i ∈ RTreeO.nids woc → getN stC i = getN st i := by
                intro i hi
                have himem : i ∈ RTree.nids (RTree.node cid lblc hasc csc woc) := by
                  simp only [RTree.nids, List.mem_cons, List.mem_append]
                  exact Or.inr (Or.inr hi)
                refine hgC_other i (fun e => gn0.2 (e ▸ hi)) ?_ ?_
                · intro e
                  have hbi := hbrc i himem
                  omega
                · intro e
                  exact hcurnotrc (e ▸ himem)
              have hagcid2 : agrees stC cid (RTree.node cid pat2 hasc csc woc) = true := by
                simp only [agrees, Bool.and_eq_true, beq_iff_eq, hgC_cid, hRECF]
                refine ⟨⟨⟨⟨⟨⟨⟨by trivial, by trivial⟩, g3⟩, g4⟩, g5⟩, g6⟩, ?_⟩, ?_⟩
                · exact (agrees_frame st stC).2.1 csc _ g7 hfrc2
                · exact (agrees_frame st stC).2.2 woc _ g8 hfrw2
              set rmid : RTree := RTree.node st.next
                (lcp (getN st cid).pattern (p :: rest)) false
                (.cons (pat2.headD 0) (RTree.node cid pat2 hasc csc woc) .nil)
                .none with hrmid
              have hagmid : agrees stC st.next rmid = true := by
                rw [hrmid]
                simp only [agrees, Bool.and_eq_true, beq_iff_eq, hgC_pid, hRECG]
                refine ⟨⟨⟨⟨⟨⟨⟨by trivial, by trivial⟩, by trivial⟩, by trivial⟩,
                  by trivial⟩, by trivial⟩, ?_⟩, by trivial⟩
                simp only [agreesL, Option.getD_some, Bool.and_eq_true, beq_iff_eq]
                exact ⟨⟨by trivial, hagcid2⟩, by trivial⟩
              have hokrcp := hokrc0
              simp only [RTree.okX, Bool.and_eq_true] at hokrcp
              obtain ⟨⟨_, gokcs⟩, gokwo⟩ := hokrcp
              have hcurnotcsc : ∀ i, (some cur : Option Nat) = some i →
                  i ∉ RTreeL.nids csc := by
                intro i hi hmm
                simp only [Option.some.injEq] at hi
                rw [← hi] at hmm
                exact hcurnotrc (by
                  simp only [RTree.nids, List.mem_cons, List.mem_append]
                  exact Or.inr (Or.inl hmm))
              have hcurnotwoc : ∀ i, (some cur : Option Nat) = some i →
                  i ∉ RTreeO.nids woc := by
                intro i hi hmm
                simp only [Option.some.injEq] at hi
                rw [← hi] at hmm
                exact hcurnotrc (by
                  simp only [RTree.nids, List.mem_cons, List.mem_append]
                  exact Or.inr (Or.inr hmm))
              have hokcsc : ∀ y : Option Nat, RTreeL.okX y csc = true := fun y =>
                (okX_out (some cur) y).2.1 csc gokcs hcurnotcsc
              have hokwoc : ∀ y : Option Nat, RTreeO.okX y woc = true := fun y =>
                (okX_out (some cur) y).2.2 woc gokwo hcurnotwoc
              have hstructc : (!(RTreeL.len1 csc && RTreeO.isNone woc && !hasc)) = true := by
                have h := rootOK_structural _ hrootokrc p prc (by
                  simp only [RTree.lbl]
                  exact hlblrc)
                simp only [RTree.children, RTree.wild, RTree.has] at h
                exact h
              have hne2 : RTree.nonEmpty (RTree.node cid pat2 hasc csc woc) = true := by
                simp only [RTree.nonEmpty] at hnerc ⊢
                exact hnerc
              have hokmid : RTree.okX (some st.next) rmid = true := by
                rw [hrmid]
                simp only [RTree.okX, RTreeL.okX, RTreeO.okX, Bool.and_eq_true,
                  Bool.or_eq_true]
                refine ⟨⟨?_, ⟨⟨⟨?_, ?_⟩, ?_⟩, by trivial⟩⟩, by trivial⟩
                · exact Or.inl (Or.inl (by simp))
                · simp only [RTree.headIs, hq0]
                  simp
                · exact Or.inr hne2
                · refine ⟨⟨?_, ?_⟩, ?_⟩
                  · exact Or.inr hstructc
                  · exact hokcsc (some st.next)
                  · exact hokwoc (some st.next)
              have hndmid : (RTree.nids rmid).Nodup := by
                rw [hrmid]
                simp only [RTree.nids, RTreeL.nids, RTreeO.nids, List.append_nil]
                refine List.nodup_cons.mpr ⟨?_, ?_⟩
                · simp only [List.mem_cons, List.mem_append]
                  push_neg
                  refine ⟨fun e => hcidnext e.symm, ?_, ?_⟩
                  · intro hmm
                    have := hbrc st.next (by
                      simp only [RTree.nids, List.mem_cons, List.mem_append]
                      exact Or.inr (Or.inl hmm))
                    omega
                  · intro hmm
                    have := hbrc st.next (by
                      simp only [RTree.nids, List.mem_cons, List.mem_append]
                      exact Or.inr (Or.inr hmm))
                    omega
                · have h := hndrc
                  simp only [RTree.nids] at h
                  exact h
              have hmidmem2 : ∀ i, i ∈ RTree.nids rmid →
                  i = st.next ∨ i ∈ RTree.nids (RTree.node cid lblc hasc csc woc) := by
                intro i hi
                rw [hrmid] at hi
                simp only [RTree.nids, RTreeL.nids, RTreeO.nids, List.append_nil,
                  List.mem_cons, List.mem_append] at hi
                rcases hi with hi | hi
                · exact Or.inl hi
                · refine Or.inr ?_
                  simp only [RTree.nids, List.mem_cons, List.mem_append]
                  exact hi
              have hmidmem : ∀ i, i ∈ RTree.nids rmid →
                  i = st.next ∨ i ∈ RTreeL.nids cs := by
                intro i hi
                rcases hmidmem2 i hi with h | h
                · exact Or.inl h
                · exact Or.inr ((findK_sublist p cs _ hfk).subset h)
              have hbmid2 : ∀ i, i ∈ RTree.nids rmid → i < stC.next := by
                intro i hi
                rw [hnextC]
                rcases hmidmem i hi with h | h
                · omega
                · have := hbL i h
                  omega
              have halg2 : ∀ q qs, rem2 = q :: qs →
                  alGet ((getN stC st.next).children.getD []) q = none := by
                intro q qs hrm
                have hne4 : q0 ≠ q :=
                  lcp_max (getN st cid).pattern (p :: rest) q0 q qs0 qs
                    (hpat2.symm.trans hq0) (hrem2.symm.trans hrm)
                rw [hgC_pid, hRECG]
                simp only [Option.getD_some, alGet, hq0, List.headD]
                rw [if_neg hne4]
              have hchilmid : RTree.children rmid ≠ RTreeL.nil := by
                rw [hrmid]
                simp [RTree.children]
              obtain ⟨rmid2, jag, jok, jnd, jb, jmem, jnext, jfr, jsub, jlbl, jne⟩ :=
                ih stC st.next rem2 st1 n rmid hins hagmid hokmid hndmid hbmid2
                  (Or.inr (Or.inr ⟨hchilmid, by
                    clear hins hrem2
                    cases hrm : rem2 with
                    | nil => trivial
                    | cons q qs => exact halg2 q qs hrm⟩))
              have hnidmid2 : RTree.nid rmid2 = st.next := agrees_nid st1 st.next rmid2 jag
              set rsubA : RTree := RTree.node cur lbl has (RTreeL.repl cid rmid cs) wo
                with hrsubA
              have hreplrc : RTree.repl cid rmid (RTree.node cid lblc hasc csc woc) =
                  rmid := by
                simp [RTree.repl]
              have hfkA : RTreeL.findK p (RTreeL.repl cid rmid cs) = some rmid := by
                have h := findK_replL p cid rmid cs _ hfk
                rw [hreplrc] at h
                exact h
              have hsubLcid : RTreeL.subAt cid cs =
                  some (RTree.node cid lblc hasc csc woc) := by
                have h := findK_subAtL p cs _ hfk hnL
                exact h
              have hndLA : (RTreeL.nids (RTreeL.repl cid rmid cs)).Nodup := by
                refine (nodup_repl cid st.next rmid _ hndmid ?_).2.1 cs hsubLcid hnL hbL
                intro i hi
                rcases hmidmem2 i hi with h | h
                · exact Or.inr (by omega)
                · exact Or.inl h
              have hfrcs2 : ∀ i, i ∈ RTreeL.nids cs →
                  i ∉ RTree.nids (RTree.node cid lblc hasc csc woc) →
                  getN stC i = getN st i := by
                intro i hi hni
                refine hgC_other i ?_ ?_ ?_
                · intro e
                  apply hni
                  rw [e]
                  simp [RTree.nids]
                · intro e
                  have := hbL i hi
                  omega
                · intro e
                  exact hn0.1 (e ▸ hi)
              have hagLA : agreesL stC (alSet ((getN st cur).children.getD []) p st.next)
                  (RTreeL.repl cid rmid cs) = true :=
                agreesL_replSet st stC p cid st.next rmid
                  (RTree.node cid lblc hasc csc woc) hagmid rfl _ cs hA7 halg hfk
                  hnL hfrcs2
              have hfrwo2 : ∀ i, i ∈ RTreeO.nids wo → getN stC i = getN st i := by
                intro i hi
                refine hgC_other i ?_ ?_ ?_
                · intro e
                  exact hdisj hcidcs (e ▸ hi)
                · intro e
                  have := hbO i hi
                  omega
                · intro e
                  exact hn0.2 (e ▸ hi)
              have hagA : agrees stC cur rsubA = true := by
                rw [hrsubA]
                simp only [agrees, Bool.and_eq_true, beq_iff_eq, hgC_cur]
                refine ⟨⟨⟨⟨⟨⟨⟨by trivial, hA2⟩, hA3⟩, hA4⟩, hA5⟩,
                  by simp [alSet_isEmpty]⟩, hagLA⟩, ?_⟩
                exact (agrees_frame st stC).2.2 wo _ hA8 hfrwo2
              have hlbl1 : RTree.lbl rmid = p :: lcp prc rest := by
                rw [hrmid]
                simp only [RTree.lbl]
                rw [hpatrc]
                simp only [RTree.lbl]
                rw [hlblrc]
                exact lcp_cons_eq p prc rest
              have hlbl2c : RTree.lbl (RTree.node cid lblc hasc csc woc) = p :: prc := by
                simp only [RTree.lbl]
                exact hlblrc
              have hheadmid : ∀ k, RTree.headIs k rmid =
                  RTree.headIs k (RTree.node cid lblc hasc csc woc) :=
                fun k => headIs_cons k p (lcp prc rest) prc _ _ hlbl1 hlbl2c
              have hlblmid : RTree.emptyLbl rmid =
                  RTree.emptyLbl (RTree.node cid lblc hasc csc woc) := by
                rw [emptyLbl_of_cons rmid p (lcp prc rest) hlbl1,
                  emptyLbl_of_cons _ p prc hlbl2c]
              have hokLA : RTreeL.okX (some st.next) (RTreeL.repl cid rmid cs) = true := by
                refine (okX_repl cid rmid _ (some st.next) hokmid hheadmid hlblmid
                  ?_).2.1 cs (some cid) (hcsokX cid) hsubLcid hnL ?_
                · refine Or.inl ?_
                  rw [hrmid]
                  simp [RTree.nonEmpty]
                · intro i hi
                  simp only [Option.some.injEq] at hi
                  rw [← hi]
                  simp [RTree.nids]
              have hokA : RTree.okX (some st.next) rsubA = true := by
                rw [hrsubA]
                simp only [RTree.okX, Bool.and_eq_true]
                refine ⟨⟨?_, hokLA⟩, hwookX st.next⟩
                simp only [len1_replL]
                exact hclcur (some st.next)
              have hcurnotrepl : cur ∉ RTreeL.nids (RTreeL.repl cid rmid cs) := by
                intro hmm
                rcases (nids_repl_sub cid rmid).2.1 cs cur hmm with h | h
                · exact hn0.1 h
                · rcases hmidmem cur h with h2 | h2
                  · exact hcune h2
                  · exact hn0.1 h2
              have hdisjA : ∀ i, i ∈ RTreeL.nids (RTreeL.repl cid rmid cs) →
                  i ∉ RTreeO.nids wo := by
                intro i hi hmm
                rcases (nids_repl_sub cid rmid).2.1 cs i hi with h | h
                · exact hdisj h hmm
                · rcases hmidmem i h with h2 | h2
                  · have := hbO i hmm
                    omega
                  · exact hdisj h2 hmm
              have hndA : (RTree.nids rsubA).Nodup := by
                rw [hrsubA]
                simp only [RTree.nids]
                refine List.nodup_cons.mpr ⟨?_, ?_⟩
                · simp only [List.mem_append]
                  push_neg
                  exact ⟨hcurnotrepl, hn0.2⟩
                · exact List.Nodup.append hndLA hnO (fun i hi1 hi2 => hdisjA i hi1 hi2)
              have hbA : ∀ i, i ∈ RTree.nids rsubA → i < stC.next := by
                intro i hi
                rw [hrsubA] at hi
                simp only [RTree.nids, List.mem_cons, List.mem_append] at hi
                rw [hnextC]
                rcases hi with hi | hi | hi
                · omega
                · rcases (nids_repl_sub cid rmid).2.1 cs i hi with h | h
                  · have := hbL i h
                    omega
                  · rcases hmidmem i h with h2 | h2
                    · omega
                    · have := hbL i h2
                      omega
                · have := hbO i hi
                  omega
              have hsubL2 : RTreeL.subAt st.next (RTreeL.repl cid rmid cs) =
                  some rmid := by
                have hnm : RTree.nid rmid = st.next := by
                  rw [hrmid]
                  rfl
                have h := findK_subAtL p _ rmid hfkA hndLA
                rw [hnm] at h
                exact h
              have hsubatmid : RTree.subAt st.next rsubA = some rmid := by
                rw [hrsubA]
                have hnecur2 : ¬(cur = st.next) := hcune
                simp only [RTree.subAt, if_neg hnecur2, hsubL2]
              have hnidA : RTree.nid rsubA ≠ st.next := by
                rw [hrsubA]
                exact hcune
              have hxmem : st.next ∈ RTree.nids rsubA := by
                rw [hrsubA]
                simp only [RTree.nids, List.mem_cons, List.mem_append]
                refine Or.inr (Or.inl ?_)
                refine (mem_nids_repl cid rmid).2.1 cs hcidcs st.next ?_
                rw [hrmid]
                simp [RTree.nids]
              refine ⟨RTree.repl st.next rmid2 rsubA,
                ?_, ?_, ?_, ?_, ?_, ?_, ?_, ?_, ?_, ?_⟩
              · exact (agrees_repl stC st1 st.next stC.next rmid2 rmid jag jfr).1 _ cur
                  hagA hsubatmid hndA hbA
              · refine (okX_repl st.next rmid2 rmid (some n) jok ?_ ?_ ?_).1 _
                  (some st.next) hokA hsubatmid hndA ?_
                · intro k
                  exact headIs_congr k rmid2 rmid jlbl
                · exact emptyLbl_congr rmid2 rmid jlbl
                · rcases jne with h | h
                  · exact Or.inl h
                  · right
                    rw [h, hnidmid2]
                · intro i hi
                  simp only [Option.some.injEq] at hi
                  rw [← hi, hrmid]
                  simp [RTree.nids]
              · exact (nodup_repl st.next stC.next rmid2 rmid jnd jsub).1 _ hsubatmid
                  hndA hbA
              · intro i hi
                rcases (nids_repl_sub st.next rmid2).1 _ i hi with h | h
                · have h2 := hbA i h
                  omega
                · exact jb i h
              · exact (mem_nids_repl st.next rmid2).1 _ hxmem n jmem
              · have h := jnext
                rw [hnextC] at h
                omega
              · intro i hi hilt
                have hstep1 : getN stC i = getN st i := by
                  refine hgC_other i ?_ ?_ ?_
                  · intro e
                    apply hi
                    rw [e]
                    simp only [RTree.nids, List.mem_cons, List.mem_append]
                    exact Or.inr (Or.inl hcidcs)
                  · intro e
                    omega
                  · intro e
                    apply hi
                    rw [e]
                    simp [RTree.nids]
                rw [← hstep1]
                refine jfr i ?_ ?_
                · intro hmm
                  rcases hmidmem i hmm with h2 | h2
                  · omega
                  · apply hi
                    simp only [RTree.nids, List.mem_cons, List.mem_append]
                    exact Or.inr (Or.inl h2)
                · rw [hnextC]
                  omega
              · intro i hi
                rcases (nids_repl_sub st.next rmid2).1 _ i hi with h | h
                · rw [hrsubA] at h
                  simp only [RTree.nids, List.mem_cons, List.mem_append] at h
                  rcases h with h | h | h
                  · refine Or.inl ?_
                    rw [h]
                    simp [RTree.nids]
                  · rcases (nids_repl_sub cid rmid).2.1 cs i h with h2 | h2
                    · refine Or.inl ?_
                      simp only [RTree.nids, List.mem_cons, List.mem_append]
                      exact Or.inr (Or.inl h2)
                    · rcases hmidmem i h2 with h3 | h3
                      · exact Or.inr (by omega)
                      · refine Or.inl ?_
                        simp only [RTree.nids, List.mem_cons, List.mem_append]
                        exact Or.inr (Or.inl h3)
                  · refine Or.inl ?_
                    simp only [RTree.nids, List.mem_cons, List.mem_append]
                    exact Or.inr (Or.inr h)
                · rcases jsub i h with h2 | h2
                  · rcases hmidmem i h2 with h3 | h3
                    · exact Or.inr (by omega)
                    · refine Or.inl ?_
                      simp only [RTree.nids, List.mem_cons, List.mem_append]
                      exact Or.inr (Or.inl h3)
                  · refine Or.inr ?_
                    rw [hnextC] at h2
                    omega
              · rw [lbl_repl_ne st.next rmid2 rsubA hnidA, hrsubA]
                simp [RTree.lbl]
              · left
                rw [nonEmpty_repl_ne st.next rmid2 rsubA hnidA, hrsubA]
                exact nonEmpty_node_findK p cs _ hfk cur lbl has rmid cid wo

/-- Transport of the segment loop insertGo: walking the segment list from a
node cur whose label is empty (the root or a wildcard target) preserves the
tree representation, the strengthened invariant with the exemption moved to
the returned node, nodup-ness and the id bound. -/
theorem insertGo_tr : ∀ (segs : List Str) (fuel : Nat) (st : PM) (cur : Nat) (st1 : PM)
    (n : Nat) (rsub : RTree),
    insertGo st cur fuel segs = some (st1, n) →
    agrees st cur rsub = true →
    RTree.okX (some cur) rsub = true →
    (RTree.nids rsub).Nodup →
    (∀ i, i ∈ RTree.nids rsub → i < st.next) →
    RTree.lbl rsub = [] →
    ∃ rsub2, agrees st1 cur rsub2 = true ∧ RTree.okX (some n) rsub2 = true ∧
      (RTree.nids rsub2).Nodup ∧ (∀ i, i ∈ RTree.nids rsub2 → i < st1.next) ∧
      n ∈ RTree.nids rsub2 ∧ st.next ≤ st1.next ∧
      (∀ i, i ∉ RTree.nids rsub → i < st.next → getN st1 i = getN st i) ∧
      (∀ i, i ∈ RTree.nids rsub2 → i ∈ RTree.nids rsub ∨ st.next ≤ i) ∧
      RTree.lbl rsub2 = RTree.lbl rsub ∧
      (RTree.nonEmpty rsub2 = true ∨ n = cur) := by
  intro segs
  induction segs with
  | nil =>
    intro fuel st cur st1 n rsub hins hag hok hnd hb _
    simp only [insertGo, Option.some.injEq, Prod.mk.injEq] at hins
    obtain ⟨h1, h2⟩ := hins
    subst h1
    subst h2
    refine ⟨rsub, hag, hok, hnd, hb, ?_, Nat.le_refl _, fun i _ _ => rfl,
      fun i hi => Or.inl hi, rfl, Or.inr rfl⟩
    rw [← agrees_nid st cur rsub hag]
    exact nid_mem_nids rsub
  | cons seg rest ih =>
    intro fuel st cur st1 n rsub hins hag hok hnd hb hlbl
    cases rest with
    | nil =>
      simp only [insertGo] at hins
      exact insertSeg_tr fuel st cur seg st1 n rsub hins hag hok hnd hb (Or.inl hlbl)
    | cons seg2 rest2 =>
      simp only [insertGo] at hins
      cases hseg : insertSeg st cur fuel seg with
      | none =>
        simp only [hseg] at hins
        cases hins
      | some pr =>
        obtain ⟨stS, m⟩ := pr
        simp only [hseg] at hins
        obtain ⟨rsubS, kag, kok, knd, kb, kmem, knext, kfr, ksub, klbl, kne⟩ :=
          insertSeg_tr fuel st cur seg stS m rsub hseg hag hok hnd hb (Or.inl hlbl)
        obtain ⟨rsubm, hsubm⟩ := subAt_of_mem m rsubS kmem
        have hagm : agrees stS m rsubm = true :=
          (subAt_agrees stS m).1 rsubS cur rsubm kag hsubm
        have hokm0 : RTree.okX (some m) rsubm = true :=
          (okX_subAt m (some m)).1 rsubS rsubm kok hsubm
        have hndm : (RTree.nids rsubm).Nodup :=
          ((subAt_sublist m).1 rsubS rsubm hsubm).1.nodup knd
        have hbm : ∀ i, i ∈ RTree.nids rsubm → i < stS.next := fun i hi =>
          kb i (((subAt_sublist m).1 rsubS rsubm hsubm).1.subset hi)
        cases hwc : (getN stS m).wildcard with
        | some w =>
          simp only [hwc] at hins
          cases rsubm with
          | node m2 lblm hasm csm wom =>
            have hm2 : m = m2 := by
              have h := ((subAt_sublist m).1 rsubS _ hsubm).2
              simp only [RTree.nid] at h
              exact h.symm
            subst hm2
            have hagm2 := hagm
            simp only [agrees, Bool.and_eq_true] at hagm2
            have hagO := hagm2.2
            rw [hwc] at hagO
            cases wom with
            | none => simp [agreesO] at hagO
            | some rw =>
              simp only [agreesO] at hagO
              have hnw : RTree.nid rw = w := agrees_nid stS w rw hagO
              have hokdec := hokm0
              simp only [RTree.okX, RTreeO.okX, Bool.and_eq_true] at hokdec
              obtain ⟨⟨hclm, hokcsm⟩, ⟨⟨hemp, hor⟩, hokrw0⟩⟩ := hokdec
              have hlblrw : RTree.lbl rw = [] := by
                cases rw with
                | node a b c d e =>
                  simp only [RTree.emptyLbl, List.isEmpty_iff] at hemp
                  simpa [RTree.lbl] using hemp
              have hmnotrw : m ∉ RTree.nids rw := by
                intro hmm
                have hndm2 := hndm
                simp only [RTree.nids, RTreeO.nids, List.nodup_cons,
                  List.mem_append] at hndm2
                exact hndm2.1 (Or.inr hmm)
              have hokrw : RTree.okX (some w) rw = true := by
                refine (okX_out (some m) (some w)).1 rw hokrw0 ?_
                intro i hi
                simp only [Option.some.injEq] at hi
                rw [← hi]
                exact hmnotrw
              have hsubrwm : (RTree.nids rw).Sublist
                  (RTree.nids (RTree.node m lblm hasm csm (RTreeO.some rw))) := by
                simp only [RTree.nids, RTreeO.nids]
                exact (List.sublist_append_right _ _).trans (List.sublist_cons_self _ _)
              have hndrw : (RTree.nids rw).Nodup := hsubrwm.nodup hndm
              have hbrw : ∀ i, i ∈ RTree.nids rw → i < stS.next := fun i hi =>
                hbm i (hsubrwm.subset hi)
              have hoccm : Occurs (RTree.node m lblm hasm csm (RTreeO.some rw)) rsubS :=
                (subAt_occurs m).1 rsubS _ hsubm
              have hoccrw : Occurs rw rsubS :=
                occurs_trans (Occurs.wild (Occurs.refl rw)) hoccm
              have hsubw : RTree.subAt w rsubS = some rw := by
                have h := occurs_subAt rw rsubS hoccrw knd
                rw [hnw] at h
                exact h
              have hokWS : RTree.okX (some w) rsubS = true := by
                refine (okX_refix m (some w)).1 rsubS kok ?_
                intro l h2 cs2 w2 hocc
                have h := occurs_subAt _ rsubS hocc knd
                simp only [RTree.nid] at h
                rw [hsubm] at h
                simp only [Option.some.injEq] at h
                injection h with e1 e2 e3 e4 e5
                rw [← e5]
                rfl
              obtain ⟨rw2, jag, jok, jnd, jb, jmem, jnext, jfr, jsub, jlbl, jne⟩ :=
                ih fuel stS w st1 n rw hins hagO hokrw hndrw hbrw hlblrw
              have hnwm2 : RTree.nid rw2 = w := agrees_nid st1 w rw2 jag
              have hcurw : cur ≠ w := by
                intro e
                have hnidS : RTree.nid rsubS = cur := agrees_nid stS cur rsubS kag
                have hself : RTree.subAt w rsubS = some rsubS := by
                  rw [← e, ← hnidS]
                  exact subAt_self rsubS
                rw [hself] at hsubw
                simp only [Option.some.injEq] at hsubw
                exact hmnotrw (hsubw ▸ kmem)
              have hnidne : RTree.nid rsubS ≠ w := by
                rw [agrees_nid stS cur rsubS kag]
                exact hcurw
              have hwmemS : w ∈ RTree.nids rsubS := by
                refine ((subAt_sublist w).1 rsubS rw hsubw).1.subset ?_
                rw [← hnw]
                exact nid_mem_nids rw
              refine ⟨RTree.repl w rw2 rsubS, ?_, ?_, ?_, ?_, ?_, ?_, ?_, ?_, ?_, ?_⟩
              · exact (agrees_repl stS st1 w stS.next rw2 rw jag jfr).1 rsubS cur
                  kag hsubw knd kb
              · refine (okX_repl w rw2 rw (some n) jok ?_ ?_ ?_).1 rsubS (some w)
                  hokWS hsubw knd ?_
                · intro k
                  exact headIs_congr k rw2 rw jlbl
                · exact emptyLbl_congr rw2 rw jlbl
                · rcases jne with h | h
                  · exact Or.inl h
                  · right
                    rw [h, hnwm2]
                · intro i hi
                  simp only [Option.some.injEq] at hi
                  rw [← hi, ← hnw]
                  exact nid_mem_nids rw
              · exact (nodup_repl w stS.next rw2 rw jnd jsub).1 rsubS hsubw knd kb
              · intro i hi
                rcases (nids_repl_sub w rw2).1 rsubS i hi with h | h
                · have h2 := kb i h
                  omega
                · exact jb i h
              · exact (mem_nids_repl w rw2).1 rsubS hwmemS n jmem
              · omega
              · intro i hi hilt
                have h1 : getN stS i = getN st i := kfr i hi hilt
                rw [← h1]
                refine jfr i ?_ ?_
                · intro hmm
                  have h2 : i ∈ RTree.nids rsubS :=
                    ((subAt_sublist w).1 rsubS rw hsubw).1.subset hmm
                  rcases ksub i h2 with h3 | h3
                  · exact hi h3
                  · omega
                · omega
              · intro i hi
                rcases (nids_repl_sub w rw2).1 rsubS i hi with h | h
                · exact ksub i h
                · rcases jsub i h with h2 | h2
                  · have h3 : i ∈ RTree.nids rsubS :=
                      ((subAt_sublist w).1 rsubS rw hsubw).1.subset h2
                    exact ksub i h3
                  · exact Or.inr (by omega)
              · rw [lbl_repl_ne w rw2 rsubS hnidne]
                exact klbl
              · left
                rw [nonEmpty_repl_ne w rw2 rsubS hnidne]
                rcases kne with h | h
                · exact h
                · have hnidS : RTree.nid rsubS = cur := agrees_nid stS cur rsubS kag
                  have hself : RTree.subAt m rsubS = some rsubS := by
                    rw [h, ← hnidS]
                    exact subAt_self rsubS
                  rw [hself] at hsubm
                  simp only [Option.some.injEq] at hsubm
                  rw [hsubm]
                  simp [RTree.nonEmpty]
        | none =>
          simp only [hwc] at hins
          cases halo : alloc stS (NodeData.mk0 []) with
          | mk w0 st20 =>
            simp only [halo] at hins
            have hw0 : stS.next = w0 := congrArg Prod.fst halo
            have hst20 : (alloc stS (NodeData.mk0 [])).2 = st20 := congrArg Prod.snd halo
            have hnext20 : st20.next = stS.next + 1 := by
              rw [← hst20]
              rfl
            have hmlt : m < stS.next := kb m kmem
            have hmw : m ≠ w0 := by omega
            have hg20_w : getN st20 w0 = NodeData.mk0 [] := by
              rw [← hst20, ← hw0]
              exact getN_alloc_self stS (NodeData.mk0 [])
            have hg20_other : ∀ i, i ≠ w0 → getN st20 i = getN stS i := by
              intro i hiw
              rw [← hst20]
              refine getN_alloc_ne stS (NodeData.mk0 []) i ?_
              rw [hw0]
              exact fun e => hiw e.symm
            have hgB_m : getN (setN st20 m { getN st20 m with wildcard := some w0 }) m
                = { getN stS m with wildcard := some w0 } := by
              rw [getN_setN_self, hg20_other m hmw]
            have hgB_w : getN (setN st20 m { getN st20 m with wildcard := some w0 }) w0
                = NodeData.mk0 [] := by
              rw [getN_setN_ne _ _ _ _ hmw, hg20_w]
            have hgB_other : ∀ i, i ≠ m → i ≠ w0 →
                getN (setN st20 m { getN st20 m with wildcard := some w0 }) i
                  = getN stS i := by
              intro i h1 h2
              rw [getN_setN_ne _ _ _ _ (fun e => h1 e.symm), hg20_other i h2]
            have hnextB : (setN st20 m { getN st20 m with wildcard := some w0 }).next
                = stS.next + 1 := by
              rw [next_setN, hnext20]
            have hwnotS : w0 ∉ RTree.nids rsubS := by
              intro hmm
              have := kb w0 hmm
              omega
            have hagB : agrees (setN st20 m { getN st20 m with wildcard := some w0 })
                cur (RTree.setWild m w0 rsubS) = true :=
              (agrees_setWild stS _ m w0 hwc hgB_other hgB_m hgB_w).1 rsubS cur
                kag hwnotS
            have hokB : RTree.okX (some w0) (RTree.setWild m w0 rsubS) = true :=
              (okX_setWild m w0).1 rsubS kok
            have hndB : (RTree.nids (RTree.setWild m w0 rsubS)).Nodup :=
              (nodup_setWild m w0).1 rsubS knd hwnotS
            have hbB : ∀ i, i ∈ RTree.nids (RTree.setWild m w0 rsubS) →
                i < (setN st20 m { getN st20 m with wildcard := some w0 }).next := by
              intro i hi
              rw [hnextB]
              rcases (nids_setWild_sub m w0).1 rsubS i hi with h | h
              · have := kb i h
                omega
              · omega
            have hagtip : agrees (setN st20 m { getN st20 m with wildcard := some w0 })
                w0 (RTree.node w0 [] false RTreeL.nil RTreeO.none) = true := by
              simp only [agrees, hgB_w, NodeData.mk0]
              simp [agreesL, agreesO]
            have hoktip : RTree.okX (some w0)
                (RTree.node w0 [] false RTreeL.nil RTreeO.none) = true := by
              simp [RTree.okX, RTreeL.okX, RTreeO.okX]
            have hndtip : (RTree.nids
                (RTree.node w0 [] false RTreeL.nil RTreeO.none)).Nodup := by
              simp [RTree.nids, RTreeL.nids, RTreeO.nids]
            have hbtip : ∀ i, i ∈ RTree.nids
                (RTree.node w0 [] false RTreeL.nil RTreeO.none) →
                i < (setN st20 m { getN st20 m with wildcard := some w0 }).next := by
              intro i hi
              simp only [RTree.nids, RTreeL.nids, RTreeO.nids, List.append_nil,
                List.mem_cons, List.not_mem_nil, or_false] at hi
              rw [hnextB, hi]
              omega
            obtain ⟨rB2, jag, jok, jnd, jb, jmem, jnext, jfr, jsub, jlbl, jne⟩ :=
              ih fuel _ w0 st1 n _ hins hagtip hoktip hndtip hbtip rfl
            have hnwB2 : RTree.nid rB2 = w0 := agrees_nid st1 w0 rB2 jag
            have hwmemT : w0 ∈ RTree.nids (RTree.setWild m w0 rsubS) :=
              (mem_nids_setWild m w0).1 rsubS (((subAt_sublist m).1 rsubS rsubm
                hsubm).1.subset (((subAt_sublist m).1 rsubS rsubm hsubm).2 ▸
                  nid_mem_nids rsubm))
            have hsubtip : RTree.subAt w0 (RTree.setWild m w0 rsubS) =
                some (RTree.node w0 [] false RTreeL.nil RTreeO.none) := by
              obtain ⟨rt, hrt⟩ := subAt_of_mem w0 (RTree.setWild m w0 rsubS) hwmemT
              have hagrt : agrees (setN st20 m { getN st20 m with wildcard := some w0 })
                  w0 rt = true :=
                (subAt_agrees _ w0).1 _ cur rt hagB hrt
              rw [agrees_tip _ w0 hgB_w rt hagrt] at hrt
              exact hrt
            have hcurlt : cur < st.next := hb cur (by
              rw [← agrees_nid st cur rsub hag]
              exact nid_mem_nids rsub)
            have hnidTne : RTree.nid (RTree.setWild m w0 rsubS) ≠ w0 := by
              rw [nid_setWild, agrees_nid stS cur rsubS kag]
              omega
            refine ⟨RTree.repl w0 rB2 (RTree.setWild m w0 rsubS),
              ?_, ?_, ?_, ?_, ?_, ?_, ?_, ?_, ?_, ?_⟩
            · refine (agrees_repl _ st1 w0
                (setN st20 m { getN st20 m with wildcard := some w0 }).next rB2 _
                jag jfr).1 _ cur hagB hsubtip hndB hbB
            · refine (okX_repl w0 rB2 _ (some n) jok ?_ ?_ ?_).1 _ (some w0)
                hokB hsubtip hndB ?_
              · intro k
                exact headIs_congr k rB2 _ jlbl
              · exact emptyLbl_congr rB2 _ jlbl
              · rcases jne with h | h
                · exact Or.inl h
                · right
                  rw [h, hnwB2]
              · intro i hi
                simp only [Option.some.injEq] at hi
                rw [← hi]
                simp [RTree.nids]
            · exact (nodup_repl w0
                (setN st20 m { getN st20 m with wildcard := some w0 }).next rB2 _
                jnd jsub).1 _ hsubtip hndB hbB
            · intro i hi
              rcases (nids_repl_sub w0 rB2).1 _ i hi with h | h
              · have h2 := hbB i h
                have h3 := jnext
                rw [hnextB] at h2 h3
                omega
              · exact jb i h
            · exact (mem_nids_repl w0 rB2).1 _ hwmemT n jmem
            · have h1 := jnext
              rw [hnextB] at h1
              omega
            · intro i hi hilt
              have h1 : getN stS i = getN st i := kfr i hi hilt
              have h2 : getN (setN st20 m { getN st20 m with wildcard := some w0 }) i
                  = getN stS i := by
                refine hgB_other i ?_ (by omega)
                intro e
                rcases ksub m kmem with h3 | h3
                · exact hi (e ▸ h3)
                · omega
              rw [← h1, ← h2]
              refine jfr i ?_ ?_
              · intro hmm
                simp only [RTree.nids, RTreeL.nids, RTreeO.nids, List.append_nil,
                  List.mem_cons, List.not_mem_nil, or_false] at hmm
                omega
              · rw [hnextB]
                omega
            · intro i hi
              rcases (nids_repl_sub w0 rB2).1 _ i hi with h | h
              · rcases (nids_setWild_sub m w0).1 rsubS i h with h2 | h2
                · exact ksub i h2
                · exact Or.inr (by omega)
              · rcases jsub i h with h2 | h2
                · simp only [RTree.nids, RTreeL.nids, RTreeO.nids, List.append_nil,
                    List.mem_cons, List.not_mem_nil, or_false] at h2
                  exact Or.inr (by omega)
                · rw [hnextB] at h2
                  exact Or.inr (by omega)
            · rw [lbl_repl_ne w0 rB2 _ hnidTne, lbl_setWild]
              exact klbl
            · left
              rw [nonEmpty_repl_ne w0 rB2 _ hnidTne, nonEmpty_setWild]
              rcases kne with h | h
              · simp [h]
              · rw [agrees_nid stS cur rsubS kag, ← h]
                simp

theorem lbl_setHas (x : Nat) (r : RTree) : RTree.lbl (RTree.setHas x r) = RTree.lbl r := by
  cases r with
  | node nid lbl has cs w => simp [RTree.setHas, RTree.lbl]

/-- Transport of PatternMatcher.insert: a successful insert on a state
represented by a tree with empty root label preserves representability,
the strengthened invariant without exemption, nodup-ness and the id
bound. -/
theorem insert_tr (st : PM) (fuel : Nat) (p : Str) (h : Nat) (tmp : Bool) (st2 : PM)
    (r : RTree)
    (hins : insert st fuel p h tmp = some st2)
    (hag : agrees st 0 r = true)
    (hok : RTree.okX none r = true)
    (hnd : (RTree.nids r).Nodup)
    (hb : ∀ i, i ∈ RTree.nids r → i < st.next)
    (hlbl : RTree.lbl r = []) :
    ∃ r2, agrees st2 0 r2 = true ∧ RTree.okX none r2 = true ∧
      (RTree.nids r2).Nodup ∧ (∀ i, i ∈ RTree.nids r2 → i < st2.next) ∧
      RTree.lbl r2 = [] := by
  unfold insert at hins
  cases hgo : insertGo st 0 fuel (splitStar (normalize p)) with
  | none =>
    simp only [hgo] at hins
    cases hins
  | some pr =>
    obtain ⟨st1, n⟩ := pr
    simp only [hgo] at hins
    obtain ⟨r1, kag, kok, knd, kb, kmem, knext, kfr, ksub, klbl, kne⟩ :=
      insertGo_tr (splitStar (normalize p)) fuel st 0 st1 n r hgo hag
        ((okX_mono (some 0)).1 r hok) hnd hb hlbl
    obtain ⟨rn, hsubn⟩ := subAt_of_mem n r1 kmem
    have hagn : agrees st1 n rn = true := (subAt_agrees st1 n).1 r1 0 rn kag hsubn
    have hmatchn : (match (getN st1 n).permanent with
        | Option.none => true | Option.some l => !l.isEmpty) = true ∧
        (match (getN st1 n).temporary with
        | Option.none => true | Option.some l => !l.isEmpty) = true := by
      cases rn with
      | node n2 lbln hasn csn won =>
        simp only [agrees, Bool.and_eq_true] at hagn
        exact ⟨hagn.1.1.1.1.2, hagn.1.1.1.2⟩
    have main : ∀ (d2 : NodeData),
        d2.pattern = (getN st1 n).pattern →
        d2.children = (getN st1 n).children →
        d2.wildcard = (getN st1 n).wildcard →
        (d2.temporary.isSome || d2.permanent.isSome) = true →
        (match d2.permanent with
          | Option.none => true | Option.some l => !l.isEmpty) = true →
        (match d2.temporary with
          | Option.none => true | Option.some l => !l.isEmpty) = true →
        ∃ r2, agrees (setN st1 n d2) 0 r2 = true ∧ RTree.okX none r2 = true ∧
          (RTree.nids r2).Nodup ∧
          (∀ i, i ∈ RTree.nids r2 → i < (setN st1 n d2).next) ∧
          RTree.lbl r2 = [] := by
      intro d2 hdp hdc hdw hdh hdmp hdmt
      refine ⟨RTree.setHas n r1, ?_, (okX_setHas n).1 r1 kok, ?_, ?_, ?_⟩
      · refine (agrees_setHas st1 (setN st1 n d2) n ?_ ?_ ?_ ?_ ?_ ?_ ?_).1 r1 0 kag
        · intro i hi
          exact getN_setN_ne _ _ _ _ (fun e => hi e.symm)
        · rw [getN_setN_self]
          exact hdp
        · rw [getN_setN_self]
          exact hdc
        · rw [getN_setN_self]
          exact hdw
        · rw [getN_setN_self]
          exact hdh
        · rw [getN_setN_self]
          exact hdmp
        · rw [getN_setN_self]
          exact hdmt
      · rw [(nids_setHas n).1 r1]
        exact knd
      · intro i hi
        rw [(nids_setHas n).1 r1] at hi
        rw [next_setN]
        exact kb i hi
      · rw [lbl_setHas, klbl, hlbl]
    by_cases htmp : tmp = true
    · rw [if_pos htmp] at hins
      simp only [Option.some.injEq] at hins
      rw [← hins]
      refine main _ rfl rfl rfl ?_ hmatchn.1 ?_
      · rfl
      · simp [setAdd_isEmpty]
    · rw [if_neg htmp] at hins
      simp only [Option.some.injEq] at hins
      rw [← hins]
      refine main _ rfl rfl rfl ?_ ?_ hmatchn.2
      · simp
      · simp [setAdd_isEmpty]

theorem findK_alGet (st : PM) : ∀ (m : List (Nat × Nat)) (cs : RTreeL) (p : Nat)
    (rc : RTree), agreesL st m cs = true → RTreeL.findK p cs = some rc →
    alGet m p = some (RTree.nid rc) := by
  intro m
  induction m with
  | nil =>
    intro cs p rc h hf
    cases cs with
    | nil => simp [RTreeL.findK] at hf
    | cons k r rs => simp [agreesL] at h
  | cons kv rest ih =>
    intro cs p rc h hf
    obtain ⟨k2, cid⟩ := kv
    cases cs with
    | nil => simp [agreesL] at h
    | cons k r rs =>
      simp only [agreesL, Bool.and_eq_true, beq_iff_eq] at h
      obtain ⟨⟨hk, hr⟩, hrs⟩ := h
      simp only [RTreeL.findK] at hf
      by_cases hkp : k = p
      · rw [if_pos hkp] at hf
        simp only [Option.some.injEq] at hf
        simp only [alGet, hk, if_pos hkp]
        rw [← hf]
        rw [agrees_nid st cid r hr]
      · rw [if_neg hkp] at hf
        simp only [alGet, hk, if_neg hkp]
        exact ih rs p rc hrs hf

/-- Discharging the exemption at the root: a tree whose root label is
empty and whose root id is exempted satisfies the invariant without any
exemption. -/
theorem okX_root (r : RTree) (hok : RTree.okX (some (RTree.nid r)) r = true)
    (hnd : (RTree.nids r).Nodup) (hlbl : RTree.lbl r = []) :
    RTree.okX none r = true := by
  cases r with
  | node nid lbl has cs wo =>
    simp only [RTree.nid] at hok
    simp only [RTree.lbl] at hlbl
    simp only [RTree.nids, List.nodup_cons, List.mem_append] at hnd
    simp only [RTree.okX, Bool.and_eq_true] at hok ⊢
    refine ⟨⟨?_, ?_⟩, ?_⟩
    · simp [hlbl]
    · refine (okX_out (some nid) none).2.1 cs hok.1.2 ?_
      intro i hi
      simp only [Option.some.injEq] at hi
      rw [← hi]
      intro hmm
      exact hnd.1 (Or.inl hmm)
    · refine (okX_out (some nid) none).2.2 wo hok.2 ?_
      intro i hi
      simp only [Option.some.injEq] at hi
      rw [← hi]
      intro hmm
      exact hnd.1 (Or.inr hmm)

/-- Releasing an exemption: when every occurrence of the exempted node
satisfies its structural clause without the exemption and is non-empty,
the invariant holds at any other exemption. -/
theorem okX_release (c : Nat) (x2 : Option Nat) :
    (∀ r, RTree.okX (some c) r = true →
      (∀ l h2 cs2 w2, Occurs (RTree.node c l h2 cs2 w2) r →
        (decide (l = []) || !(RTreeL.len1 cs2 && RTreeO.isNone w2 && !h2)) = true ∧
        RTree.nonEmpty (RTree.node c l h2 cs2 w2) = true) →
      RTree.okX x2 r = true) ∧
    (∀ cs, RTreeL.okX (some c) cs = true →
      (∀ l h2 cs2 w2 r0, MemL r0 cs → Occurs (RTree.node c l h2 cs2 w2) r0 →
        (decide (l = []) || !(RTreeL.len1 cs2 && RTreeO.isNone w2 && !h2)) = true ∧
        RTree.nonEmpty (RTree.node c l h2 cs2 w2) = true) →
      RTreeL.okX x2 cs = true) ∧
    (∀ w, RTreeO.okX (some c) w = true →
      (∀ l h2 cs2 w2 r0, w = RTreeO.some r0 → Occurs (RTree.node c l h2 cs2 w2) r0 →
        (decide (l = []) || !(RTreeL.len1 cs2 && RTreeO.isNone w2 && !h2)) = true ∧
        RTree.nonEmpty (RTree.node c l h2 cs2 w2) = true) →
      RTreeO.okX x2 w = true) := by
  refine rtree_mutual_ind _ _ _ ?_ ?_ ?_ ?_ ?_
  · intro nid lbl has cs w ihc ihw h hocc
    simp only [RTree.okX, Bool.and_eq_true, Bool.or_eq_true] at h ⊢
    obtain ⟨⟨h1, h2⟩, h3⟩ := h
    refine ⟨⟨?_, ihc h2 ?_⟩, ihw h3 ?_⟩
    · rcases h1 with h1 | h1
      · rcases h1 with h1 | h1
        · simp only [beq_iff_eq, Option.some.injEq] at h1
          have hoc : Occurs (RTree.node c lbl has cs w) (RTree.node nid lbl has cs w) := by
            rw [h1]
            exact Occurs.refl _
          have hcl := (hocc lbl has cs w hoc).1
          rcases Bool.or_eq_true_iff.mp hcl with hcl | hcl
          · exact Or.inl (Or.inr hcl)
          · exact Or.inr hcl
        · exact Or.inl (Or.inr h1)
      · exact Or.inr h1
    · intro l h2b cs2 w2 r0 hm ho
      exact hocc l h2b cs2 w2 (Occurs.child hm ho)
    · intro l h2b cs2 w2 r0 hw ho
      cases w with
      | none => cases hw
      | some r1 =>
        simp only [RTreeO.some.injEq] at hw
        exact hocc l h2b cs2 w2 (hw ▸ Occurs.wild ho)
  · intro _ _
    rfl
  · intro k r rs ihr ihrs h hocc
    simp only [RTreeL.okX, Bool.and_eq_true, Bool.or_eq_true] at h ⊢
    obtain ⟨⟨⟨h1, h2⟩, h3⟩, h4⟩ := h
    refine ⟨⟨⟨h1, ?_⟩, ihr h3 ?_⟩, ihrs h4 ?_⟩
    · rcases h2 with h2 | h2
      · simp only [beq_iff_eq, Option.some.injEq] at h2
        right
        cases r with
        | node n2 l2 hb2 cs2 w2 =>
          simp only [RTree.nid] at h2
          have hoc : Occurs (RTree.node c l2 hb2 cs2 w2) (RTree.node n2 l2 hb2 cs2 w2) := by
            rw [h2]
            exact Occurs.refl _
          have hne := (hocc l2 hb2 cs2 w2 (.node n2 l2 hb2 cs2 w2)
            (MemL.head k _ rs) hoc).2
          simp only [RTree.nonEmpty] at hne ⊢
          exact hne
      · exact Or.inr h2
    · intro l h2b cs2 w2 ho
      exact hocc l h2b cs2 w2 r (MemL.head k r rs) ho
    · intro l h2b cs2 w2 r0 hm ho
      exact hocc l h2b cs2 w2 r0 (MemL.tail k r rs r0 hm) ho
  · intro _ _
    rfl
  · intro r ih h hocc
    simp only [RTreeO.okX, Bool.and_eq_true, Bool.or_eq_true] at h ⊢
    obtain ⟨⟨h1, h2⟩, h3⟩ := h
    refine ⟨⟨h1, ?_⟩, ih h3 ?_⟩
    · rcases h2 with h2 | h2
      · simp only [beq_iff_eq, Option.some.injEq] at h2
        right
        cases r with
        | node n2 l2 hb2 cs2 w2 =>
          simp only [RTree.nid] at h2
          have hoc : Occurs (RTree.node c l2 hb2 cs2 w2) (RTree.node n2 l2 hb2 cs2 w2) := by
            rw [h2]
            exact Occurs.refl _
          have hne := (hocc l2 hb2 cs2 w2 (.node n2 l2 hb2 cs2 w2) rfl hoc).2
          simp only [RTree.nonEmpty] at hne ⊢
          exact hne
      · exact Or.inr h2
    · intro l h2b cs2 w2 ho
      exact hocc l h2b cs2 w2 r rfl ho

theorem nodeRemove_next (st : PM) (id : Nat) (h : Option Nat) :
    (nodeRemove st id h).1.next = st.next := by
  unfold nodeRemove
  dsimp only
  repeat' split
  all_goals rfl

theorem shrink_next (st : PM) (id : Nat) : (shrink st id).1.next = st.next := by
  unfold shrink
  dsimp only
  repeat' split
  all_goals rfl

theorem removeUnwind_next : ∀ (stk : List (Option Nat × Nat)) (st : PM),
    (removeUnwind st stk).next = st.next := by
  intro stk
  induction stk with
  | nil =>
    intro st
    rfl
  | cons e rest ih =>
    intro st
    obtain ⟨pfx, cur⟩ := e
    simp only [removeUnwind]
    have key : ∀ st1 : PM, st1.next = st.next →
        (if (shrink st1 cur).2 then removeUnwind (shrink st1 cur).1 rest
         else (shrink st1 cur).1).next = st.next := by
      intro st1 h1
      by_cases hs : (shrink st1 cur).2 = true
      · rw [if_pos hs, ih, shrink_next, h1]
      · rw [if_neg hs, shrink_next, h1]
    refine key _ ?_
    dsimp only
    repeat' split
    all_goals rfl

/-- Transport of the per-segment strict descent: a hit produces a spine
from the starting subtree to the terminal subtree, and the recorded
stack is the reversed spine pushed on the incoming stack. -/
theorem descendSeg_tr : ∀ (fuel : Nat) (st : PM) (cur : Nat) (seg : Str)
    (stk stk2 : List (Option Nat × Nat)) (t : Nat) (rsub : RTree),
    descendSeg st fuel cur seg stk = some (some (stk2, t)) →
    agrees st cur rsub = true →
    ∃ L rt, stk2 = L.reverse ++ stk ∧ spineS rsub L rt ∧ RTree.nid rt = t := by
  intro fuel
  induction fuel with
  | zero =>
    intro st cur seg stk stk2 t rsub hd _
    simp [descendSeg] at hd
  | succ f ihf =>
    intro st cur seg stk stk2 t rsub hd hag
    cases seg with
    | nil =>
      simp only [descendSeg, Option.some.injEq, Prod.mk.injEq] at hd
      obtain ⟨h1, h2⟩ := hd
      refine ⟨[], rsub, by simp [h1], rfl, ?_⟩
      rw [agrees_nid st cur rsub hag]
      exact h2
    | cons p rest =>
      simp only [descendSeg] at hd
      cases rsub with
      | node nid lbl has cs wo =>
        have hagc := hag
        simp only [agrees, Bool.and_eq_true, beq_iff_eq] at hagc
        obtain ⟨⟨⟨⟨⟨⟨⟨h1, h2⟩, h3⟩, h4⟩, h5⟩, h6⟩, h7⟩, h8⟩ := hagc
        cases halg : alGet ((getN st cur).children.getD []) p with
        | none =>
          simp only [halg] at hd
          cases hd
        | some cid =>
          simp only [halg] at hd
          by_cases hpre : (getN st cid).pattern.isPrefixOf (p :: rest) = true
          · rw [if_pos hpre] at hd
            obtain ⟨rc, hfk, hnidrc, hagrc⟩ := agreesL_findK st _ cs p cid h7 halg
            obtain ⟨L2, rt, hst, hsp, hnid⟩ := ihf st cid _ _ stk2 t rc hd hagrc
            refine ⟨(some p, cur) :: L2, rt, ?_, ?_, hnid⟩
            · rw [hst]
              simp
            · exact ⟨h1.symm, rc, hfk, hsp⟩
          · rw [if_neg hpre] at hd
            cases hd

/-- Transport of the full descent over the segment list: a hit produces
a root-to-terminal spine whose reverse is the recorded stack. -/
theorem descend_tr : ∀ (segs : List Str) (st : PM) (fuel : Nat) (cur : Nat)
    (stk stk2 : List (Option Nat × Nat)) (t : Nat) (rsub : RTree),
    descend st fuel cur segs stk = some (some (stk2, t)) →
    agrees st cur rsub = true →
    ∃ L rt, stk2 = L.reverse ++ stk ∧ spineS rsub L rt ∧ RTree.nid rt = t := by
  intro segs
  induction segs with
  | nil =>
    intro st fuel cur stk stk2 t rsub hd hag
    simp only [descend, Option.some.injEq, Prod.mk.injEq] at hd
    obtain ⟨h1, h2⟩ := hd
    refine ⟨[], rsub, by simp [h1], rfl, ?_⟩
    rw [agrees_nid st cur rsub hag]
    exact h2
  | cons seg rest ih =>
    intro st fuel cur stk stk2 t rsub hd hag
    cases rest with
    | nil =>
      simp only [descend] at hd
      exact descendSeg_tr fuel st cur seg stk stk2 t rsub hd hag
    | cons seg2 rest2 =>
      simp only [descend] at hd
      cases hds : descendSeg st fuel cur seg stk with
      | none =>
        simp only [hds] at hd
        cases hd
      | some o =>
        cases o with
        | none =>
          simp only [hds] at hd
          cases hd
        | some pr =>
          obtain ⟨stk1, nmid⟩ := pr
          simp only [hds] at hd
          obtain ⟨L1, rm, hst1, hsp1, hnid1⟩ :=
            descendSeg_tr fuel st cur seg stk stk1 nmid rsub hds hag
          have hagm0 : agrees st (RTree.nid rm) rm = true :=
            occurs_agrees st rm rsub (spineS_occurs L1 rsub rm hsp1) cur hag
          rw [hnid1] at hagm0
          cases hwc : (getN st nmid).wildcard with
          | none =>
            simp only [hwc] at hd
            cases hd
          | some w =>
            simp only [hwc] at hd
            cases rm with
            | node nm2 lblm hasm csm wom =>
              have hagm2 := hagm0
              simp only [agrees, Bool.and_eq_true] at hagm2
              have hagO := hagm2.2
              rw [hwc] at hagO
              cases wom with
              | none => simp [agreesO] at hagO
              | some rw =>
                simp only [agreesO] at hagO
                obtain ⟨L2, rt, hst2, hsp2, hnid2⟩ :=
                  ih st fuel w ((none, nmid) :: stk1) stk2 t rw hd hagO
                refine ⟨L1 ++ (none, nmid) :: L2, rt, ?_, ?_, hnid2⟩
                · rw [hst2, hst1]
                  simp
                · refine spineS_append_intro L1 ((none, nmid) :: L2) _ _ rt hsp1 ?_
                  refine ⟨?_, rw, rfl, hsp2⟩
                  simp only [RTree.nid] at hnid1
                  simp only [RTree.nid]
                  exact hnid1

/-- Case analysis of HandlerNode.shrink on a node that agrees with an
abstract tree node: it either refuses (the node is structurally sound),
accepts without restructuring (an empty tip or an empty-label node), or
merges a single-child interior node with its child. -/
theorem shrink_cases (st : PM) (cur : Nat) (lblm : Str) (hasm : Bool) (csm : RTreeL)
    (wom : RTreeO)
    (hag : agrees st cur (RTree.node cur lblm hasm csm wom) = true) :
    (shrink st cur = (st, false) ∧
      RTree.nonEmpty (RTree.node cur lblm hasm csm wom) = true ∧
      (decide (lblm = []) || !(RTreeL.len1 csm && RTreeO.isNone wom && !hasm)) = true) ∨
    (shrink st cur = (st, true) ∧ hasm = false ∧ wom = RTreeO.none ∧
      (csm = RTreeL.nil ∨ (RTreeL.len1 csm = true ∧ lblm = []))) ∨
    (∃ k rc, csm = RTreeL.cons k rc RTreeL.nil ∧ hasm = false ∧ wom = RTreeO.none ∧
      lblm ≠ [] ∧
      shrink st cur = (setN st cur ⟨lblm ++ (getN st (RTree.nid rc)).pattern,
        (getN st (RTree.nid rc)).children, (getN st (RTree.nid rc)).permanent,
        (getN st (RTree.nid rc)).temporary, (getN st (RTree.nid rc)).wildcard,
        none⟩, true)) := by
  have hagc := hag
  simp only [agrees, Bool.and_eq_true, beq_iff_eq] at hagc
  obtain ⟨⟨⟨⟨⟨⟨⟨h1, h2⟩, h3⟩, h4⟩, h5⟩, h6⟩, h7⟩, h8⟩ := hagc
  cases hperm : (getN st cur).permanent with
  | some l =>
    have hlne : l ≠ [] := by
      rw [hperm] at h4
      simpa [List.isEmpty_iff] using h4
    have hcond : ((getN st cur).permanent.getD []).length ≠ 0 := by
      rw [hperm]
      simpa [List.length_eq_zero] using hlne
    have hhas : hasm = true := by
      rw [← h3, hperm]
      simp
    refine Or.inl ⟨?_, ?_, ?_⟩
    · unfold shrink
      rw [if_pos hcond]
    · simp [RTree.nonEmpty, hhas]
    · simp [hhas]
  | none =>
    have hc1 : ¬(((getN st cur).permanent.getD []).length ≠ 0) := by
      rw [hperm]
      simp
    cases htemp : (getN st cur).temporary with
    | some tl =>
      have htne : tl ≠ [] := by
        rw [htemp] at h5
        simpa [List.isEmpty_iff] using h5
      have hcond : ((getN st cur).temporary.getD []).length ≠ 0 := by
        rw [htemp]
        simpa [List.length_eq_zero] using htne
      have hhas : hasm = true := by
        rw [← h3, htemp]
        simp
      refine Or.inl ⟨?_, ?_, ?_⟩
      · unfold shrink
        rw [if_neg hc1, if_pos hcond]
      · simp [RTree.nonEmpty, hhas]
      · simp [hhas]
    | none =>
      have hc2 : ¬(((getN st cur).temporary.getD []).length ≠ 0) := by
        rw [htemp]
        simp
      have hhas : hasm = false := by
        rw [← h3, hperm, htemp]
        rfl
      cases hwc : (getN st cur).wildcard with
      | some w =>
        have hcond : (getN st cur).wildcard.isSome = true := by
          rw [hwc]
          rfl
        cases wom with
        | none =>
          rw [hwc] at h8
          simp [agreesO] at h8
        | some rwc =>
          refine Or.inl ⟨?_, ?_, ?_⟩
          · unfold shrink
            rw [if_neg hc1, if_neg hc2, if_pos hcond]
          · simp [RTree.nonEmpty]
          · simp [RTreeO.isNone]
      | none =>
        have hcond : ¬((getN st cur).wildcard.isSome = true) := by
          rw [hwc]
          simp
        have hwom : wom = RTreeO.none := by
          cases wom with
          | none => rfl
          | some rwc =>
            rw [hwc] at h8
            simp [agreesO] at h8
        cases hch : (getN st cur).children with
        | none =>
          have hcsm : csm = RTreeL.nil := by
            cases csm with
            | nil => rfl
            | cons k r rs =>
              rw [hch] at h7
              simp [agreesL] at h7
          refine Or.inr (Or.inl ⟨?_, hhas, hwom, Or.inl hcsm⟩)
          unfold shrink
          rw [if_neg hc1, if_neg hc2, if_neg hcond, hch]
        | some mp =>
          rw [hch] at h7
          simp only [Option.getD_some] at h7
          by_cases hlen : mp.length > 1
          · have hlen1 : RTreeL.len1 csm = false := by
              cases mp with
              | nil => simp at hlen
              | cons e1 tl =>
                cases tl with
                | nil => simp at hlen
                | cons e2 tl2 =>
                  obtain ⟨k1, c1⟩ := e1
                  obtain ⟨k2, c2⟩ := e2
                  cases csm with
                  | nil => simp [agreesL] at h7
                  | cons ka ra rsa =>
                    cases rsa with
                    | nil => simp [agreesL] at h7
                    | cons kb rb rsb => rfl
            have hcsne : RTree.nonEmpty (RTree.node cur lblm hasm csm wom) = true := by
              cases mp with
              | nil => simp at hlen
              | cons e1 tl =>
                obtain ⟨k1, c1⟩ := e1
                cases csm with
                | nil => simp [agreesL] at h7
                | cons ka ra rsa => simp [RTree.nonEmpty]
            refine Or.inl ⟨?_, hcsne, ?_⟩
            · unfold shrink
              rw [if_neg hc1, if_neg hc2, if_neg hcond, hch]
              dsimp only
              rw [if_pos hlen]
            · simp [hlen1]
          · by_cases hpat : (getN st cur).pattern = []
            · have hlblm : lblm = [] := by
                rw [← h2]
                exact hpat
              have hne : mp ≠ [] := by
                rw [hch] at h6
                simpa [List.isEmpty_iff] using h6
              have hlen1 : RTreeL.len1 csm = true := by
                cases mp with
                | nil => exact absurd rfl hne
                | cons e1 tl =>
                  cases tl with
                  | nil =>
                    obtain ⟨k1, c1⟩ := e1
                    cases csm with
                    | nil => simp [agreesL] at h7
                    | cons ka ra rsa =>
                      cases rsa with
                      | nil => rfl
                      | cons kb rb rsb =>
                        simp only [agreesL, Bool.and_eq_true] at h7
                        exact absurd h7.2 (by simp [agreesL])
                  | cons e2 tl2 =>
                    simp at hlen
              refine Or.inr (Or.inl ⟨?_, hhas, hwom, Or.inr ⟨hlen1, hlblm⟩⟩)
              unfold shrink
              rw [if_neg hc1, if_neg hc2, if_neg hcond, hch]
              dsimp only
              rw [if_neg hlen, if_pos hpat]
            · have hne : mp ≠ [] := by
                rw [hch] at h6
                simpa [List.isEmpty_iff] using h6
              cases mp with
              | nil => exact absurd rfl hne
              | cons e1 tl =>
                obtain ⟨k1, c1⟩ := e1
                cases tl with
                | cons e2 tl2 => simp at hlen
                | nil =>
                  cases csm with
                  | nil => simp [agreesL] at h7
                  | cons ka ra rsa =>
                    cases rsa with
                    | cons kb rb rsb =>
                      simp only [agreesL, Bool.and_eq_true] at h7
                      exact absurd h7.2 (by simp [agreesL])
                    | nil =>
                      simp only [agreesL, Bool.and_eq_true, beq_iff_eq] at h7
                      obtain ⟨⟨hk1, hr1⟩, _⟩ := h7
                      have hnidra : RTree.nid ra = c1 := agrees_nid st c1 ra hr1
                      have hlblne : lblm ≠ [] := by
                        rw [← h2]
                        exact hpat
                      refine Or.inr (Or.inr ⟨ka, ra, rfl, hhas, hwom, hlblne, ?_⟩)
                      unfold shrink
                      rw [if_neg hc1, if_neg hc2, if_neg hcond, hch]
                      dsimp only
                      rw [if_neg hlen, if_neg hpat]
                      rw [hnidra, h2]

/-- Transport of the unwind loop of remove: walking the recorded stack
leaf-to-root, detaching emptied children and shrinking, turns a tree
whose invariant holds up to an exemption at the just-processed node
into one satisfying the invariant with no exemption. -/
theorem removeUnwind_tr : ∀ (stk : List (Option Nat × Nat)) (st : PM) (r s : RTree),
    agrees st 0 r = true →
    spineS r stk.reverse s →
    (RTree.nids r).Nodup →
    (∀ i, i ∈ RTree.nids r → i < st.next) →
    RTree.lbl r = [] →
    ((RTree.nonEmpty s = true ∧ RTree.okX none r = true) ∨
     (RTree.nonEmpty s = false ∧ RTree.okX (some (RTree.nid s)) r = true)) →
    ∃ r2, agrees (removeUnwind st stk) 0 r2 = true ∧ RTree.okX none r2 = true ∧
      (RTree.nids r2).Nodup ∧ (∀ i, i ∈ RTree.nids r2 → i < st.next) ∧
      RTree.lbl r2 = [] := by
  intro stk
  induction stk with
  | nil =>
    intro st r s hag hsp hnd hb hlbl hinv
    simp only [List.reverse_nil, spineS] at hsp
    rcases hinv with ⟨_, hok⟩ | ⟨_, hok⟩
    · exact ⟨r, hag, hok, hnd, hb, hlbl⟩
    · subst hsp
      exact ⟨r, hag, okX_root r hok hnd hlbl, hnd, hb, hlbl⟩
  | cons e rest ih =>
    intro st r s hag hsp hnd hb hlbl hinv
    obtain ⟨pfx, cur⟩ := e
    rw [List.reverse_cons] at hsp
    obtain ⟨m, hspPre, hspE⟩ := spineS_append_mp rest.reverse [(pfx, cur)] r s hsp
    have hoccm : Occurs m r := spineS_occurs rest.reverse r m hspPre
    have hagm0 : agrees st (RTree.nid m) m = true := occurs_agrees st m r hoccm 0 hag
    have hsubm0 : RTree.subAt (RTree.nid m) r = some m := occurs_subAt m r hoccm hnd
    have hndm : (RTree.nids m).Nodup :=
      ((subAt_sublist (RTree.nid m)).1 r m hsubm0).1.nodup hnd
    have hbm : ∀ i, i ∈ RTree.nids m → i < st.next := fun i hi =>
      hb i (((subAt_sublist (RTree.nid m)).1 r m hsubm0).1.subset hi)
    have hmsubr : ∀ i, i ∈ RTree.nids m → i ∈ RTree.nids r := fun i hi =>
      ((subAt_sublist (RTree.nid m)).1 r m hsubm0).1.subset hi
    have hoccs : Occurs s r := spineS_occurs _ r s hsp
    have hags : agrees st (RTree.nid s) s = true := occurs_agrees st s r hoccs 0 hag
    have hempty : isEmptyN (getN st (RTree.nid s)) = !RTree.nonEmpty s :=
      isEmptyN_agrees st (RTree.nid s) s hags
    -- the generic splice of the processed parent subtree back into r
    have mk : RTree.subAt cur r = some m →
        ∀ (xold : Option Nat), RTree.okX xold r = true →
        (∀ i, xold = some i → i ∈ RTree.nids m) →
        ∀ (stF : PM) (mfin : RTree) (xnew : Option Nat),
        agrees stF cur mfin = true →
        RTree.okX xnew mfin = true →
        (∀ k, RTree.headIs k mfin = RTree.headIs k m) →
        RTree.emptyLbl mfin = RTree.emptyLbl m →
        (RTree.nonEmpty mfin = true ∨ xnew = some (RTree.nid mfin)) →
        (∀ i, i ∈ RTree.nids mfin → i ∈ RTree.nids m) →
        (RTree.nids mfin).Nodup →
        (∀ i, i ≠ cur → getN stF i = getN st i) →
        agrees stF 0 (RTree.repl cur mfin r) = true ∧
        RTree.okX xnew (RTree.repl cur mfin r) = true ∧
        (RTree.nids (RTree.repl cur mfin r)).Nodup ∧
        (∀ i, i ∈ RTree.nids (RTree.repl cur mfin r) → i < st.next) ∧
        RTree.lbl (RTree.repl cur mfin r) = [] ∧
        spineS (RTree.repl cur mfin r) rest.reverse mfin := by
      intro hsub2 xold hokr hxold stF mfin xnew hagF hokF hheadF hlblpF hneF hsubF hndF hfrF
      have hcurm : cur ∈ RTree.nids m := by
        have h := ((subAt_sublist cur).1 r m hsub2).2
        rw [← h]
        exact nid_mem_nids m
      refine ⟨?_, ?_, ?_, ?_, ?_, ?_⟩
      · refine (agrees_repl st stF cur st.next mfin m hagF ?_).1 r 0 hag hsub2 hnd hb
        intro i hi _
        exact hfrF i (fun e => hi (e ▸ hcurm))
      · exact (okX_repl cur mfin m xnew hokF hheadF hlblpF hneF).1 r xold hokr
          hsub2 hnd hxold
      · refine (nodup_repl cur st.next mfin m hndF ?_).1 r hsub2 hnd hb
        intro i hi
        exact Or.inl (hsubF i hi)
      · intro i hi
        rcases (nids_repl_sub cur mfin).1 r i hi with h | h
        · exact hb i h
        · exact hb i (hmsubr i (hsubF i h))
      · by_cases hc0 : RTree.nid r = cur
        · have hrm : r = m := by
            have hx : RTree.subAt cur r = some r := by
              rw [← hc0]
              exact subAt_self r
            rw [hx] at hsub2
            simp only [Option.some.injEq] at hsub2
            exact hsub2
          have hrepl : RTree.repl cur mfin r = mfin := by
            cases r with
            | node nr lr hsr csr wor =>
              simp only [RTree.nid] at hc0
              simp [RTree.repl, hc0]
          rw [hrepl]
          have he : RTree.emptyLbl mfin = true := by
            rw [hlblpF, ← hrm]
            cases r with
            | node nr lr hsr csr wor =>
              simp only [RTree.lbl] at hlbl
              simp [RTree.emptyLbl, hlbl]
          cases mfin with
          | node nf lf hf csf wof =>
            simp only [RTree.emptyLbl, List.isEmpty_iff] at he
            simpa [RTree.lbl] using he
        · rw [lbl_repl_ne cur mfin r hc0]
          exact hlbl
      · have h := spineS_repl mfin rest.reverse r m hspPre hnd
        have hnm : RTree.nid m = cur := ((subAt_sublist cur).1 r m hsub2).2
        rw [hnm] at h
        exact h
    -- the common tail: shrink at cur and continue or stop
    have tail_step : RTree.subAt cur r = some m →
        ∀ (xold : Option Nat), RTree.okX xold r = true →
        (∀ i, xold = some i → i ∈ RTree.nids m) →
        ∀ (st1 : PM) (lbl1 : Str) (has1 : Bool) (cs1 : RTreeL) (wo1 : RTreeO),
        agrees st1 cur (RTree.node cur lbl1 has1 cs1 wo1) = true →
        (RTree.nids (RTree.node cur lbl1 has1 cs1 wo1)).Nodup →
        RTree.okX (some cur) (RTree.node cur lbl1 has1 cs1 wo1) = true →
        (∀ k, RTree.headIs k (RTree.node cur lbl1 has1 cs1 wo1) = RTree.headIs k m) →
        RTree.emptyLbl (RTree.node cur lbl1 has1 cs1 wo1) = RTree.emptyLbl m →
        (∀ i, i ∈ RTree.nids (RTree.node cur lbl1 has1 cs1 wo1) → i ∈ RTree.nids m) →
        (∀ i, i ≠ cur → getN st1 i = getN st i) →
        st1.next = st.next →
        ∃ r2, agrees (if (shrink st1 cur).2 = true then
            removeUnwind (shrink st1 cur).1 rest else (shrink st1 cur).1) 0 r2 = true ∧
          RTree.okX none r2 = true ∧ (RTree.nids r2).Nodup ∧
          (∀ i, i ∈ RTree.nids r2 → i < st.next) ∧ RTree.lbl r2 = [] := by
      intro hsub2 xold hokr hxold st1 lbl1 has1 cs1 wo1 hag1 hnd1 hok1 hhead1 hlblp1
        hsubn1 hfr1 hnext1
      have hnd1d := hnd1
      simp only [RTree.nids, List.nodup_cons, List.mem_append, List.nodup_append] at hnd1d
      have hok1d := hok1
      simp only [RTree.okX, Bool.and_eq_true] at hok1d
      rcases shrink_cases st1 cur lbl1 has1 cs1 wo1 hag1 with
        ⟨hsh, hne1, hcl1⟩ | ⟨hsh, hhas1, hwo1, hcase⟩ |
        ⟨k1, rc1, hcs1, hhas1, hwo1, hlbl1, hsh⟩
      · -- shrink refuses: stop, discharge the exemption
        have hcond : ¬((st1, false).2 = true) := by simp
        rw [hsh, if_neg hcond]
        have hoknone : RTree.okX none (RTree.node cur lbl1 has1 cs1 wo1) = true := by
          simp only [RTree.okX, Bool.and_eq_true]
          refine ⟨⟨?_, (okX_out (some cur) none).2.1 cs1 hok1d.1.2 ?_⟩,
            (okX_out (some cur) none).2.2 wo1 hok1d.2 ?_⟩
          · simp only [Bool.or_eq_true] at hcl1 ⊢
            rcases hcl1 with hcl1 | hcl1
            · exact Or.inl (Or.inr hcl1)
            · exact Or.inr hcl1
          · intro i hi
            simp only [Option.some.injEq] at hi
            rw [← hi]
            intro hmm
            exact hnd1d.1 (Or.inl hmm)
          · intro i hi
            simp only [Option.some.injEq] at hi
            rw [← hi]
            intro hmm
            exact hnd1d.1 (Or.inr hmm)
        obtain ⟨hagF, hokF, hndF, hbF, hlblF, _⟩ := mk hsub2 xold hokr hxold st1 _ none
          hag1 hoknone hhead1 hlblp1 (Or.inl hne1) hsubn1 hnd1 hfr1
        exact ⟨_, hagF, hokF, hndF, hbF, hlblF⟩
      · -- shrink accepts without restructuring
        have hcond : (st1, true).2 = true := rfl
        rw [hsh, if_pos hcond]
        subst hhas1
        subst hwo1
        rcases hcase with hcs | ⟨hlen1, hlblE⟩
        · -- an empty tip: keep the exemption, now at cur
          subst hcs
          obtain ⟨hagF, hokF, hndF, hbF, hlblF, hspF⟩ := mk hsub2 xold hokr hxold st1 _
            (some cur) hag1 hok1 hhead1 hlblp1 (Or.inr rfl) hsubn1 hnd1 hfr1
          have hbF1 : ∀ i, i ∈ RTree.nids (RTree.repl cur
              (RTree.node cur lbl1 false RTreeL.nil RTreeO.none) r) → i < st1.next := by
            intro i hi
            rw [hnext1]
            exact hbF i hi
          obtain ⟨r2, hag2, hok2, hnd2, hb2, hlbl2⟩ := ih st1 _ _ hagF hspF hndF hbF1
            hlblF (Or.inr ⟨rfl, hokF⟩)
          refine ⟨r2, hag2, hok2, hnd2, ?_, hlbl2⟩
          intro i hi
          rw [← hnext1]
          exact hb2 i hi
        · -- an empty-label node: the invariant holds with no exemption
          have hne1 : RTree.nonEmpty (RTree.node cur lbl1 false cs1 RTreeO.none)
              = true := by
            cases cs1 with
            | nil => simp [RTreeL.len1] at hlen1
            | cons ka ra rsa => simp [RTree.nonEmpty]
          have hoknone : RTree.okX none (RTree.node cur lbl1 false cs1 RTreeO.none)
              = true := by
            simp only [RTree.okX, Bool.and_eq_true]
            refine ⟨⟨?_, (okX_out (some cur) none).2.1 cs1 hok1d.1.2 ?_⟩, rfl⟩
            · simp [hlblE]
            · intro i hi
              simp only [Option.some.injEq] at hi
              rw [← hi]
              intro hmm
              exact hnd1d.1 (Or.inl hmm)
          obtain ⟨hagF, hokF, hndF, hbF, hlblF, hspF⟩ := mk hsub2 xold hokr hxold st1 _
            none hag1 hoknone hhead1 hlblp1 (Or.inl hne1) hsubn1 hnd1 hfr1
          have hbF1 : ∀ i, i ∈ RTree.nids (RTree.repl cur
              (RTree.node cur lbl1 false cs1 RTreeO.none) r) → i < st1.next := by
            intro i hi
            rw [hnext1]
            exact hbF i hi
          obtain ⟨r2, hag2, hok2, hnd2, hb2, hlbl2⟩ := ih st1 _ _ hagF hspF hndF hbF1
            hlblF (Or.inl ⟨hne1, hokF⟩)
          refine ⟨r2, hag2, hok2, hnd2, ?_, hlbl2⟩
          intro i hi
          rw [← hnext1]
          exact hb2 i hi
      · -- merge with the single child
        subst hcs1
        subst hhas1
        subst hwo1
        cases rc1 with
        | node cid lblc hasc csc woc =>
          -- facts about the child from the parent invariant
          have hokL := hok1d.1.2
          simp only [RTreeL.okX, Bool.and_eq_true] at hokL
          obtain ⟨⟨⟨hhd, horc⟩, hokrc⟩, _⟩ := hokL
          have hcurnotc : cur ∉ RTree.nids (RTree.node cid lblc hasc csc woc) := by
            intro hmm
            refine hnd1d.1 (Or.inl ?_)
            simp only [RTreeL.nids, List.append_nil]
            exact hmm
          have hnerc : RTree.nonEmpty (RTree.node cid lblc hasc csc woc) = true := by
            simp only [Bool.or_eq_true, beq_iff_eq, Option.some.injEq] at horc
            rcases horc with h | h
            · exact absurd (h ▸ nid_mem_nids (RTree.node cid lblc hasc csc woc))
                (by simpa [RTree.nid, ← h] using hcurnotc)
            · exact h
          have hokrcN : RTree.okX none (RTree.node cid lblc hasc csc woc) = true := by
            refine (okX_out (some cur) none).1 _ hokrc ?_
            intro i hi
            simp only [Option.some.injEq] at hi
            rw [← hi]
            exact hcurnotc
          have hlblc : ∃ lt, lblc = k1 :: lt := by
            cases hlc : lblc with
            | nil =>
              rw [hlc] at hhd
              simp [RTree.headIs] at hhd
            | cons c lt =>
              rw [hlc] at hhd
              simp only [RTree.headIs, beq_iff_eq] at hhd
              exact ⟨lt, by simp [hlc, hhd]⟩
          obtain ⟨lt, hlt⟩ := hlblc
          -- the heap entry of the child
          have hag1d := hag1
          simp only [agrees, Bool.and_eq_true, beq_iff_eq] at hag1d
          obtain ⟨⟨⟨⟨⟨⟨⟨g1, g2⟩, g3⟩, g4⟩, g5⟩, g6⟩, g7⟩, g8⟩ := hag1d
          have hchild : (getN st1 cur).children.getD [] = [(k1, cid)] ∧
              agrees st1 cid (RTree.node cid lblc hasc csc woc) = true := by
            cases hml : (getN st1 cur).children.getD [] with
            | nil =>
              rw [hml] at g7
              simp [agreesL] at g7
            | cons e1 tl =>
              obtain ⟨ke, ce⟩ := e1
              rw [hml] at g7
              cases tl with
              | cons e2 tl2 =>
                simp only [agreesL, Bool.and_eq_true] at g7
                exact absurd g7.2 (by simp [agreesL])
              | nil =>
                simp only [agreesL, Bool.and_eq_true, beq_iff_eq] at g7
                obtain ⟨⟨hke, hce⟩, _⟩ := g7
                have hcec : ce = cid := by
                  have h := agrees_nid st1 ce _ hce
                  simp only [RTree.nid] at h
                  exact h.symm
                rw [hcec] at hce
                refine ⟨?_, hce⟩
                simp [hml, hke, hcec]
          obtain ⟨hmp1, hagc⟩ := hchild
          have hagcd := hagc
          simp only [agrees, Bool.and_eq_true, beq_iff_eq] at hagcd
          obtain ⟨⟨⟨⟨⟨⟨⟨c1, c2⟩, c3⟩, c4⟩, c5⟩, c6⟩, c7⟩, c8⟩ := hagcd
          -- the merged node
          have hfrc : ∀ i, i ∈ RTreeL.nids csc → i ≠ cur := by
            intro i hi e
            refine hnd1d.1 (Or.inl ?_)
            simp only [RTreeL.nids, List.append_nil]
            simp only [RTree.nids, List.mem_cons, List.mem_append]
            rw [← e]
            exact Or.inr (Or.inl hi)
          have hfrw : ∀ i, i ∈ RTreeO.nids woc → i ≠ cur := by
            intro i hi e
            refine hnd1d.1 (Or.inl ?_)
            simp only [RTreeL.nids, List.append_nil]
            simp only [RTree.nids, List.mem_cons, List.mem_append]
            rw [← e]
            exact Or.inr (Or.inr hi)
          have hagF : agrees (setN st1 cur ⟨lbl1 ++ (getN st1 cid).pattern,
              (getN st1 cid).children, (getN st1 cid).permanent,
              (getN st1 cid).temporary, (getN st1 cid).wildcard, none⟩) cur
              (RTree.node cur (lbl1 ++ lblc) hasc csc woc) = true := by
            simp only [agrees, Bool.and_eq_true, beq_iff_eq, getN_setN_self]
            refine ⟨⟨⟨⟨⟨⟨⟨by trivial, by rw [c2]⟩, c3⟩, c4⟩, c5⟩, c6⟩, ?_⟩, ?_⟩
            · refine (agrees_frame st1 _).2.1 csc _ c7 ?_
              intro i hi
              exact getN_setN_ne _ _ _ _ (fun e => hfrc i hi e.symm)
            · refine (agrees_frame st1 _).2.2 woc _ c8 ?_
              intro i hi
              exact getN_setN_ne _ _ _ _ (fun e => hfrw i hi e.symm)
          have hclc : (decide (lblc = []) ||
              !(RTreeL.len1 csc && RTreeO.isNone woc && !hasc)) = true := by
            have h := hokrcN
            simp only [RTree.okX, Bool.and_eq_true, Bool.or_eq_true] at h
            rcases h.1.1 with (h | h) | h
            · simp at h
            · simp [h]
            · simp [h]
          have hclmer : (decide ((lbl1 ++ lblc) = []) ||
              !(RTreeL.len1 csc && RTreeO.isNone woc && !hasc)) = true := by
            simp only [Bool.or_eq_true] at hclc ⊢
            rcases hclc with h | h
            · rw [hlt] at h
              simp at h
            · exact Or.inr h
          have hokmer : RTree.okX none
              (RTree.node cur (lbl1 ++ lblc) hasc csc woc) = true := by
            have h := hokrcN
            simp only [RTree.okX, Bool.and_eq_true] at h ⊢
            exact ⟨⟨hclmer, h.1.2⟩, h.2⟩
          have hnemer : RTree.nonEmpty
              (RTree.node cur (lbl1 ++ lblc) hasc csc woc) = true := by
            simp only [RTree.nonEmpty] at hnerc ⊢
            exact hnerc
          have hlbl1c : lbl1 ≠ [] := hlbl1
          obtain ⟨c0, lt0, hl10⟩ : ∃ c0 lt0, lbl1 = c0 :: lt0 := by
            cases hl : lbl1 with
            | nil => exact absurd hl hlbl1c
            | cons c0 lt0 => exact ⟨c0, lt0, rfl⟩
          have hheadmer : ∀ k, RTree.headIs k
              (RTree.node cur (lbl1 ++ lblc) hasc csc woc) = RTree.headIs k m := by
            intro k
            rw [← hhead1 k]
            simp only [RTree.headIs, hl10]
            rfl
          have hlblpmer : RTree.emptyLbl
              (RTree.node cur (lbl1 ++ lblc) hasc csc woc) = RTree.emptyLbl m := by
            rw [← hlblp1]
            simp only [RTree.emptyLbl, hl10]
            rfl
          have hsubmer : ∀ i, i ∈ RTree.nids
              (RTree.node cur (lbl1 ++ lblc) hasc csc woc) → i ∈ RTree.nids m := by
            intro i hi
            refine hsubn1 i ?_
            simp only [RTree.nids, RTreeL.nids, List.append_nil, List.mem_cons,
              List.mem_append] at hi ⊢
            rcases hi with hi | hi | hi
            · exact Or.inl hi
            · tauto
            · tauto
          have hndmer : (RTree.nids
              (RTree.node cur (lbl1 ++ lblc) hasc csc woc)).Nodup := by
            simp only [RTree.nids]
            refine List.nodup_cons.mpr ⟨?_, ?_⟩
            · intro hmm
              simp only [List.mem_append] at hmm
              rcases hmm with hmm | hmm
              · exact hfrc cur hmm rfl
              · exact hfrw cur hmm rfl
            · have h := hnd1d.2.1
              simp only [RTreeL.nids, List.append_nil] at h
              have h2 : (RTree.nids (RTree.node cid lblc hasc csc woc)).Nodup := h
              simp only [RTree.nids, List.nodup_cons] at h2
              exact h2.2
          have hfrmer : ∀ i, i ≠ cur → getN (setN st1 cur ⟨lbl1 ++
              (getN st1 cid).pattern, (getN st1 cid).children,
              (getN st1 cid).permanent, (getN st1 cid).temporary,
              (getN st1 cid).wildcard, none⟩) i = getN st i := by
            intro i hi
            rw [getN_setN_ne _ _ _ _ (fun e => hi e.symm)]
            exact hfr1 i hi
          obtain ⟨hagF2, hokF2, hndF2, hbF2, hlblF2, hspF2⟩ := mk hsub2 xold hokr hxold
            _ _ none hagF hokmer hheadmer hlblpmer (Or.inl hnemer) hsubmer hndmer hfrmer
          have hcond : (setN st1 cur ⟨lbl1 ++ (getN st1 cid).pattern,
              (getN st1 cid).children, (getN st1 cid).permanent,
              (getN st1 cid).temporary, (getN st1 cid).wildcard, none⟩, true).2
              = true := rfl
          rw [hsh, if_pos hcond]
          have hbF1 : ∀ i, i ∈ RTree.nids (RTree.repl cur
              (RTree.node cur (lbl1 ++ lblc) hasc csc woc) r) →
              i < (setN st1 cur ⟨lbl1 ++ (getN st1 cid).pattern,
                (getN st1 cid).children, (getN st1 cid).permanent,
                (getN st1 cid).temporary, (getN st1 cid).wildcard, none⟩).next := by
            intro i hi
            rw [next_setN, hnext1]
            exact hbF2 i hi
          obtain ⟨r2, hag2, hok2, hnd2, hb2, hlbl2⟩ := ih _ _ _ hagF2 hspF2 hndF2 hbF1
            hlblF2 (Or.inl ⟨hnemer, hokF2⟩)
          refine ⟨r2, hag2, hok2, hnd2, ?_, hlbl2⟩
          intro i hi
          have h := hb2 i hi
          rw [next_setN, hnext1] at h
          exact h
    -- the edge phase: reduce the recorded transition and feed the tail
    cases pfx with
    | none =>
      obtain ⟨hnidm, rc, hwm, hrc⟩ := hspE
      have hrc2 : rc = s := hrc
      rw [hrc2] at hwm
      have hsubm2 : RTree.subAt cur r = some m := by
        rw [← hnidm]
        exact hsubm0
      rw [hnidm] at hagm0
      cases m with
      | node cm lblm hasm csm wom =>
        have hcm : cur = cm := by
          simp only [RTree.nid] at hnidm
          exact hnidm.symm
        subst hcm
        simp only [RTree.wild] at hwm
        subst hwm
        have hagmd := hagm0
        simp only [agrees, Bool.and_eq_true, beq_iff_eq] at hagmd
        obtain ⟨⟨⟨⟨⟨⟨⟨m1, m2⟩, m3⟩, m4⟩, m5⟩, m6⟩, m7⟩, m8⟩ := hagmd
        have hdw : (getN st cur).wildcard = some (RTree.nid s) := by
          cases hdw0 : (getN st cur).wildcard with
          | none =>
            rw [hdw0] at m8
            simp [agreesO] at m8
          | some wn =>
            rw [hdw0] at m8
            simp only [agreesO] at m8
            rw [agrees_nid st wn s m8]
        have hndmd := hndm
        simp only [RTree.nids, List.nodup_cons, List.mem_append, List.nodup_append,
          RTreeO.nids] at hndmd
        simp only [removeUnwind, hdw]
        rcases hinv with ⟨hsne, hokR⟩ | ⟨hsne, hokR⟩
        · have hnotE : ¬(isEmptyN (getN st (RTree.nid s)) = true) := by
            rw [hempty, hsne]
            simp
          rw [if_neg hnotE]
          have hokm : RTree.okX (some cur)
              (RTree.node cur lblm hasm csm (RTreeO.some s)) = true :=
            (okX_mono (some cur)).1 _ (occurs_okX none _ r hoccm hokR)
          exact tail_step hsubm2 none hokR (fun i hi => by cases hi) st lblm hasm csm
            (RTreeO.some s) hagm0 hndm hokm (fun k => rfl) rfl (fun i hi => hi)
            (fun i _ => rfl) rfl
        · have hisE : isEmptyN (getN st (RTree.nid s)) = true := by
            rw [hempty, hsne]
            rfl
          rw [if_pos hisE]
          have hokm0 : RTree.okX (some (RTree.nid s))
              (RTree.node cur lblm hasm csm (RTreeO.some s)) = true :=
            occurs_okX (some (RTree.nid s)) _ r hoccm hokR
          have hokm0d := hokm0
          simp only [RTree.okX, Bool.and_eq_true] at hokm0d
          have hokcs2 : RTreeL.okX (some cur) csm = true := by
            refine (okX_out (some (RTree.nid s)) (some cur)).2.1 csm hokm0d.1.2 ?_
            intro i hi
            simp only [Option.some.injEq] at hi
            rw [← hi]
            intro hmm
            exact hndmd.2.2.2 hmm (nid_mem_nids s)
          have hag1 : agrees (setN st cur { getN st cur with wildcard := none }) cur
              (RTree.node cur lblm hasm csm RTreeO.none) = true := by
            simp only [agrees, Bool.and_eq_true, beq_iff_eq, getN_setN_self]
            refine ⟨⟨⟨⟨⟨⟨⟨by trivial, m2⟩, m3⟩, m4⟩, m5⟩, m6⟩, ?_⟩, rfl⟩
            refine (agrees_frame st _).2.1 csm _ m7 ?_
            intro i hi
            refine getN_setN_ne _ _ _ _ ?_
            intro e
            refine hndmd.1 (Or.inl ?_)
            rw [e]
            exact hi
          have hok1 : RTree.okX (some cur)
              (RTree.node cur lblm hasm csm RTreeO.none) = true := by
            simp only [RTree.okX, Bool.and_eq_true]
            refine ⟨⟨?_, hokcs2⟩, rfl⟩
            simp
          have hnd1 : (RTree.nids (RTree.node cur lblm hasm csm RTreeO.none)).Nodup := by
            simp only [RTree.nids, RTreeO.nids, List.append_nil, List.nodup_cons]
            exact ⟨fun hmm => hndmd.1 (Or.inl hmm), hndmd.2.1⟩
          refine tail_step hsubm2 (some (RTree.nid s)) hokR ?_ _ lblm hasm csm
            RTreeO.none hag1 hnd1 hok1 (fun k => rfl) rfl ?_ ?_ rfl
          · intro i hi
            simp only [Option.some.injEq] at hi
            rw [← hi]
            simp only [RTree.nids, List.mem_cons, List.mem_append, RTreeO.nids]
            exact Or.inr (Or.inr (nid_mem_nids s))
          · intro i hi
            simp only [RTree.nids, RTreeO.nids, List.append_nil, List.mem_cons,
              List.mem_append] at hi ⊢
            tauto
          · intro i hi
            exact getN_setN_ne _ _ _ _ (fun e => hi e.symm)
    | some p =>
      obtain ⟨hnidm, rc, hfkm, hrc⟩ := hspE
      have hrc2 : rc = s := hrc
      rw [hrc2] at hfkm
      have hsubm2 : RTree.subAt cur r = some m := by
        rw [← hnidm]
        exact hsubm0
      rw [hnidm] at hagm0
      cases m with
      | node cm lblm hasm csm wom =>
        have hcm : cur = cm := by
          simp only [RTree.nid] at hnidm
          exact hnidm.symm
        subst hcm
        simp only [RTree.children] at hfkm
        have hagmd := hagm0
        simp only [agrees, Bool.and_eq_true, beq_iff_eq] at hagmd
        obtain ⟨⟨⟨⟨⟨⟨⟨m1, m2⟩, m3⟩, m4⟩, m5⟩, m6⟩, m7⟩, m8⟩ := hagmd
        cases hdc : (getN st cur).children with
        | none =>
          rw [hdc] at m7
          simp only [Option.getD_none] at m7
          cases csm with
          | nil => simp [RTreeL.findK] at hfkm
          | cons ka ra rsa => simp [agreesL] at m7
        | some mp =>
          rw [hdc] at m7
          simp only [Option.getD_some] at m7
          have halgp : alGet mp p = some (RTree.nid s) :=
            findK_alGet st mp csm p s m7 hfkm
          have hndmd := hndm
          simp only [RTree.nids, List.nodup_cons, List.mem_append,
            List.nodup_append] at hndmd
          have hsmem : RTree.nid s ∈ RTreeL.nids csm :=
            (findK_sublist p csm s hfkm).subset (nid_mem_nids s)
          simp only [removeUnwind, hdc, halgp]
          rcases hinv with ⟨hsne, hokR⟩ | ⟨hsne, hokR⟩
          · have hnotE : ¬(isEmptyN (getN st (RTree.nid s)) = true) := by
              rw [hempty, hsne]
              simp
            rw [if_neg hnotE]
            have hokm : RTree.okX (some cur)
                (RTree.node cur lblm hasm csm wom) = true :=
              (okX_mono (some cur)).1 _ (occurs_okX none _ r hoccm hokR)
            exact tail_step hsubm2 none hokR (fun i hi => by cases hi) st lblm hasm csm
              wom hagm0 hndm hokm (fun k => rfl) rfl (fun i hi => hi)
              (fun i _ => rfl) rfl
          · have hisE : isEmptyN (getN st (RTree.nid s)) = true := by
              rw [hempty, hsne]
              rfl
            rw [if_pos hisE]
            have hokm0 : RTree.okX (some (RTree.nid s))
                (RTree.node cur lblm hasm csm wom) = true :=
              occurs_okX (some (RTree.nid s)) _ r hoccm hokR
            have hokm0d := hokm0
            simp only [RTree.okX, Bool.and_eq_true] at hokm0d
            have hokdel : RTreeL.okX (some cur) (RTreeL.delK p csm) = true := by
              refine (okX_out (some (RTree.nid s)) (some cur)).2.1 _
                (okX_delK p (some (RTree.nid s)) csm hokm0d.1.2) ?_
              intro i hi
              simp only [Option.some.injEq] at hi
              rw [← hi]
              intro hmm
              exact nids_delK_not p csm s hfkm hndmd.2.1 (RTree.nid s) hmm
                (nid_mem_nids s)
            have hokwo2 : RTreeO.okX (some cur) wom = true := by
              refine (okX_out (some (RTree.nid s)) (some cur)).2.2 wom hokm0d.2 ?_
              intro i hi
              simp only [Option.some.injEq] at hi
              rw [← hi]
              intro hmm
              exact hndmd.2.2.2 hsmem hmm
            have hagdel : agreesL st (alDelete mp p) (RTreeL.delK p csm) = true :=
              agreesL_delK st p mp csm m7
            have hfr2 : ∀ (d2 : NodeData), ∀ i, i ∈ RTreeL.nids (RTreeL.delK p csm) →
                getN (setN st cur d2) i = getN st i := by
              intro d2 i hi
              refine getN_setN_ne _ _ _ _ ?_
              intro e
              refine hndmd.1 (Or.inl ?_)
              rw [e]
              exact (nids_delK_sublist p csm).subset hi
            have hfrwo : ∀ (d2 : NodeData), ∀ i, i ∈ RTreeO.nids wom →
                getN (setN st cur d2) i = getN st i := by
              intro d2 i hi
              refine getN_setN_ne _ _ _ _ ?_
              intro e
              refine hndmd.1 (Or.inr ?_)
              rw [e]
              exact hi
            have hag1 : agrees (setN st cur { getN st cur with children :=
                (if (alDelete mp p).length = 0 then none
                else some (alDelete mp p)) }) cur
                (RTree.node cur lblm hasm (RTreeL.delK p csm) wom) = true := by
              simp only [agrees, Bool.and_eq_true, beq_iff_eq, getN_setN_self]
              refine ⟨⟨⟨⟨⟨⟨⟨by trivial, m2⟩, m3⟩, m4⟩, m5⟩, ?_⟩, ?_⟩, ?_⟩
              · by_cases hdl : (alDelete mp p).length = 0
                · rw [if_pos hdl]
                · rw [if_neg hdl]
                  cases halD : alDelete mp p with
                  | nil =>
                    rw [halD] at hdl
                    simp at hdl
                  | cons e1 tl =>
                    rfl
              · by_cases hdl : (alDelete mp p).length = 0
                · rw [if_pos hdl]
                  simp only [Option.getD_none]
                  have hdel0 : alDelete mp p = [] := List.length_eq_zero.mp hdl
                  rw [hdel0] at hagdel
                  exact (agrees_frame st _).2.1 _ _ hagdel (hfr2 _)
                · rw [if_neg hdl]
                  simp only [Option.getD_some]
                  exact (agrees_frame st _).2.1 _ _ hagdel (hfr2 _)
              · exact (agrees_frame st _).2.2 wom _ m8 (hfrwo _)
            have hok1 : RTree.okX (some cur)
                (RTree.node cur lblm hasm (RTreeL.delK p csm) wom) = true := by
              simp only [RTree.okX, Bool.and_eq_true]
              exact ⟨⟨by simp, hokdel⟩, hokwo2⟩
            have hnd1 : (RTree.nids
                (RTree.node cur lblm hasm (RTreeL.delK p csm) wom)).Nodup := by
              simp only [RTree.nids, List.nodup_cons]
              constructor
              · intro hmm
                simp only [List.mem_append] at hmm
                rcases hmm with hmm | hmm
                · exact hndmd.1 (Or.inl ((nids_delK_sublist p csm).subset hmm))
                · exact hndmd.1 (Or.inr hmm)
              · refine List.Nodup.append ((nids_delK_sublist p csm).nodup hndmd.2.1)
                  hndmd.2.2.1 ?_
                intro a ha1 ha2
                exact hndmd.2.2.2 ((nids_delK_sublist p csm).subset ha1) ha2
            refine tail_step hsubm2 (some (RTree.nid s)) hokR ?_ _ lblm hasm
              (RTreeL.delK p csm) wom hag1 hnd1 hok1 (fun k => rfl) rfl ?_ ?_ rfl
            · intro i hi
              simp only [Option.some.injEq] at hi
              rw [← hi]
              simp only [RTree.nids, List.mem_cons, List.mem_append]
              exact Or.inr (Or.inl hsmem)
            · intro i hi
              simp only [RTree.nids, List.mem_cons, List.mem_append] at hi ⊢
              rcases hi with hi | hi | hi
              · exact Or.inl hi
              · exact Or.inr (Or.inl ((nids_delK_sublist p csm).subset hi))
              · exact Or.inr (Or.inr hi)
            · intro i hi
              exact getN_setN_ne _ _ _ _ (fun e => hi e.symm)

theorem nodeRemove_false (st : PM) (id : Nat) (h : Option Nat) (st1 : PM)
    (hnr : nodeRemove st id h = (st1, false)) : st1 = st := by
  unfold nodeRemove at hnr
  cases h with
  | none =>
    dsimp only at hnr
    by_cases hc : (getN st id).permanent = none ∧ (getN st id).temporary = none
    · rw [if_pos hc] at hnr
      injection hnr with h1 h2
      exact h1.symm
    · rw [if_neg hc] at hnr
      injection hnr with h1 h2
      cases h2
  | some hh =>
    dsimp only at hnr
    cases hp : (getN st id).permanent with
    | some l =>
      simp only [hp] at hnr
      by_cases hm : hh ∈ l
      · rw [if_pos hm] at hnr
        injection hnr with h1 h2
        cases h2
      · rw [if_neg hm] at hnr
        cases ht : (getN st id).temporary with
        | some tl =>
          simp only [ht] at hnr
          by_cases hmt : hh ∈ tl
          · rw [if_pos hmt] at hnr
            injection hnr with h1 h2
            cases h2
          · rw [if_neg hmt] at hnr
            injection hnr with h1 h2
            exact h1.symm
        | none =>
          simp only [ht] at hnr
          injection hnr with h1 h2
          exact h1.symm
    | none =>
      simp only [hp] at hnr
      cases ht : (getN st id).temporary with
      | some tl =>
        simp only [ht] at hnr
        by_cases hmt : hh ∈ tl
        · rw [if_pos hmt] at hnr
          injection hnr with h1 h2
          cases h2
        · rw [if_neg hmt] at hnr
          injection hnr with h1 h2
          exact h1.symm
      | none =>
        simp only [ht] at hnr
        injection hnr with h1 h2
        exact h1.symm

theorem nodeRemove_true (st : PM) (id : Nat) (h : Option Nat) (st1 : PM)
    (hnr : nodeRemove st id h = (st1, true)) :
    ∃ pm2 tm2, st1 = setN st id ⟨(getN st id).pattern, (getN st id).children, pm2, tm2,
        (getN st id).wildcard, (getN st id).failure⟩ ∧
      (pm2 = (getN st id).permanent ∨ pm2 = none ∨ ∃ l, pm2 = some l ∧ l ≠ []) ∧
      (tm2 = (getN st id).temporary ∨ tm2 = none ∨ ∃ l, tm2 = some l ∧ l ≠ []) := by
  unfold nodeRemove at hnr
  cases h with
  | none =>
    dsimp only at hnr
    by_cases hc : (getN st id).permanent = none ∧ (getN st id).temporary = none
    · rw [if_pos hc] at hnr
      injection hnr with h1 h2
      cases h2
    · rw [if_neg hc] at hnr
      injection hnr with h1 h2
      exact ⟨none, none, h1.symm, Or.inr (Or.inl rfl), Or.inr (Or.inl rfl)⟩
  | some hh =>
    dsimp only at hnr
    cases hp : (getN st id).permanent with
    | some l =>
      simp only [hp] at hnr
      by_cases hm : hh ∈ l
      · rw [if_pos hm] at hnr
        injection hnr with h1 h2
        refine ⟨(if l.erase hh = [] then none else some (l.erase hh)),
          (getN st id).temporary, h1.symm, ?_, Or.inl rfl⟩
        by_cases he : l.erase hh = []
        · rw [if_pos he]
          exact Or.inr (Or.inl rfl)
        · rw [if_neg he]
          exact Or.inr (Or.inr ⟨l.erase hh, rfl, he⟩)
      · rw [if_neg hm] at hnr
        cases ht : (getN st id).temporary with
        | some tl =>
          simp only [ht] at hnr
          by_cases hmt : hh ∈ tl
          · rw [if_pos hmt] at hnr
            injection hnr with h1 h2
            refine ⟨some l,
              (if tl.erase hh = [] then none else some (tl.erase hh)), h1.symm,
              Or.inl rfl, ?_⟩
            by_cases he : tl.erase hh = []
            · rw [if_pos he]
              exact Or.inr (Or.inl rfl)
            · rw [if_neg he]
              exact Or.inr (Or.inr ⟨tl.erase hh, rfl, he⟩)
          · rw [if_neg hmt] at hnr
            injection hnr with h1 h2
            cases h2
        | none =>
          simp only [ht] at hnr
          injection hnr with h1 h2
          cases h2
    | none =>
      simp only [hp] at hnr
      cases ht : (getN st id).temporary with
      | some tl =>
        simp only [ht] at hnr
        by_cases hmt : hh ∈ tl
        · rw [if_pos hmt] at hnr
          injection hnr with h1 h2
          refine ⟨none,
            (if tl.erase hh = [] then none else some (tl.erase hh)), h1.symm,
            Or.inl rfl, ?_⟩
          by_cases he : tl.erase hh = []
          · rw [if_pos he]
            exact Or.inr (Or.inl rfl)
          · rw [if_neg he]
            exact Or.inr (Or.inr ⟨tl.erase hh, rfl, he⟩)
        · rw [if_neg hmt] at hnr
          injection hnr with h1 h2
          cases h2
      | none =>
        simp only [ht] at hnr
        injection hnr with h1 h2
        cases h2

/-- Generic splice: replace the subtree at cur in a well-formed r by a
reworked subtree mfin agreeing with a state that differs only at cur. -/
theorem splice_tr (st stF : PM) (r m mfin : RTree) (cur : Nat)
    (LL : List (Option Nat × Nat)) (xold xnew : Option Nat)
    (hag : agrees st 0 r = true)
    (hnd : (RTree.nids r).Nodup)
    (hb : ∀ i, i ∈ RTree.nids r → i < st.next)
    (hlbl : RTree.lbl r = [])
    (hspPre : spineS r LL m)
    (hsub2 : RTree.subAt cur r = some m)
    (hokr : RTree.okX xold r = true)
    (hxold : ∀ i, xold = some i → i ∈ RTree.nids m)
    (hagF : agrees stF cur mfin = true)
    (hokF : RTree.okX xnew mfin = true)
    (hheadF : ∀ k, RTree.headIs k mfin = RTree.headIs k m)
    (hlblpF : RTree.emptyLbl mfin = RTree.emptyLbl m)
    (hneF : RTree.nonEmpty mfin = true ∨ xnew = some (RTree.nid mfin))
    (hsubF : ∀ i, i ∈ RTree.nids mfin → i ∈ RTree.nids m)
    (hndF : (RTree.nids mfin).Nodup)
    (hfrF : ∀ i, i ≠ cur → getN stF i = getN st i) :
    agrees stF 0 (RTree.repl cur mfin r) = true ∧
    RTree.okX xnew (RTree.repl cur mfin r) = true ∧
    (RTree.nids (RTree.repl cur mfin r)).Nodup ∧
    (∀ i, i ∈ RTree.nids (RTree.repl cur mfin r) → i < st.next) ∧
    RTree.lbl (RTree.repl cur mfin r) = [] ∧
    spineS (RTree.repl cur mfin r) LL mfin := by
  have hmsubr : ∀ i, i ∈ RTree.nids m → i ∈ RTree.nids r := fun i hi =>
    ((subAt_sublist cur).1 r m hsub2).1.subset hi
  have hcurm : cur ∈ RTree.nids m := by
    have h := ((subAt_sublist cur).1 r m hsub2).2
    rw [← h]
    exact nid_mem_nids m
  refine ⟨?_, ?_, ?_, ?_, ?_, ?_⟩
  · refine (agrees_repl st stF cur st.next mfin m hagF ?_).1 r 0 hag hsub2 hnd hb
    intro i hi _
    exact hfrF i (fun e => hi (e ▸ hcurm))
  · exact (okX_repl cur mfin m xnew hokF hheadF hlblpF hneF).1 r xold hokr
      hsub2 hnd hxold
  · refine (nodup_repl cur st.next mfin m hndF ?_).1 r hsub2 hnd hb
    intro i hi
    exact Or.inl (hsubF i hi)
  · intro i hi
    rcases (nids_repl_sub cur mfin).1 r i hi with h | h
    · exact hb i h
    · exact hb i (hmsubr i (hsubF i h))
  · by_cases hc0 : RTree.nid r = cur
    · have hrm : r = m := by
        have hx : RTree.subAt cur r = some r := by
          rw [← hc0]
          exact subAt_self r
        rw [hx] at hsub2
        simp only [Option.some.injEq] at hsub2
        exact hsub2
      have hrepl : RTree.repl cur mfin r = mfin := by
        cases r with
        | node nr lr hsr csr wor =>
          simp only [RTree.nid] at hc0
          simp [RTree.repl, hc0]
      rw [hrepl]
      have he : RTree.emptyLbl mfin = true := by
        rw [hlblpF, ← hrm]
        cases r with
        | node nr lr hsr csr wor =>
          simp only [RTree.lbl] at hlbl
          simp [RTree.emptyLbl, hlbl]
      cases mfin with
      | node nf lf hf csf wof =>
        simp only [RTree.emptyLbl, List.isEmpty_iff] at he
        simpa [RTree.lbl] using he
    · rw [lbl_repl_ne cur mfin r hc0]
      exact hlbl
  · have h := spineS_repl mfin LL r m hspPre hnd
    have hnm : RTree.nid m = cur := ((subAt_sublist cur).1 r m hsub2).2
    rw [hnm] at h
    exact h

set_option maxHeartbeats 1600000 in
theorem remove_tr (st : PM) (fuel : Nat) (p : Str) (h : Option Nat) (st2 : PM)
    (r : RTree)
    (hrem : remove st fuel p h = some st2)
    (hag : agrees st 0 r = true)
    (hok : RTree.okX none r = true)
    (hnd : (RTree.nids r).Nodup)
    (hb : ∀ i, i ∈ RTree.nids r → i < st.next)
    (hlbl : RTree.lbl r = []) :
    ∃ r2, agrees st2 0 r2 = true ∧ RTree.okX none r2 = true ∧
      (RTree.nids r2).Nodup ∧ (∀ i, i ∈ RTree.nids r2 → i < st2.next) ∧
      RTree.lbl r2 = [] := by
  unfold remove at hrem
  cases hd : descend st fuel 0 (splitStar (normalize p)) [] with
  | none =>
    simp only [hd] at hrem
    exact Option.noConfusion hrem
  | some o =>
    cases o with
    | none =>
      simp only [hd, Option.some.injEq] at hrem
      subst hrem
      exact ⟨r, hag, hok, hnd, hb, hlbl⟩
    | some pr =>
      obtain ⟨stk, t⟩ := pr
      simp only [hd] at hrem
      obtain ⟨L, rt, hstk, hspL, hnidrt⟩ :=
        descend_tr (splitStar (normalize p)) st fuel 0 [] stk t r hd hag
      rw [List.append_nil] at hstk
      have hstkrev : stk.reverse = L := by
        rw [hstk]
        simp
      have hocct : Occurs rt r := spineS_occurs L r rt hspL
      have hagrt : agrees st (RTree.nid rt) rt = true :=
        occurs_agrees st rt r hocct 0 hag
      have hsubrt : RTree.subAt (RTree.nid rt) r = some rt :=
        occurs_subAt rt r hocct hnd
      have hokrtN : RTree.okX none rt = true := occurs_okX none rt r hocct hok
      have hndrt : (RTree.nids rt).Nodup :=
        ((subAt_sublist (RTree.nid rt)).1 r rt hsubrt).1.nodup hnd
      cases rt with
      | node tn lblt hast cst wot =>
        simp only [RTree.nid] at hnidrt hsubrt hagrt
        subst hnidrt
        cases hnr : nodeRemove st tn h with
        | mk st1 removed =>
          simp only [hnr] at hrem
          cases removed with
          | false =>
            rw [if_neg Bool.false_ne_true] at hrem
            simp only [Option.some.injEq] at hrem
            subst hrem
            rw [nodeRemove_false st tn h st1 hnr]
            exact ⟨r, hag, hok, hnd, hb, hlbl⟩
          | true =>
            rw [if_pos rfl] at hrem
            obtain ⟨pm2, tm2, hst1, hpmc, htmc⟩ := nodeRemove_true st tn h st1 hnr
            obtain ⟨has1, hhasdef⟩ :
                ∃ b, (tm2.isSome || pm2.isSome) = b := ⟨_, rfl⟩
            have hagd := hagrt
            simp only [agrees, Bool.and_eq_true, beq_iff_eq] at hagd
            obtain ⟨⟨⟨⟨⟨⟨⟨a1, a2⟩, a3⟩, a4⟩, a5⟩, a6⟩, a7⟩, a8⟩ := hagd
            have hndd := hndrt
            simp only [RTree.nids, List.nodup_cons, List.mem_append,
              List.nodup_append] at hndd
            have hag1 : agrees st1 tn
                (RTree.node tn lblt has1 cst wot) = true := by
              rw [hst1]
              simp only [agrees, Bool.and_eq_true, beq_iff_eq, getN_setN_self]
              refine ⟨⟨⟨⟨⟨⟨⟨by trivial, a2⟩, hhasdef⟩, ?_⟩, ?_⟩, a6⟩, ?_⟩, ?_⟩
              · rcases hpmc with he | he | ⟨l, he, hl⟩
                · rw [he]
                  exact a4
                · simp [he]
                · rw [he]
                  simpa using hl
              · rcases htmc with he | he | ⟨l, he, hl⟩
                · rw [he]
                  exact a5
                · simp [he]
                · rw [he]
                  simpa using hl
              · refine (agrees_frame st _).2.1 cst _ a7 ?_
                intro i hi
                refine getN_setN_ne _ _ _ _ ?_
                intro e
                refine hndd.1 (Or.inl ?_)
                rw [e]
                exact hi
              · refine (agrees_frame st _).2.2 wot _ a8 ?_
                intro i hi
                refine getN_setN_ne _ _ _ _ ?_
                intro e
                refine hndd.1 (Or.inr ?_)
                rw [e]
                exact hi
            have hnd1 : (RTree.nids (RTree.node tn lblt has1 cst wot)).Nodup := hndrt
            have hok1 : RTree.okX (some tn)
                (RTree.node tn lblt has1 cst wot) = true := by
              have hd0 := hokrtN
              simp only [RTree.okX, Bool.and_eq_true] at hd0 ⊢
              refine ⟨⟨?_, (okX_mono (some tn)).2.1 cst hd0.1.2⟩,
                (okX_mono (some tn)).2.2 wot hd0.2⟩
              simp
            have hfr1 : ∀ i, i ≠ tn → getN st1 i = getN st i := by
              intro i hi
              rw [hst1]
              exact getN_setN_ne _ _ _ _ (fun e => hi e.symm)
            have hnext1 : st1.next = st.next := by
              rw [hst1]
              rfl
            rcases shrink_cases st1 tn lblt has1 cst wot hag1 with
              ⟨hsh, hne1, hcl1⟩ | ⟨hsh, hhas1, hwo1, hcase⟩ |
              ⟨k1, rc1, hcs1, hhas1, hwo1, hlbl1, hsh⟩
            · -- the terminal does not shrink: stop with the erased node in place
              have hrem2 : st1 = st2 := by
                rw [hsh] at hrem
                simpa using hrem
              subst hrem2
              have hoknone : RTree.okX none
                  (RTree.node tn lblt has1 cst wot) = true := by
                have hd0 := hokrtN
                simp only [RTree.okX, Bool.and_eq_true] at hd0 ⊢
                refine ⟨⟨?_, hd0.1.2⟩, hd0.2⟩
                simp only [Bool.or_eq_true] at hcl1 ⊢
                rcases hcl1 with h2 | h2
                · exact Or.inl (Or.inr h2)
                · exact Or.inr h2
              obtain ⟨hagF, hokF, hndF, hbF, hlblF, _⟩ := splice_tr st st1 r
                (RTree.node tn lblt hast cst wot)
                (RTree.node tn lblt has1 cst wot) tn L none none
                hag hnd hb hlbl hspL hsubrt hok (fun i hi => by cases hi)
                hag1 hoknone (fun k => rfl) rfl (Or.inl hne1)
                (fun i hi => hi) hnd1 hfr1
              refine ⟨_, hagF, hokF, hndF, ?_, hlblF⟩
              intro i hi
              rw [hnext1]
              exact hbF i hi
            · -- the terminal shrinks without restructuring
              have hrem2 : removeUnwind st1 stk = st2 := by
                rw [hsh] at hrem
                simpa using hrem
              subst hrem2
              subst hhas1
              subst hwo1
              rcases hcase with hcs | ⟨hlen1, hlblE⟩
              · -- an empty tip: unwind with the exemption at the terminal
                subst hcs
                obtain ⟨hagF, hokF, hndF, hbF, hlblF, hspF⟩ := splice_tr st st1 r
                  (RTree.node tn lblt hast RTreeL.nil RTreeO.none)
                  (RTree.node tn lblt false RTreeL.nil RTreeO.none) tn L none
                  (some tn)
                  hag hnd hb hlbl hspL hsubrt hok (fun i hi => by cases hi)
                  hag1 hok1 (fun k => rfl) rfl (Or.inr rfl)
                  (fun i hi => hi) hnd1 hfr1
                have hbF1 : ∀ i, i ∈ RTree.nids (RTree.repl tn
                    (RTree.node tn lblt false RTreeL.nil RTreeO.none) r) →
                    i < st1.next := by
                  intro i hi
                  rw [hnext1]
                  exact hbF i hi
                have hspstk : spineS (RTree.repl tn
                    (RTree.node tn lblt false RTreeL.nil RTreeO.none) r)
                    stk.reverse (RTree.node tn lblt false RTreeL.nil RTreeO.none) := by
                  rw [hstkrev]
                  exact hspF
                obtain ⟨r2, hag2, hok2, hnd2, hb2, hlbl2⟩ := removeUnwind_tr stk st1 _ _
                  hagF hspstk hndF hbF1 hlblF (Or.inr ⟨rfl, hokF⟩)
                refine ⟨r2, hag2, hok2, hnd2, ?_, hlbl2⟩
                intro i hi
                rw [removeUnwind_next stk st1]
                exact hb2 i hi
              · -- an empty-label node: unwind with no exemption
                have hne1 : RTree.nonEmpty
                    (RTree.node tn lblt false cst RTreeO.none) = true := by
                  cases cst with
                  | nil => simp [RTreeL.len1] at hlen1
                  | cons ka ra rsa => simp [RTree.nonEmpty]
                have hoknone : RTree.okX none
                    (RTree.node tn lblt false cst RTreeO.none) = true := by
                  have hd0 := hokrtN
                  simp only [RTree.okX, Bool.and_eq_true] at hd0 ⊢
                  refine ⟨⟨?_, hd0.1.2⟩, rfl⟩
                  simp [hlblE]
                obtain ⟨hagF, hokF, hndF, hbF, hlblF, hspF⟩ := splice_tr st st1 r
                  (RTree.node tn lblt hast cst RTreeO.none)
                  (RTree.node tn lblt false cst RTreeO.none) tn L none none
                  hag hnd hb hlbl hspL hsubrt hok (fun i hi => by cases hi)
                  hag1 hoknone (fun k => rfl) rfl (Or.inl hne1)
                  (fun i hi => hi) hnd1 hfr1
                have hbF1 : ∀ i, i ∈ RTree.nids (RTree.repl tn
                    (RTree.node tn lblt false cst RTreeO.none) r) →
                    i < st1.next := by
                  intro i hi
                  rw [hnext1]
                  exact hbF i hi
                have hspstk : spineS (RTree.repl tn
                    (RTree.node tn lblt false cst RTreeO.none) r)
                    stk.reverse (RTree.node tn lblt false cst RTreeO.none) := by
                  rw [hstkrev]
                  exact hspF
                obtain ⟨r2, hag2, hok2, hnd2, hb2, hlbl2⟩ := removeUnwind_tr stk st1 _ _
                  hagF hspstk hndF hbF1 hlblF (Or.inl ⟨hne1, hokF⟩)
                refine ⟨r2, hag2, hok2, hnd2, ?_, hlbl2⟩
                intro i hi
                rw [removeUnwind_next stk st1]
                exact hb2 i hi
            · -- the terminal merges with its single literal child
              subst hcs1
              subst hhas1
              subst hwo1
              cases rc1 with
              | node cid lblc hasc csc woc =>
                simp only [RTree.nid] at hsh
                have hrem2 : removeUnwind (setN st1 tn
                    ⟨lblt ++ (getN st1 cid).pattern, (getN st1 cid).children,
                     (getN st1 cid).permanent, (getN st1 cid).temporary,
                     (getN st1 cid).wildcard, none⟩) stk = st2 := by
                  rw [hsh] at hrem
                  simpa using hrem
                subst hrem2
                have hd0 := hokrtN
                simp only [RTree.okX, Bool.and_eq_true] at hd0
                have hokL := hd0.1.2
                simp only [RTreeL.okX, Bool.and_eq_true] at hokL
                obtain ⟨⟨⟨hhd, horc⟩, hokrc⟩, _⟩ := hokL
                have hcurnotc : tn ∉ RTree.nids
                    (RTree.node cid lblc hasc csc woc) := by
                  intro hmm
                  refine hndd.1 (Or.inl ?_)
                  simp only [RTreeL.nids, List.append_nil]
                  exact hmm
                have hnerc : RTree.nonEmpty
                    (RTree.node cid lblc hasc csc woc) = true := by
                  simpa using horc
                have hlblc : ∃ lt, lblc = k1 :: lt := by
                  cases hlc : lblc with
                  | nil =>
                    rw [hlc] at hhd
                    simp [RTree.headIs] at hhd
                  | cons c lt =>
                    rw [hlc] at hhd
                    simp only [RTree.headIs, beq_iff_eq] at hhd
                    exact ⟨lt, by simp [hlc, hhd]⟩
                obtain ⟨lt, hlt⟩ := hlblc
                have hag1d := hag1
                simp only [agrees, Bool.and_eq_true, beq_iff_eq] at hag1d
                obtain ⟨⟨⟨⟨⟨⟨⟨g1, g2⟩, g3⟩, g4⟩, g5⟩, g6⟩, g7⟩, g8⟩ := hag1d
                have hchild : (getN st1 tn).children.getD [] = [(k1, cid)] ∧
                    agrees st1 cid (RTree.node cid lblc hasc csc woc) = true := by
                  cases hml : (getN st1 tn).children.getD [] with
                  | nil =>
                    rw [hml] at g7
                    simp [agreesL] at g7
                  | cons e1 tl =>
                    obtain ⟨ke, ce⟩ := e1
                    rw [hml] at g7
                    cases tl with
                    | cons e2 tl2 =>
                      simp only [agreesL, Bool.and_eq_true] at g7
                      exact absurd g7.2 (by simp [agreesL])
                    | nil =>
                      simp only [agreesL, Bool.and_eq_true, beq_iff_eq] at g7
                      obtain ⟨⟨hke, hce⟩, _⟩ := g7
                      have hcec : ce = cid := by
                        have h2 := agrees_nid st1 ce _ hce
                        simp only [RTree.nid] at h2
                        exact h2.symm
                      rw [hcec] at hce
                      refine ⟨?_, hce⟩
                      simp [hml, hke, hcec]
                obtain ⟨hmp1, hagc⟩ := hchild
                have hagcd := hagc
                simp only [agrees, Bool.and_eq_true, beq_iff_eq] at hagcd
                obtain ⟨⟨⟨⟨⟨⟨⟨c1, c2⟩, c3⟩, c4⟩, c5⟩, c6⟩, c7⟩, c8⟩ := hagcd
                have hfrc : ∀ i, i ∈ RTreeL.nids csc → i ≠ tn := by
                  intro i hi e
                  refine hndd.1 (Or.inl ?_)
                  simp only [RTreeL.nids, List.append_nil]
                  simp only [RTree.nids, List.mem_cons, List.mem_append]
                  rw [← e]
                  exact Or.inr (Or.inl hi)
                have hfrw : ∀ i, i ∈ RTreeO.nids woc → i ≠ tn := by
                  intro i hi e
                  refine hndd.1 (Or.inl ?_)
                  simp only [RTreeL.nids, List.append_nil]
                  simp only [RTree.nids, List.mem_cons, List.mem_append]
                  rw [← e]
                  exact Or.inr (Or.inr hi)
                have hagF : agrees (setN st1 tn ⟨lblt ++ (getN st1 cid).pattern,
                    (getN st1 cid).children, (getN st1 cid).permanent,
                    (getN st1 cid).temporary, (getN st1 cid).wildcard, none⟩) tn
                    (RTree.node tn (lblt ++ lblc) hasc csc woc) = true := by
                  simp only [agrees, Bool.and_eq_true, beq_iff_eq, getN_setN_self]
                  refine ⟨⟨⟨⟨⟨⟨⟨by trivial, by rw [c2]⟩, c3⟩, c4⟩, c5⟩, c6⟩, ?_⟩, ?_⟩
                  · refine (agrees_frame st1 _).2.1 csc _ c7 ?_
                    intro i hi
                    exact getN_setN_ne _ _ _ _ (fun e => hfrc i hi e.symm)
                  · refine (agrees_frame st1 _).2.2 woc _ c8 ?_
                    intro i hi
                    exact getN_setN_ne _ _ _ _ (fun e => hfrw i hi e.symm)
                have hclc : (decide (lblc = []) ||
                    !(RTreeL.len1 csc && RTreeO.isNone woc && !hasc)) = true := by
                  have h2 := hokrc
                  simp only [RTree.okX, Bool.and_eq_true, Bool.or_eq_true] at h2
                  rcases h2.1.1 with (h2 | h2) | h2
                  · simp at h2
                  · simp [h2]
                  · simp [h2]
                have hclmer : (decide ((lblt ++ lblc) = []) ||
                    !(RTreeL.len1 csc && RTreeO.isNone woc && !hasc)) = true := by
                  simp only [Bool.or_eq_true] at hclc ⊢
                  rcases hclc with h2 | h2
                  · rw [hlt] at h2
                    simp at h2
                  · exact Or.inr h2
                have hokmer : RTree.okX none
                    (RTree.node tn (lblt ++ lblc) hasc csc woc) = true := by
                  have h2 := hokrc
                  simp only [RTree.okX, Bool.and_eq_true] at h2 ⊢
                  exact ⟨⟨hclmer, h2.1.2⟩, h2.2⟩
                have hnemer : RTree.nonEmpty
                    (RTree.node tn (lblt ++ lblc) hasc csc woc) = true := by
                  simp only [RTree.nonEmpty] at hnerc ⊢
                  exact hnerc
                obtain ⟨c0, lt0, hl10⟩ : ∃ c0 lt0, lblt = c0 :: lt0 := by
                  cases hl : lblt with
                  | nil => exact absurd hl hlbl1
                  | cons c0 lt0 => exact ⟨c0, lt0, rfl⟩
                have hheadmer : ∀ k, RTree.headIs k
                    (RTree.node tn (lblt ++ lblc) hasc csc woc) =
                    RTree.headIs k (RTree.node tn lblt hast
                      (RTreeL.cons k1 (RTree.node cid lblc hasc csc woc)
                        RTreeL.nil) RTreeO.none) := by
                  intro k
                  simp only [RTree.headIs, hl10]
                  rfl
                have hlblpmer : RTree.emptyLbl
                    (RTree.node tn (lblt ++ lblc) hasc csc woc) =
                    RTree.emptyLbl (RTree.node tn lblt hast
                      (RTreeL.cons k1 (RTree.node cid lblc hasc csc woc)
                        RTreeL.nil) RTreeO.none) := by
                  simp only [RTree.emptyLbl, hl10]
                  rfl
                have hsubmer : ∀ i, i ∈ RTree.nids
                    (RTree.node tn (lblt ++ lblc) hasc csc woc) →
                    i ∈ RTree.nids (RTree.node tn lblt hast
                      (RTreeL.cons k1 (RTree.node cid lblc hasc csc woc)
                        RTreeL.nil) RTreeO.none) := by
                  intro i hi
                  simp only [RTree.nids, RTreeL.nids, RTreeO.nids,
                    List.append_nil, List.mem_cons, List.mem_append] at hi ⊢
                  tauto
                have hndmer : (RTree.nids
                    (RTree.node tn (lblt ++ lblc) hasc csc woc)).Nodup := by
                  simp only [RTree.nids]
                  refine List.nodup_cons.mpr ⟨?_, ?_⟩
                  · intro hmm
                    simp only [List.mem_append] at hmm
                    rcases hmm with hmm | hmm
                    · exact hfrc tn hmm rfl
                    · exact hfrw tn hmm rfl
                  · have h2 := hndd.2.1
                    simp only [RTreeL.nids, List.append_nil] at h2
                    have h3 : (RTree.nids
                        (RTree.node cid lblc hasc csc woc)).Nodup := h2
                    simp only [RTree.nids, List.nodup_cons] at h3
                    exact h3.2
                have hfrmer : ∀ i, i ≠ tn → getN (setN st1 tn ⟨lblt ++
                    (getN st1 cid).pattern, (getN st1 cid).children,
                    (getN st1 cid).permanent, (getN st1 cid).temporary,
                    (getN st1 cid).wildcard, none⟩) i = getN st i := by
                  intro i hi
                  rw [getN_setN_ne _ _ _ _ (fun e => hi e.symm)]
                  exact hfr1 i hi
                obtain ⟨hagF2, hokF2, hndF2, hbF2, hlblF2, hspF2⟩ := splice_tr st
                  (setN st1 tn ⟨lblt ++ (getN st1 cid).pattern,
                    (getN st1 cid).children, (getN st1 cid).permanent,
                    (getN st1 cid).temporary, (getN st1 cid).wildcard, none⟩) r
                  (RTree.node tn lblt hast
                    (RTreeL.cons k1 (RTree.node cid lblc hasc csc woc)
                      RTreeL.nil) RTreeO.none)
                  (RTree.node tn (lblt ++ lblc) hasc csc woc) tn L none none
                  hag hnd hb hlbl hspL hsubrt hok (fun i hi => by cases hi)
                  hagF hokmer hheadmer hlblpmer (Or.inl hnemer) hsubmer hndmer hfrmer
                have hbF1 : ∀ i, i ∈ RTree.nids (RTree.repl tn
                    (RTree.node tn (lblt ++ lblc) hasc csc woc) r) →
                    i < (setN st1 tn ⟨lblt ++ (getN st1 cid).pattern,
                      (getN st1 cid).children, (getN st1 cid).permanent,
                      (getN st1 cid).temporary, (getN st1 cid).wildcard,
                      none⟩).next := by
                  intro i hi
                  rw [next_setN, hnext1]
                  exact hbF2 i hi
                have hspstk : spineS (RTree.repl tn
                    (RTree.node tn (lblt ++ lblc) hasc csc woc) r)
                    stk.reverse (RTree.node tn (lblt ++ lblc) hasc csc woc) := by
                  rw [hstkrev]
                  exact hspF2
                obtain ⟨r2, hag2, hok2, hnd2, hb2, hlbl2⟩ := removeUnwind_tr stk _ _ _
                  hagF2 hspstk hndF2 hbF1 hlblF2 (Or.inl ⟨hnemer, hokF2⟩)
                refine ⟨r2, hag2, hok2, hnd2, ?_, hlbl2⟩
                intro i hi
                rw [removeUnwind_next stk _]
                exact hb2 i hi

theorem agreesL_len1 (st : PM) (m : List (Nat × Nat)) (cs : RTreeL)
    (hag : agreesL st m cs = true) (hlen : m.length = 1) :
    RTreeL.len1 cs = true := by
  cases m with
  | nil => simp at hlen
  | cons e tl =>
    cases tl with
    | cons e2 tl2 => simp at hlen
    | nil =>
      obtain ⟨k, cid⟩ := e
      cases cs with
      | nil => simp [agreesL] at hag
      | cons k2 rc rs =>
        cases rs with
        | nil => rfl
        | cons k3 r3 rs3 =>
          simp only [agreesL, Bool.and_eq_true] at hag
          exact absurd hag.2 (by simp [agreesL])

/-- Every state reachable from the empty trie by insert and remove is
presented by a well-formed abstract tree: the store agrees with a tree
rooted at node 0 with an empty label, distinct node ids below the
allocation bound, satisfying the structural invariant okX with no
exemption. -/
theorem evolves_invariant (st : PM) (hst : EvolvesIR st) :
    ∃ r, agrees st 0 r = true ∧ RTree.okX none r = true ∧
      (RTree.nids r).Nodup ∧ (∀ i, i ∈ RTree.nids r → i < st.next) ∧
      RTree.lbl r = [] := by
  induction hst with
  | empty =>
    refine ⟨RTree.node 0 [] false RTreeL.nil RTreeO.none, by decide, by decide,
      by decide, ?_, rfl⟩
    intro i hi
    simp [RTree.nids, RTreeL.nids, RTreeO.nids] at hi
    subst hi
    decide
  | ins hprev hins ih =>
    obtain ⟨r, hag, hok, hnd, hb, hlbl⟩ := ih
    exact insert_tr _ _ _ _ _ _ r hins hag hok hnd hb hlbl
  | rem hprev hrem ih =>
    obtain ⟨r, hag, hok, hnd, hb, hlbl⟩ := ih
    exact remove_tr _ _ _ _ _ r hrem hag hok hnd hb hlbl

/-- C4 amended: the storage invariant holds for the structural
operations with the empty-label nodes exempt. After every finite
sequence of insert and remove operations starting from the empty trie,
the store is presented by a well-formed abstract tree (agrees, okX) in
which every node reached over a literal edge -- equivalently, every
node whose stored label is non-empty, which excludes the root and the
wildcard-target nodes -- is not a single-child pass-through: it cannot
simultaneously have exactly one literal child, no wildcard child and
no handlers.  Both restrictions are forced by the counterexample
theorem: its first part shows a single insert leaves a wildcard-target
node as a single-child pass-through, so the empty-label nodes must be
exempt, and its second part shows a sequence containing dispatches
leaves a node with a non-empty label as a single-child pass-through
(dispatch corrupts the representation through the shrink-merge map
sharing and a later thrown shrink), so dispatch cannot be included. -/
theorem c4_amended (st : PM) (hst : EvolvesIR st) :
    ∃ r, agrees st 0 r = true ∧ RTree.okX none r = true ∧
      ∀ sub, Occurs sub r → (getN st (RTree.nid sub)).pattern ≠ [] →
        ¬(((getN st (RTree.nid sub)).children.getD []).length = 1 ∧
          (getN st (RTree.nid sub)).wildcard = none ∧
          (getN st (RTree.nid sub)).permanent = none ∧
          (getN st (RTree.nid sub)).temporary = none) := by
  obtain ⟨r, hag, hok, hnd, hb, hlbl⟩ := evolves_invariant st hst
  refine ⟨r, hag, hok, ?_⟩
  intro sub hocc hpat hbad
  obtain ⟨hlen, hwc, hperm, htemp⟩ := hbad
  have hags : agrees st (RTree.nid sub) sub = true :=
    occurs_agrees st sub r hocc 0 hag
  have hoks : RTree.okX none sub = true := occurs_okX none sub r hocc hok
  cases sub with
  | node nid0 lbls hass css wos =>
    simp only [RTree.nid] at hpat hlen hwc hperm htemp hags
    have hagd := hags
    simp only [agrees, Bool.and_eq_true, beq_iff_eq] at hagd
    obtain ⟨⟨⟨⟨⟨⟨⟨b1, b2⟩, b3⟩, b4⟩, b5⟩, b6⟩, b7⟩, b8⟩ := hagd
    have hoksd := hoks
    simp only [RTree.okX, Bool.and_eq_true, Bool.or_eq_true] at hoksd
    rcases hoksd.1.1 with (hc | hc) | hc
    · simp at hc
    · have hlne : lbls ≠ [] := by
        rw [← b2]
        exact hpat
      exact hlne (of_decide_eq_true hc)
    · have hl1 : RTreeL.len1 css = true := agreesL_len1 st _ css b7 hlen
      have hwos : wos = RTreeO.none := by
        cases wos with
        | none => rfl
        | some r2 =>
          rw [hwc] at b8
          simp [agreesO] at b8
      have hhass : hass = false := by
        rw [hperm, htemp] at b3
        simpa using b3.symm
      rw [hl1, hwos, hhass] at hc
      simp [RTreeO.isNone] at hc

/-- C4 amended witness: the amended invariant evaluated after the
single insert of a-star-b into the empty trie. -/
theorem c4_amended_witness :
    ∃ r, agrees c4St 0 r = true ∧ RTree.okX none r = true ∧
      ∀ sub, Occurs sub r → (getN c4St (RTree.nid sub)).pattern ≠ [] →
        ¬(((getN c4St (RTree.nid sub)).children.getD []).length = 1 ∧
          (getN c4St (RTree.nid sub)).wildcard = none ∧
          (getN c4St (RTree.nid sub)).permanent = none ∧
          (getN c4St (RTree.nid sub)).temporary = none) :=
  c4_amended c4St (@EvolvesIR.ins pmEmpty c4St 100 [ca, WILDCARD, cb] 5 false
    EvolvesIR.empty (by decide))

end EE
